import Mathlib

/-!
Verification of the sorting-visualizer core (step generators and the
playback scheduler `animateSort`) against its natural-language
specification.

The shallow embedding below translates the JavaScript source into Lean:

* JS arrays of numbers become `List Int`; `arr[k]` becomes `List.getD`
  (all in-range by construction of the algorithms) and `arr[k] = v`
  becomes `List.set`.
* Generator functions become functions returning the eager list of all
  yielded `Step` records (the scheduler fully drains a generator before
  presenting, so eager evaluation is observationally equivalent).
* A yielded object that omits a field is modelled with the field's
  default: `[]` for the two index lists (exactly the default the
  destructuring in `animateSort` applies) and `none` for the counters
  (which no consumer reads).
* `while` loops without an obvious structural measure take an explicit
  `fuel : Nat` argument; exhausting fuel is reported through a `done`
  flag (or an `Option`), and termination of the source loop is the
  statement that some fuel makes the run complete.
-/

/-- One record yielded by a driver generator: a snapshot of the array plus
highlight and counter metadata.  Fields a particular `yield` omits are the
defaults below. -/
structure Step where
  array : List Int
  swappedIndexes : List Nat := []
  compareIndexes : List Nat := []
  comparisons : Option Nat := none
  swaps : Option Nat := none
deriving Repr, DecidableEq

/-- The mutable `stats` counter pair threaded through one driver invocation. -/
structure Stats where
  comparisons : Nat
  swaps : Nat
deriving Repr, DecidableEq

/-- A step has both highlight sets empty (the shape of a terminal "settled"
step). -/
def Step.bothEmpty (s : Step) : Bool :=
  s.compareIndexes.isEmpty && s.swappedIndexes.isEmpty

/-! ## The playback scheduler (`animateSort` in `main.js`) -/

/-- One entry of `colorAndSoundQueue`: the `colored` list built in the drain
loop always holds the compare highlight (red) first and the swap highlight
(green) second. -/
structure QItem where
  array : List Int
  coloredCompare : List Nat
  coloredSwap : List Nat
  soundIndexes : List Nat
deriving Repr, DecidableEq

/-- A highlight entry passed to the draw collaborator `rearrangeImage`. -/
structure Highlight where
  indexes : List Nat
  color : String
deriving Repr, DecidableEq

/-- One call to the draw collaborator `rearrangeImage`.  `order` is `none`
when the JS code would pass `undefined` (an empty frame). -/
structure DrawCall where
  order : Option (List Int)
  colored : List Highlight
deriving Repr, DecidableEq

/-- Builds the queue entry the drain loop pushes for one yielded step. -/
def queueItemOfStep (s : Step) : QItem :=
  { array := s.array
    coloredCompare := s.compareIndexes
    coloredSwap := s.swappedIndexes
    soundIndexes :=
      if s.compareIndexes.isEmpty then s.swappedIndexes else s.compareIndexes }

/-- The drain loop consumes at most 80000 steps (`if (i > 80000) break`). -/
def drainQueue (steps : List Step) : List QItem :=
  (steps.take 80000).map queueItemOfStep

/-- The value of the local `finalArray` after the drain loop: the array of
the last processed step, or — when no step at all was processed — the live
array itself (`genArr`), whose content the generator may have mutated in
place before finishing. -/
def finalArrayAfterDrain (genArr : List Int) (steps : List Step) : List Int :=
  ((steps.take 80000).map Step.array).getLastD genArr

/-- `numStepsPerFrame`: `Math.ceil(frameDuration / interval)`, translated
over exact rationals (matching JS for positive `interval`). -/
def numStepsPerFrame (frameDuration interval : ℚ) : ℤ :=
  ⌈frameDuration / interval⌉

/-- The inner coalescing `for` loop: removes up to `k` items from the front
of the queue (none at all when `k ≤ 0`), returning them with the remaining
queue. -/
def innerTake (k : ℤ) : List QItem → List QItem × List QItem
  | [] => ([], [])
  | x :: xs =>
    if 0 < k then
      let p := innerTake (k - 1) xs
      (x :: p.1, p.2)
    else
      ([], x :: xs)

/-- JS `Set` insertion followed by `Array.from`: deduplication preserving
first-occurrence order. -/
def jsSetList (l : List Nat) : List Nat :=
  l.foldl (fun acc x => if x ∈ acc then acc else acc ++ [x]) []

/-- The frame built from the chunk of queue items coalesced in one pass of
the presentation loop: the draw call (last item's array, concatenated
highlights) and the sound-index list (first item only, deduplicated). -/
def buildFrame (chunk : List QItem) : DrawCall × List Nat :=
  ({ order := (chunk.map QItem.array).getLast?
     colored := chunk.flatMap fun it =>
       [⟨it.coloredCompare, "rgba(255, 0, 0, 0.5)"⟩,
        ⟨it.coloredSwap, "rgba(0, 255, 0, 0.5)"⟩] }
   , jsSetList ((chunk.head?.map QItem.soundIndexes).getD []))

/-- The presentation `while` loop, fuel-indexed: each iteration pulls one
chunk of up to `k` items and emits one frame (a draw call and a beep call).
`none` means the given fuel did not suffice; the loop terminating on some
input is the statement that some fuel yields `some`. -/
def presentLoop (k : ℤ) : Nat → List QItem → Option (List (DrawCall × List Nat))
  | _, [] => some []
  | 0, _ :: _ => none
  | fuel + 1, x :: xs =>
    let p := innerTake k (x :: xs)
    (presentLoop k fuel p.2).map (buildFrame p.1 :: ·)

/-- The observable outcome of one `animateSort` call. -/
structure AnimateResult where
  drawCalls : List DrawCall
  beepCalls : List (List Nat)
  finalDraw : DrawCall
  returned : List Int
deriving Repr, DecidableEq

/-- `animateSort`, with the two presentation collaborators recorded as
data.  The source calls `generator(finalArray, yieldCompare)` on the live
copy `[...arr]`, so a generator is modelled as a function from that live
array to the pair of the steps it yields and the array's final content
(the generator mutates the live array in place; when it yields nothing,
`finalArray` still aliases that mutated content).  `none` exactly when the
presentation loop would not terminate (the internal fuel `queue.length` is
proven sufficient whenever the loop terminates at all). -/
def animateSort (arr : List Int) (frameDuration interval : ℚ)
    (gen : List Int → List Step × List Int) : Option AnimateResult :=
  let k := numStepsPerFrame frameDuration interval
  let r := gen arr
  let queue := drainQueue r.1
  let fin := finalArrayAfterDrain r.2 r.1
  (presentLoop k queue.length queue).map fun frames =>
    { drawCalls := frames.map Prod.fst
      beepCalls := frames.map Prod.snd
      finalDraw := { order := some fin, colored := [] }
      returned := fin }

/-- Fuel-indexed helper for `chunksOf`; `fuel = l.length` always suffices. -/
def chunksOfAux (k : Nat) : Nat → List α → List (List α)
  | _, [] => []
  | 0, _ :: _ => []
  | fuel + 1, x :: xs => (x :: xs.take (k - 1)) :: chunksOfAux k fuel (xs.drop (k - 1))

/-- Reference chunking: splits a list into consecutive chunks of `k`
elements, the final chunk possibly smaller.  Used to state what the
presentation loop does when `k ≥ 1`. -/
def chunksOf (k : Nat) (l : List α) : List (List α) :=
  chunksOfAux k l.length l

/-! ## Step generators (`strategy.js` and the algorithm file)

Conventions shared by all driver embeddings:

* a driver returns a `Run`: the yielded steps, the final state of the
  mutated array, the final counters, and a `done` flag that is `false`
  only when a fuel-indexed loop ran out of fuel (for loops whose bound is
  not structural; sufficient fuel is supplied or proven below);
* the JS swap `[arr[a], arr[b]] = [arr[b], arr[a]]` is `listSwap`;
* bounded `for` loops are recursions on the explicit iteration count;
* all array reads performed by the drivers are in range whenever the
  source's are (out-of-range JS reads yield `undefined`, which the two
  places that can actually meet one — gnome sort's degenerate length-1
  loop and cycle sort's duplicate skip — model explicitly). -/

/-- Result of one driver invocation. -/
structure Run where
  steps : List Step
  arr : List Int
  stats : Stats
  done : Bool
deriving Repr, DecidableEq

/-- Emits a single step when the guard (typically `yieldCompare`) holds. -/
def emitIf (b : Bool) (s : Step) : List Step :=
  if b then [s] else []

/-- A step carrying both running counters, as every sort driver yield does. -/
def mkStep (arr : List Int) (sw cm : List Nat) (st : Stats) : Step :=
  ⟨arr, sw, cm, some st.comparisons, some st.swaps⟩

/-- The JS parallel assignment `[arr[a], arr[b]] = [arr[b], arr[a]]`. -/
def listSwap (arr : List Int) (a b : Nat) : List Int :=
  let va := arr.getD a 0
  let vb := arr.getD b 0
  (arr.set a vb).set b va

/-- `shuffleGenerator`'s Fisher-Yates loop, recursing on the descending
index.  `Math.floor(Math.random() * (i + 1))` is modelled by an arbitrary
choice function reduced into range. -/
def shuffleGo (rand : Nat → Nat) : List Int → Nat → List Step × List Int
  | arr, 0 => ([], arr)
  | arr, im1 + 1 =>
    let i := im1 + 1
    let j := rand i % (i + 1)
    let arr1 := listSwap arr i j
    let r := shuffleGo rand arr1 im1
    ({ array := arr1, compareIndexes := [i, j] } :: r.1, r.2)

/-- `shuffleGenerator`: ignores `yieldCompare` (it takes no such flag). -/
def shuffleGenerator (rand : Nat → Nat) (arr : List Int) : Run :=
  let r := shuffleGo rand arr (arr.length - 1)
  ⟨r.1, r.2, ⟨0, 0⟩, true⟩

/-- `accentGenerator`: one highlight step per index, then one bare final
step; ignores `yieldCompare`. -/
def accentGenerator (arr : List Int) : Run :=
  ⟨((List.range arr.length).map fun i => { array := arr, swappedIndexes := [i] })
      ++ [{ array := arr }], arr, ⟨0, 0⟩, true⟩

/-- The comparison/consume loop of `merge`: runs while `i ≤ mid ∧ j ≤ right`,
counting one comparison (and, under `yieldCompare`, yielding one compare
step) per pair examined.  Fuel `(mid + 1 - i) + (right + 1 - j)` suffices. -/
def mergeCmp (arr : List Int) (mid right : Nat) (yc : Bool) :
    Nat → Nat → Nat → Stats → List Int → List Step × Nat × Nat × Stats × List Int
  | 0, i, j, st, merged => ([], i, j, st, merged)
  | fuel + 1, i, j, st, merged =>
    if i ≤ mid ∧ j ≤ right then
      let st1 : Stats := ⟨st.comparisons + 1, st.swaps⟩
      let cs := emitIf yc (mkStep arr [] [i, j] st1)
      if arr.getD i 0 ≤ arr.getD j 0 then
        let r := mergeCmp arr mid right yc fuel (i + 1) j st1 (merged ++ [arr.getD i 0])
        (cs ++ r.1, r.2)
      else
        let r := mergeCmp arr mid right yc fuel i (j + 1) st1 (merged ++ [arr.getD j 0])
        (cs ++ r.1, r.2)
    else ([], i, j, st, merged)

/-- The write-back loop `for (k = left; k <= right; k++) arr[k] = merged[k-left]`. -/
def writeBack (arr merged : List Int) (left right : Nat) : List Int :=
  (List.range' left (right + 1 - left)).foldl
    (fun a k => a.set k (merged.getD (k - left) 0)) arr

/-- The positions of the merge range whose value changed between the
pre-merge snapshot `arr` and the post-write-back array `arr1`. -/
def changedIndexes (arr arr1 : List Int) (left right : Nat) : List Nat :=
  (List.range' left (right + 1 - left)).filter fun k => arr1.getD k 0 ≠ arr.getD k 0

/-- The inner `merge` of `mergeSort`: compare/consume phase, the two drain
loops, write-back, then (only under `yieldCompare`, and only if some
position changed) a single consolidated swap step whose `swappedIndexes`
are the changed positions and which bumps `swaps` by their number. -/
def merge (arr : List Int) (left mid right : Nat) (yc : Bool) (st : Stats) :
    List Step × List Int × Stats :=
  let c := mergeCmp arr mid right yc (mid + right + 2) left (mid + 1) st []
  let i := c.2.1
  let j := c.2.2.1
  let st1 := c.2.2.2.1
  let merged := c.2.2.2.2
      ++ ((arr.drop i).take (mid + 1 - i)) ++ ((arr.drop j).take (right + 1 - j))
  let arr1 := writeBack arr merged left right
  let changed := changedIndexes arr arr1 left right
  if yc ∧ changed ≠ [] then
    let st2 : Stats := ⟨st1.comparisons, st1.swaps + changed.length⟩
    (c.1 ++ [mkStep arr1 changed [] st2], arr1, st2)
  else
    (c.1, arr1, st1)

/-- `mergeSortRecursive`, fuel-indexed: recursion depth is bounded by the
range size, so fuel `arr.length + 1` always suffices. -/
def mergeSortRec (yc : Bool) : Nat → List Int → Nat → Nat → Stats → Run
  | 0, arr, _, _, st => ⟨[], arr, st, false⟩
  | fuel + 1, arr, left, right, st =>
    if left < right then
      let mid := (left + right) / 2
      let r1 := mergeSortRec yc fuel arr left mid st
      if r1.done then
        let r2 := mergeSortRec yc fuel r1.arr (mid + 1) right r1.stats
        if r2.done then
          let m := merge r2.arr left mid right yc r2.stats
          ⟨r1.steps ++ r2.steps ++ m.1, m.2.1, m.2.2, true⟩
        else ⟨r1.steps ++ r2.steps, r2.arr, r2.stats, false⟩
      else r1
    else ⟨[], arr, st, true⟩

/-- `mergeSort`: note it yields nothing at all on arrays of length ≤ 1, and
emits no terminal settled step. -/
def mergeSort (arr : List Int) (yc : Bool) : Run :=
  mergeSortRec yc (arr.length + 1) arr 0 (arr.length - 1) ⟨0, 0⟩

/-- `selectionSort`'s inner scan `for (j = i+1; j < n; j++)`, recursing on
the remaining iteration count `n - j`; carries the running `minIndex` and
yields (under `yieldCompare`) one compare step per candidate, still showing
the previous swap highlight. -/
def selFind (arr : List Int) (i : Nat) (yc : Bool) (prev : List Nat) :
    Nat → Nat → Nat → Stats → List Step × Nat × Stats
  | 0, _, minIndex, st => ([], minIndex, st)
  | c + 1, j, minIndex, st =>
    let st1 : Stats := ⟨st.comparisons + 1, st.swaps⟩
    let cs := emitIf yc (mkStep arr prev [i, j] st1)
    let minIndex1 := if arr.getD j 0 < arr.getD minIndex 0 then j else minIndex
    let r := selFind arr i yc prev c (j + 1) minIndex1 st1
    (cs ++ r.1, r.2)

/-- `selectionSort`'s outer loop `for (i = 0; i < n - 1; i++)`.  The swap
step after a successful find is yielded unconditionally. -/
def selOuter (yc : Bool) (n : Nat) :
    Nat → Nat → List Int → List Nat → Stats → List Step × List Int × List Nat × Stats
  | 0, _, arr, prev, st => ([], arr, prev, st)
  | c + 1, i, arr, prev, st =>
    let f := selFind arr i yc prev (n - (i + 1)) (i + 1) i st
    let minIndex := f.2.1
    let st1 := f.2.2
    if minIndex ≠ i then
      let arr1 := listSwap arr i minIndex
      let st2 : Stats := ⟨st1.comparisons, st1.swaps + 1⟩
      let prev1 := [i, minIndex]
      let r := selOuter yc n c (i + 1) arr1 prev1 st2
      (f.1 ++ [mkStep arr1 prev1 [] st2] ++ r.1, r.2)
    else
      let r := selOuter yc n c (i + 1) arr prev st1
      (f.1 ++ r.1, r.2)

/-- `selectionSort`: always ends with one terminal settled step. -/
def selectionSort (arr : List Int) (yc : Bool) : Run :=
  let n := arr.length
  let r := selOuter yc n (n - 1) 0 arr [] ⟨0, 0⟩
  ⟨r.1 ++ [mkStep r.2.1 [] [] r.2.2.2], r.2.1, r.2.2.2, true⟩

/-- `insertionSort`'s inner shift loop `while (j >= 0 && arr[j] > key)`,
recursing on `j + 1` so the `j = -1` exit is the `0` case.  Returns the
final `j + 1` (the placement position). -/
def insInner (key : Int) (yc : Bool) :
    Nat → List Int → List Nat → Stats → List Step × Nat × List Int × List Nat × Stats
  | 0, arr, prev, st => ([], 0, arr, prev, st)
  | jp1 + 1, arr, prev, st =>
    let j := jp1
    if arr.getD j 0 > key then
      let st1 : Stats := ⟨st.comparisons + 1, st.swaps⟩
      let cs := emitIf yc (mkStep arr prev [j, j + 1] st1)
      let arr1 := arr.set (j + 1) (arr.getD j 0)
      let st2 : Stats := ⟨st1.comparisons, st1.swaps + 1⟩
      let prev1 := [j, j + 1]
      let r := insInner key yc jp1 arr1 prev1 st2
      (cs ++ r.1, r.2)
    else
      ([], jp1 + 1, arr, prev, st)

/-- `insertionSort`'s outer loop `for (i = 1; i < n; i++)`; the placement
step after each insertion is yielded unconditionally. -/
def insOuter (yc : Bool) :
    Nat → Nat → List Int → List Nat → Stats → List Step × List Int × List Nat × Stats
  | 0, _, arr, prev, st => ([], arr, prev, st)
  | c + 1, i, arr, prev, st =>
    let key := arr.getD i 0
    let f := insInner key yc i arr prev st
    let jp1 := f.2.1
    let arr1 := (f.2.2.1).set jp1 key
    let prev1 := f.2.2.2.1
    let st1 := f.2.2.2.2
    let r := insOuter yc c (i + 1) arr1 prev1 st1
    (f.1 ++ [mkStep arr1 prev1 [] st1] ++ r.1, r.2)

/-- `insertionSort`: ends with one terminal settled step. -/
def insertionSort (arr : List Int) (yc : Bool) : Run :=
  let n := arr.length
  let r := insOuter yc (n - 1) 1 arr [] ⟨0, 0⟩
  ⟨r.1 ++ [mkStep r.2.1 [] [] r.2.2.2], r.2.1, r.2.2.2, true⟩

/-- `binaryInsertionSort`'s binary search `while (left <= right)`.  The
probe bounds live in `ℤ` (`right` reaches `-1`); each iteration shrinks the
interval, so fuel `i + 1` suffices.  Returns the insertion index. -/
def binSearch (arr : List Int) (key : Int) (i : Nat) (yc : Bool) (prev : List Nat) :
    Nat → ℤ → ℤ → Nat → Stats → List Step × Nat × Stats
  | 0, _, _, ins, st => ([], ins, st)
  | fuel + 1, left, right, ins, st =>
    if left ≤ right then
      let st1 : Stats := ⟨st.comparisons + 1, st.swaps⟩
      let mid := ((left + right) / 2).toNat
      let cs := emitIf yc (mkStep arr prev [mid, i] st1)
      if arr.getD mid 0 > key then
        let r := binSearch arr key i yc prev fuel left (mid - 1 : ℤ) mid st1
        (cs ++ r.1, r.2)
      else
        let r := binSearch arr key i yc prev fuel (mid + 1 : ℤ) right ins st1
        (cs ++ r.1, r.2)
    else ([], ins, st)

/-- `binaryInsertionSort`'s shift loop `for (k = j; k >= insertIndex; k--)`,
recursing on the iteration count; no steps are yielded here. -/
def binShift : Nat → Nat → List Int → List Nat → Stats → List Int × List Nat × Stats
  | 0, _, arr, prev, st => (arr, prev, st)
  | c + 1, k, arr, _prev, st =>
    let arr1 := arr.set (k + 1) (arr.getD k 0)
    let st1 : Stats := ⟨st.comparisons, st.swaps + 1⟩
    binShift c (k - 1) arr1 [k, k + 1] st1

/-- `binaryInsertionSort`'s outer loop; the placement step after each
insertion is yielded unconditionally. -/
def binOuter (yc : Bool) :
    Nat → Nat → List Int → List Nat → Stats → List Step × List Int × List Nat × Stats
  | 0, _, arr, prev, st => ([], arr, prev, st)
  | c + 1, i, arr, prev, st =>
    let key := arr.getD i 0
    let s := binSearch arr key i yc prev (i + 1) 0 (i - 1 : ℤ) i st
    let ins := s.2.1
    let sh := binShift ((i - 1) + 1 - ins) (i - 1) arr prev s.2.2
    let arr1 := (sh.1).set ins key
    let r := binOuter yc c (i + 1) arr1 sh.2.1 sh.2.2
    (s.1 ++ [mkStep arr1 sh.2.1 [] sh.2.2] ++ r.1, r.2)

/-- `binaryInsertionSort`: ends with one terminal settled step. -/
def binaryInsertionSort (arr : List Int) (yc : Bool) : Run :=
  let n := arr.length
  let r := binOuter yc (n - 1) 1 arr [] ⟨0, 0⟩
  ⟨r.1 ++ [mkStep r.2.1 [] [] r.2.2.2], r.2.1, r.2.2.2, true⟩

/-- `partition`'s scan loop `for (j = low; j < high; j++)`; `i` lives in `ℤ`
(it starts at `low - 1`) and is incremented before it is ever used as an
index.  Every comparison yields a compare step, every exchange a swap step
(both only under `yieldCompare`). -/
def partLoop (pivot : Int) (high : Nat) (yc : Bool) :
    Nat → Nat → ℤ → List Int → Stats → List Step × ℤ × List Int × Stats
  | 0, _, i, arr, st => ([], i, arr, st)
  | c + 1, j, i, arr, st =>
    let st1 : Stats := ⟨st.comparisons + 1, st.swaps⟩
    let cs := emitIf yc (mkStep arr [] [j, high] st1)
    if arr.getD j 0 ≤ pivot then
      let i1 := i + 1
      let arr1 := listSwap arr i1.toNat j
      let st2 : Stats := ⟨st1.comparisons, st1.swaps + 1⟩
      let ss := emitIf yc (mkStep arr1 [i1.toNat, j] [] st2)
      let r := partLoop pivot high yc c (j + 1) i1 arr1 st2
      (cs ++ ss ++ r.1, r.2)
    else
      let r := partLoop pivot high yc c (j + 1) i arr st1
      (cs ++ r.1, r.2)

/-- Lomuto `partition`: scan loop, then the pivot-placement exchange with
its own swap step.  Returns the pivot's final index. -/
def partition (arr : List Int) (low high : Nat) (yc : Bool) (st : Stats) :
    List Step × Nat × List Int × Stats :=
  let pivot := arr.getD high 0
  let p := partLoop pivot high yc (high - low) low ((low : ℤ) - 1) arr st
  let pi := (p.2.1 + 1).toNat
  let arr1 := listSwap p.2.2.1 pi high
  let st1 : Stats := ⟨p.2.2.2.comparisons, p.2.2.2.swaps + 1⟩
  (p.1 ++ emitIf yc (mkStep arr1 [pi, high] [] st1), pi, arr1, st1)

/-- `quickSortRecursive`, fuel-indexed (fuel `arr.length + 1` suffices:
every recursive range is strictly smaller).  Bounds live in `ℤ` exactly as
in the source (`high` reaches `-1`).  After the recursive block — whether
or not the range was non-trivial — one empty "heartbeat" step is yielded
under `yieldCompare`. -/
def quickRec (yc : Bool) : Nat → List Int → ℤ → ℤ → Stats → Run
  | 0, arr, _, _, st => ⟨[], arr, st, false⟩
  | fuel + 1, arr, low, high, st =>
    if low < high then
      let p := partition arr low.toNat high.toNat yc st
      let pi := p.2.1
      let r1 := quickRec yc fuel p.2.2.1 low ((pi : ℤ) - 1) p.2.2.2
      if r1.done then
        let r2 := quickRec yc fuel r1.arr ((pi : ℤ) + 1) high r1.stats
        if r2.done then
          ⟨p.1 ++ r1.steps ++ r2.steps
              ++ emitIf yc (mkStep r2.arr [] [] r2.stats), r2.arr, r2.stats, true⟩
        else ⟨p.1 ++ r1.steps ++ r2.steps, r2.arr, r2.stats, false⟩
      else ⟨p.1 ++ r1.steps, r1.arr, r1.stats, false⟩
    else
      ⟨emitIf yc (mkStep arr [] [] st), arr, st, true⟩

/-- `quickSort`. -/
def quickSort (arr : List Int) (yc : Bool) : Run :=
  quickRec yc (arr.length + 1) arr 0 ((arr.length : ℤ) - 1) ⟨0, 0⟩

/-- A JS array cell: `none` models `undefined` (an out-of-range read or a
hole).  Only gnome sort can actually meet one on a plain numeric input. -/
def jsGet (arr : List (Option Int)) (k : Nat) : Option Int :=
  (arr.get? k).getD none

/-- JS element assignment `arr[k] = v`: in-range writes set the cell,
`k = length` appends, larger `k` fills the gap with holes. -/
def jsSet (arr : List (Option Int)) (k : Nat) (v : Option Int) : List (Option Int) :=
  if k < arr.length then arr.set k v
  else arr ++ List.replicate (k - arr.length) none ++ [v]

/-- JS `a >= b` on possibly-undefined cells: false whenever either side is
`undefined` (NaN comparison). -/
def jsGe (a b : Option Int) : Bool :=
  match a, b with
  | some x, some y => decide (y ≤ x)
  | _, _ => false

/-- Projection used to record a JS array in a `Step` snapshot; it is exact
whenever no cell is `undefined` (every terminating gnome run). -/
def jsProj (arr : List (Option Int)) : List Int :=
  arr.map fun o => o.getD 0

/-- `gnomeSort`'s `while (index < arr.length)` loop over JS-valued cells.
The body first bumps `index` from 0 to 1, compares `arr[index]` with
`arr[index-1]` (false for an `undefined` operand, as in JS), and either
advances or swaps-and-retreats.  On a length-1 array the comparison reads
`arr[1] = undefined`, the swap appends, and the loop then alternates
forever — so no fuel completes it. -/
def gnomeLoop (yc : Bool) : Nat → Nat → List (Option Int) → Stats →
    List Step × List (Option Int) × Stats × Bool
  | 0, idx, arr, st => ([], arr, st, decide ¬ idx < arr.length)
  | fuel + 1, idx, arr, st =>
    if idx < arr.length then
      let i := if idx = 0 then 1 else idx
      let st1 : Stats := ⟨st.comparisons + 1, st.swaps⟩
      let cs := emitIf yc ⟨jsProj arr, [], [i - 1, i], some st1.comparisons, some st1.swaps⟩
      if jsGe (jsGet arr i) (jsGet arr (i - 1)) then
        let r := gnomeLoop yc fuel (i + 1) arr st1
        (cs ++ r.1, r.2)
      else
        let a := jsGet arr (i - 1)
        let b := jsGet arr i
        let arr1 := jsSet (jsSet arr i a) (i - 1) b
        let st2 : Stats := ⟨st1.comparisons, st1.swaps + 1⟩
        let ss := emitIf yc ⟨jsProj arr1, [i - 1, i], [], some st2.comparisons, some st2.swaps⟩
        let r := gnomeLoop yc fuel (i - 1) arr1 st2
        (cs ++ ss ++ r.1, r.2)
    else ([], arr, st, true)

/-- Fuel that suffices for every terminating gnome run (the measure
`2·inversions + n - index` shrinks every iteration). -/
def gnomeFuel (n : Nat) : Nat :=
  n * n + n + 1

/-- `gnomeSort`: terminal settled step only under `yieldCompare` (and only
when the loop actually ends). -/
def gnomeSort (arr : List Int) (yc : Bool) : Run :=
  let r := gnomeLoop yc (gnomeFuel arr.length) 0 (arr.map some) ⟨0, 0⟩
  ⟨r.1 ++ (if r.2.2.2 then emitIf yc (mkStep (jsProj r.2.1) [] [] r.2.2.1) else []),
    jsProj r.2.1, r.2.2.1, r.2.2.2⟩

/-- One gapped pass of `combSort` (`while (i + gap < arr.length)`),
recursing on the remaining iteration count and carrying the `sorted`
flag (cleared by any exchange). -/
def combPass (yc : Bool) (gap : Nat) :
    Nat → Nat → List Int → Bool → Stats → List Step × List Int × Bool × Stats
  | 0, _, arr, srt, st => ([], arr, srt, st)
  | c + 1, i, arr, srt, st =>
    let st1 : Stats := ⟨st.comparisons + 1, st.swaps⟩
    let cs := emitIf yc (mkStep arr [] [i, i + gap] st1)
    if arr.getD i 0 > arr.getD (i + gap) 0 then
      let arr1 := listSwap arr i (i + gap)
      let st2 : Stats := ⟨st1.comparisons, st1.swaps + 1⟩
      let ss := emitIf yc (mkStep arr1 [i, i + gap] [] st2)
      let r := combPass yc gap c (i + 1) arr1 false st2
      (cs ++ ss ++ r.1, r.2)
    else
      let r := combPass yc gap c (i + 1) arr srt st1
      (cs ++ r.1, r.2)

/-- `combSort`'s `while (!sorted)` loop.  `Math.floor(gap / 1.3)` is the
exact-real `⌊10·gap/13⌋`; when the shrunk gap reaches 1 the pass is flagged
as (tentatively) the last one. -/
def combLoop (yc : Bool) (n : Nat) : Nat → Nat → Bool → List Int → Stats →
    List Step × List Int × Stats × Bool
  | 0, _, srt, arr, st => ([], arr, st, srt)
  | fuel + 1, gap, srt, arr, st =>
    if srt then ([], arr, st, true)
    else
      let gap1 := 10 * gap / 13
      let gap2 := if gap1 ≤ 1 then 1 else gap1
      let srt1 := if gap1 ≤ 1 then true else srt
      let p := combPass yc gap2 (n - gap2) 0 arr srt1 st
      let r := combLoop yc n fuel gap2 p.2.2.1 p.2.1 p.2.2.2
      (p.1 ++ r.1, r.2)

/-- `combSort`: terminal settled step only under `yieldCompare`. -/
def combSort (arr : List Int) (yc : Bool) : Run :=
  let n := arr.length
  let r := combLoop yc n (n * n + n + 2) n false arr ⟨0, 0⟩
  ⟨r.1 ++ (if r.2.2.2 then emitIf yc (mkStep r.2.1 [] [] r.2.2.1) else []),
    r.2.1, r.2.2.1, r.2.2.2⟩

/-- `shellSort`'s gapped shift loop `while (j >= gap && arr[j-gap] > temp)`;
`j` falls by `gap ≥ 1` each iteration, so fuel `j + 1` suffices.  Returns
the placement position `j`. -/
def shellInner (yc : Bool) (gap : Nat) (temp : Int) :
    Nat → Nat → List Int → Stats → List Step × Nat × List Int × Stats
  | 0, j, arr, st => ([], j, arr, st)
  | fuel + 1, j, arr, st =>
    if gap ≤ j ∧ arr.getD (j - gap) 0 > temp then
      let st1 : Stats := ⟨st.comparisons + 1, st.swaps⟩
      let cs := emitIf yc (mkStep arr [] [j, j - gap] st1)
      let arr1 := arr.set j (arr.getD (j - gap) 0)
      let st2 : Stats := ⟨st1.comparisons, st1.swaps + 1⟩
      let ss := emitIf yc (mkStep arr1 [j, j - gap] [] st2)
      let r := shellInner yc gap temp fuel (j - gap) arr1 st2
      (cs ++ ss ++ r.1, r.2)
    else ([], j, arr, st)

/-- `shellSort`'s middle loop `for (i = gap; i < n; i++)`: gapped insertion
of `arr[i]`, with a placement step only when the element moved. -/
def shellMid (yc : Bool) (gap : Nat) :
    Nat → Nat → List Int → Stats → List Step × List Int × Stats
  | 0, _, arr, st => ([], arr, st)
  | c + 1, i, arr, st =>
    let temp := arr.getD i 0
    let f := shellInner yc gap temp (i + 1) i arr st
    let j := f.2.1
    let arr1 := (f.2.2.1).set j temp
    let ps := if yc ∧ j ≠ i then [mkStep arr1 [j] [] f.2.2.2] else []
    let r := shellMid yc gap c (i + 1) arr1 f.2.2.2
    (f.1 ++ ps ++ r.1, r.2)

/-- `shellSort`'s gap loop `while (gap > 0)`, halving the gap; fuel
`n + 1` suffices. -/
def shellLoop (yc : Bool) (n : Nat) : Nat → Nat → List Int → Stats →
    List Step × List Int × Stats × Bool
  | 0, gap, arr, st => ([], arr, st, decide (gap = 0))
  | fuel + 1, gap, arr, st =>
    if 0 < gap then
      let m := shellMid yc gap (n - gap) gap arr st
      let r := shellLoop yc n fuel (gap / 2) m.2.1 m.2.2
      (m.1 ++ r.1, r.2)
    else ([], arr, st, true)

/-- `shellSort`: terminal settled step only under `yieldCompare`. -/
def shellSort (arr : List Int) (yc : Bool) : Run :=
  let n := arr.length
  let r := shellLoop yc n (n + 1) (n / 2) arr ⟨0, 0⟩
  ⟨r.1 ++ (if r.2.2.2 then emitIf yc (mkStep r.2.1 [] [] r.2.2.1) else []),
    r.2.1, r.2.2.1, r.2.2.2⟩

/-- One inner pass of `bubbleSort` (`for (j = 0; j < n - 1 - i; j++)`),
recursing on the remaining iteration count and carrying the `swapped`
flag. -/
def bubblePass (yc : Bool) :
    Nat → Nat → List Int → Bool → Stats → List Step × List Int × Bool × Stats
  | 0, _, arr, sw, st => ([], arr, sw, st)
  | c + 1, j, arr, sw, st =>
    let st1 : Stats := ⟨st.comparisons + 1, st.swaps⟩
    let cs := emitIf yc (mkStep arr [] [j, j + 1] st1)
    if arr.getD j 0 > arr.getD (j + 1) 0 then
      let arr1 := listSwap arr j (j + 1)
      let st2 : Stats := ⟨st1.comparisons, st1.swaps + 1⟩
      let ss := emitIf yc (mkStep arr1 [j, j + 1] [] st2)
      let r := bubblePass yc c (j + 1) arr1 true st2
      (cs ++ ss ++ r.1, r.2)
    else
      let r := bubblePass yc c (j + 1) arr sw st1
      (cs ++ r.1, r.2)

/-- `bubbleSort`'s outer loop with its early exit when a pass swaps
nothing. -/
def bubbleOuter (yc : Bool) (n : Nat) :
    Nat → Nat → List Int → Stats → List Step × List Int × Stats
  | 0, _, arr, st => ([], arr, st)
  | c + 1, i, arr, st =>
    let p := bubblePass yc (n - 1 - i) 0 arr false st
    if p.2.2.1 then
      let r := bubbleOuter yc n c (i + 1) p.2.1 p.2.2.2
      (p.1 ++ r.1, r.2)
    else
      (p.1, p.2.1, p.2.2.2)

/-- `bubbleSort`: terminal settled step only under `yieldCompare`. -/
def bubbleSort (arr : List Int) (yc : Bool) : Run :=
  let n := arr.length
  let r := bubbleOuter yc n (n - 1) 0 arr ⟨0, 0⟩
  ⟨r.1 ++ emitIf yc (mkStep r.2.1 [] [] r.2.2), r.2.1, r.2.2, true⟩

/-- `cocktailShakerSort`'s forward pass `for (i = start; i < end; i++)`. -/
def cocktailFwd (yc : Bool) :
    Nat → Nat → List Int → Bool → Stats → List Step × List Int × Bool × Stats
  | 0, _, arr, sw, st => ([], arr, sw, st)
  | c + 1, i, arr, sw, st =>
    let st1 : Stats := ⟨st.comparisons + 1, st.swaps⟩
    let cs := emitIf yc (mkStep arr [] [i, i + 1] st1)
    if arr.getD i 0 > arr.getD (i + 1) 0 then
      let arr1 := listSwap arr i (i + 1)
      let st2 : Stats := ⟨st1.comparisons, st1.swaps + 1⟩
      let ss := emitIf yc (mkStep arr1 [i, i + 1] [] st2)
      let r := cocktailFwd yc c (i + 1) arr1 true st2
      (cs ++ ss ++ r.1, r.2)
    else
      let r := cocktailFwd yc c (i + 1) arr sw st1
      (cs ++ r.1, r.2)

/-- `cocktailShakerSort`'s backward pass `for (i = end; i > start; i--)`. -/
def cocktailBwd (yc : Bool) :
    Nat → Nat → List Int → Bool → Stats → List Step × List Int × Bool × Stats
  | 0, _, arr, sw, st => ([], arr, sw, st)
  | c + 1, i, arr, sw, st =>
    let st1 : Stats := ⟨st.comparisons + 1, st.swaps⟩
    let cs := emitIf yc (mkStep arr [] [i - 1, i] st1)
    if arr.getD (i - 1) 0 > arr.getD i 0 then
      let arr1 := listSwap arr (i - 1) i
      let st2 : Stats := ⟨st1.comparisons, st1.swaps + 1⟩
      let ss := emitIf yc (mkStep arr1 [i - 1, i] [] st2)
      let r := cocktailBwd yc c (i - 1) arr1 true st2
      (cs ++ ss ++ r.1, r.2)
    else
      let r := cocktailBwd yc c (i - 1) arr sw st1
      (cs ++ r.1, r.2)

/-- `cocktailShakerSort`'s `while (start < end)` loop, fuel-indexed; each
non-breaking iteration narrows `[start, end]` by two, so fuel
`arr.length + 1` always suffices. -/
def cocktailLoop (yc : Bool) : Nat → Nat → Nat → List Int → Stats → Run
  | 0, start, e, arr, st => ⟨[], arr, st, decide ¬ start < e⟩
  | fuel + 1, start, e, arr, st =>
    if start < e then
      let f := cocktailFwd yc (e - start) start arr false st
      if f.2.2.1 then
        let e1 := e - 1
        let b := cocktailBwd yc (e1 - start) e1 f.2.1 false f.2.2.2
        if b.2.2.1 then
          let r := cocktailLoop yc fuel (start + 1) e1 b.2.1 b.2.2.2
          ⟨f.1 ++ b.1 ++ r.steps, r.arr, r.stats, r.done⟩
        else ⟨f.1 ++ b.1, b.2.1, b.2.2.2, true⟩
      else ⟨f.1, f.2.1, f.2.2.2, true⟩
    else ⟨[], arr, st, true⟩

/-- `cocktailShakerSort`: terminal settled step only under `yieldCompare`. -/
def cocktailShakerSort (arr : List Int) (yc : Bool) : Run :=
  let r := cocktailLoop yc (arr.length + 1) 0 (arr.length - 1) arr ⟨0, 0⟩
  ⟨r.steps ++ (if r.done then emitIf yc (mkStep r.arr [] [] r.stats) else []),
    r.arr, r.stats, r.done⟩

/-- `heapify(arr, n, i)`: picks the larger child (the two child probes
count no comparison; one comparison is counted only when a swap is due,
exactly as in the source), swaps, and recurses into the affected subtree.
The recursion target is a child index, so fuel `n + 1` suffices. -/
def heapify (yc : Bool) (n : Nat) : Nat → Nat → List Int → Stats →
    List Step × List Int × Stats × Bool
  | 0, _, arr, st => ([], arr, st, false)
  | fuel + 1, i, arr, st =>
    let l := 2 * i + 1
    let r := 2 * i + 2
    let lg1 := if l < n ∧ arr.getD i 0 < arr.getD l 0 then l else i
    let lg2 := if r < n ∧ arr.getD lg1 0 < arr.getD r 0 then r else lg1
    if lg2 ≠ i then
      let st1 : Stats := ⟨st.comparisons + 1, st.swaps⟩
      let cs := emitIf yc (mkStep arr [] [i, lg2] st1)
      let arr1 := listSwap arr i lg2
      let st2 : Stats := ⟨st1.comparisons, st1.swaps + 1⟩
      let ss := emitIf yc (mkStep arr1 [i, lg2] [] st2)
      let h := heapify yc n fuel lg2 arr1 st2
      (cs ++ ss ++ h.1, h.2)
    else ([], arr, st, true)

/-- `heapSort`'s build phase `for (i = floor(n/2) - 1; i >= 0; i--)`,
recursing on the iteration count. -/
def heapBuild (yc : Bool) (n : Nat) : Nat → Nat → List Int → Stats →
    List Step × List Int × Stats × Bool
  | 0, _, arr, st => ([], arr, st, true)
  | c + 1, i, arr, st =>
    let h := heapify yc n (n + 1) i arr st
    if h.2.2.2 then
      let r := heapBuild yc n c (i - 1) h.2.1 h.2.2.1
      (h.1 ++ r.1, r.2)
    else h

/-- `heapSort`'s extraction phase `for (i = n - 1; i > 0; i--)`: root-swap
(with an unguarded-by-success, `yieldCompare`-guarded swap step), then
re-heapify the prefix of size `i`. -/
def heapExtract (yc : Bool) : Nat → Nat → List Int → Stats →
    List Step × List Int × Stats × Bool
  | 0, _, arr, st => ([], arr, st, true)
  | c + 1, i, arr, st =>
    let arr1 := listSwap arr 0 i
    let st1 : Stats := ⟨st.comparisons, st.swaps + 1⟩
    let ss := emitIf yc (mkStep arr1 [0, i] [] st1)
    let h := heapify yc i (i + 1) 0 arr1 st1
    if h.2.2.2 then
      let r := heapExtract yc c (i - 1) h.2.1 h.2.2.1
      (ss ++ h.1 ++ r.1, r.2)
    else (ss ++ h.1, h.2)

/-- `heapSort`: build the max-heap, extract `n - 1` times, terminal settled
step under `yieldCompare`. -/
def heapSort (arr : List Int) (yc : Bool) : Run :=
  let n := arr.length
  let b := heapBuild yc n (n / 2) (n / 2 - 1) arr ⟨0, 0⟩
  if b.2.2.2 then
    let e := heapExtract yc (n - 1) (n - 1) b.2.1 b.2.2.1
    ⟨b.1 ++ e.1 ++ (if e.2.2.2 then emitIf yc (mkStep e.2.1 [] [] e.2.2.1) else []),
      e.2.1, e.2.2.1, e.2.2.2⟩
  else ⟨b.1, b.2.1, b.2.2.1, false⟩

/-- One alternating pass of `oddEvenSort` (`for (i = start; i < n - 1; i += 2)`),
recursing on the iteration count and carrying the `sorted` flag. -/
def oddEvenPass (yc : Bool) :
    Nat → Nat → List Int → Bool → Stats → List Step × List Int × Bool × Stats
  | 0, _, arr, srt, st => ([], arr, srt, st)
  | c + 1, i, arr, srt, st =>
    let st1 : Stats := ⟨st.comparisons + 1, st.swaps⟩
    let cs := emitIf yc (mkStep arr [] [i, i + 1] st1)
    if arr.getD i 0 > arr.getD (i + 1) 0 then
      let arr1 := listSwap arr i (i + 1)
      let st2 : Stats := ⟨st1.comparisons, st1.swaps + 1⟩
      let ss := emitIf yc (mkStep arr1 [i, i + 1] [] st2)
      let r := oddEvenPass yc c (i + 2) arr1 false st2
      (cs ++ ss ++ r.1, r.2)
    else
      let r := oddEvenPass yc c (i + 2) arr srt st1
      (cs ++ r.1, r.2)

/-- `oddEvenSort`'s `while (!sorted)` loop: one odd-pair pass then one
even-pair pass per iteration; every continuing iteration removes at least
one inversion, so fuel `n² + 2` suffices. -/
def oddEvenLoop (yc : Bool) (n : Nat) : Nat → List Int → Stats →
    List Step × List Int × Stats × Bool
  | 0, arr, st => ([], arr, st, false)
  | fuel + 1, arr, st =>
    let p1 := oddEvenPass yc ((n - 1) / 2) 1 arr true st
    let p2 := oddEvenPass yc (n / 2) 0 p1.2.1 p1.2.2.1 p1.2.2.2
    if p2.2.2.1 then
      (p1.1 ++ p2.1, p2.2.1, p2.2.2.2, true)
    else
      let r := oddEvenLoop yc n fuel p2.2.1 p2.2.2.2
      (p1.1 ++ p2.1 ++ r.1, r.2)

/-- `oddEvenSort`: terminal settled step under `yieldCompare`. -/
def oddEvenSort (arr : List Int) (yc : Bool) : Run :=
  let n := arr.length
  let r := oddEvenLoop yc n (n * n + 2) arr ⟨0, 0⟩
  ⟨r.1 ++ (if r.2.2.2 then emitIf yc (mkStep r.2.1 [] [] r.2.2.1) else []),
    r.2.1, r.2.2.1, r.2.2.2⟩

/-- The comparison loop of `bitonicMerge` (`for (i = low; i < low + mid; i++)`):
exchange exactly when `(arr[i] > arr[i+mid]) === up`. -/
def bitonicCmpLoop (yc up : Bool) (mid : Nat) :
    Nat → Nat → List Int → Stats → List Step × List Int × Stats
  | 0, _, arr, st => ([], arr, st)
  | c + 1, i, arr, st =>
    let st1 : Stats := ⟨st.comparisons + 1, st.swaps⟩
    let cs := emitIf yc (mkStep arr [] [i, i + mid] st1)
    if (decide (arr.getD (i + mid) 0 < arr.getD i 0)) = up then
      let arr1 := listSwap arr i (i + mid)
      let st2 : Stats := ⟨st1.comparisons, st1.swaps + 1⟩
      let ss := emitIf yc (mkStep arr1 [i, i + mid] [] st2)
      let r := bitonicCmpLoop yc up mid c (i + 1) arr1 st2
      (cs ++ ss ++ r.1, r.2)
    else
      let r := bitonicCmpLoop yc up mid c (i + 1) arr st1
      (cs ++ r.1, r.2)

/-- `bitonicMerge`, fuel-indexed (`cnt` at least halves each level, so any
fuel ≥ `cnt` suffices). -/
def bitonicMergeRec (yc : Bool) : Nat → Nat → Nat → Bool → List Int → Stats →
    List Step × List Int × Stats × Bool
  | 0, _, _, _, arr, st => ([], arr, st, false)
  | fuel + 1, low, cnt, up, arr, st =>
    if cnt ≤ 1 then ([], arr, st, true)
    else
      let mid := cnt / 2
      let p := bitonicCmpLoop yc up mid mid low arr st
      let m1 := bitonicMergeRec yc fuel low mid up p.2.1 p.2.2
      if m1.2.2.2 then
        let m2 := bitonicMergeRec yc fuel (low + mid) mid up m1.2.1 m1.2.2.1
        (p.1 ++ m1.1 ++ m2.1, m2.2)
      else (p.1 ++ m1.1, m1.2)

/-- `bitonicSortRec`: sort the first half ascending, the second half
descending, then bitonically merge. -/
def bitonicSortRecF (yc : Bool) : Nat → Nat → Nat → Bool → List Int → Stats →
    List Step × List Int × Stats × Bool
  | 0, _, _, _, arr, st => ([], arr, st, false)
  | fuel + 1, low, cnt, up, arr, st =>
    if cnt ≤ 1 then ([], arr, st, true)
    else
      let mid := cnt / 2
      let s1 := bitonicSortRecF yc fuel low mid true arr st
      if s1.2.2.2 then
        let s2 := bitonicSortRecF yc fuel (low + mid) mid false s1.2.1 s1.2.2.1
        if s2.2.2.2 then
          let m := bitonicMergeRec yc (cnt + 1) low cnt up s2.2.1 s2.2.2.1
          (s1.1 ++ s2.1 ++ m.1, m.2)
        else (s1.1 ++ s2.1, s2.2)
      else s1

/-- `bitonicSort(arr, up, yieldCompare)`: terminal settled step (bare
array + counters) under `yieldCompare`. -/
def bitonicSort (arr : List Int) (up yc : Bool) : Run :=
  let n := arr.length
  let r := bitonicSortRecF yc (n + 1) 0 n up arr ⟨0, 0⟩
  ⟨r.1 ++ (if r.2.2.2 then emitIf yc (mkStep r.2.1 [] [] r.2.2.1) else []),
    r.2.1, r.2.2.1, r.2.2.2⟩

/-- `cycleSort`'s rank-count loop `for (i = cycleStart + 1; i < n; i++)`:
counts elements smaller than `item` and yields one single-index probe step
per cell (under `yieldCompare`), after the possible `pos` bump. -/
def cycleCount (arr : List Int) (item : Int) (yc : Bool) :
    Nat → Nat → Nat → Stats → List Step × Nat × Stats
  | 0, _, pos, st => ([], pos, st)
  | c + 1, i, pos, st =>
    let st1 : Stats := ⟨st.comparisons + 1, st.swaps⟩
    let pos1 := if arr.getD i 0 < item then pos + 1 else pos
    let cs := emitIf yc (mkStep arr [] [i] st1)
    let r := cycleCount arr item yc c (i + 1) pos1 st1
    (cs ++ r.1, r.2)

/-- `while (item === arr[pos]) pos++`: the strict-equality test is false at
an out-of-range read (`undefined`), so fuel `arr.length + 1` always
suffices. -/
def cycleSkip (arr : List Int) (item : Int) : Nat → Nat → Nat
  | 0, pos => pos
  | fuel + 1, pos =>
    if arr.get? pos = some item then cycleSkip arr item fuel (pos + 1) else pos

/-- `cycleSort`'s rotation loop `while (pos !== cycleStart)`: recount the
rank, skip equal cells, place `item` if it differs from the occupant.  (The
write `arr[pos] = item` can in JS fall at `pos = n` and append; on the
distinct-element inputs of the claims below `pos` provably stays in range,
where `List.set` is exact.) -/
def cycleWalk (yc : Bool) (n cs0 : Nat) : Nat → Nat → Int → List Int → Stats →
    List Step × List Int × Int × Stats × Bool
  | 0, pos, item, arr, st => ([], arr, item, st, decide (pos = cs0))
  | fuel + 1, pos, item, arr, st =>
    if pos = cs0 then ([], arr, item, st, true)
    else
      let c := cycleCount arr item yc (n - (cs0 + 1)) (cs0 + 1) cs0 st
      let pos1 := cycleSkip arr item (arr.length + 1) c.2.1
      if item ≠ arr.getD pos1 0 then
        let arr1 := arr.set pos1 item
        let item1 := arr.getD pos1 0
        let st2 : Stats := ⟨c.2.2.comparisons, c.2.2.swaps + 1⟩
        let ss := emitIf yc (mkStep arr1 [pos1] [] st2)
        let r := cycleWalk yc n cs0 fuel pos1 item1 arr1 st2
        (c.1 ++ ss ++ r.1, r.2)
      else
        let r := cycleWalk yc n cs0 fuel pos1 item arr c.2.2
        (c.1 ++ r.1, r.2)

/-- `cycleSort`'s outer loop `for (cycleStart = 0; cycleStart < n - 1; ...)`. -/
def cycleOuter (yc : Bool) (n : Nat) : Nat → Nat → List Int → Stats →
    List Step × List Int × Stats × Bool
  | 0, _, arr, st => ([], arr, st, true)
  | c + 1, cs0, arr, st =>
    let item := arr.getD cs0 0
    let cnt := cycleCount arr item yc (n - (cs0 + 1)) (cs0 + 1) cs0 st
    let pos := cnt.2.1
    if pos = cs0 then
      let r := cycleOuter yc n c (cs0 + 1) arr cnt.2.2
      (cnt.1 ++ r.1, r.2)
    else
      let pos1 := cycleSkip arr item (arr.length + 1) pos
      let placed :=
        if pos1 ≠ cs0 then
          let arr1 := arr.set pos1 item
          let item1 := arr.getD pos1 0
          let st2 : Stats := ⟨cnt.2.2.comparisons, cnt.2.2.swaps + 1⟩
          (emitIf yc (mkStep arr1 [pos1] [] st2), arr1, item1, st2)
        else ([], arr, item, cnt.2.2)
      let w := cycleWalk yc n cs0 (n + 1) pos1 placed.2.2.1 placed.2.1 placed.2.2.2
      if w.2.2.2.2 then
        let r := cycleOuter yc n c (cs0 + 1) w.2.1 w.2.2.2.1
        (cnt.1 ++ placed.1 ++ w.1 ++ r.1, r.2)
      else (cnt.1 ++ placed.1 ++ w.1, w.2.1, w.2.2.2.1, false)

/-- `cycleSort`: terminal settled step (bare array + counters) under
`yieldCompare`. -/
def cycleSort (arr : List Int) (yc : Bool) : Run :=
  let n := arr.length
  let r := cycleOuter yc n (n - 1) 0 arr ⟨0, 0⟩
  ⟨r.1 ++ (if r.2.2.2 then emitIf yc (mkStep r.2.1 [] [] r.2.2.1) else []),
    r.2.1, r.2.2.1, r.2.2.2⟩

/-- The digit of `x` at magnitude `exp`: `Math.floor(x / exp) % 10` (exact
for the non-negative values all claimed runs use). -/
def lsdDigit (x exp : Int) : Nat :=
  ((Int.fdiv x exp).emod 10).toNat

/-- The slot the counting-sort placement loop assigns to index `i`: the
number of elements with a smaller digit plus the number of earlier
elements with the same digit. -/
def lsdPos (arr : List Int) (exp : Int) (i : Nat) : Nat :=
  arr.countP (fun x => decide (lsdDigit x exp < lsdDigit (arr.getD i 0) exp))
    + (arr.take i).countP
        (fun x => decide (lsdDigit x exp = lsdDigit (arr.getD i 0) exp))

/-- LSD radix classify loop: one unguarded single-index probe step per
cell while tallying digit counts. -/
def lsdClassify (arr : List Int) (exp : Int) (st : Stats) :
    Nat → Nat → List Nat → List Step × List Nat
  | 0, _, count => ([], count)
  | c + 1, i, count =>
    let digit := lsdDigit (arr.getD i 0) exp
    let r := lsdClassify arr exp st c (i + 1) (count.set digit (count.getD digit 0 + 1))
    (mkStep arr [] [i] st :: r.1, r.2)

/-- LSD radix cumulative-count loop `for (i = 1; i < 10; i++)`: one
unguarded step with A BOTH-EMPTY highlight pair per bucket update. -/
def lsdCumulate (arr : List Int) (st : Stats) :
    Nat → Nat → List Nat → List Step × List Nat
  | 0, _, count => ([], count)
  | c + 1, i, count =>
    let count1 := count.set i (count.getD i 0 + count.getD (i - 1) 0)
    let r := lsdCumulate arr st c (i + 1) count1
    (mkStep arr [] [] st :: r.1, r.2)

/-- LSD radix placement loop `for (i = n - 1; i >= 0; i--)`:
`output[--count[digit]] = arr[i]`, one unguarded single-index step each. -/
def lsdPlace (arr : List Int) (exp : Int) (st : Stats) :
    Nat → Nat → List Nat → List Int → List Step × List Nat × List Int
  | 0, _, count, output => ([], count, output)
  | c + 1, i, count, output =>
    let digit := lsdDigit (arr.getD i 0) exp
    let idx := count.getD digit 0 - 1
    let count1 := count.set digit idx
    let output1 := output.set idx (arr.getD i 0)
    let r := lsdPlace arr exp st c (i - 1) count1 output1
    (mkStep arr [] [i] st :: r.1, r.2)

/-- LSD radix copy-back loop: `arr[i] = output[i]`, counting one swap and
yielding (under `yieldCompare`) one single-index swap step each. -/
def lsdCopy (output : List Int) (yc : Bool) :
    Nat → Nat → List Int → Stats → List Step × List Int × Stats
  | 0, _, arr, st => ([], arr, st)
  | c + 1, i, arr, st =>
    let arr1 := arr.set i (output.getD i 0)
    let st1 : Stats := ⟨st.comparisons, st.swaps + 1⟩
    let ss := emitIf yc (mkStep arr1 [i] [] st1)
    let r := lsdCopy output yc c (i + 1) arr1 st1
    (ss ++ r.1, r.2)

/-- One full pass of `lsdRadixSort` at magnitude `exp`. -/
def lsdPass (yc : Bool) (exp : Int) (arr : List Int) (st : Stats) :
    List Step × List Int × Stats :=
  let n := arr.length
  let cl := lsdClassify arr exp st n 0 (List.replicate 10 0)
  let cu := lsdCumulate arr st 9 1 cl.2
  let pl := lsdPlace arr exp st n (n - 1) cu.2 (List.replicate n 0)
  let cp := lsdCopy pl.2.2 yc n 0 arr st
  (cl.1 ++ cu.1 ++ pl.1 ++ cp.1, cp.2)

/-- `lsdRadixSort`'s `while (Math.floor(maxNum / exp) > 0)` loop; `exp`
multiplies by 10 each pass, so fuel `maxNum.toNat + 1` suffices. -/
def lsdLoop (yc : Bool) (maxNum : Int) : Nat → Int → List Int → Stats →
    List Step × List Int × Stats × Bool
  | 0, exp, arr, st => ([], arr, st, decide ¬ 0 < Int.fdiv maxNum exp)
  | fuel + 1, exp, arr, st =>
    if 0 < Int.fdiv maxNum exp then
      let p := lsdPass yc exp arr st
      let r := lsdLoop yc maxNum fuel (exp * 10) p.2.1 p.2.2
      (p.1 ++ r.1, r.2)
    else ([], arr, st, true)

/-- `lsdRadixSort`: `Math.max(...arr)` is `-Infinity` on an empty array,
making the loop condition false, so the empty case runs no pass.  Terminal
settled step (bare array + counters) under `yieldCompare`. -/
def lsdRadixSort (arr : List Int) (yc : Bool) : Run :=
  match arr.max? with
  | none =>
    (⟨emitIf yc (mkStep arr [] [] ⟨0, 0⟩), arr, ⟨0, 0⟩, true⟩ : Run)
  | some m =>
    let r := lsdLoop yc m (m.toNat + 1) 1 arr ⟨0, 0⟩
    ⟨r.1 ++ (if r.2.2.2 then emitIf yc (mkStep r.2.1 [] [] r.2.2.1) else []),
      r.2.1, r.2.2.1, r.2.2.2⟩

/-! ## Notions used by the claim statements and proofs -/

/-- The ascending sequence `0..n-1` the visualizer sorts permutations of. -/
def ascSeq (n : Nat) : List Int :=
  (List.range n).map Int.ofNat

/-- The `stepsPerFrame` formula as the specification words it (ceiling with
a minimum of 1) — written from the spec, to be compared with the source's
`numStepsPerFrame`. -/
def specStepsPerFrame (frameDuration interval : ℚ) : ℤ :=
  max 1 ⌈frameDuration / interval⌉

/-- The counter pair a step carries (all sort-driver steps carry both). -/
def stepStats (s : Step) : Stats :=
  ⟨s.comparisons.getD 0, s.swaps.getD 0⟩

/-- Pointwise order on counter pairs. -/
def StatsLe (a b : Stats) : Prop :=
  a.comparisons ≤ b.comparisons ∧ a.swaps ≤ b.swaps

/-- The `comparisons` and `swaps` fields are non-decreasing along a yielded
sequence. -/
def stepsMonotone (l : List Step) : Prop :=
  l.Chain' fun a b => StatsLe (stepStats a) (stepStats b)

/-- A step list emitted between counter states `a` and `b`: every step
carries both counters, they sit between `a` and `b`, and they are
monotone along the list. -/
def EmitsBetween (a : Stats) (l : List Step) (b : Stats) : Prop :=
  StatsLe a b ∧ stepsMonotone l ∧
    ∀ s ∈ l, s.comparisons.isSome ∧ s.swaps.isSome ∧
      StatsLe a (stepStats s) ∧ StatsLe (stepStats s) b

/-- Number of inversions (out-of-order pairs); the termination measure of
the adjacent-exchange loops. -/
def inversions : List Int → Nat
  | [] => 0
  | x :: xs => xs.countP (fun y => decide (y < x)) + inversions xs

/-- Half-open segment `[a, b)` of an array. -/
def seg (arr : List Int) (a b : Nat) : List Int :=
  (arr.drop a).take (b - a)

/-- Specification-side two-way merge, used to characterise `mergeCmp`
together with the two drain loops that follow it. -/
def mergeLists : List Int → List Int → List Int
  | [], ys => ys
  | x :: xs, [] => x :: xs
  | x :: xs, y :: ys =>
    if x ≤ y then x :: mergeLists xs (y :: ys)
    else y :: mergeLists (x :: xs) ys
termination_by xs ys => xs.length + ys.length

/-- The max-heap property on the first `size` cells. -/
def IsMaxHeap (arr : List Int) (size : Nat) : Prop :=
  ∀ i, (2 * i + 1 < size → arr.getD (2 * i + 1) 0 ≤ arr.getD i 0) ∧
    (2 * i + 2 < size → arr.getD (2 * i + 2) 0 ≤ arr.getD i 0)

/-- The max-heap property at one node: each existing child is `≤` the
node. -/
def localHeap (arr : List Int) (size j : Nat) : Prop :=
  (2 * j + 1 < size → arr.getD (2 * j + 1) 0 ≤ arr.getD j 0) ∧
  (2 * j + 2 < size → arr.getD (2 * j + 2) 0 ≤ arr.getD j 0)

/-- `k` lies in the binary-heap subtree rooted at `i`: at some depth `d`
the descendants of `i` span exactly `[(i+1)·2^d - 1, (i+2)·2^d - 2]`. -/
def InSubtree (i k : Nat) : Prop :=
  ∃ d, (i + 1) * 2 ^ d - 1 ≤ k ∧ k ≤ (i + 2) * 2 ^ d - 2

/-- A run "sorts to" the ascending sequence `0..N-1`: it ends (`done`) and
the `array` snapshot of its final yielded step is `0..N-1`. -/
def SortsTo (r : Run) (N : Nat) : Prop :=
  r.done = true ∧ r.steps.getLast?.map Step.array = some (ascSeq N)

/-- Index-wise sortedness (via the `getD` view used throughout the driver
embeddings). -/
def PairwiseLe (l : List Int) : Prop :=
  ∀ a b : Nat, a < b → b < l.length → l.getD a 0 ≤ l.getD b 0

/-! ## Scheduler lemmas -/

theorem innerTake_eq_take_drop (k : ℤ) (q : List QItem) :
    innerTake k q = (q.take k.toNat, q.drop k.toNat) := by
  induction q generalizing k with
  | nil => simp [innerTake]
  | cons x xs ih =>
    by_cases hk : 0 < k
    · have h1 : k.toNat = (k - 1).toNat + 1 := by omega
      rw [h1]
      simp only [innerTake, if_pos hk, ih (k - 1), List.take_succ_cons,
        List.drop_succ_cons]
    · have h0 : k.toNat = 0 := by omega
      rw [h0]
      simp only [innerTake, if_neg hk, List.take_zero, List.drop_zero]

theorem chunksOfAux_congr (k : Nat) :
    ∀ (f₁ f₂ : Nat) (l : List α), l.length ≤ f₁ → l.length ≤ f₂ →
      chunksOfAux k f₁ l = chunksOfAux k f₂ l := by
  intro f₁
  induction f₁ with
  | zero =>
    intro f₂ l h1 _
    have : l = [] := List.eq_nil_of_length_eq_zero (Nat.le_zero.mp h1)
    subst this
    cases f₂ <;> rfl
  | succ f ih =>
    intro f₂ l h1 h2
    cases l with
    | nil => cases f₂ <;> rfl
    | cons x xs =>
      cases f₂ with
      | zero => simp at h2
      | succ g =>
        simp only [chunksOfAux]
        have hx : (xs.drop (k - 1)).length ≤ f := by
          simp only [List.length_drop]
          simp at h1
          omega
        have hy : (xs.drop (k - 1)).length ≤ g := by
          simp only [List.length_drop]
          simp at h2
          omega
        rw [ih g _ hx hy]

theorem chunksOf_nil (k : Nat) : chunksOf k ([] : List α) = [] := rfl

theorem chunksOf_cons (k : Nat) (x : α) (xs : List α) :
    chunksOf k (x :: xs) = (x :: xs.take (k - 1)) :: chunksOf k (xs.drop (k - 1)) := by
  simp only [chunksOf, List.length_cons, chunksOfAux]
  congr 1
  exact chunksOfAux_congr k xs.length _ _ (by simp [List.length_drop]) le_rfl

theorem presentLoop_eq_chunksMap (k : ℤ) (hk : 1 ≤ k) :
    ∀ (fuel : Nat) (q : List QItem), q.length ≤ fuel →
      presentLoop k fuel q = some ((chunksOf k.toNat q).map buildFrame) := by
  intro fuel
  induction fuel with
  | zero =>
    intro q hq
    have : q = [] := List.eq_nil_of_length_eq_zero (Nat.le_zero.mp hq)
    subst this
    rfl
  | succ f ih =>
    intro q hq
    cases q with
    | nil => rfl
    | cons x xs =>
      have htn : k.toNat = (k.toNat - 1) + 1 := by omega
      have hlen : (List.drop k.toNat (x :: xs)).length ≤ f := by
        rw [List.length_drop]
        simp only [List.length_cons] at hq ⊢
        omega
      simp only [presentLoop, innerTake_eq_take_drop]
      rw [ih (List.drop k.toNat (x :: xs)) hlen]
      rw [chunksOf_cons]
      have h1 : List.take k.toNat (x :: xs) = x :: List.take (k.toNat - 1) xs := by
        rw [htn]; rfl
      have h2 : List.drop k.toNat (x :: xs) = List.drop (k.toNat - 1) xs := by
        rw [htn]; rfl
      rw [h1, h2]
      rfl

theorem presentLoop_none_of_nonpos (k : ℤ) (hk : k ≤ 0) :
    ∀ (fuel : Nat) (q : List QItem), q ≠ [] → presentLoop k fuel q = none := by
  intro fuel
  induction fuel with
  | zero =>
    intro q hq
    cases q with
    | nil => exact absurd rfl hq
    | cons x xs => rfl
  | succ f ih =>
    intro q hq
    cases q with
    | nil => exact absurd rfl hq
    | cons x xs =>
      simp only [presentLoop, innerTake_eq_take_drop]
      have h0 : k.toNat = 0 := by omega
      rw [h0]
      simp [ih (x :: xs) (by simp)]

theorem presentLoop_some_iff (k : ℤ) (q : List QItem) :
    (∃ fuel r, presentLoop k fuel q = some r) ↔ (1 ≤ k ∨ q = []) := by
  constructor
  · intro ⟨fuel, r, hr⟩
    by_contra h
    push_neg at h
    rw [presentLoop_none_of_nonpos k (by omega) fuel q h.2] at hr
    exact Option.noConfusion hr
  · intro h
    rcases h with hk | hq
    · exact ⟨q.length, _, presentLoop_eq_chunksMap k hk q.length q le_rfl⟩
    · subst hq
      exact ⟨0, [], rfl⟩

theorem chunksOf_join (k : Nat) (l : List α) :
    (chunksOf k l).flatten = l := by
  have main : ∀ (fuel : Nat) (l : List α), l.length ≤ fuel →
      (chunksOfAux k fuel l).flatten = l := by
    intro fuel
    induction fuel with
    | zero =>
      intro l hl
      have : l = [] := List.eq_nil_of_length_eq_zero (Nat.le_zero.mp hl)
      subst this; rfl
    | succ f ih =>
      intro l hl
      cases l with
      | nil => rfl
      | cons x xs =>
        simp only [chunksOfAux, List.flatten_cons]
        rw [ih _ (by simp [List.length_drop]; simp at hl; omega)]
        simp [List.take_append_drop]
  exact main l.length l le_rfl

theorem chunksOf_mem_size (k : Nat) (hk : 1 ≤ k) (l : List α) :
    ∀ c ∈ chunksOf k l, c ≠ [] ∧ c.length ≤ k := by
  have main : ∀ (fuel : Nat) (l : List α), l.length ≤ fuel →
      ∀ c ∈ chunksOfAux k fuel l, c ≠ [] ∧ c.length ≤ k := by
    intro fuel
    induction fuel with
    | zero =>
      intro l hl c hc
      have : l = [] := List.eq_nil_of_length_eq_zero (Nat.le_zero.mp hl)
      subst this; simp [chunksOfAux] at hc
    | succ f ih =>
      intro l hl c hc
      cases l with
      | nil => simp [chunksOfAux] at hc
      | cons x xs =>
        simp only [chunksOfAux, List.mem_cons] at hc
        rcases hc with rfl | hc
        · constructor
          · simp
          · simp only [List.length_cons, List.length_take]
            omega
        · exact ih _ (by simp [List.length_drop]; simp at hl; omega) c hc
  exact main l.length l le_rfl

theorem chunksOf_dropLast_size (k : Nat) (hk : 1 ≤ k) (l : List α) :
    ∀ c ∈ (chunksOf k l).dropLast, c.length = k := by
  have main : ∀ (fuel : Nat) (l : List α), l.length ≤ fuel →
      ∀ c ∈ (chunksOfAux k fuel l).dropLast, c.length = k := by
    intro fuel
    induction fuel with
    | zero =>
      intro l hl c hc
      have : l = [] := List.eq_nil_of_length_eq_zero (Nat.le_zero.mp hl)
      subst this; simp [chunksOfAux] at hc
    | succ f ih =>
      intro l hl c hc
      cases l with
      | nil => simp [chunksOfAux] at hc
      | cons x xs =>
        simp only [chunksOfAux] at hc
        cases hrest : chunksOfAux k f (xs.drop (k - 1)) with
        | nil => rw [hrest] at hc; simp at hc
        | cons r rs =>
          rw [hrest, List.dropLast_cons_of_ne_nil (by simp), List.mem_cons] at hc
          rcases hc with rfl | hc
          · have hne : xs.drop (k - 1) ≠ [] := by
              intro hnil
              rw [hnil] at hrest
              cases f <;> simp [chunksOfAux] at hrest
            have : k - 1 < xs.length := by
              by_contra hge
              push_neg at hge
              exact hne (List.drop_eq_nil_of_le hge)
            simp only [List.length_cons, List.length_take]
            omega
          · rw [← hrest] at hc
            exact ih _ (by simp [List.length_drop]; simp at hl; omega) c hc
  exact main l.length l le_rfl

/-! ## Claim C9: termination of the presentation loop -/

/-- C9: if `Math.ceil(frameDuration / interval)` is ≤ 0 and the queue is
non-empty, the presentation loop removes nothing from the queue and never
terminates; the presentation phase terminates exactly when the computed
steps-per-frame is at least 1 or the queue is initially empty. -/
theorem claim_c9 :
    (∀ (frameDuration interval : ℚ) (q : List QItem),
      numStepsPerFrame frameDuration interval ≤ 0 → q ≠ [] →
        innerTake (numStepsPerFrame frameDuration interval) q = ([], q) ∧
        ∀ fuel, presentLoop (numStepsPerFrame frameDuration interval) fuel q = none) ∧
    (∀ (k : ℤ) (q : List QItem),
      (∃ fuel r, presentLoop k fuel q = some r) ↔ (1 ≤ k ∨ q = [])) := by
  constructor
  · intro fd iv q hk hq
    constructor
    · rw [innerTake_eq_take_drop]
      have h0 : (numStepsPerFrame fd iv).toNat = 0 := by omega
      rw [h0]
      simp
    · intro fuel
      exact presentLoop_none_of_nonpos _ hk fuel q hq
  · intro k q
    exact presentLoop_some_iff k q

/-- Witness for C9 at `frameDuration = 0`, `interval = 10`, a one-item
queue. -/
theorem claim_c9_witness :
    innerTake (numStepsPerFrame 0 10) [⟨[5], [], [], []⟩] = ([], [⟨[5], [], [], []⟩]) ∧
      presentLoop (numStepsPerFrame 0 10) 7 [⟨[5], [], [], []⟩] = none := by
  have h := claim_c9.1 0 10 [⟨[5], [], [], []⟩]
    (by norm_num [numStepsPerFrame]) (by simp)
  exact ⟨h.1, h.2 7⟩

/-! ## Claim C4: frame coalescing -/

/-- C4 counterexample: the source computes `numStepsPerFrame` as a bare
ceiling, without the minimum-of-1 clamp the claim states: at
`frameDuration = 0`, `interval = 10` it is 0, not 1. -/
theorem claim_c4_counterexample :
    numStepsPerFrame 0 10 = 0 ∧ specStepsPerFrame 0 10 = 1 ∧
      numStepsPerFrame 0 10 ≠ specStepsPerFrame 0 10 := by
  refine ⟨?_, ?_, ?_⟩ <;> norm_num [numStepsPerFrame, specStepsPerFrame]

/-- C4 (amended): `stepsPerFrame = ⌈frameDuration / interval⌉` with no
minimum clamp; whenever it is at least 1 the presentation loop partitions
the drained queue, in order, into consecutive frames of exactly that many
steps except a possibly smaller final frame; with `interval = 10` and
`frameDuration = 35` it equals 4 and a queue of 10 steps yields 3 frames
of sizes 4, 4, 2. -/
theorem claim_c4 :
    (∀ (fd iv : ℚ) (q : List QItem), 1 ≤ numStepsPerFrame fd iv →
      presentLoop (numStepsPerFrame fd iv) q.length q
        = some ((chunksOf (numStepsPerFrame fd iv).toNat q).map buildFrame)) ∧
    (∀ k : Nat, 1 ≤ k → ∀ l : List QItem,
      (chunksOf k l).flatten = l ∧
      (∀ c ∈ (chunksOf k l).dropLast, c.length = k) ∧
      (∀ c ∈ chunksOf k l, c ≠ [] ∧ c.length ≤ k)) ∧
    numStepsPerFrame 35 10 = 4 ∧
    ((chunksOf (numStepsPerFrame 35 10).toNat
        (drainQueue ((List.range 10).map fun i => ({array := [(i : Int)]} : Step)))).map
          List.length) = [4, 4, 2] := by
  have h4 : numStepsPerFrame 35 10 = 4 := by
    norm_num [numStepsPerFrame, Int.ceil_eq_iff]
  refine ⟨?_, ?_, h4, ?_⟩
  · intro fd iv q hk
    exact presentLoop_eq_chunksMap _ hk q.length q le_rfl
  · intro k hk l
    exact ⟨chunksOf_join k l, chunksOf_dropLast_size k hk l, chunksOf_mem_size k hk l⟩
  · rw [h4]
    decide

/-- Witness for C4's quantified part at `frameDuration = 35`,
`interval = 10` and a two-item queue. -/
theorem claim_c4_witness :
    presentLoop (numStepsPerFrame 35 10)
        (drainQueue [({array := [7]} : Step), {array := [8]}]).length
        (drainQueue [({array := [7]} : Step), {array := [8]}])
      = some ((chunksOf (numStepsPerFrame 35 10).toNat
          (drainQueue [({array := [7]} : Step), {array := [8]}])).map buildFrame) :=
  claim_c4.1 35 10 (drainQueue [({array := [7]} : Step), {array := [8]}])
    (by norm_num [numStepsPerFrame, Int.le_ceil_iff])

/-! ## Claim C7: per-frame sound-index selection -/

/-- C7: a frame's sound indexes come only from the first step folded into
it (with JS `Set` first-occurrence deduplication); each drained step's
sound indexes are its `compareIndexes` when non-empty, else its
`swappedIndexes`; the frame built from the steps
`[{compare: [1,2]}, {swap: [3]}]` reports sound indexes `[1, 2]`. -/
theorem claim_c7 :
    (∀ (x : QItem) (t : List QItem),
      (buildFrame (x :: t)).2 = jsSetList x.soundIndexes) ∧
    (∀ s : Step, (queueItemOfStep s).soundIndexes
        = if s.compareIndexes = [] then s.swappedIndexes else s.compareIndexes) ∧
    (buildFrame (drainQueue [({array := [0], compareIndexes := [1, 2]} : Step),
        {array := [0], swappedIndexes := [3]}])).2 = [1, 2] := by
  refine ⟨?_, ?_, by decide⟩
  · intro x t
    simp [buildFrame]
  · intro s
    cases h : s.compareIndexes with
    | nil => simp [queueItemOfStep, h]
    | cons a l => simp [queueItemOfStep, h]

/-! ## Claim C10: the zero-yield generator run -/

/-- C10 counterexample: `bubbleSort` with `yieldCompare = false` on
`[1, 0]` yields no steps yet sorts the live array in place to `[0, 1]`;
`animateSort` then presents and returns `[0, 1]`, which is not element-wise
equal to the input `[1, 0]`. -/
theorem claim_c10_counterexample :
    (bubbleSort [1, 0] false).steps = [] ∧
    (bubbleSort [1, 0] false).arr = [0, 1] ∧
    animateSort [1, 0] 35 10
        (fun a => ((bubbleSort a false).steps, (bubbleSort a false).arr))
      = some ⟨[], [], ⟨some [0, 1], []⟩, [0, 1]⟩ ∧
    ([0, 1] : List Int) ≠ [1, 0] := by
  refine ⟨by decide, by decide, by decide, by decide⟩

/-- C10 (amended): when the generator yields no steps, `animateSort`
presents no coalesced frame, plays no tone, performs exactly one final
highlight-free presentation of the live array as the completed generator
left it, and returns that array.  Because `generator(finalArray,
yieldCompare)` receives the live array and may mutate it in place while
yielding nothing, the result is element-wise equal to the input only for
non-mutating generators; `shuffleGenerator` on an array of length ≤ 1
yields no steps and leaves the array unchanged, so for it the returned
array does equal the input. -/
theorem claim_c10 :
    (∀ (arr : List Int) (fd iv : ℚ) (gen : List Int → List Step × List Int),
      (gen arr).1 = [] →
      animateSort arr fd iv gen
        = some ⟨[], [], ⟨some (gen arr).2, []⟩, (gen arr).2⟩) ∧
    (∀ (rand : Nat → Nat) (arr : List Int), arr.length ≤ 1 →
      (shuffleGenerator rand arr).steps = [] ∧
      (shuffleGenerator rand arr).arr = arr) := by
  constructor
  · intro arr fd iv gen h
    simp only [animateSort, h]
    rfl
  · intro rand arr h
    have h0 : arr.length - 1 = 0 := by omega
    exact ⟨by simp [shuffleGenerator, h0, shuffleGo],
      by simp [shuffleGenerator, h0, shuffleGo]⟩

/-- Witness for C10 at a singleton input array with the (non-mutating)
shuffle generator. -/
theorem claim_c10_witness :
    animateSort [42] 35 10
        (fun a => ((shuffleGenerator (fun _ => 0) a).steps,
          (shuffleGenerator (fun _ => 0) a).arr))
      = some ⟨[], [],
          ⟨some (shuffleGenerator (fun _ => 0) [42]).arr, []⟩,
          (shuffleGenerator (fun _ => 0) [42]).arr⟩ ∧
    (shuffleGenerator (fun _ => 0) [42]).steps = [] ∧
    (shuffleGenerator (fun _ => 0) [42]).arr = [42] := by
  have h2 := claim_c10.2 (fun _ => 0) [42] (by decide)
  exact ⟨claim_c10.1 [42] 35 10
    (fun a => ((shuffleGenerator (fun _ => 0) a).steps,
      (shuffleGenerator (fun _ => 0) a).arr)) h2.1, h2.1, h2.2⟩

/-! ## Claim C2: drain cap and final settle presentation -/

theorem animateSort_final_fields (arr : List Int) (fd iv : ℚ)
    (gen : List Int → List Step × List Int) (r : AnimateResult)
    (h : animateSort arr fd iv gen = some r) :
    r.finalDraw = ⟨some (finalArrayAfterDrain (gen arr).2 (gen arr).1), []⟩ ∧
      r.returned = finalArrayAfterDrain (gen arr).2 (gen arr).1 := by
  simp only [animateSort] at h
  rcases hopt : presentLoop (numStepsPerFrame fd iv) (drainQueue (gen arr).1).length
      (drainQueue (gen arr).1) with _ | frames
  · rw [hopt] at h
    simp at h
  · rw [hopt] at h
    simp only [Option.map_some'] at h
    injection h with h'
    subst h'
    exact ⟨rfl, rfl⟩

theorem animateSort_char (arr : List Int) (fd iv : ℚ)
    (gen : List Int → List Step × List Int)
    (hk : 1 ≤ numStepsPerFrame fd iv) :
    animateSort arr fd iv gen = some
      { drawCalls := ((chunksOf (numStepsPerFrame fd iv).toNat
            (drainQueue (gen arr).1)).map buildFrame).map Prod.fst
        beepCalls := ((chunksOf (numStepsPerFrame fd iv).toNat
            (drainQueue (gen arr).1)).map buildFrame).map Prod.snd
        finalDraw := ⟨some (finalArrayAfterDrain (gen arr).2 (gen arr).1), []⟩
        returned := finalArrayAfterDrain (gen arr).2 (gen arr).1 } := by
  simp only [animateSort]
  rw [presentLoop_eq_chunksMap _ hk _ _ le_rfl]
  rfl

theorem getLastD_replicate (n : Nat) (a d : α) :
    (List.replicate (n + 1) a).getLastD d = a := by
  rw [List.replicate_succ', List.getLastD_concat]

theorem finalArrayAfterDrain_nil (genArr : List Int) :
    finalArrayAfterDrain genArr [] = genArr := rfl

theorem finalArrayAfterDrain_settled (genArr : List Int) (steps : List Step)
    (hlen : steps.length ≤ 80000)
    (hlast : steps.getLast?.map Step.array = some genArr) :
    finalArrayAfterDrain genArr steps = genArr := by
  unfold finalArrayAfterDrain
  rw [List.take_of_length_le hlen, List.getLastD_eq_getLast?, List.getLast?_map,
    hlast]
  rfl

/-- C2 counterexample: a generator yielding 80001 steps, finishing with
live array `[1]` (also its last snapshot); the drain truncates after the
80000th step, whose array `[0]` differs from the settled array `[1]`; the
final presentation and the returned array are `[0]`, not the generator's
true final array. -/
theorem claim_c2_counterexample :
    (List.replicate 80000 ({array := [0]} : Step) ++ [({array := [1]} : Step)]).length = 80001 ∧
    (List.replicate 80000 ({array := [0]} : Step)
        ++ [({array := [1]} : Step)]).getLast?.map Step.array = some [1] ∧
    finalArrayAfterDrain [1]
        (List.replicate 80000 ({array := [0]} : Step) ++ [({array := [1]} : Step)]) = [0] ∧
    (animateSort [5] 1 1 (fun _ =>
        (List.replicate 80000 ({array := [0]} : Step) ++ [({array := [1]} : Step)],
          [1]))).map
      AnimateResult.returned = some [0] := by
  have h80 : (List.replicate 80000 ({array := [0]} : Step)).length = 80000 :=
    List.length_replicate 80000 _
  have hfin : finalArrayAfterDrain [1]
      (List.replicate 80000 ({array := [0]} : Step) ++ [({array := [1]} : Step)]) = [0] := by
    unfold finalArrayAfterDrain
    rw [List.take_append_of_le_length (le_of_eq h80.symm),
      List.take_of_length_le (le_of_eq h80), List.map_replicate]
    exact getLastD_replicate 79999 _ _
  refine ⟨?_, ?_, hfin, ?_⟩
  · rw [List.length_append, h80]
    rfl
  · rw [List.getLast?_concat]
    rfl
  · rw [animateSort_char [5] 1 1 _ (by norm_num [numStepsPerFrame])]
    simp only [Option.map_some']
    exact congrArg some hfin

/-- C2 (amended): the drain phase processes at most 80000 steps; after the
queue empties `animateSort` performs one final unconditional highlight-free
presentation of — and returns — the local `finalArray`: the array of the
**last drained step**, or, when nothing was drained, the live array as the
completed generator left it (possibly mutated in place).  This equals the
generator's fully-settled final array whenever it yields at most 80000
steps and its last yielded step (if any) snapshots that final array — as
every generator in this program does — but under safety-valve truncation
it is the 80000th step's array, not the generator's true final array. -/
theorem claim_c2 :
    (∀ (arr : List Int) (fd iv : ℚ) (gen : List Int → List Step × List Int)
      (r : AnimateResult), animateSort arr fd iv gen = some r →
        r.finalDraw = ⟨some (finalArrayAfterDrain (gen arr).2 (gen arr).1), []⟩ ∧
        r.returned = finalArrayAfterDrain (gen arr).2 (gen arr).1) ∧
    (∀ steps : List Step, drainQueue steps = (steps.take 80000).map queueItemOfStep) ∧
    (∀ genArr : List Int, finalArrayAfterDrain genArr [] = genArr) ∧
    (∀ (genArr : List Int) (steps : List Step), steps.length ≤ 80000 →
      steps.getLast?.map Step.array = some genArr →
      finalArrayAfterDrain genArr steps = genArr) :=
  ⟨animateSort_final_fields, fun _ => rfl, finalArrayAfterDrain_nil,
    finalArrayAfterDrain_settled⟩

/-- Witness for C2 on a one-step generator that mutates the live array to
`[3]` and snapshots it. -/
theorem claim_c2_witness :
    (animateSort [9] 35 10 (fun _ => ([({array := [3]} : Step)], [3]))).map
        AnimateResult.returned
      = some (finalArrayAfterDrain [3] [({array := [3]} : Step)]) ∧
    finalArrayAfterDrain [3] [({array := [3]} : Step)] = [3] := by
  have hchar := animateSort_char [9] 35 10 (fun _ => ([({array := [3]} : Step)], [3]))
    (by norm_num [numStepsPerFrame, Int.le_ceil_iff])
  have h1 := (claim_c2.1 [9] 35 10 (fun _ => ([({array := [3]} : Step)], [3])) _ hchar).2
  constructor
  · rw [hchar, Option.map_some', h1]
  · exact claim_c2.2.2.2 [3] [({array := [3]} : Step)] (by norm_num) (by decide)

/-! ## Claim C5: merge sort's consolidated swap step -/

theorem mergeCmp_swaps (arr : List Int) (mid right : Nat) (yc : Bool) :
    ∀ (fuel : Nat) (i j : Nat) (st : Stats) (merged : List Int),
      (mergeCmp arr mid right yc fuel i j st merged).2.2.2.1.swaps = st.swaps := by
  intro fuel
  induction fuel with
  | zero => intro i j st merged; rfl
  | succ f ih =>
    intro i j st merged
    simp only [mergeCmp]
    split
    · split
      · exact ih _ _ _ _
      · exact ih _ _ _ _
    · rfl

theorem mergeCmp_steps_swapped (arr : List Int) (mid right : Nat) (yc : Bool) :
    ∀ (fuel : Nat) (i j : Nat) (st : Stats) (merged : List Int),
      ∀ s ∈ (mergeCmp arr mid right yc fuel i j st merged).1, s.swappedIndexes = [] := by
  intro fuel
  induction fuel with
  | zero => intro i j st merged s hs; simp [mergeCmp] at hs
  | succ f ih =>
    intro i j st merged s hs
    simp only [mergeCmp] at hs
    split at hs
    · split at hs <;>
      · rcases List.mem_append.mp hs with h | h
        · cases yc <;> simp [emitIf] at h
          · rw [h]; rfl
        · exact ih _ _ _ _ _ h
    · simp at hs

/-- C5 counterexample: merging halves `[3,1]` and `[2,4]` (range values
`[3,1,2,4]`) does not yield `[1,2,3,4]` — the merge produces `[2,3,1,4]`
— and the consolidated `swappedIndexes` are `[0,1,2]`, not `[0,1,2,3]`. -/
theorem claim_c5_counterexample :
    (merge [3, 1, 2, 4] 0 1 3 true ⟨0, 0⟩).2.1 = [2, 3, 1, 4] ∧
    (merge [3, 1, 2, 4] 0 1 3 true ⟨0, 0⟩).2.1 ≠ [1, 2, 3, 4] ∧
    ((merge [3, 1, 2, 4] 0 1 3 true ⟨0, 0⟩).1.getLast?).map Step.swappedIndexes
      = some [0, 1, 2] ∧
    some [0, 1, 2] ≠ some ([0, 1, 2, 3] : List Nat) := by
  decide

/-- C5 (amended): for every merge range, the consolidated mutation step
emitted after the merge (present exactly when some position changed) lists
as `swappedIndexes` exactly the positions of the range whose value differs
from the pre-merge snapshot, and `swaps` increments by their number; in
particular merging `[3,1]` and `[2,4]` (range values `[3,1,2,4]`) yields
final range `[2,3,1,4]` with consolidated `swappedIndexes` `[0,1,2]`. -/
theorem claim_c5 :
    (∀ (arr : List Int) (left mid right : Nat) (st : Stats),
      (merge arr left mid right true st).2.2.swaps
          = st.swaps
            + (changedIndexes arr (merge arr left mid right true st).2.1 left right).length ∧
      (changedIndexes arr (merge arr left mid right true st).2.1 left right ≠ [] →
        ∃ pre, (merge arr left mid right true st).1
            = pre ++ [mkStep (merge arr left mid right true st).2.1
                (changedIndexes arr (merge arr left mid right true st).2.1 left right) []
                (merge arr left mid right true st).2.2] ∧
          ∀ s ∈ pre, s.swappedIndexes = []) ∧
      (changedIndexes arr (merge arr left mid right true st).2.1 left right = [] →
        ∀ s ∈ (merge arr left mid right true st).1, s.swappedIndexes = [])) ∧
    (merge [3, 1, 2, 4] 0 1 3 true ⟨0, 0⟩).2.1 = [2, 3, 1, 4] ∧
    ((merge [3, 1, 2, 4] 0 1 3 true ⟨0, 0⟩).1.getLast?).map Step.swappedIndexes
      = some [0, 1, 2] := by
  refine ⟨?_, by decide, by decide⟩
  intro arr left mid right st
  have hsw := mergeCmp_swaps arr mid right true (mid + right + 2) left (mid + 1) st []
  have hst := mergeCmp_steps_swapped arr mid right true (mid + right + 2) left (mid + 1) st []
  simp only [merge]
  split
  · next hcond =>
    refine ⟨by simp [hsw], fun _ => ⟨_, rfl, hst⟩, fun h0 => absurd h0 hcond.2⟩
  · next hcond =>
    have hch := not_not.mp (fun hne => hcond ⟨trivial, hne⟩)
    refine ⟨?_, fun hne => absurd hch hne, fun _ => hst⟩
    have hch2 := hch
    simp only [List.append_assoc] at hch2
    simp [hsw, hch2]

/-- Witness for C5's quantified part at the concrete merge of `[3,1,2,4]`. -/
theorem claim_c5_witness :
    (merge [3, 1, 2, 4] 0 1 3 true ⟨0, 0⟩).2.2.swaps
        = 0 + (changedIndexes [3, 1, 2, 4]
            (merge [3, 1, 2, 4] 0 1 3 true ⟨0, 0⟩).2.1 0 3).length ∧
    ∃ pre, (merge [3, 1, 2, 4] 0 1 3 true ⟨0, 0⟩).1
        = pre ++ [mkStep (merge [3, 1, 2, 4] 0 1 3 true ⟨0, 0⟩).2.1
            (changedIndexes [3, 1, 2, 4]
              (merge [3, 1, 2, 4] 0 1 3 true ⟨0, 0⟩).2.1 0 3) []
            (merge [3, 1, 2, 4] 0 1 3 true ⟨0, 0⟩).2.2] ∧
          ∀ s ∈ pre, s.swappedIndexes = [] := by
  have h := claim_c5.1 [3, 1, 2, 4] 0 1 3 ⟨0, 0⟩
  exact ⟨h.1, h.2.1 (by decide)⟩

/-! ## Claim C6: at most one (terminal) step with both highlight sets empty -/

theorem mem_emitIf {b : Bool} {s x : Step} (h : x ∈ emitIf b s) : x = s := by
  cases b <;> simp [emitIf] at h
  exact h

theorem emitIf_length (b : Bool) (s : Step) : (emitIf b s).length ≤ 1 := by
  cases b <;> simp [emitIf]

theorem bothEmpty_mkStep_cmp (arr : List Int) (sw : List Nat) (a : Nat) (l : List Nat)
    (st : Stats) : (mkStep arr sw (a :: l) st).bothEmpty = false := by
  simp [mkStep, Step.bothEmpty]

theorem bothEmpty_mkStep_sw (arr : List Int) (a : Nat) (l : List Nat) (cm : List Nat)
    (st : Stats) : (mkStep arr (a :: l) cm st).bothEmpty = false := by
  simp [mkStep, Step.bothEmpty]

theorem all_dropLast_of_all_append (l t : List Step)
    (hl : ∀ s ∈ l, Step.bothEmpty s = false) (ht : t.length ≤ 1) :
    ∀ s ∈ (l ++ t).dropLast, Step.bothEmpty s = false := by
  match t, ht with
  | [], _ =>
    intro s hs
    rw [List.append_nil] at hs
    exact hl s ((List.dropLast_sublist l).subset hs)
  | [x], _ =>
    intro s hs
    rw [List.dropLast_concat] at hs
    exact hl s hs

theorem countP_bothEmpty_le_one (l : List Step)
    (h : ∀ s ∈ l.dropLast, Step.bothEmpty s = false) :
    l.countP Step.bothEmpty ≤ 1 := by
  induction l with
  | nil => simp
  | cons x xs ih =>
    cases xs with
    | nil =>
      rw [List.countP_cons, List.countP_nil]
      split <;> omega
    | cons y ys =>
      have hx : Step.bothEmpty x = false := h x (by
        rw [List.dropLast_cons₂]
        exact List.mem_cons_self x _)
      have hrec := ih fun s hs => h s (by
        rw [List.dropLast_cons₂]
        exact List.mem_cons_of_mem x hs)
      rw [List.countP_cons, hx]
      simpa using hrec

/-- C6 counterexample: quickSort emits one empty "heartbeat" step per
recursion frame (three on `[1,0]`), insertion and binary-insertion sort
emit empty-highlight placement steps before any shift has happened, and
LSD radix sort emits nine both-empty bucket-accounting steps per pass —
all in addition to, or instead of, a single terminal settled step. -/
theorem claim_c6_counterexample :
    (quickSort [1, 0] true).steps.countP Step.bothEmpty = 3 ∧
    (insertionSort [0, 1] true).steps.countP Step.bothEmpty = 2 ∧
    (binaryInsertionSort [0, 1] true).steps.countP Step.bothEmpty = 2 ∧
    (lsdRadixSort [1, 0] true).steps.countP Step.bothEmpty = 10 ∧
    ¬ (quickSort [1, 0] true).steps.countP Step.bothEmpty ≤ 1 := by
  decide

theorem shuffleGo_nonempty (rand : Nat → Nat) :
    ∀ (n : Nat) (arr : List Int), ∀ s ∈ (shuffleGo rand arr n).1, s.bothEmpty = false := by
  intro n
  induction n with
  | zero => intro arr s hs; simp [shuffleGo] at hs
  | succ m ih =>
    intro arr s hs
    simp only [shuffleGo, List.mem_cons] at hs
    rcases hs with rfl | hs
    · rfl
    · exact ih _ s hs

theorem mergeCmp_nonempty (arr : List Int) (mid right : Nat) (yc : Bool) :
    ∀ (fuel i j : Nat) (st : Stats) (merged : List Int),
      ∀ s ∈ (mergeCmp arr mid right yc fuel i j st merged).1, s.bothEmpty = false := by
  intro fuel
  induction fuel with
  | zero => intro i j st merged s hs; simp [mergeCmp] at hs
  | succ f ih =>
    intro i j st merged s hs
    simp only [mergeCmp] at hs
    split at hs
    · split at hs <;>
      · rcases List.mem_append.mp hs with h | h
        · rw [mem_emitIf h]; exact bothEmpty_mkStep_cmp _ _ _ _ _
        · exact ih _ _ _ _ s h
    · simp at hs

theorem merge_nonempty (arr : List Int) (left mid right : Nat) (yc : Bool) (st : Stats) :
    ∀ s ∈ (merge arr left mid right yc st).1, s.bothEmpty = false := by
  intro s hs
  simp only [merge] at hs
  split at hs
  · next hcond =>
    rcases List.mem_append.mp hs with h | h
    · exact mergeCmp_nonempty arr mid right yc _ _ _ _ _ s h
    · simp only [List.mem_singleton] at h
      subst h
      rcases hx : changedIndexes arr _ left right with _ | ⟨a, l⟩
      · exact absurd hx hcond.2
      · exact bothEmpty_mkStep_sw _ _ _ _ _
  · exact mergeCmp_nonempty arr mid right yc _ _ _ _ _ s hs

theorem mergeSortRec_nonempty (yc : Bool) :
    ∀ (fuel : Nat) (arr : List Int) (left right : Nat) (st : Stats),
      ∀ s ∈ (mergeSortRec yc fuel arr left right st).steps, s.bothEmpty = false := by
  intro fuel
  induction fuel with
  | zero => intro arr left right st s hs; simp [mergeSortRec] at hs
  | succ f ih =>
    intro arr left right st s hs
    simp only [mergeSortRec] at hs
    split at hs
    · split at hs
      · split at hs
        · simp only [List.append_assoc, List.mem_append] at hs
          rcases hs with h | h | h
          · exact ih _ _ _ _ s h
          · exact ih _ _ _ _ s h
          · exact merge_nonempty _ _ _ _ _ _ s h
        · simp only [List.mem_append] at hs
          rcases hs with h | h
          · exact ih _ _ _ _ s h
          · exact ih _ _ _ _ s h
      · exact ih _ _ _ _ s hs
    · simp at hs

theorem selFind_nonempty (arr : List Int) (i : Nat) (yc : Bool) (prev : List Nat) :
    ∀ (c j minIndex : Nat) (st : Stats),
      ∀ s ∈ (selFind arr i yc prev c j minIndex st).1, s.bothEmpty = false := by
  intro c
  induction c with
  | zero => intro j m st s hs; simp [selFind] at hs
  | succ c ih =>
    intro j m st s hs
    simp only [selFind] at hs
    rcases List.mem_append.mp hs with h | h
    · rw [mem_emitIf h]; exact bothEmpty_mkStep_cmp _ _ _ _ _
    · exact ih _ _ _ s h

theorem selOuter_nonempty (yc : Bool) (n : Nat) :
    ∀ (c i : Nat) (arr : List Int) (prev : List Nat) (st : Stats),
      ∀ s ∈ (selOuter yc n c i arr prev st).1, s.bothEmpty = false := by
  intro c
  induction c with
  | zero => intro i arr prev st s hs; simp [selOuter] at hs
  | succ c ih =>
    intro i arr prev st s hs
    simp only [selOuter] at hs
    split at hs
    · simp only [List.append_assoc, List.mem_append, List.mem_singleton] at hs
      rcases hs with h | h | h
      · exact selFind_nonempty _ _ _ _ _ _ _ _ s h
      · subst h; exact bothEmpty_mkStep_sw _ _ _ _ _
      · exact ih _ _ _ _ s h
    · rcases List.mem_append.mp hs with h | h
      · exact selFind_nonempty _ _ _ _ _ _ _ _ s h
      · exact ih _ _ _ _ s h

theorem bubblePass_nonempty (yc : Bool) :
    ∀ (c j : Nat) (arr : List Int) (sw : Bool) (st : Stats),
      ∀ s ∈ (bubblePass yc c j arr sw st).1, s.bothEmpty = false := by
  intro c
  induction c with
  | zero => intro j arr sw st s hs; simp [bubblePass] at hs
  | succ c ih =>
    intro j arr sw st s hs
    simp only [bubblePass] at hs
    split at hs
    · simp only [List.append_assoc, List.mem_append] at hs
      rcases hs with h | h | h
      · rw [mem_emitIf h]; exact bothEmpty_mkStep_cmp _ _ _ _ _
      · rw [mem_emitIf h]; exact bothEmpty_mkStep_sw _ _ _ _ _
      · exact ih _ _ _ _ s h
    · rcases List.mem_append.mp hs with h | h
      · rw [mem_emitIf h]; exact bothEmpty_mkStep_cmp _ _ _ _ _
      · exact ih _ _ _ _ s h

theorem bubbleOuter_nonempty (yc : Bool) (n : Nat) :
    ∀ (c i : Nat) (arr : List Int) (st : Stats),
      ∀ s ∈ (bubbleOuter yc n c i arr st).1, s.bothEmpty = false := by
  intro c
  induction c with
  | zero => intro i arr st s hs; simp [bubbleOuter] at hs
  | succ c ih =>
    intro i arr st s hs
    simp only [bubbleOuter] at hs
    split at hs
    · rcases List.mem_append.mp hs with h | h
      · exact bubblePass_nonempty _ _ _ _ _ _ s h
      · exact ih _ _ _ s h
    · exact bubblePass_nonempty _ _ _ _ _ _ s hs

theorem cocktailFwd_nonempty (yc : Bool) :
    ∀ (c i : Nat) (arr : List Int) (sw : Bool) (st : Stats),
      ∀ s ∈ (cocktailFwd yc c i arr sw st).1, s.bothEmpty = false := by
  intro c
  induction c with
  | zero => intro i arr sw st s hs; simp [cocktailFwd] at hs
  | succ c ih =>
    intro i arr sw st s hs
    simp only [cocktailFwd] at hs
    split at hs
    · simp only [List.append_assoc, List.mem_append] at hs
      rcases hs with h | h | h
      · rw [mem_emitIf h]; exact bothEmpty_mkStep_cmp _ _ _ _ _
      · rw [mem_emitIf h]; exact bothEmpty_mkStep_sw _ _ _ _ _
      · exact ih _ _ _ _ s h
    · rcases List.mem_append.mp hs with h | h
      · rw [mem_emitIf h]; exact bothEmpty_mkStep_cmp _ _ _ _ _
      · exact ih _ _ _ _ s h

theorem cocktailBwd_nonempty (yc : Bool) :
    ∀ (c i : Nat) (arr : List Int) (sw : Bool) (st : Stats),
      ∀ s ∈ (cocktailBwd yc c i arr sw st).1, s.bothEmpty = false := by
  intro c
  induction c with
  | zero => intro i arr sw st s hs; simp [cocktailBwd] at hs
  | succ c ih =>
    intro i arr sw st s hs
    simp only [cocktailBwd] at hs
    split at hs
    · simp only [List.append_assoc, List.mem_append] at hs
      rcases hs with h | h | h
      · rw [mem_emitIf h]; exact bothEmpty_mkStep_cmp _ _ _ _ _
      · rw [mem_emitIf h]; exact bothEmpty_mkStep_sw _ _ _ _ _
      · exact ih _ _ _ _ s h
    · rcases List.mem_append.mp hs with h | h
      · rw [mem_emitIf h]; exact bothEmpty_mkStep_cmp _ _ _ _ _
      · exact ih _ _ _ _ s h

theorem cocktailLoop_nonempty (yc : Bool) :
    ∀ (fuel start e : Nat) (arr : List Int) (st : Stats),
      ∀ s ∈ (cocktailLoop yc fuel start e arr st).steps, s.bothEmpty = false := by
  intro fuel
  induction fuel with
  | zero => intro start e arr st s hs; simp [cocktailLoop] at hs
  | succ f ih =>
    intro start e arr st s hs
    simp only [cocktailLoop] at hs
    split at hs
    · split at hs
      · split at hs
        · simp only [List.append_assoc, List.mem_append] at hs
          rcases hs with h | h | h
          · exact cocktailFwd_nonempty _ _ _ _ _ _ s h
          · exact cocktailBwd_nonempty _ _ _ _ _ _ s h
          · exact ih _ _ _ _ s h
        · rcases List.mem_append.mp hs with h | h
          · exact cocktailFwd_nonempty _ _ _ _ _ _ s h
          · exact cocktailBwd_nonempty _ _ _ _ _ _ s h
      · exact cocktailFwd_nonempty _ _ _ _ _ _ s hs
    · simp at hs

theorem gnomeLoop_nonempty (yc : Bool) :
    ∀ (fuel idx : Nat) (arr : List (Option Int)) (st : Stats),
      ∀ s ∈ (gnomeLoop yc fuel idx arr st).1, s.bothEmpty = false := by
  intro fuel
  induction fuel with
  | zero => intro idx arr st s hs; simp [gnomeLoop] at hs
  | succ f ih =>
    intro idx arr st s hs
    simp only [gnomeLoop] at hs
    repeat' split at hs
    all_goals try simp only [List.append_assoc, List.nil_append, List.append_nil,
      List.mem_append, List.mem_singleton, List.not_mem_nil, false_or, or_false] at hs
    all_goals try repeat' rcases hs with hs | hs
    all_goals
      first
      | (rw [mem_emitIf hs]; rfl)
      | exact ih _ _ _ s hs

theorem combPass_nonempty (yc : Bool) (gap : Nat) :
    ∀ (c i : Nat) (arr : List Int) (srt : Bool) (st : Stats),
      ∀ s ∈ (combPass yc gap c i arr srt st).1, s.bothEmpty = false := by
  intro c
  induction c with
  | zero => intro i arr srt st s hs; simp [combPass] at hs
  | succ c ih =>
    intro i arr srt st s hs
    simp only [combPass] at hs
    split at hs
    · simp only [List.append_assoc, List.mem_append] at hs
      rcases hs with h | h | h
      · rw [mem_emitIf h]; exact bothEmpty_mkStep_cmp _ _ _ _ _
      · rw [mem_emitIf h]; exact bothEmpty_mkStep_sw _ _ _ _ _
      · exact ih _ _ _ _ s h
    · rcases List.mem_append.mp hs with h | h
      · rw [mem_emitIf h]; exact bothEmpty_mkStep_cmp _ _ _ _ _
      · exact ih _ _ _ _ s h

theorem combLoop_nonempty (yc : Bool) (n : Nat) :
    ∀ (fuel gap : Nat) (srt : Bool) (arr : List Int) (st : Stats),
      ∀ s ∈ (combLoop yc n fuel gap srt arr st).1, s.bothEmpty = false := by
  intro fuel
  induction fuel with
  | zero => intro gap srt arr st s hs; simp [combLoop] at hs
  | succ f ih =>
    intro gap srt arr st s hs
    simp only [combLoop] at hs
    split at hs
    · simp at hs
    · rcases List.mem_append.mp hs with h | h
      · exact combPass_nonempty _ _ _ _ _ _ _ s h
      · exact ih _ _ _ _ s h

theorem shellInner_nonempty (yc : Bool) (gap : Nat) (temp : Int) :
    ∀ (fuel j : Nat) (arr : List Int) (st : Stats),
      ∀ s ∈ (shellInner yc gap temp fuel j arr st).1, s.bothEmpty = false := by
  intro fuel
  induction fuel with
  | zero => intro j arr st s hs; simp [shellInner] at hs
  | succ f ih =>
    intro j arr st s hs
    simp only [shellInner] at hs
    split at hs
    · simp only [List.append_assoc, List.mem_append] at hs
      rcases hs with h | h | h
      · rw [mem_emitIf h]; exact bothEmpty_mkStep_cmp _ _ _ _ _
      · rw [mem_emitIf h]; exact bothEmpty_mkStep_sw _ _ _ _ _
      · exact ih _ _ _ s h
    · simp at hs

theorem shellMid_nonempty (yc : Bool) (gap : Nat) :
    ∀ (c i : Nat) (arr : List Int) (st : Stats),
      ∀ s ∈ (shellMid yc gap c i arr st).1, s.bothEmpty = false := by
  intro c
  induction c with
  | zero => intro i arr st s hs; simp [shellMid] at hs
  | succ c ih =>
    intro i arr st s hs
    simp only [shellMid] at hs
    simp only [List.append_assoc, List.mem_append] at hs
    rcases hs with h | h | h
    · exact shellInner_nonempty _ _ _ _ _ _ _ s h
    · split at h
      · simp only [List.mem_singleton] at h
        subst h
        exact bothEmpty_mkStep_sw _ _ _ _ _
      · simp at h
    · exact ih _ _ _ s h

theorem shellLoop_nonempty (yc : Bool) (n : Nat) :
    ∀ (fuel gap : Nat) (arr : List Int) (st : Stats),
      ∀ s ∈ (shellLoop yc n fuel gap arr st).1, s.bothEmpty = false := by
  intro fuel
  induction fuel with
  | zero => intro gap arr st s hs; simp [shellLoop] at hs
  | succ f ih =>
    intro gap arr st s hs
    simp only [shellLoop] at hs
    split at hs
    · rcases List.mem_append.mp hs with h | h
      · exact shellMid_nonempty _ _ _ _ _ _ s h
      · exact ih _ _ _ s h
    · simp at hs

theorem heapify_nonempty (yc : Bool) (n : Nat) :
    ∀ (fuel i : Nat) (arr : List Int) (st : Stats),
      ∀ s ∈ (heapify yc n fuel i arr st).1, s.bothEmpty = false := by
  intro fuel
  induction fuel with
  | zero => intro i arr st s hs; simp [heapify] at hs
  | succ f ih =>
    intro i arr st s hs
    simp only [heapify] at hs
    repeat' split at hs
    all_goals try simp only [List.append_assoc, List.nil_append, List.append_nil,
      List.mem_append, List.mem_singleton, List.not_mem_nil, false_or, or_false] at hs
    all_goals try repeat' rcases hs with hs | hs
    all_goals
      first
      | (rw [mem_emitIf hs]; exact bothEmpty_mkStep_cmp _ _ _ _ _)
      | (rw [mem_emitIf hs]; exact bothEmpty_mkStep_sw _ _ _ _ _)
      | exact ih _ _ _ s hs

theorem heapBuild_nonempty (yc : Bool) (n : Nat) :
    ∀ (c i : Nat) (arr : List Int) (st : Stats),
      ∀ s ∈ (heapBuild yc n c i arr st).1, s.bothEmpty = false := by
  intro c
  induction c with
  | zero => intro i arr st s hs; simp [heapBuild] at hs
  | succ c ih =>
    intro i arr st s hs
    simp only [heapBuild] at hs
    split at hs
    · rcases List.mem_append.mp hs with h | h
      · exact heapify_nonempty _ _ _ _ _ _ s h
      · exact ih _ _ _ s h
    · exact heapify_nonempty _ _ _ _ _ _ s hs

theorem heapExtract_nonempty (yc : Bool) :
    ∀ (c i : Nat) (arr : List Int) (st : Stats),
      ∀ s ∈ (heapExtract yc c i arr st).1, s.bothEmpty = false := by
  intro c
  induction c with
  | zero => intro i arr st s hs; simp [heapExtract] at hs
  | succ c ih =>
    intro i arr st s hs
    simp only [heapExtract] at hs
    split at hs
    · simp only [List.append_assoc, List.mem_append] at hs
      rcases hs with h | h | h
      · rw [mem_emitIf h]; exact bothEmpty_mkStep_sw _ _ _ _ _
      · exact heapify_nonempty _ _ _ _ _ _ s h
      · exact ih _ _ _ s h
    · rcases List.mem_append.mp hs with h | h
      · rw [mem_emitIf h]; exact bothEmpty_mkStep_sw _ _ _ _ _
      · exact heapify_nonempty _ _ _ _ _ _ s h

theorem oddEvenPass_nonempty (yc : Bool) :
    ∀ (c i : Nat) (arr : List Int) (srt : Bool) (st : Stats),
      ∀ s ∈ (oddEvenPass yc c i arr srt st).1, s.bothEmpty = false := by
  intro c
  induction c with
  | zero => intro i arr srt st s hs; simp [oddEvenPass] at hs
  | succ c ih =>
    intro i arr srt st s hs
    simp only [oddEvenPass] at hs
    split at hs
    · simp only [List.append_assoc, List.mem_append] at hs
      rcases hs with h | h | h
      · rw [mem_emitIf h]; exact bothEmpty_mkStep_cmp _ _ _ _ _
      · rw [mem_emitIf h]; exact bothEmpty_mkStep_sw _ _ _ _ _
      · exact ih _ _ _ _ s h
    · rcases List.mem_append.mp hs with h | h
      · rw [mem_emitIf h]; exact bothEmpty_mkStep_cmp _ _ _ _ _
      · exact ih _ _ _ _ s h

theorem oddEvenLoop_nonempty (yc : Bool) (n : Nat) :
    ∀ (fuel : Nat) (arr : List Int) (st : Stats),
      ∀ s ∈ (oddEvenLoop yc n fuel arr st).1, s.bothEmpty = false := by
  intro fuel
  induction fuel with
  | zero => intro arr st s hs; simp [oddEvenLoop] at hs
  | succ f ih =>
    intro arr st s hs
    simp only [oddEvenLoop] at hs
    split at hs
    · rcases List.mem_append.mp hs with h | h
      · exact oddEvenPass_nonempty _ _ _ _ _ _ s h
      · exact oddEvenPass_nonempty _ _ _ _ _ _ s h
    · simp only [List.append_assoc, List.mem_append] at hs
      rcases hs with h | h | h
      · exact oddEvenPass_nonempty _ _ _ _ _ _ s h
      · exact oddEvenPass_nonempty _ _ _ _ _ _ s h
      · exact ih _ _ s h

theorem bitonicCmpLoop_nonempty (yc up : Bool) (mid : Nat) :
    ∀ (c i : Nat) (arr : List Int) (st : Stats),
      ∀ s ∈ (bitonicCmpLoop yc up mid c i arr st).1, s.bothEmpty = false := by
  intro c
  induction c with
  | zero => intro i arr st s hs; simp [bitonicCmpLoop] at hs
  | succ c ih =>
    intro i arr st s hs
    simp only [bitonicCmpLoop] at hs
    split at hs
    · simp only [List.append_assoc, List.mem_append] at hs
      rcases hs with h | h | h
      · rw [mem_emitIf h]; exact bothEmpty_mkStep_cmp _ _ _ _ _
      · rw [mem_emitIf h]; exact bothEmpty_mkStep_sw _ _ _ _ _
      · exact ih _ _ _ s h
    · rcases List.mem_append.mp hs with h | h
      · rw [mem_emitIf h]; exact bothEmpty_mkStep_cmp _ _ _ _ _
      · exact ih _ _ _ s h

theorem bitonicMergeRec_nonempty (yc : Bool) :
    ∀ (fuel low cnt : Nat) (up : Bool) (arr : List Int) (st : Stats),
      ∀ s ∈ (bitonicMergeRec yc fuel low cnt up arr st).1, s.bothEmpty = false := by
  intro fuel
  induction fuel with
  | zero => intro low cnt up arr st s hs; simp [bitonicMergeRec] at hs
  | succ f ih =>
    intro low cnt up arr st s hs
    simp only [bitonicMergeRec] at hs
    split at hs
    · simp at hs
    · split at hs
      · simp only [List.append_assoc, List.mem_append] at hs
        rcases hs with h | h | h
        · exact bitonicCmpLoop_nonempty _ _ _ _ _ _ _ s h
        · exact ih _ _ _ _ _ s h
        · exact ih _ _ _ _ _ s h
      · rcases List.mem_append.mp hs with h | h
        · exact bitonicCmpLoop_nonempty _ _ _ _ _ _ _ s h
        · exact ih _ _ _ _ _ s h

theorem bitonicSortRecF_nonempty (yc : Bool) :
    ∀ (fuel low cnt : Nat) (up : Bool) (arr : List Int) (st : Stats),
      ∀ s ∈ (bitonicSortRecF yc fuel low cnt up arr st).1, s.bothEmpty = false := by
  intro fuel
  induction fuel with
  | zero => intro low cnt up arr st s hs; simp [bitonicSortRecF] at hs
  | succ f ih =>
    intro low cnt up arr st s hs
    simp only [bitonicSortRecF] at hs
    split at hs
    · simp at hs
    · split at hs
      · split at hs
        · simp only [List.append_assoc, List.mem_append] at hs
          rcases hs with h | h | h
          · exact ih _ _ _ _ _ s h
          · exact ih _ _ _ _ _ s h
          · exact bitonicMergeRec_nonempty _ _ _ _ _ _ _ s h
        · rcases List.mem_append.mp hs with h | h
          · exact ih _ _ _ _ _ s h
          · exact ih _ _ _ _ _ s h
      · exact ih _ _ _ _ _ s hs

theorem cycleCount_nonempty (arr : List Int) (item : Int) (yc : Bool) :
    ∀ (c i pos : Nat) (st : Stats),
      ∀ s ∈ (cycleCount arr item yc c i pos st).1, s.bothEmpty = false := by
  intro c
  induction c with
  | zero => intro i pos st s hs; simp [cycleCount] at hs
  | succ c ih =>
    intro i pos st s hs
    simp only [cycleCount] at hs
    rcases List.mem_append.mp hs with h | h
    · rw [mem_emitIf h]; exact bothEmpty_mkStep_cmp _ _ _ _ _
    · exact ih _ _ _ s h

theorem cycleWalk_nonempty (yc : Bool) (n cs0 : Nat) :
    ∀ (fuel pos : Nat) (item : Int) (arr : List Int) (st : Stats),
      ∀ s ∈ (cycleWalk yc n cs0 fuel pos item arr st).1, s.bothEmpty = false := by
  intro fuel
  induction fuel with
  | zero => intro pos item arr st s hs; simp [cycleWalk] at hs
  | succ f ih =>
    intro pos item arr st s hs
    simp only [cycleWalk] at hs
    split at hs
    · simp at hs
    · split at hs
      · simp only [List.append_assoc, List.mem_append] at hs
        rcases hs with h | h | h
        · exact cycleCount_nonempty _ _ _ _ _ _ _ s h
        · rw [mem_emitIf h]; exact bothEmpty_mkStep_sw _ _ _ _ _
        · exact ih _ _ _ _ s h
      · rcases List.mem_append.mp hs with h | h
        · exact cycleCount_nonempty _ _ _ _ _ _ _ s h
        · exact ih _ _ _ _ s h

theorem cycleOuter_nonempty (yc : Bool) (n : Nat) :
    ∀ (c cs0 : Nat) (arr : List Int) (st : Stats),
      ∀ s ∈ (cycleOuter yc n c cs0 arr st).1, s.bothEmpty = false := by
  intro c
  induction c with
  | zero => intro cs0 arr st s hs; simp [cycleOuter] at hs
  | succ c ih =>
    intro cs0 arr st s hs
    simp only [cycleOuter] at hs
    repeat' split at hs
    all_goals try simp only [List.append_assoc, List.nil_append, List.append_nil,
      List.mem_append, List.mem_singleton, List.not_mem_nil, false_or, or_false] at hs
    all_goals try repeat' rcases hs with hs | hs
    all_goals
      first
      | (rw [mem_emitIf hs]; exact bothEmpty_mkStep_sw _ _ _ _ _)
      | exact cycleCount_nonempty _ _ _ _ _ _ _ s hs
      | exact cycleWalk_nonempty _ _ _ _ _ _ _ _ s hs
      | exact ih _ _ _ s hs

theorem c6_pack (l : List Step) (h : ∀ s ∈ l.dropLast, Step.bothEmpty s = false) :
    (∀ s ∈ l.dropLast, s.bothEmpty = false) ∧ l.countP Step.bothEmpty ≤ 1 :=
  ⟨h, countP_bothEmpty_le_one l h⟩

theorem mergeSort_dropLast (yc : Bool) (arr : List Int) :
    ∀ s ∈ (mergeSort arr yc).steps.dropLast, s.bothEmpty = false := fun s hs =>
  mergeSortRec_nonempty yc _ _ _ _ _ s ((List.dropLast_sublist _).subset hs)

theorem selectionSort_dropLast (yc : Bool) (arr : List Int) :
    ∀ s ∈ (selectionSort arr yc).steps.dropLast, s.bothEmpty = false := by
  intro s hs
  simp only [selectionSort] at hs
  rw [List.dropLast_concat] at hs
  exact selOuter_nonempty _ _ _ _ _ _ _ s hs

theorem bubbleSort_dropLast (yc : Bool) (arr : List Int) :
    ∀ s ∈ (bubbleSort arr yc).steps.dropLast, s.bothEmpty = false := by
  intro s hs
  simp only [bubbleSort, emitIf] at hs
  repeat' split at hs
  all_goals
    first
    | (rw [List.dropLast_concat] at hs
       exact bubbleOuter_nonempty _ _ _ _ _ _ s hs)
    | (rw [List.append_nil] at hs
       exact bubbleOuter_nonempty _ _ _ _ _ _ s ((List.dropLast_sublist _).subset hs))

theorem cocktailShakerSort_dropLast (yc : Bool) (arr : List Int) :
    ∀ s ∈ (cocktailShakerSort arr yc).steps.dropLast, s.bothEmpty = false := by
  intro s hs
  simp only [cocktailShakerSort, emitIf] at hs
  repeat' split at hs
  all_goals
    first
    | (rw [List.dropLast_concat] at hs
       exact cocktailLoop_nonempty _ _ _ _ _ _ s hs)
    | (rw [List.append_nil] at hs
       exact cocktailLoop_nonempty _ _ _ _ _ _ s ((List.dropLast_sublist _).subset hs))

theorem gnomeSort_dropLast (yc : Bool) (arr : List Int) :
    ∀ s ∈ (gnomeSort arr yc).steps.dropLast, s.bothEmpty = false := by
  intro s hs
  simp only [gnomeSort, emitIf] at hs
  repeat' split at hs
  all_goals
    first
    | (rw [List.dropLast_concat] at hs
       exact gnomeLoop_nonempty _ _ _ _ _ s hs)
    | (rw [List.append_nil] at hs
       exact gnomeLoop_nonempty _ _ _ _ _ s ((List.dropLast_sublist _).subset hs))

theorem combSort_dropLast (yc : Bool) (arr : List Int) :
    ∀ s ∈ (combSort arr yc).steps.dropLast, s.bothEmpty = false := by
  intro s hs
  simp only [combSort, emitIf] at hs
  repeat' split at hs
  all_goals
    first
    | (rw [List.dropLast_concat] at hs
       exact combLoop_nonempty _ _ _ _ _ _ _ s hs)
    | (rw [List.append_nil] at hs
       exact combLoop_nonempty _ _ _ _ _ _ _ s ((List.dropLast_sublist _).subset hs))

theorem shellSort_dropLast (yc : Bool) (arr : List Int) :
    ∀ s ∈ (shellSort arr yc).steps.dropLast, s.bothEmpty = false := by
  intro s hs
  simp only [shellSort, emitIf] at hs
  repeat' split at hs
  all_goals
    first
    | (rw [List.dropLast_concat] at hs
       exact shellLoop_nonempty _ _ _ _ _ _ s hs)
    | (rw [List.append_nil] at hs
       exact shellLoop_nonempty _ _ _ _ _ _ s ((List.dropLast_sublist _).subset hs))

theorem heapSort_dropLast (yc : Bool) (arr : List Int) :
    ∀ s ∈ (heapSort arr yc).steps.dropLast, s.bothEmpty = false := by
  intro s hs
  simp only [heapSort, emitIf] at hs
  repeat' split at hs
  all_goals
    first
    | (rw [List.dropLast_concat] at hs
       rcases List.mem_append.mp hs with h | h
       · exact heapBuild_nonempty _ _ _ _ _ _ s h
       · exact heapExtract_nonempty _ _ _ _ _ s h)
    | (rw [List.append_nil] at hs
       rcases List.mem_append.mp ((List.dropLast_sublist _).subset hs) with h | h
       · exact heapBuild_nonempty _ _ _ _ _ _ s h
       · exact heapExtract_nonempty _ _ _ _ _ s h)
    | exact heapBuild_nonempty _ _ _ _ _ _ s ((List.dropLast_sublist _).subset hs)

theorem oddEvenSort_dropLast (yc : Bool) (arr : List Int) :
    ∀ s ∈ (oddEvenSort arr yc).steps.dropLast, s.bothEmpty = false := by
  intro s hs
  simp only [oddEvenSort, emitIf] at hs
  repeat' split at hs
  all_goals
    first
    | (rw [List.dropLast_concat] at hs
       exact oddEvenLoop_nonempty _ _ _ _ _ s hs)
    | (rw [List.append_nil] at hs
       exact oddEvenLoop_nonempty _ _ _ _ _ s ((List.dropLast_sublist _).subset hs))

theorem bitonicSort_dropLast (up yc : Bool) (arr : List Int) :
    ∀ s ∈ (bitonicSort arr up yc).steps.dropLast, s.bothEmpty = false := by
  intro s hs
  simp only [bitonicSort, emitIf] at hs
  repeat' split at hs
  all_goals
    first
    | (rw [List.dropLast_concat] at hs
       exact bitonicSortRecF_nonempty _ _ _ _ _ _ _ s hs)
    | (rw [List.append_nil] at hs
       exact bitonicSortRecF_nonempty _ _ _ _ _ _ _ s ((List.dropLast_sublist _).subset hs))

theorem cycleSort_dropLast (yc : Bool) (arr : List Int) :
    ∀ s ∈ (cycleSort arr yc).steps.dropLast, s.bothEmpty = false := by
  intro s hs
  simp only [cycleSort, emitIf] at hs
  repeat' split at hs
  all_goals
    first
    | (rw [List.dropLast_concat] at hs
       exact cycleOuter_nonempty _ _ _ _ _ _ s hs)
    | (rw [List.append_nil] at hs
       exact cycleOuter_nonempty _ _ _ _ _ _ s ((List.dropLast_sublist _).subset hs))

theorem shuffleGenerator_dropLast (rand : Nat → Nat) (arr : List Int) :
    ∀ s ∈ (shuffleGenerator rand arr).steps.dropLast, s.bothEmpty = false := fun s hs =>
  shuffleGo_nonempty rand _ _ s ((List.dropLast_sublist _).subset hs)

theorem accentGenerator_dropLast (arr : List Int) :
    ∀ s ∈ (accentGenerator arr).steps.dropLast, s.bothEmpty = false := by
  intro s hs
  simp only [accentGenerator] at hs
  rw [List.dropLast_concat] at hs
  obtain ⟨i, _, rfl⟩ := List.mem_map.mp hs
  rfl

/-- C6 (amended): every driver except `quickSort` (an empty heartbeat step
per recursion frame), `insertionSort` and `binaryInsertionSort` (empty
placement highlights before the first shift), and `lsdRadixSort`
(both-empty bucket-accounting steps), yields at most one step with both
`compareIndexes` and `swappedIndexes` empty, and only as its final
(terminal settled) step — for either value of `yieldCompare`. -/
theorem claim_c6 :
    (∀ (yc : Bool) (arr : List Int),
      (∀ s ∈ (mergeSort arr yc).steps.dropLast, s.bothEmpty = false) ∧
        (mergeSort arr yc).steps.countP Step.bothEmpty ≤ 1) ∧
    (∀ (yc : Bool) (arr : List Int),
      (∀ s ∈ (selectionSort arr yc).steps.dropLast, s.bothEmpty = false) ∧
        (selectionSort arr yc).steps.countP Step.bothEmpty ≤ 1) ∧
    (∀ (yc : Bool) (arr : List Int),
      (∀ s ∈ (bubbleSort arr yc).steps.dropLast, s.bothEmpty = false) ∧
        (bubbleSort arr yc).steps.countP Step.bothEmpty ≤ 1) ∧
    (∀ (yc : Bool) (arr : List Int),
      (∀ s ∈ (cocktailShakerSort arr yc).steps.dropLast, s.bothEmpty = false) ∧
        (cocktailShakerSort arr yc).steps.countP Step.bothEmpty ≤ 1) ∧
    (∀ (yc : Bool) (arr : List Int),
      (∀ s ∈ (gnomeSort arr yc).steps.dropLast, s.bothEmpty = false) ∧
        (gnomeSort arr yc).steps.countP Step.bothEmpty ≤ 1) ∧
    (∀ (yc : Bool) (arr : List Int),
      (∀ s ∈ (combSort arr yc).steps.dropLast, s.bothEmpty = false) ∧
        (combSort arr yc).steps.countP Step.bothEmpty ≤ 1) ∧
    (∀ (yc : Bool) (arr : List Int),
      (∀ s ∈ (shellSort arr yc).steps.dropLast, s.bothEmpty = false) ∧
        (shellSort arr yc).steps.countP Step.bothEmpty ≤ 1) ∧
    (∀ (yc : Bool) (arr : List Int),
      (∀ s ∈ (heapSort arr yc).steps.dropLast, s.bothEmpty = false) ∧
        (heapSort arr yc).steps.countP Step.bothEmpty ≤ 1) ∧
    (∀ (yc : Bool) (arr : List Int),
      (∀ s ∈ (oddEvenSort arr yc).steps.dropLast, s.bothEmpty = false) ∧
        (oddEvenSort arr yc).steps.countP Step.bothEmpty ≤ 1) ∧
    (∀ (up yc : Bool) (arr : List Int),
      (∀ s ∈ (bitonicSort arr up yc).steps.dropLast, s.bothEmpty = false) ∧
        (bitonicSort arr up yc).steps.countP Step.bothEmpty ≤ 1) ∧
    (∀ (yc : Bool) (arr : List Int),
      (∀ s ∈ (cycleSort arr yc).steps.dropLast, s.bothEmpty = false) ∧
        (cycleSort arr yc).steps.countP Step.bothEmpty ≤ 1) ∧
    (∀ (rand : Nat → Nat) (arr : List Int),
      (∀ s ∈ (shuffleGenerator rand arr).steps.dropLast, s.bothEmpty = false) ∧
        (shuffleGenerator rand arr).steps.countP Step.bothEmpty ≤ 1) ∧
    (∀ arr : List Int,
      (∀ s ∈ (accentGenerator arr).steps.dropLast, s.bothEmpty = false) ∧
        (accentGenerator arr).steps.countP Step.bothEmpty ≤ 1) :=
  ⟨fun yc arr => c6_pack _ (mergeSort_dropLast yc arr),
   fun yc arr => c6_pack _ (selectionSort_dropLast yc arr),
   fun yc arr => c6_pack _ (bubbleSort_dropLast yc arr),
   fun yc arr => c6_pack _ (cocktailShakerSort_dropLast yc arr),
   fun yc arr => c6_pack _ (gnomeSort_dropLast yc arr),
   fun yc arr => c6_pack _ (combSort_dropLast yc arr),
   fun yc arr => c6_pack _ (shellSort_dropLast yc arr),
   fun yc arr => c6_pack _ (heapSort_dropLast yc arr),
   fun yc arr => c6_pack _ (oddEvenSort_dropLast yc arr),
   fun up yc arr => c6_pack _ (bitonicSort_dropLast up yc arr),
   fun yc arr => c6_pack _ (cycleSort_dropLast yc arr),
   fun rand arr => c6_pack _ (shuffleGenerator_dropLast rand arr),
   fun arr => c6_pack _ (accentGenerator_dropLast arr)⟩

/-! ## Flag independence: everything except the yielded steps is the same
under `yieldCompare = true` and `false` (merge sort's `swaps` counter is
the lone exception, handled separately). -/

theorem selFind_flag (arr : List Int) (i : Nat) (prev : List Nat) :
    ∀ (c j m : Nat) (st : Stats),
      (selFind arr i true prev c j m st).2 = (selFind arr i false prev c j m st).2 := by
  intro c
  induction c with
  | zero => intro j m st; rfl
  | succ c ih => intro j m st; simp only [selFind]; exact ih _ _ _

theorem selOuter_flag (n : Nat) :
    ∀ (c i : Nat) (arr : List Int) (prev : List Nat) (st : Stats),
      (selOuter true n c i arr prev st).2 = (selOuter false n c i arr prev st).2 := by
  intro c
  induction c with
  | zero => intro i arr prev st; rfl
  | succ c ih =>
    intro i arr prev st
    simp only [selOuter, selFind_flag]
    split <;> exact ih _ _ _ _

theorem insInner_flag (key : Int) :
    ∀ (jp1 : Nat) (arr : List Int) (prev : List Nat) (st : Stats),
      (insInner key true jp1 arr prev st).2 = (insInner key false jp1 arr prev st).2 := by
  intro jp1
  induction jp1 with
  | zero => intro arr prev st; rfl
  | succ j ih =>
    intro arr prev st
    simp only [insInner]
    split
    · exact ih _ _ _
    · rfl

theorem insOuter_flag :
    ∀ (c i : Nat) (arr : List Int) (prev : List Nat) (st : Stats),
      (insOuter true c i arr prev st).2 = (insOuter false c i arr prev st).2 := by
  intro c
  induction c with
  | zero => intro i arr prev st; rfl
  | succ c ih =>
    intro i arr prev st
    simp only [insOuter, insInner_flag]
    exact ih _ _ _ _

theorem binSearch_flag (arr : List Int) (key : Int) (i : Nat) (prev : List Nat) :
    ∀ (fuel : Nat) (left right : ℤ) (ins : Nat) (st : Stats),
      (binSearch arr key i true prev fuel left right ins st).2
        = (binSearch arr key i false prev fuel left right ins st).2 := by
  intro fuel
  induction fuel with
  | zero => intro left right ins st; rfl
  | succ f ih =>
    intro left right ins st
    simp only [binSearch]
    repeat' split
    · exact ih _ _ _ _
    · exact ih _ _ _ _
    · rfl

theorem binOuter_flag :
    ∀ (c i : Nat) (arr : List Int) (prev : List Nat) (st : Stats),
      (binOuter true c i arr prev st).2 = (binOuter false c i arr prev st).2 := by
  intro c
  induction c with
  | zero => intro i arr prev st; rfl
  | succ c ih =>
    intro i arr prev st
    simp only [binOuter, binSearch_flag]
    exact ih _ _ _ _

theorem partLoop_flag (pivot : Int) (high : Nat) :
    ∀ (c j : Nat) (i : ℤ) (arr : List Int) (st : Stats),
      (partLoop pivot high true c j i arr st).2 = (partLoop pivot high false c j i arr st).2 := by
  intro c
  induction c with
  | zero => intro j i arr st; rfl
  | succ c ih =>
    intro j i arr st
    simp only [partLoop]
    split <;> exact ih _ _ _ _

theorem partition_flag (arr : List Int) (low high : Nat) (st : Stats) :
    (partition arr low high true st).2 = (partition arr low high false st).2 := by
  simp only [partition, partLoop_flag]

theorem quickRec_flag :
    ∀ (fuel : Nat) (arr : List Int) (low high : ℤ) (st : Stats),
      ((quickRec true fuel arr low high st).arr, (quickRec true fuel arr low high st).stats,
          (quickRec true fuel arr low high st).done)
        = ((quickRec false fuel arr low high st).arr, (quickRec false fuel arr low high st).stats,
          (quickRec false fuel arr low high st).done) := by
  intro fuel
  induction fuel with
  | zero => intro arr low high st; rfl
  | succ f ih =>
    intro arr low high st
    simp only [quickRec, partition_flag]
    split
    · have h1 := ih (partition arr low.toNat high.toNat false st).2.2.1 low
        ((partition arr low.toNat high.toNat false st).2.1 - 1)
        (partition arr low.toNat high.toNat false st).2.2.2
      rcases hq1 : quickRec true f (partition arr low.toNat high.toNat false st).2.2.1 low
          ((partition arr low.toNat high.toNat false st).2.1 - 1)
          (partition arr low.toNat high.toNat false st).2.2.2 with ⟨s1, a1, t1, d1⟩
      rcases hq2 : quickRec false f (partition arr low.toNat high.toNat false st).2.2.1 low
          ((partition arr low.toNat high.toNat false st).2.1 - 1)
          (partition arr low.toNat high.toNat false st).2.2.2 with ⟨s2, a2, t2, d2⟩
      rw [hq1, hq2] at h1
      simp only [Prod.mk.injEq] at h1
      obtain ⟨ha, ht, hd⟩ := h1
      rw [← ha, ← ht, ← hd]
      dsimp only
      split
      · have h2 := ih a1 ((partition arr low.toNat high.toNat false st).2.1 + 1) high t1
        rcases hq3 : quickRec true f a1 ((partition arr low.toNat high.toNat false st).2.1 + 1)
            high t1 with ⟨s3, a3, t3, d3⟩
        rcases hq4 : quickRec false f a1 ((partition arr low.toNat high.toNat false st).2.1 + 1)
            high t1 with ⟨s4, a4, t4, d4⟩
        rw [hq3, hq4] at h2
        simp only [Prod.mk.injEq] at h2
        obtain ⟨ha2, ht2, hd2⟩ := h2
        rw [← ha2, ← ht2, ← hd2]
        dsimp only
        split <;> rfl
      · rfl
    · rfl

theorem bubblePass_flag :
    ∀ (c j : Nat) (arr : List Int) (sw : Bool) (st : Stats),
      (bubblePass true c j arr sw st).2 = (bubblePass false c j arr sw st).2 := by
  intro c
  induction c with
  | zero => intro j arr sw st; rfl
  | succ c ih =>
    intro j arr sw st
    simp only [bubblePass]
    split <;> exact ih _ _ _ _

theorem bubbleOuter_flag (n : Nat) :
    ∀ (c i : Nat) (arr : List Int) (st : Stats),
      (bubbleOuter true n c i arr st).2 = (bubbleOuter false n c i arr st).2 := by
  intro c
  induction c with
  | zero => intro i arr st; rfl
  | succ c ih =>
    intro i arr st
    simp only [bubbleOuter, bubblePass_flag]
    split
    · exact ih _ _ _
    · rfl

theorem cocktailFwd_flag :
    ∀ (c i : Nat) (arr : List Int) (sw : Bool) (st : Stats),
      (cocktailFwd true c i arr sw st).2 = (cocktailFwd false c i arr sw st).2 := by
  intro c
  induction c with
  | zero => intro i arr sw st; rfl
  | succ c ih =>
    intro i arr sw st
    simp only [cocktailFwd]
    split <;> exact ih _ _ _ _

theorem cocktailBwd_flag :
    ∀ (c i : Nat) (arr : List Int) (sw : Bool) (st : Stats),
      (cocktailBwd true c i arr sw st).2 = (cocktailBwd false c i arr sw st).2 := by
  intro c
  induction c with
  | zero => intro i arr sw st; rfl
  | succ c ih =>
    intro i arr sw st
    simp only [cocktailBwd]
    split <;> exact ih _ _ _ _

theorem cocktailLoop_flag :
    ∀ (fuel start e : Nat) (arr : List Int) (st : Stats),
      ((cocktailLoop true fuel start e arr st).arr, (cocktailLoop true fuel start e arr st).stats,
          (cocktailLoop true fuel start e arr st).done)
        = ((cocktailLoop false fuel start e arr st).arr,
          (cocktailLoop false fuel start e arr st).stats,
          (cocktailLoop false fuel start e arr st).done) := by
  intro fuel
  induction fuel with
  | zero => intro start e arr st; rfl
  | succ f ih =>
    intro start e arr st
    simp only [cocktailLoop, cocktailFwd_flag, cocktailBwd_flag]
    repeat' split
    all_goals first | exact ih _ _ _ _ | rfl

theorem gnomeLoop_flag :
    ∀ (fuel idx : Nat) (arr : List (Option Int)) (st : Stats),
      (gnomeLoop true fuel idx arr st).2 = (gnomeLoop false fuel idx arr st).2 := by
  intro fuel
  induction fuel with
  | zero => intro idx arr st; rfl
  | succ f ih =>
    intro idx arr st
    simp only [gnomeLoop]
    repeat' split
    all_goals first | exact ih _ _ _ | rfl

theorem combPass_flag (gap : Nat) :
    ∀ (c i : Nat) (arr : List Int) (srt : Bool) (st : Stats),
      (combPass true gap c i arr srt st).2 = (combPass false gap c i arr srt st).2 := by
  intro c
  induction c with
  | zero => intro i arr srt st; rfl
  | succ c ih =>
    intro i arr srt st
    simp only [combPass]
    split <;> exact ih _ _ _ _

theorem combLoop_flag (n : Nat) :
    ∀ (fuel gap : Nat) (srt : Bool) (arr : List Int) (st : Stats),
      (combLoop true n fuel gap srt arr st).2 = (combLoop false n fuel gap srt arr st).2 := by
  intro fuel
  induction fuel with
  | zero => intro gap srt arr st; rfl
  | succ f ih =>
    intro gap srt arr st
    simp only [combLoop, combPass_flag]
    split
    · rfl
    · exact ih _ _ _ _

theorem shellInner_flag (gap : Nat) (temp : Int) :
    ∀ (fuel j : Nat) (arr : List Int) (st : Stats),
      (shellInner true gap temp fuel j arr st).2 = (shellInner false gap temp fuel j arr st).2 := by
  intro fuel
  induction fuel with
  | zero => intro j arr st; rfl
  | succ f ih =>
    intro j arr st
    simp only [shellInner]
    split
    · exact ih _ _ _
    · rfl

theorem shellMid_flag (gap : Nat) :
    ∀ (c i : Nat) (arr : List Int) (st : Stats),
      (shellMid true gap c i arr st).2 = (shellMid false gap c i arr st).2 := by
  intro c
  induction c with
  | zero => intro i arr st; rfl
  | succ c ih =>
    intro i arr st
    simp only [shellMid, shellInner_flag]
    exact ih _ _ _

theorem shellLoop_flag (n : Nat) :
    ∀ (fuel gap : Nat) (arr : List Int) (st : Stats),
      (shellLoop true n fuel gap arr st).2 = (shellLoop false n fuel gap arr st).2 := by
  intro fuel
  induction fuel with
  | zero => intro gap arr st; rfl
  | succ f ih =>
    intro gap arr st
    simp only [shellLoop, shellMid_flag]
    split
    · exact ih _ _ _
    · rfl

theorem heapify_flag (n : Nat) :
    ∀ (fuel i : Nat) (arr : List Int) (st : Stats),
      (heapify true n fuel i arr st).2 = (heapify false n fuel i arr st).2 := by
  intro fuel
  induction fuel with
  | zero => intro i arr st; rfl
  | succ f ih =>
    intro i arr st
    simp only [heapify]
    repeat' split
    all_goals first | exact ih _ _ _ | rfl

theorem heapBuild_flag (n : Nat) :
    ∀ (c i : Nat) (arr : List Int) (st : Stats),
      (heapBuild true n c i arr st).2 = (heapBuild false n c i arr st).2 := by
  intro c
  induction c with
  | zero => intro i arr st; rfl
  | succ c ih =>
    intro i arr st
    simp only [heapBuild, heapify_flag]
    split
    · exact ih _ _ _
    · exact heapify_flag n _ _ _ _

theorem heapExtract_flag :
    ∀ (c i : Nat) (arr : List Int) (st : Stats),
      (heapExtract true c i arr st).2 = (heapExtract false c i arr st).2 := by
  intro c
  induction c with
  | zero => intro i arr st; rfl
  | succ c ih =>
    intro i arr st
    simp only [heapExtract, heapify_flag]
    split
    · exact ih _ _ _
    · rfl

theorem oddEvenPass_flag :
    ∀ (c i : Nat) (arr : List Int) (srt : Bool) (st : Stats),
      (oddEvenPass true c i arr srt st).2 = (oddEvenPass false c i arr srt st).2 := by
  intro c
  induction c with
  | zero => intro i arr srt st; rfl
  | succ c ih =>
    intro i arr srt st
    simp only [oddEvenPass]
    split <;> exact ih _ _ _ _

theorem oddEvenLoop_flag (n : Nat) :
    ∀ (fuel : Nat) (arr : List Int) (st : Stats),
      (oddEvenLoop true n fuel arr st).2 = (oddEvenLoop false n fuel arr st).2 := by
  intro fuel
  induction fuel with
  | zero => intro arr st; rfl
  | succ f ih =>
    intro arr st
    simp only [oddEvenLoop, oddEvenPass_flag]
    split
    · rfl
    · exact ih _ _

theorem bitonicCmpLoop_flag (up : Bool) (mid : Nat) :
    ∀ (c i : Nat) (arr : List Int) (st : Stats),
      (bitonicCmpLoop true up mid c i arr st).2 = (bitonicCmpLoop false up mid c i arr st).2 := by
  intro c
  induction c with
  | zero => intro i arr st; rfl
  | succ c ih =>
    intro i arr st
    simp only [bitonicCmpLoop]
    split <;> exact ih _ _ _

theorem bitonicMergeRec_flag :
    ∀ (fuel low cnt : Nat) (up : Bool) (arr : List Int) (st : Stats),
      (bitonicMergeRec true fuel low cnt up arr st).2
        = (bitonicMergeRec false fuel low cnt up arr st).2 := by
  intro fuel
  induction fuel with
  | zero => intro low cnt up arr st; rfl
  | succ f ih =>
    intro low cnt up arr st
    simp only [bitonicMergeRec, bitonicCmpLoop_flag, ih]
    repeat' split
    all_goals rfl

theorem bitonicSortRecF_flag :
    ∀ (fuel low cnt : Nat) (up : Bool) (arr : List Int) (st : Stats),
      (bitonicSortRecF true fuel low cnt up arr st).2
        = (bitonicSortRecF false fuel low cnt up arr st).2 := by
  intro fuel
  induction fuel with
  | zero => intro low cnt up arr st; rfl
  | succ f ih =>
    intro low cnt up arr st
    simp only [bitonicSortRecF, bitonicMergeRec_flag, ih]
    repeat' split
    all_goals first | rfl | exact ih _ _ _ _ _

theorem cycleCount_flag (arr : List Int) (item : Int) :
    ∀ (c i pos : Nat) (st : Stats),
      (cycleCount arr item true c i pos st).2 = (cycleCount arr item false c i pos st).2 := by
  intro c
  induction c with
  | zero => intro i pos st; rfl
  | succ c ih =>
    intro i pos st
    simp only [cycleCount]
    exact ih _ _ _

theorem cycleWalk_flag (n cs0 : Nat) :
    ∀ (fuel pos : Nat) (item : Int) (arr : List Int) (st : Stats),
      (cycleWalk true n cs0 fuel pos item arr st).2
        = (cycleWalk false n cs0 fuel pos item arr st).2 := by
  intro fuel
  induction fuel with
  | zero => intro pos item arr st; rfl
  | succ f ih =>
    intro pos item arr st
    simp only [cycleWalk, cycleCount_flag]
    repeat' split
    all_goals first | rfl | exact ih _ _ _ _

theorem cycleOuter_flag (n : Nat) :
    ∀ (c cs0 : Nat) (arr : List Int) (st : Stats),
      (cycleOuter true n c cs0 arr st).2 = (cycleOuter false n c cs0 arr st).2 := by
  intro c
  induction c with
  | zero => intro cs0 arr st; rfl
  | succ c ih =>
    intro cs0 arr st
    simp only [cycleOuter, cycleCount_flag, apply_ite Prod.snd, apply_ite Prod.fst,
      cycleWalk_flag]
    repeat' split
    all_goals first | rfl | exact ih _ _ _

theorem lsdCopy_flag (output : List Int) :
    ∀ (c i : Nat) (arr : List Int) (st : Stats),
      (lsdCopy output true c i arr st).2 = (lsdCopy output false c i arr st).2 := by
  intro c
  induction c with
  | zero => intro i arr st; rfl
  | succ c ih =>
    intro i arr st
    simp only [lsdCopy]
    exact ih _ _ _

theorem lsdPass_flag (exp : Int) (arr : List Int) (st : Stats) :
    (lsdPass true exp arr st).2 = (lsdPass false exp arr st).2 := by
  simp only [lsdPass, lsdCopy_flag]

theorem lsdLoop_flag (maxNum : Int) :
    ∀ (fuel : Nat) (exp : Int) (arr : List Int) (st : Stats),
      (lsdLoop true maxNum fuel exp arr st).2 = (lsdLoop false maxNum fuel exp arr st).2 := by
  intro fuel
  induction fuel with
  | zero => intro exp arr st; rfl
  | succ f ih =>
    intro exp arr st
    simp only [lsdLoop, lsdPass_flag]
    split
    · exact ih _ _ _
    · rfl

/-- Witness for C6 on merge sort's run over `[1, 0]`: its one non-final
step (the compare probe) is not both-empty, and the whole run has at most
one both-empty step. -/
theorem claim_c6_witness :
    Step.bothEmpty ⟨[1, 0], [], [0, 1], some 1, some 0⟩ = false ∧
      (mergeSort [1, 0] true).steps.countP Step.bothEmpty ≤ 1 :=
  ⟨(claim_c6.1 true [1, 0]).1 ⟨[1, 0], [], [0, 1], some 1, some 0⟩ (by decide),
   (claim_c6.1 true [1, 0]).2⟩

/-! ## C3: what the drivers emit when `yieldCompare = false` -/

theorem emitIf_false (s : Step) : emitIf false s = [] := rfl

theorem emitIf_true (s : Step) : emitIf true s = [s] := rfl

theorem mergeCmp_false (arr : List Int) (mid right : Nat) :
    ∀ (fuel i j : Nat) (st : Stats) (merged : List Int),
      (mergeCmp arr mid right false fuel i j st merged).1 = [] := by
  intro fuel
  induction fuel with
  | zero => intro i j st merged; rfl
  | succ f ih =>
    intro i j st merged
    simp only [mergeCmp, emitIf_false, List.nil_append]
    repeat' split
    all_goals first | exact ih _ _ _ _ | rfl

theorem merge_false (arr : List Int) (left mid right : Nat) (st : Stats) :
    (merge arr left mid right false st).1 = [] := by
  simp only [merge, mergeCmp_false, Bool.false_eq_true, false_and, if_false]

theorem mergeSortRec_false :
    ∀ (fuel : Nat) (arr : List Int) (left right : Nat) (st : Stats),
      (mergeSortRec false fuel arr left right st).steps = [] := by
  intro fuel
  induction fuel with
  | zero => intro arr left right st; rfl
  | succ f ih =>
    intro arr left right st
    simp only [mergeSortRec, ih, merge_false, List.nil_append, List.append_nil]
    repeat' split
    all_goals first | rfl | exact ih _ _ _ _

theorem mergeSort_false (arr : List Int) : (mergeSort arr false).steps = [] := by
  simp only [mergeSort, mergeSortRec_false]

theorem partLoop_false (pivot : Int) (high : Nat) :
    ∀ (c j : Nat) (i : ℤ) (arr : List Int) (st : Stats),
      (partLoop pivot high false c j i arr st).1 = [] := by
  intro c
  induction c with
  | zero => intro j i arr st; rfl
  | succ c ih =>
    intro j i arr st
    simp only [partLoop, emitIf_false, List.nil_append]
    split <;> exact ih _ _ _ _

theorem partition_false (arr : List Int) (low high : Nat) (st : Stats) :
    (partition arr low high false st).1 = [] := by
  simp only [partition, partLoop_false, emitIf_false, List.nil_append]

theorem quickRec_false :
    ∀ (fuel : Nat) (arr : List Int) (low high : ℤ) (st : Stats),
      (quickRec false fuel arr low high st).steps = [] := by
  intro fuel
  induction fuel with
  | zero => intro arr low high st; rfl
  | succ f ih =>
    intro arr low high st
    simp only [quickRec, partition_false, ih, emitIf_false, List.nil_append, List.append_nil]
    repeat' split
    all_goals rfl

theorem quickSort_false (arr : List Int) : (quickSort arr false).steps = [] := by
  simp only [quickSort, quickRec_false]

theorem bubblePass_false :
    ∀ (c j : Nat) (arr : List Int) (sw : Bool) (st : Stats),
      (bubblePass false c j arr sw st).1 = [] := by
  intro c
  induction c with
  | zero => intro j arr sw st; rfl
  | succ c ih =>
    intro j arr sw st
    simp only [bubblePass, emitIf_false, List.nil_append]
    split <;> exact ih _ _ _ _

theorem bubbleOuter_false (n : Nat) :
    ∀ (c i : Nat) (arr : List Int) (st : Stats),
      (bubbleOuter false n c i arr st).1 = [] := by
  intro c
  induction c with
  | zero => intro i arr st; rfl
  | succ c ih =>
    intro i arr st
    simp only [bubbleOuter, bubblePass_false, List.nil_append]
    split
    · exact ih _ _ _
    · rfl

theorem bubbleSort_false (arr : List Int) : (bubbleSort arr false).steps = [] := by
  simp only [bubbleSort, bubbleOuter_false, emitIf_false, List.append_nil]

theorem cocktailFwd_false :
    ∀ (c i : Nat) (arr : List Int) (sw : Bool) (st : Stats),
      (cocktailFwd false c i arr sw st).1 = [] := by
  intro c
  induction c with
  | zero => intro i arr sw st; rfl
  | succ c ih =>
    intro i arr sw st
    simp only [cocktailFwd, emitIf_false, List.nil_append]
    split <;> exact ih _ _ _ _

theorem cocktailBwd_false :
    ∀ (c i : Nat) (arr : List Int) (sw : Bool) (st : Stats),
      (cocktailBwd false c i arr sw st).1 = [] := by
  intro c
  induction c with
  | zero => intro i arr sw st; rfl
  | succ c ih =>
    intro i arr sw st
    simp only [cocktailBwd, emitIf_false, List.nil_append]
    split <;> exact ih _ _ _ _

theorem cocktailLoop_false :
    ∀ (fuel start e : Nat) (arr : List Int) (st : Stats),
      (cocktailLoop false fuel start e arr st).steps = [] := by
  intro fuel
  induction fuel with
  | zero => intro start e arr st; rfl
  | succ f ih =>
    intro start e arr st
    simp only [cocktailLoop, cocktailFwd_false, cocktailBwd_false, List.nil_append]
    repeat' split
    all_goals first | exact ih _ _ _ _ | rfl

theorem cocktailShakerSort_false (arr : List Int) :
    (cocktailShakerSort arr false).steps = [] := by
  simp only [cocktailShakerSort, cocktailLoop_false, emitIf_false, ite_self, List.append_nil]

theorem gnomeLoop_false :
    ∀ (fuel idx : Nat) (arr : List (Option Int)) (st : Stats),
      (gnomeLoop false fuel idx arr st).1 = [] := by
  intro fuel
  induction fuel with
  | zero => intro idx arr st; rfl
  | succ f ih =>
    intro idx arr st
    simp only [gnomeLoop, emitIf_false, List.nil_append]
    repeat' split
    all_goals first | exact ih _ _ _ | rfl

theorem gnomeSort_false (arr : List Int) : (gnomeSort arr false).steps = [] := by
  simp only [gnomeSort, gnomeLoop_false, emitIf_false, ite_self, List.append_nil]

theorem combPass_false (gap : Nat) :
    ∀ (c i : Nat) (arr : List Int) (srt : Bool) (st : Stats),
      (combPass false gap c i arr srt st).1 = [] := by
  intro c
  induction c with
  | zero => intro i arr srt st; rfl
  | succ c ih =>
    intro i arr srt st
    simp only [combPass, emitIf_false, List.nil_append]
    split <;> exact ih _ _ _ _

theorem combLoop_false (n : Nat) :
    ∀ (fuel gap : Nat) (srt : Bool) (arr : List Int) (st : Stats),
      (combLoop false n fuel gap srt arr st).1 = [] := by
  intro fuel
  induction fuel with
  | zero => intro gap srt arr st; rfl
  | succ f ih =>
    intro gap srt arr st
    simp only [combLoop, combPass_false, List.nil_append]
    split
    · rfl
    · exact ih _ _ _ _

theorem combSort_false (arr : List Int) : (combSort arr false).steps = [] := by
  simp only [combSort, combLoop_false, emitIf_false, ite_self, List.append_nil]

theorem shellInner_false (gap : Nat) (temp : Int) :
    ∀ (fuel j : Nat) (arr : List Int) (st : Stats),
      (shellInner false gap temp fuel j arr st).1 = [] := by
  intro fuel
  induction fuel with
  | zero => intro j arr st; rfl
  | succ f ih =>
    intro j arr st
    simp only [shellInner, emitIf_false, List.nil_append]
    split
    · exact ih _ _ _
    · rfl

theorem shellMid_false (gap : Nat) :
    ∀ (c i : Nat) (arr : List Int) (st : Stats),
      (shellMid false gap c i arr st).1 = [] := by
  intro c
  induction c with
  | zero => intro i arr st; rfl
  | succ c ih =>
    intro i arr st
    simp only [shellMid, shellInner_false, Bool.false_eq_true, false_and, if_false,
      List.nil_append]
    exact ih _ _ _

theorem shellLoop_false (n : Nat) :
    ∀ (fuel gap : Nat) (arr : List Int) (st : Stats),
      (shellLoop false n fuel gap arr st).1 = [] := by
  intro fuel
  induction fuel with
  | zero => intro gap arr st; rfl
  | succ f ih =>
    intro gap arr st
    simp only [shellLoop, shellMid_false, List.nil_append]
    split
    · exact ih _ _ _
    · rfl

theorem shellSort_false (arr : List Int) : (shellSort arr false).steps = [] := by
  simp only [shellSort, shellLoop_false, emitIf_false, ite_self, List.append_nil]

theorem heapify_false (n : Nat) :
    ∀ (fuel i : Nat) (arr : List Int) (st : Stats),
      (heapify false n fuel i arr st).1 = [] := by
  intro fuel
  induction fuel with
  | zero => intro i arr st; rfl
  | succ f ih =>
    intro i arr st
    simp only [heapify, emitIf_false, List.nil_append]
    repeat' split
    all_goals first | exact ih _ _ _ | rfl

theorem heapBuild_false (n : Nat) :
    ∀ (c i : Nat) (arr : List Int) (st : Stats),
      (heapBuild false n c i arr st).1 = [] := by
  intro c
  induction c with
  | zero => intro i arr st; rfl
  | succ c ih =>
    intro i arr st
    simp only [heapBuild, heapify_false, List.nil_append]
    split
    · exact ih _ _ _
    · exact heapify_false n _ _ _ _

theorem heapExtract_false :
    ∀ (c i : Nat) (arr : List Int) (st : Stats),
      (heapExtract false c i arr st).1 = [] := by
  intro c
  induction c with
  | zero => intro i arr st; rfl
  | succ c ih =>
    intro i arr st
    simp only [heapExtract, heapify_false, emitIf_false, List.nil_append]
    split
    · exact ih _ _ _
    · rfl

theorem heapSort_false (arr : List Int) : (heapSort arr false).steps = [] := by
  simp only [heapSort, heapBuild_false, heapExtract_false, emitIf_false, ite_self,
    List.append_nil, List.nil_append]
  split <;> rfl

theorem oddEvenPass_false :
    ∀ (c i : Nat) (arr : List Int) (srt : Bool) (st : Stats),
      (oddEvenPass false c i arr srt st).1 = [] := by
  intro c
  induction c with
  | zero => intro i arr srt st; rfl
  | succ c ih =>
    intro i arr srt st
    simp only [oddEvenPass, emitIf_false, List.nil_append]
    split <;> exact ih _ _ _ _

theorem oddEvenLoop_false (n : Nat) :
    ∀ (fuel : Nat) (arr : List Int) (st : Stats),
      (oddEvenLoop false n fuel arr st).1 = [] := by
  intro fuel
  induction fuel with
  | zero => intro arr st; rfl
  | succ f ih =>
    intro arr st
    simp only [oddEvenLoop, oddEvenPass_false, List.nil_append]
    split
    · rfl
    · exact ih _ _

theorem oddEvenSort_false (arr : List Int) : (oddEvenSort arr false).steps = [] := by
  simp only [oddEvenSort, oddEvenLoop_false, emitIf_false, ite_self, List.nil_append]

theorem bitonicCmpLoop_false (up : Bool) (mid : Nat) :
    ∀ (c i : Nat) (arr : List Int) (st : Stats),
      (bitonicCmpLoop false up mid c i arr st).1 = [] := by
  intro c
  induction c with
  | zero => intro i arr st; rfl
  | succ c ih =>
    intro i arr st
    simp only [bitonicCmpLoop, emitIf_false, List.nil_append]
    split <;> exact ih _ _ _

theorem bitonicMergeRec_false :
    ∀ (fuel low cnt : Nat) (up : Bool) (arr : List Int) (st : Stats),
      (bitonicMergeRec false fuel low cnt up arr st).1 = [] := by
  intro fuel
  induction fuel with
  | zero => intro low cnt up arr st; rfl
  | succ f ih =>
    intro low cnt up arr st
    simp only [bitonicMergeRec, bitonicCmpLoop_false, ih, List.nil_append]
    repeat' split
    all_goals rfl

theorem bitonicSortRecF_false :
    ∀ (fuel low cnt : Nat) (up : Bool) (arr : List Int) (st : Stats),
      (bitonicSortRecF false fuel low cnt up arr st).1 = [] := by
  intro fuel
  induction fuel with
  | zero => intro low cnt up arr st; rfl
  | succ f ih =>
    intro low cnt up arr st
    simp only [bitonicSortRecF, bitonicMergeRec_false, ih, List.nil_append, List.append_nil]
    repeat' split
    all_goals first | rfl | exact ih _ _ _ _ _

theorem bitonicSort_false (up : Bool) (arr : List Int) :
    (bitonicSort arr up false).steps = [] := by
  simp only [bitonicSort, bitonicSortRecF_false, emitIf_false, ite_self, List.nil_append]

theorem cycleCount_false (arr : List Int) (item : Int) :
    ∀ (c i pos : Nat) (st : Stats),
      (cycleCount arr item false c i pos st).1 = [] := by
  intro c
  induction c with
  | zero => intro i pos st; rfl
  | succ c ih =>
    intro i pos st
    simp only [cycleCount, emitIf_false, List.nil_append]
    exact ih _ _ _

theorem cycleWalk_false (n cs0 : Nat) :
    ∀ (fuel pos : Nat) (item : Int) (arr : List Int) (st : Stats),
      (cycleWalk false n cs0 fuel pos item arr st).1 = [] := by
  intro fuel
  induction fuel with
  | zero => intro pos item arr st; rfl
  | succ f ih =>
    intro pos item arr st
    simp only [cycleWalk, cycleCount_false, emitIf_false, List.nil_append]
    repeat' split
    all_goals first | rfl | exact ih _ _ _ _

theorem cycleOuter_false (n : Nat) :
    ∀ (c cs0 : Nat) (arr : List Int) (st : Stats),
      (cycleOuter false n c cs0 arr st).1 = [] := by
  intro c
  induction c with
  | zero => intro cs0 arr st; rfl
  | succ c ih =>
    intro cs0 arr st
    simp only [cycleOuter, cycleCount_false, cycleWalk_false, emitIf_false,
      apply_ite Prod.fst, apply_ite Prod.snd, ite_self, List.nil_append]
    repeat' split
    all_goals first | rfl | exact ih _ _ _

theorem cycleSort_false (arr : List Int) : (cycleSort arr false).steps = [] := by
  simp only [cycleSort, cycleOuter_false, emitIf_false, ite_self, List.nil_append]

theorem selFind_false_steps (arr : List Int) (i : Nat) (prev : List Nat) :
    ∀ (c j m : Nat) (st : Stats), (selFind arr i false prev c j m st).1 = [] := by
  intro c
  induction c with
  | zero => intro j m st; rfl
  | succ c ih =>
    intro j m st
    simp only [selFind, emitIf_false, List.nil_append]
    exact ih _ _ _

theorem selFind_true_filter (arr : List Int) (i : Nat) (prev : List Nat) :
    ∀ (c j m : Nat) (st : Stats),
      ((selFind arr i true prev c j m st).1).filter (fun s => s.compareIndexes.isEmpty)
        = [] := by
  intro c
  induction c with
  | zero => intro j m st; rfl
  | succ c ih =>
    intro j m st
    simp [selFind, emitIf_true, mkStep, ih]

theorem selOuter_filter (n : Nat) :
    ∀ (c i : Nat) (arr : List Int) (prev : List Nat) (st : Stats),
      (selOuter false n c i arr prev st).1
        = ((selOuter true n c i arr prev st).1).filter (fun s => s.compareIndexes.isEmpty) := by
  intro c
  induction c with
  | zero => intro i arr prev st; rfl
  | succ c ih =>
    intro i arr prev st
    simp only [selOuter, selFind_flag]
    split
    · simp [List.filter_append, selFind_false_steps, selFind_true_filter, mkStep, ih]
    · simp [List.filter_append, selFind_false_steps, selFind_true_filter, ih]

theorem selectionSort_filterC3 (arr : List Int) :
    (selectionSort arr false).steps
      = ((selectionSort arr true).steps).filter (fun s => s.compareIndexes.isEmpty) := by
  simp [selectionSort, selOuter_flag, selOuter_filter, List.filter_append, mkStep]

theorem insInner_false_steps (key : Int) :
    ∀ (jp1 : Nat) (arr : List Int) (prev : List Nat) (st : Stats),
      (insInner key false jp1 arr prev st).1 = [] := by
  intro jp1
  induction jp1 with
  | zero => intro arr prev st; rfl
  | succ j ih =>
    intro arr prev st
    simp only [insInner, emitIf_false, List.nil_append]
    split
    · exact ih _ _ _
    · rfl

theorem insInner_true_filter (key : Int) :
    ∀ (jp1 : Nat) (arr : List Int) (prev : List Nat) (st : Stats),
      ((insInner key true jp1 arr prev st).1).filter (fun s => s.compareIndexes.isEmpty)
        = [] := by
  intro jp1
  induction jp1 with
  | zero => intro arr prev st; rfl
  | succ j ih =>
    intro arr prev st
    simp only [insInner, emitIf_true]
    split
    · simp [mkStep, ih]
    · rfl

theorem insOuter_filter :
    ∀ (c i : Nat) (arr : List Int) (prev : List Nat) (st : Stats),
      (insOuter false c i arr prev st).1
        = ((insOuter true c i arr prev st).1).filter (fun s => s.compareIndexes.isEmpty) := by
  intro c
  induction c with
  | zero => intro i arr prev st; rfl
  | succ c ih =>
    intro i arr prev st
    simp only [insOuter, insInner_flag]
    simp [List.filter_append, insInner_false_steps, insInner_true_filter, mkStep, ih]

theorem insertionSort_filterC3 (arr : List Int) :
    (insertionSort arr false).steps
      = ((insertionSort arr true).steps).filter (fun s => s.compareIndexes.isEmpty) := by
  simp [insertionSort, insOuter_flag, insOuter_filter, List.filter_append, mkStep]

theorem binSearch_false_steps (arr : List Int) (key : Int) (i : Nat) (prev : List Nat) :
    ∀ (fuel : Nat) (left right : ℤ) (ins : Nat) (st : Stats),
      (binSearch arr key i false prev fuel left right ins st).1 = [] := by
  intro fuel
  induction fuel with
  | zero => intro left right ins st; rfl
  | succ f ih =>
    intro left right ins st
    simp only [binSearch, emitIf_false, List.nil_append]
    repeat' split
    all_goals first | exact ih _ _ _ _ | rfl

theorem binSearch_true_filter (arr : List Int) (key : Int) (i : Nat) (prev : List Nat) :
    ∀ (fuel : Nat) (left right : ℤ) (ins : Nat) (st : Stats),
      ((binSearch arr key i true prev fuel left right ins st).1).filter
          (fun s => s.compareIndexes.isEmpty) = [] := by
  intro fuel
  induction fuel with
  | zero => intro left right ins st; rfl
  | succ f ih =>
    intro left right ins st
    simp only [binSearch, emitIf_true]
    repeat' split
    all_goals simp [mkStep, ih]

theorem binOuter_filter :
    ∀ (c i : Nat) (arr : List Int) (prev : List Nat) (st : Stats),
      (binOuter false c i arr prev st).1
        = ((binOuter true c i arr prev st).1).filter (fun s => s.compareIndexes.isEmpty) := by
  intro c
  induction c with
  | zero => intro i arr prev st; rfl
  | succ c ih =>
    intro i arr prev st
    simp only [binOuter, binSearch_flag]
    simp [List.filter_append, binSearch_false_steps, binSearch_true_filter, mkStep, ih]

theorem binaryInsertionSort_filterC3 (arr : List Int) :
    (binaryInsertionSort arr false).steps
      = ((binaryInsertionSort arr true).steps).filter (fun s => s.compareIndexes.isEmpty) := by
  simp [binaryInsertionSort, binOuter_flag, binOuter_filter, List.filter_append, mkStep]

theorem lsdCopy_false (output : List Int) :
    ∀ (c i : Nat) (arr : List Int) (st : Stats), (lsdCopy output false c i arr st).1 = [] := by
  intro c
  induction c with
  | zero => intro i arr st; rfl
  | succ c ih =>
    intro i arr st
    simp only [lsdCopy, emitIf_false, List.nil_append]
    exact ih _ _ _

theorem lsdCopy_true_filter (output : List Int) :
    ∀ (c i : Nat) (arr : List Int) (st : Stats),
      ((lsdCopy output true c i arr st).1).filter (fun s => s.swappedIndexes.isEmpty) = [] := by
  intro c
  induction c with
  | zero => intro i arr st; rfl
  | succ c ih =>
    intro i arr st
    simp [lsdCopy, emitIf_true, mkStep, ih]

theorem lsdClassify_filter (arr : List Int) (exp : Int) (st : Stats) :
    ∀ (c i : Nat) (count : List Nat),
      ((lsdClassify arr exp st c i count).1).filter (fun s => s.swappedIndexes.isEmpty)
        = (lsdClassify arr exp st c i count).1 := by
  intro c
  induction c with
  | zero => intro i count; rfl
  | succ c ih =>
    intro i count
    simp [lsdClassify, mkStep, ih]

theorem lsdCumulate_filter (arr : List Int) (st : Stats) :
    ∀ (c i : Nat) (count : List Nat),
      ((lsdCumulate arr st c i count).1).filter (fun s => s.swappedIndexes.isEmpty)
        = (lsdCumulate arr st c i count).1 := by
  intro c
  induction c with
  | zero => intro i count; rfl
  | succ c ih =>
    intro i count
    simp [lsdCumulate, mkStep, ih]

theorem lsdPlace_filter (arr : List Int) (exp : Int) (st : Stats) :
    ∀ (c i : Nat) (count : List Nat) (output : List Int),
      ((lsdPlace arr exp st c i count output).1).filter (fun s => s.swappedIndexes.isEmpty)
        = (lsdPlace arr exp st c i count output).1 := by
  intro c
  induction c with
  | zero => intro i count output; rfl
  | succ c ih =>
    intro i count output
    simp [lsdPlace, mkStep, ih]

theorem lsdPass_filter (exp : Int) (arr : List Int) (st : Stats) :
    (lsdPass false exp arr st).1
      = ((lsdPass true exp arr st).1).filter (fun s => s.swappedIndexes.isEmpty) := by
  simp [lsdPass, List.filter_append, lsdClassify_filter, lsdCumulate_filter, lsdPlace_filter,
    lsdCopy_false, lsdCopy_true_filter]

theorem lsdLoop_filter (maxNum : Int) :
    ∀ (fuel : Nat) (exp : Int) (arr : List Int) (st : Stats),
      (lsdLoop false maxNum fuel exp arr st).1
        = ((lsdLoop true maxNum fuel exp arr st).1).filter
            (fun s => s.swappedIndexes.isEmpty) := by
  intro fuel
  induction fuel with
  | zero => intro exp arr st; rfl
  | succ f ih =>
    intro exp arr st
    simp only [lsdLoop, lsdPass_flag]
    split
    · simp [List.filter_append, lsdPass_filter, ih]
    · rfl

theorem lsdLoop_done (yc : Bool) (maxNum : Int) :
    ∀ (fuel : Nat) (exp : Int) (arr : List Int) (st : Stats),
      0 < exp → maxNum < exp * 10 ^ fuel →
      (lsdLoop yc maxNum fuel exp arr st).2.2.2 = true := by
  intro fuel
  induction fuel with
  | zero =>
    intro exp arr st hexp hlt
    simp only [lsdLoop, decide_eq_true_eq]
    rw [Int.fdiv_eq_ediv _ hexp.le]
    have h1 : maxNum / exp < 1 := by
      rw [Int.ediv_lt_iff_lt_mul hexp]
      simpa using hlt
    omega
  | succ f ih =>
    intro exp arr st hexp hlt
    simp only [lsdLoop]
    split
    · apply ih (exp * 10) _ _ (by positivity)
      have : exp * 10 ^ (f + 1) = exp * 10 * 10 ^ f := by ring
      omega
    · rfl

theorem lsdRadixSort_filterC3 (arr : List Int) :
    (lsdRadixSort arr false).steps
      = (((lsdRadixSort arr true).steps).filter (fun s => s.swappedIndexes.isEmpty)).dropLast := by
  cases hm : arr.max? with
  | none => simp [lsdRadixSort, hm, emitIf_false, emitIf_true, mkStep]
  | some m =>
    have hb : m < 1 * 10 ^ (m.toNat + 1) := by
      have h2 : m.toNat + 1 < 10 ^ (m.toNat + 1) := Nat.lt_pow_self (by norm_num) _
      have h3 := Int.self_le_toNat m
      have h4 : (m.toNat : ℤ) < (10 : ℤ) ^ (m.toNat + 1) := by exact_mod_cast by omega
      linarith
    have hd := lsdLoop_done true m (m.toNat + 1) 1 arr ⟨0, 0⟩ one_pos hb
    simp [lsdRadixSort, hm, hd, emitIf_false, emitIf_true, ite_self, List.filter_append,
      mkStep, List.dropLast_concat, lsdLoop_filter]

/-- C3 counterexample: on `[1, 0]`, bubble sort with `yieldCompare = false`
yields nothing at all, while the `yieldCompare = true` run does yield a
mutation step and a terminal settled step — so the `false` run is NOT the
`true` run restricted to its mutation and settled steps. -/
theorem claim_c3_counterexample :
    ¬ ((bubbleSort [1, 0] false).steps
        = ((bubbleSort [1, 0] true).steps).filter
            (fun s => !s.swappedIndexes.isEmpty || s.bothEmpty)) := by
  decide

/-- C3 (amended): with `yieldCompare = false`, `selectionSort`,
`insertionSort` and `binaryInsertionSort` yield exactly the `true` run's
steps whose `compareIndexes` is empty (their unconditional swap/placement
steps and the terminal settled step); the eleven drivers `mergeSort`,
`quickSort`, `bubbleSort`, `cocktailShakerSort`, `gnomeSort`, `combSort`,
`shellSort`, `heapSort`, `oddEvenSort`, `bitonicSort` and `cycleSort`
yield nothing at all (even their mutation and settled steps are guarded by
the flag); and `lsdRadixSort` yields exactly the `true` run's steps with
empty `swappedIndexes` minus the terminal settled step (its bucket
bookkeeping is unguarded but its copy-back swap steps and terminal step
are guarded). -/
theorem claim_c3 :
    (∀ arr : List Int,
      (selectionSort arr false).steps
        = ((selectionSort arr true).steps).filter (fun s => s.compareIndexes.isEmpty)) ∧
    (∀ arr : List Int,
      (insertionSort arr false).steps
        = ((insertionSort arr true).steps).filter (fun s => s.compareIndexes.isEmpty)) ∧
    (∀ arr : List Int,
      (binaryInsertionSort arr false).steps
        = ((binaryInsertionSort arr true).steps).filter (fun s => s.compareIndexes.isEmpty)) ∧
    (∀ arr : List Int, (mergeSort arr false).steps = []) ∧
    (∀ arr : List Int, (quickSort arr false).steps = []) ∧
    (∀ arr : List Int, (bubbleSort arr false).steps = []) ∧
    (∀ arr : List Int, (cocktailShakerSort arr false).steps = []) ∧
    (∀ arr : List Int, (gnomeSort arr false).steps = []) ∧
    (∀ arr : List Int, (combSort arr false).steps = []) ∧
    (∀ arr : List Int, (shellSort arr false).steps = []) ∧
    (∀ arr : List Int, (heapSort arr false).steps = []) ∧
    (∀ arr : List Int, (oddEvenSort arr false).steps = []) ∧
    (∀ (up : Bool) (arr : List Int), (bitonicSort arr up false).steps = []) ∧
    (∀ arr : List Int, (cycleSort arr false).steps = []) ∧
    (∀ arr : List Int,
      (lsdRadixSort arr false).steps
        = (((lsdRadixSort arr true).steps).filter
            (fun s => s.swappedIndexes.isEmpty)).dropLast) :=
  ⟨selectionSort_filterC3, insertionSort_filterC3, binaryInsertionSort_filterC3,
   mergeSort_false, quickSort_false, bubbleSort_false, cocktailShakerSort_false,
   gnomeSort_false, combSort_false, shellSort_false, heapSort_false, oddEvenSort_false,
   bitonicSort_false, cycleSort_false, lsdRadixSort_filterC3⟩

/-! ## C8: counter monotonicity along yielded step sequences -/

theorem statsLe_refl (a : Stats) : StatsLe a a := ⟨le_refl _, le_refl _⟩

theorem statsLe_trans {a b c : Stats} (h1 : StatsLe a b) (h2 : StatsLe b c) : StatsLe a c :=
  ⟨le_trans h1.1 h2.1, le_trans h1.2 h2.2⟩

theorem statsLe_cmp (st : Stats) : StatsLe st ⟨st.comparisons + 1, st.swaps⟩ :=
  ⟨Nat.le_succ _, le_refl _⟩

theorem statsLe_sw (st : Stats) : StatsLe st ⟨st.comparisons, st.swaps + 1⟩ :=
  ⟨le_refl _, Nat.le_succ _⟩

theorem statsLe_sw_add (st : Stats) (k : Nat) : StatsLe st ⟨st.comparisons, st.swaps + k⟩ :=
  ⟨le_refl _, Nat.le_add_right _ _⟩

theorem emitsBetween_nil {a b : Stats} (h : StatsLe a b) : EmitsBetween a [] b :=
  ⟨h, List.chain'_nil, fun s hs => absurd hs (List.not_mem_nil s)⟩

theorem emitsBetween_single {a b : Stats} (arr : List Int) (sw cm : List Nat) (st : Stats)
    (h1 : StatsLe a st) (h2 : StatsLe st b) : EmitsBetween a [mkStep arr sw cm st] b := by
  refine ⟨statsLe_trans h1 h2, List.chain'_singleton _, ?_⟩
  intro s hs
  rw [List.mem_singleton] at hs
  subst hs
  exact ⟨rfl, rfl, h1, h2⟩

theorem emitsBetween_emitIf {a b : Stats} (yc : Bool) (arr : List Int) (sw cm : List Nat)
    (st : Stats) (h1 : StatsLe a st) (h2 : StatsLe st b) :
    EmitsBetween a (emitIf yc (mkStep arr sw cm st)) b := by
  cases yc
  · exact emitsBetween_nil (statsLe_trans h1 h2)
  · exact emitsBetween_single arr sw cm st h1 h2

theorem emitsBetween_append {a m b : Stats} {l1 l2 : List Step}
    (h1 : EmitsBetween a l1 m) (h2 : EmitsBetween m l2 b) : EmitsBetween a (l1 ++ l2) b := by
  obtain ⟨hab1, hc1, hall1⟩ := h1
  obtain ⟨hab2, hc2, hall2⟩ := h2
  refine ⟨statsLe_trans hab1 hab2, ?_, ?_⟩
  · apply List.Chain'.append hc1 hc2
    intro x hx y hy
    exact statsLe_trans (hall1 x (List.mem_of_mem_getLast? hx)).2.2.2
      (hall2 y (List.mem_of_mem_head? hy)).2.2.1
  · intro s hs
    rcases List.mem_append.mp hs with h | h
    · obtain ⟨p1, p2, p3, p4⟩ := hall1 s h
      exact ⟨p1, p2, p3, statsLe_trans p4 hab2⟩
    · obtain ⟨p1, p2, p3, p4⟩ := hall2 s h
      exact ⟨p1, p2, statsLe_trans hab1 p3, p4⟩

theorem emitsBetween_cons {a b : Stats} (arr : List Int) (sw cm : List Nat) (st : Stats)
    {l : List Step} (h1 : StatsLe a st) (h2 : EmitsBetween st l b) :
    EmitsBetween a (mkStep arr sw cm st :: l) b := by
  have h := emitsBetween_append (emitsBetween_single arr sw cm st h1 (statsLe_refl st)) h2
  simpa using h

theorem mergeCmp_emits (arr : List Int) (mid right : Nat) (yc : Bool) :
    ∀ (fuel i j : Nat) (st : Stats) (merged : List Int),
      EmitsBetween st (mergeCmp arr mid right yc fuel i j st merged).1
        (mergeCmp arr mid right yc fuel i j st merged).2.2.2.1 := by
  intro fuel
  induction fuel with
  | zero => intro i j st merged; exact emitsBetween_nil (statsLe_refl st)
  | succ f ih =>
    intro i j st merged
    simp only [mergeCmp]
    split
    · split
      · exact emitsBetween_append
          (emitsBetween_emitIf _ _ _ _ _ (statsLe_cmp st) (statsLe_refl _)) (ih _ _ _ _)
      · exact emitsBetween_append
          (emitsBetween_emitIf _ _ _ _ _ (statsLe_cmp st) (statsLe_refl _)) (ih _ _ _ _)
    · exact emitsBetween_nil (statsLe_refl st)

theorem merge_emits (arr : List Int) (left mid right : Nat) (yc : Bool) (st : Stats) :
    EmitsBetween st (merge arr left mid right yc st).1 (merge arr left mid right yc st).2.2 := by
  simp only [merge]
  split
  · exact emitsBetween_append (mergeCmp_emits arr mid right yc _ _ _ _ _)
      (emitsBetween_single _ _ _ _ (statsLe_sw_add _ _) (statsLe_refl _))
  · exact mergeCmp_emits arr mid right yc _ _ _ _ _

theorem mergeSortRec_emits (yc : Bool) :
    ∀ (fuel : Nat) (arr : List Int) (left right : Nat) (st : Stats),
      EmitsBetween st (mergeSortRec yc fuel arr left right st).steps
        (mergeSortRec yc fuel arr left right st).stats := by
  intro fuel
  induction fuel with
  | zero => intro arr left right st; exact emitsBetween_nil (statsLe_refl st)
  | succ f ih =>
    intro arr left right st
    simp only [mergeSortRec]
    repeat' split
    all_goals first
      | exact emitsBetween_append (emitsBetween_append (ih _ _ _ _) (ih _ _ _ _))
          (merge_emits _ _ _ _ _ _)
      | exact emitsBetween_append (ih _ _ _ _) (ih _ _ _ _)
      | exact ih _ _ _ _
      | exact emitsBetween_nil (statsLe_refl st)

theorem selFind_emits (arr : List Int) (i : Nat) (yc : Bool) (prev : List Nat) :
    ∀ (c j m : Nat) (st : Stats),
      EmitsBetween st (selFind arr i yc prev c j m st).1
        (selFind arr i yc prev c j m st).2.2 := by
  intro c
  induction c with
  | zero => intro j m st; exact emitsBetween_nil (statsLe_refl st)
  | succ c ih =>
    intro j m st
    simp only [selFind]
    exact emitsBetween_append
      (emitsBetween_emitIf _ _ _ _ _ (statsLe_cmp st) (statsLe_refl _)) (ih _ _ _)

theorem selOuter_emits (yc : Bool) (n : Nat) :
    ∀ (c i : Nat) (arr : List Int) (prev : List Nat) (st : Stats),
      EmitsBetween st (selOuter yc n c i arr prev st).1
        (selOuter yc n c i arr prev st).2.2.2 := by
  intro c
  induction c with
  | zero => intro i arr prev st; exact emitsBetween_nil (statsLe_refl st)
  | succ c ih =>
    intro i arr prev st
    simp only [selOuter]
    split
    · exact emitsBetween_append
        (emitsBetween_append (selFind_emits arr i yc prev _ _ _ _)
          (emitsBetween_single _ _ _ _ (statsLe_sw _) (statsLe_refl _)))
        (ih _ _ _ _)
    · exact emitsBetween_append (selFind_emits arr i yc prev _ _ _ _) (ih _ _ _ _)

theorem insInner_emits (key : Int) (yc : Bool) :
    ∀ (jp1 : Nat) (arr : List Int) (prev : List Nat) (st : Stats),
      EmitsBetween st (insInner key yc jp1 arr prev st).1
        (insInner key yc jp1 arr prev st).2.2.2.2 := by
  intro jp1
  induction jp1 with
  | zero => intro arr prev st; exact emitsBetween_nil (statsLe_refl st)
  | succ j ih =>
    intro arr prev st
    simp only [insInner]
    split
    · exact emitsBetween_append
        (emitsBetween_emitIf _ _ _ _ _ (statsLe_cmp st) (statsLe_sw _)) (ih _ _ _)
    · exact emitsBetween_nil (statsLe_refl st)

theorem insOuter_emits (yc : Bool) :
    ∀ (c i : Nat) (arr : List Int) (prev : List Nat) (st : Stats),
      EmitsBetween st (insOuter yc c i arr prev st).1
        (insOuter yc c i arr prev st).2.2.2 := by
  intro c
  induction c with
  | zero => intro i arr prev st; exact emitsBetween_nil (statsLe_refl st)
  | succ c ih =>
    intro i arr prev st
    simp only [insOuter]
    exact emitsBetween_append
      (emitsBetween_append (insInner_emits _ yc _ _ _ _)
        (emitsBetween_single _ _ _ _ (statsLe_refl _) (statsLe_refl _)))
      (ih _ _ _ _)

theorem binSearch_emits (arr : List Int) (key : Int) (i : Nat) (yc : Bool) (prev : List Nat) :
    ∀ (fuel : Nat) (left right : ℤ) (ins : Nat) (st : Stats),
      EmitsBetween st (binSearch arr key i yc prev fuel left right ins st).1
        (binSearch arr key i yc prev fuel left right ins st).2.2 := by
  intro fuel
  induction fuel with
  | zero => intro left right ins st; exact emitsBetween_nil (statsLe_refl st)
  | succ f ih =>
    intro left right ins st
    simp only [binSearch]
    repeat' split
    all_goals first
      | exact emitsBetween_append
          (emitsBetween_emitIf _ _ _ _ _ (statsLe_cmp st) (statsLe_refl _)) (ih _ _ _ _)
      | exact emitsBetween_nil (statsLe_refl st)

theorem binShift_statsLe :
    ∀ (c k : Nat) (arr : List Int) (prev : List Nat) (st : Stats),
      StatsLe st (binShift c k arr prev st).2.2 := by
  intro c
  induction c with
  | zero => intro k arr prev st; exact statsLe_refl st
  | succ c ih =>
    intro k arr prev st
    simp only [binShift]
    exact statsLe_trans (statsLe_sw st) (ih _ _ _ _)

theorem binOuter_emits (yc : Bool) :
    ∀ (c i : Nat) (arr : List Int) (prev : List Nat) (st : Stats),
      EmitsBetween st (binOuter yc c i arr prev st).1
        (binOuter yc c i arr prev st).2.2.2 := by
  intro c
  induction c with
  | zero => intro i arr prev st; exact emitsBetween_nil (statsLe_refl st)
  | succ c ih =>
    intro i arr prev st
    simp only [binOuter]
    exact emitsBetween_append
      (emitsBetween_append (binSearch_emits arr _ i yc prev _ _ _ _ _)
        (emitsBetween_single _ _ _ _ (binShift_statsLe _ _ _ _ _) (statsLe_refl _)))
      (ih _ _ _ _)

theorem partLoop_emits (pivot : Int) (high : Nat) (yc : Bool) :
    ∀ (c j : Nat) (i : ℤ) (arr : List Int) (st : Stats),
      EmitsBetween st (partLoop pivot high yc c j i arr st).1
        (partLoop pivot high yc c j i arr st).2.2.2 := by
  intro c
  induction c with
  | zero => intro j i arr st; exact emitsBetween_nil (statsLe_refl st)
  | succ c ih =>
    intro j i arr st
    simp only [partLoop]
    split
    · exact emitsBetween_append
        (emitsBetween_append (emitsBetween_emitIf _ _ _ _ _ (statsLe_cmp st) (statsLe_refl _))
          (emitsBetween_emitIf _ _ _ _ _ (statsLe_sw _) (statsLe_refl _)))
        (ih _ _ _ _)
    · exact emitsBetween_append
        (emitsBetween_emitIf _ _ _ _ _ (statsLe_cmp st) (statsLe_refl _)) (ih _ _ _ _)

theorem partition_emits (arr : List Int) (low high : Nat) (yc : Bool) (st : Stats) :
    EmitsBetween st (partition arr low high yc st).1 (partition arr low high yc st).2.2.2 := by
  simp only [partition]
  exact emitsBetween_append (partLoop_emits _ _ yc _ _ _ _ _)
    (emitsBetween_emitIf _ _ _ _ _ (statsLe_sw _) (statsLe_refl _))

theorem quickRec_emits (yc : Bool) :
    ∀ (fuel : Nat) (arr : List Int) (low high : ℤ) (st : Stats),
      EmitsBetween st (quickRec yc fuel arr low high st).steps
        (quickRec yc fuel arr low high st).stats := by
  intro fuel
  induction fuel with
  | zero => intro arr low high st; exact emitsBetween_nil (statsLe_refl st)
  | succ f ih =>
    intro arr low high st
    simp only [quickRec]
    repeat' split
    all_goals first
      | exact emitsBetween_append
          (emitsBetween_append (emitsBetween_append (partition_emits _ _ _ yc _) (ih _ _ _ _))
            (ih _ _ _ _))
          (emitsBetween_emitIf _ _ _ _ _ (statsLe_refl _) (statsLe_refl _))
      | exact emitsBetween_append
          (emitsBetween_append (partition_emits _ _ _ yc _) (ih _ _ _ _)) (ih _ _ _ _)
      | exact emitsBetween_append (partition_emits _ _ _ yc _) (ih _ _ _ _)
      | exact emitsBetween_emitIf _ _ _ _ _ (statsLe_refl _) (statsLe_refl _)

theorem bubblePass_emits (yc : Bool) :
    ∀ (c j : Nat) (arr : List Int) (sw : Bool) (st : Stats),
      EmitsBetween st (bubblePass yc c j arr sw st).1 (bubblePass yc c j arr sw st).2.2.2 := by
  intro c
  induction c with
  | zero => intro j arr sw st; exact emitsBetween_nil (statsLe_refl st)
  | succ c ih =>
    intro j arr sw st
    simp only [bubblePass]
    split
    · exact emitsBetween_append
        (emitsBetween_append (emitsBetween_emitIf _ _ _ _ _ (statsLe_cmp st) (statsLe_refl _))
          (emitsBetween_emitIf _ _ _ _ _ (statsLe_sw _) (statsLe_refl _)))
        (ih _ _ _ _)
    · exact emitsBetween_append
        (emitsBetween_emitIf _ _ _ _ _ (statsLe_cmp st) (statsLe_refl _)) (ih _ _ _ _)

theorem bubbleOuter_emits (yc : Bool) (n : Nat) :
    ∀ (c i : Nat) (arr : List Int) (st : Stats),
      EmitsBetween st (bubbleOuter yc n c i arr st).1 (bubbleOuter yc n c i arr st).2.2 := by
  intro c
  induction c with
  | zero => intro i arr st; exact emitsBetween_nil (statsLe_refl st)
  | succ c ih =>
    intro i arr st
    simp only [bubbleOuter]
    split
    · exact emitsBetween_append (bubblePass_emits yc _ _ _ _ _) (ih _ _ _)
    · exact bubblePass_emits yc _ _ _ _ _

theorem cocktailFwd_emits (yc : Bool) :
    ∀ (c i : Nat) (arr : List Int) (sw : Bool) (st : Stats),
      EmitsBetween st (cocktailFwd yc c i arr sw st).1 (cocktailFwd yc c i arr sw st).2.2.2 := by
  intro c
  induction c with
  | zero => intro i arr sw st; exact emitsBetween_nil (statsLe_refl st)
  | succ c ih =>
    intro i arr sw st
    simp only [cocktailFwd]
    split
    · exact emitsBetween_append
        (emitsBetween_append (emitsBetween_emitIf _ _ _ _ _ (statsLe_cmp st) (statsLe_refl _))
          (emitsBetween_emitIf _ _ _ _ _ (statsLe_sw _) (statsLe_refl _)))
        (ih _ _ _ _)
    · exact emitsBetween_append
        (emitsBetween_emitIf _ _ _ _ _ (statsLe_cmp st) (statsLe_refl _)) (ih _ _ _ _)

theorem cocktailBwd_emits (yc : Bool) :
    ∀ (c i : Nat) (arr : List Int) (sw : Bool) (st : Stats),
      EmitsBetween st (cocktailBwd yc c i arr sw st).1 (cocktailBwd yc c i arr sw st).2.2.2 := by
  intro c
  induction c with
  | zero => intro i arr sw st; exact emitsBetween_nil (statsLe_refl st)
  | succ c ih =>
    intro i arr sw st
    simp only [cocktailBwd]
    split
    · exact emitsBetween_append
        (emitsBetween_append (emitsBetween_emitIf _ _ _ _ _ (statsLe_cmp st) (statsLe_refl _))
          (emitsBetween_emitIf _ _ _ _ _ (statsLe_sw _) (statsLe_refl _)))
        (ih _ _ _ _)
    · exact emitsBetween_append
        (emitsBetween_emitIf _ _ _ _ _ (statsLe_cmp st) (statsLe_refl _)) (ih _ _ _ _)

theorem cocktailLoop_emits (yc : Bool) :
    ∀ (fuel start e : Nat) (arr : List Int) (st : Stats),
      EmitsBetween st (cocktailLoop yc fuel start e arr st).steps
        (cocktailLoop yc fuel start e arr st).stats := by
  intro fuel
  induction fuel with
  | zero => intro start e arr st; exact emitsBetween_nil (statsLe_refl st)
  | succ f ih =>
    intro start e arr st
    simp only [cocktailLoop]
    repeat' split
    all_goals first
      | exact emitsBetween_append
          (emitsBetween_append (cocktailFwd_emits yc _ _ _ _ _) (cocktailBwd_emits yc _ _ _ _ _))
          (ih _ _ _ _)
      | exact emitsBetween_append (cocktailFwd_emits yc _ _ _ _ _)
          (cocktailBwd_emits yc _ _ _ _ _)
      | exact cocktailFwd_emits yc _ _ _ _ _
      | exact emitsBetween_nil (statsLe_refl st)

theorem gnomeLoop_emits (yc : Bool) :
    ∀ (fuel idx : Nat) (arr : List (Option Int)) (st : Stats),
      EmitsBetween st (gnomeLoop yc fuel idx arr st).1 (gnomeLoop yc fuel idx arr st).2.2.1 := by
  intro fuel
  induction fuel with
  | zero => intro idx arr st; exact emitsBetween_nil (statsLe_refl st)
  | succ f ih =>
    intro idx arr st
    simp only [gnomeLoop]
    repeat' split
    all_goals first
      | exact emitsBetween_append
          (emitsBetween_emitIf _ _ _ _ _ (statsLe_cmp st) (statsLe_refl _)) (ih _ _ _)
      | exact emitsBetween_append
          (emitsBetween_append (emitsBetween_emitIf _ _ _ _ _ (statsLe_cmp st) (statsLe_refl _))
            (emitsBetween_emitIf _ _ _ _ _ (statsLe_sw _) (statsLe_refl _)))
          (ih _ _ _)
      | exact emitsBetween_nil (statsLe_refl st)

theorem combPass_emits (yc : Bool) (gap : Nat) :
    ∀ (c i : Nat) (arr : List Int) (srt : Bool) (st : Stats),
      EmitsBetween st (combPass yc gap c i arr srt st).1
        (combPass yc gap c i arr srt st).2.2.2 := by
  intro c
  induction c with
  | zero => intro i arr srt st; exact emitsBetween_nil (statsLe_refl st)
  | succ c ih =>
    intro i arr srt st
    simp only [combPass]
    split
    · exact emitsBetween_append
        (emitsBetween_append (emitsBetween_emitIf _ _ _ _ _ (statsLe_cmp st) (statsLe_refl _))
          (emitsBetween_emitIf _ _ _ _ _ (statsLe_sw _) (statsLe_refl _)))
        (ih _ _ _ _)
    · exact emitsBetween_append
        (emitsBetween_emitIf _ _ _ _ _ (statsLe_cmp st) (statsLe_refl _)) (ih _ _ _ _)

theorem combLoop_emits (yc : Bool) (n : Nat) :
    ∀ (fuel gap : Nat) (srt : Bool) (arr : List Int) (st : Stats),
      EmitsBetween st (combLoop yc n fuel gap srt arr st).1
        (combLoop yc n fuel gap srt arr st).2.2.1 := by
  intro fuel
  induction fuel with
  | zero => intro gap srt arr st; exact emitsBetween_nil (statsLe_refl st)
  | succ f ih =>
    intro gap srt arr st
    simp only [combLoop]
    split
    · exact emitsBetween_nil (statsLe_refl st)
    · exact emitsBetween_append (combPass_emits yc _ _ _ _ _ _) (ih _ _ _ _)

theorem shellInner_emits (yc : Bool) (gap : Nat) (temp : Int) :
    ∀ (fuel j : Nat) (arr : List Int) (st : Stats),
      EmitsBetween st (shellInner yc gap temp fuel j arr st).1
        (shellInner yc gap temp fuel j arr st).2.2.2 := by
  intro fuel
  induction fuel with
  | zero => intro j arr st; exact emitsBetween_nil (statsLe_refl st)
  | succ f ih =>
    intro j arr st
    simp only [shellInner]
    split
    · exact emitsBetween_append
        (emitsBetween_append (emitsBetween_emitIf _ _ _ _ _ (statsLe_cmp st) (statsLe_refl _))
          (emitsBetween_emitIf _ _ _ _ _ (statsLe_sw _) (statsLe_refl _)))
        (ih _ _ _)
    · exact emitsBetween_nil (statsLe_refl st)

theorem shellMid_emits (yc : Bool) (gap : Nat) :
    ∀ (c i : Nat) (arr : List Int) (st : Stats),
      EmitsBetween st (shellMid yc gap c i arr st).1 (shellMid yc gap c i arr st).2.2 := by
  intro c
  induction c with
  | zero => intro i arr st; exact emitsBetween_nil (statsLe_refl st)
  | succ c ih =>
    intro i arr st
    simp only [shellMid]
    refine emitsBetween_append (emitsBetween_append (shellInner_emits yc gap _ _ _ _ _) ?_)
      (ih _ _ _)
    split
    · exact emitsBetween_single _ _ _ _ (statsLe_refl _) (statsLe_refl _)
    · exact emitsBetween_nil (statsLe_refl _)

theorem shellLoop_emits (yc : Bool) (n : Nat) :
    ∀ (fuel gap : Nat) (arr : List Int) (st : Stats),
      EmitsBetween st (shellLoop yc n fuel gap arr st).1
        (shellLoop yc n fuel gap arr st).2.2.1 := by
  intro fuel
  induction fuel with
  | zero => intro gap arr st; exact emitsBetween_nil (statsLe_refl st)
  | succ f ih =>
    intro gap arr st
    simp only [shellLoop]
    split
    · exact emitsBetween_append (shellMid_emits yc _ _ _ _ _) (ih _ _ _)
    · exact emitsBetween_nil (statsLe_refl st)

theorem heapify_emits (yc : Bool) (n : Nat) :
    ∀ (fuel i : Nat) (arr : List Int) (st : Stats),
      EmitsBetween st (heapify yc n fuel i arr st).1 (heapify yc n fuel i arr st).2.2.1 := by
  intro fuel
  induction fuel with
  | zero => intro i arr st; exact emitsBetween_nil (statsLe_refl st)
  | succ f ih =>
    intro i arr st
    simp only [heapify]
    repeat' split
    all_goals first
      | exact emitsBetween_append
          (emitsBetween_append (emitsBetween_emitIf _ _ _ _ _ (statsLe_cmp st) (statsLe_refl _))
            (emitsBetween_emitIf _ _ _ _ _ (statsLe_sw _) (statsLe_refl _)))
          (ih _ _ _)
      | exact emitsBetween_nil (statsLe_refl st)

theorem heapBuild_emits (yc : Bool) (n : Nat) :
    ∀ (c i : Nat) (arr : List Int) (st : Stats),
      EmitsBetween st (heapBuild yc n c i arr st).1 (heapBuild yc n c i arr st).2.2.1 := by
  intro c
  induction c with
  | zero => intro i arr st; exact emitsBetween_nil (statsLe_refl st)
  | succ c ih =>
    intro i arr st
    simp only [heapBuild]
    split
    · exact emitsBetween_append (heapify_emits yc n _ _ _ _) (ih _ _ _)
    · exact heapify_emits yc n _ _ _ _

theorem heapExtract_emits (yc : Bool) :
    ∀ (c i : Nat) (arr : List Int) (st : Stats),
      EmitsBetween st (heapExtract yc c i arr st).1 (heapExtract yc c i arr st).2.2.1 := by
  intro c
  induction c with
  | zero => intro i arr st; exact emitsBetween_nil (statsLe_refl st)
  | succ c ih =>
    intro i arr st
    simp only [heapExtract]
    split
    · exact emitsBetween_append
        (emitsBetween_append (emitsBetween_emitIf _ _ _ _ _ (statsLe_sw st) (statsLe_refl _))
          (heapify_emits yc _ _ _ _ _))
        (ih _ _ _)
    · exact emitsBetween_append (emitsBetween_emitIf _ _ _ _ _ (statsLe_sw st) (statsLe_refl _))
        (heapify_emits yc _ _ _ _ _)

theorem oddEvenPass_emits (yc : Bool) :
    ∀ (c i : Nat) (arr : List Int) (srt : Bool) (st : Stats),
      EmitsBetween st (oddEvenPass yc c i arr srt st).1
        (oddEvenPass yc c i arr srt st).2.2.2 := by
  intro c
  induction c with
  | zero => intro i arr srt st; exact emitsBetween_nil (statsLe_refl st)
  | succ c ih =>
    intro i arr srt st
    simp only [oddEvenPass]
    split
    · exact emitsBetween_append
        (emitsBetween_append (emitsBetween_emitIf _ _ _ _ _ (statsLe_cmp st) (statsLe_refl _))
          (emitsBetween_emitIf _ _ _ _ _ (statsLe_sw _) (statsLe_refl _)))
        (ih _ _ _ _)
    · exact emitsBetween_append
        (emitsBetween_emitIf _ _ _ _ _ (statsLe_cmp st) (statsLe_refl _)) (ih _ _ _ _)

theorem oddEvenLoop_emits (yc : Bool) (n : Nat) :
    ∀ (fuel : Nat) (arr : List Int) (st : Stats),
      EmitsBetween st (oddEvenLoop yc n fuel arr st).1 (oddEvenLoop yc n fuel arr st).2.2.1 := by
  intro fuel
  induction fuel with
  | zero => intro arr st; exact emitsBetween_nil (statsLe_refl st)
  | succ f ih =>
    intro arr st
    simp only [oddEvenLoop]
    split
    · exact emitsBetween_append (oddEvenPass_emits yc _ _ _ _ _) (oddEvenPass_emits yc _ _ _ _ _)
    · exact emitsBetween_append
        (emitsBetween_append (oddEvenPass_emits yc _ _ _ _ _) (oddEvenPass_emits yc _ _ _ _ _))
        (ih _ _)

theorem bitonicCmpLoop_emits (yc up : Bool) (mid : Nat) :
    ∀ (c i : Nat) (arr : List Int) (st : Stats),
      EmitsBetween st (bitonicCmpLoop yc up mid c i arr st).1
        (bitonicCmpLoop yc up mid c i arr st).2.2 := by
  intro c
  induction c with
  | zero => intro i arr st; exact emitsBetween_nil (statsLe_refl st)
  | succ c ih =>
    intro i arr st
    simp only [bitonicCmpLoop]
    split
    · exact emitsBetween_append
        (emitsBetween_append (emitsBetween_emitIf _ _ _ _ _ (statsLe_cmp st) (statsLe_refl _))
          (emitsBetween_emitIf _ _ _ _ _ (statsLe_sw _) (statsLe_refl _)))
        (ih _ _ _)
    · exact emitsBetween_append
        (emitsBetween_emitIf _ _ _ _ _ (statsLe_cmp st) (statsLe_refl _)) (ih _ _ _)

theorem bitonicMergeRec_emits (yc : Bool) :
    ∀ (fuel low cnt : Nat) (up : Bool) (arr : List Int) (st : Stats),
      EmitsBetween st (bitonicMergeRec yc fuel low cnt up arr st).1
        (bitonicMergeRec yc fuel low cnt up arr st).2.2.1 := by
  intro fuel
  induction fuel with
  | zero => intro low cnt up arr st; exact emitsBetween_nil (statsLe_refl st)
  | succ f ih =>
    intro low cnt up arr st
    simp only [bitonicMergeRec]
    repeat' split
    all_goals first
      | exact emitsBetween_append
          (emitsBetween_append (bitonicCmpLoop_emits yc _ _ _ _ _ _) (ih _ _ _ _ _))
          (ih _ _ _ _ _)
      | exact emitsBetween_append (bitonicCmpLoop_emits yc _ _ _ _ _ _) (ih _ _ _ _ _)
      | exact emitsBetween_nil (statsLe_refl st)

theorem bitonicSortRecF_emits (yc : Bool) :
    ∀ (fuel low cnt : Nat) (up : Bool) (arr : List Int) (st : Stats),
      EmitsBetween st (bitonicSortRecF yc fuel low cnt up arr st).1
        (bitonicSortRecF yc fuel low cnt up arr st).2.2.1 := by
  intro fuel
  induction fuel with
  | zero => intro low cnt up arr st; exact emitsBetween_nil (statsLe_refl st)
  | succ f ih =>
    intro low cnt up arr st
    simp only [bitonicSortRecF]
    repeat' split
    all_goals first
      | exact emitsBetween_append
          (emitsBetween_append (ih _ _ _ _ _) (ih _ _ _ _ _))
          (bitonicMergeRec_emits yc _ _ _ _ _ _)
      | exact emitsBetween_append (ih _ _ _ _ _) (ih _ _ _ _ _)
      | exact ih _ _ _ _ _
      | exact emitsBetween_nil (statsLe_refl st)

theorem cycleCount_emits (arr : List Int) (item : Int) (yc : Bool) :
    ∀ (c i pos : Nat) (st : Stats),
      EmitsBetween st (cycleCount arr item yc c i pos st).1
        (cycleCount arr item yc c i pos st).2.2 := by
  intro c
  induction c with
  | zero => intro i pos st; exact emitsBetween_nil (statsLe_refl st)
  | succ c ih =>
    intro i pos st
    simp only [cycleCount]
    exact emitsBetween_append
      (emitsBetween_emitIf _ _ _ _ _ (statsLe_cmp st) (statsLe_refl _)) (ih _ _ _)

theorem cycleWalk_emits (yc : Bool) (n cs0 : Nat) :
    ∀ (fuel pos : Nat) (item : Int) (arr : List Int) (st : Stats),
      EmitsBetween st (cycleWalk yc n cs0 fuel pos item arr st).1
        (cycleWalk yc n cs0 fuel pos item arr st).2.2.2.1 := by
  intro fuel
  induction fuel with
  | zero => intro pos item arr st; exact emitsBetween_nil (statsLe_refl st)
  | succ f ih =>
    intro pos item arr st
    simp only [cycleWalk]
    repeat' split
    all_goals first
      | exact emitsBetween_append
          (emitsBetween_append (cycleCount_emits _ _ yc _ _ _ _)
            (emitsBetween_emitIf _ _ _ _ _ (statsLe_sw _) (statsLe_refl _)))
          (ih _ _ _ _)
      | exact emitsBetween_append (cycleCount_emits _ _ yc _ _ _ _) (ih _ _ _ _)
      | exact emitsBetween_nil (statsLe_refl st)

theorem cycleOuter_emits (yc : Bool) (n : Nat) :
    ∀ (c cs0 : Nat) (arr : List Int) (st : Stats),
      EmitsBetween st (cycleOuter yc n c cs0 arr st).1 (cycleOuter yc n c cs0 arr st).2.2.1 := by
  intro c
  induction c with
  | zero => intro cs0 arr st; exact emitsBetween_nil (statsLe_refl st)
  | succ c ih =>
    intro cs0 arr st
    simp only [cycleOuter]
    repeat' split
    all_goals first
      | exact emitsBetween_append (cycleCount_emits _ _ yc _ _ _ _) (ih _ _ _)
      | exact emitsBetween_append
          (emitsBetween_append
            (emitsBetween_append (cycleCount_emits _ _ yc _ _ _ _)
              (emitsBetween_emitIf _ _ _ _ _ (statsLe_sw _) (statsLe_refl _)))
            (cycleWalk_emits yc n cs0 _ _ _ _ _))
          (ih _ _ _)
      | exact emitsBetween_append
          (emitsBetween_append
            (emitsBetween_append (cycleCount_emits _ _ yc _ _ _ _)
              (emitsBetween_nil (statsLe_refl _)))
            (cycleWalk_emits yc n cs0 _ _ _ _ _))
          (ih _ _ _)
      | exact emitsBetween_append
          (emitsBetween_append (cycleCount_emits _ _ yc _ _ _ _)
            (emitsBetween_emitIf _ _ _ _ _ (statsLe_sw _) (statsLe_refl _)))
          (cycleWalk_emits yc n cs0 _ _ _ _ _)
      | exact emitsBetween_append
          (emitsBetween_append (cycleCount_emits _ _ yc _ _ _ _)
            (emitsBetween_nil (statsLe_refl _)))
          (cycleWalk_emits yc n cs0 _ _ _ _ _)

theorem lsdClassify_emits (arr : List Int) (exp : Int) (st : Stats) :
    ∀ (c i : Nat) (count : List Nat),
      EmitsBetween st (lsdClassify arr exp st c i count).1 st := by
  intro c
  induction c with
  | zero => intro i count; exact emitsBetween_nil (statsLe_refl st)
  | succ c ih =>
    intro i count
    simp only [lsdClassify]
    exact emitsBetween_cons _ _ _ _ (statsLe_refl st) (ih _ _)

theorem lsdCumulate_emits (arr : List Int) (st : Stats) :
    ∀ (c i : Nat) (count : List Nat),
      EmitsBetween st (lsdCumulate arr st c i count).1 st := by
  intro c
  induction c with
  | zero => intro i count; exact emitsBetween_nil (statsLe_refl st)
  | succ c ih =>
    intro i count
    simp only [lsdCumulate]
    exact emitsBetween_cons _ _ _ _ (statsLe_refl st) (ih _ _)

theorem lsdPlace_emits (arr : List Int) (exp : Int) (st : Stats) :
    ∀ (c i : Nat) (count : List Nat) (output : List Int),
      EmitsBetween st (lsdPlace arr exp st c i count output).1 st := by
  intro c
  induction c with
  | zero => intro i count output; exact emitsBetween_nil (statsLe_refl st)
  | succ c ih =>
    intro i count output
    simp only [lsdPlace]
    exact emitsBetween_cons _ _ _ _ (statsLe_refl st) (ih _ _ _)

theorem lsdCopy_emits (output : List Int) (yc : Bool) :
    ∀ (c i : Nat) (arr : List Int) (st : Stats),
      EmitsBetween st (lsdCopy output yc c i arr st).1 (lsdCopy output yc c i arr st).2.2 := by
  intro c
  induction c with
  | zero => intro i arr st; exact emitsBetween_nil (statsLe_refl st)
  | succ c ih =>
    intro i arr st
    simp only [lsdCopy]
    exact emitsBetween_append
      (emitsBetween_emitIf _ _ _ _ _ (statsLe_sw st) (statsLe_refl _)) (ih _ _ _)

theorem lsdPass_emits (yc : Bool) (exp : Int) (arr : List Int) (st : Stats) :
    EmitsBetween st (lsdPass yc exp arr st).1 (lsdPass yc exp arr st).2.2 := by
  simp only [lsdPass]
  exact emitsBetween_append
    (emitsBetween_append
      (emitsBetween_append (lsdClassify_emits _ _ _ _ _ _) (lsdCumulate_emits _ _ _ _ _))
      (lsdPlace_emits _ _ _ _ _ _ _))
    (lsdCopy_emits _ yc _ _ _ _)

theorem lsdLoop_emits (yc : Bool) (maxNum : Int) :
    ∀ (fuel : Nat) (exp : Int) (arr : List Int) (st : Stats),
      EmitsBetween st (lsdLoop yc maxNum fuel exp arr st).1
        (lsdLoop yc maxNum fuel exp arr st).2.2.1 := by
  intro fuel
  induction fuel with
  | zero => intro exp arr st; exact emitsBetween_nil (statsLe_refl st)
  | succ f ih =>
    intro exp arr st
    simp only [lsdLoop]
    split
    · exact emitsBetween_append (lsdPass_emits yc _ _ _) (ih _ _ _)
    · exact emitsBetween_nil (statsLe_refl st)

theorem mergeSort_monotone (yc : Bool) (arr : List Int) :
    stepsMonotone (mergeSort arr yc).steps :=
  (mergeSortRec_emits yc _ _ _ _ _).2.1

theorem selectionSort_monotone (yc : Bool) (arr : List Int) :
    stepsMonotone (selectionSort arr yc).steps := by
  simp only [selectionSort]
  exact (emitsBetween_append (selOuter_emits yc _ _ _ _ _ _)
    (emitsBetween_single _ _ _ _ (statsLe_refl _) (statsLe_refl _))).2.1

theorem insertionSort_monotone (yc : Bool) (arr : List Int) :
    stepsMonotone (insertionSort arr yc).steps := by
  simp only [insertionSort]
  exact (emitsBetween_append (insOuter_emits yc _ _ _ _ _)
    (emitsBetween_single _ _ _ _ (statsLe_refl _) (statsLe_refl _))).2.1

theorem binaryInsertionSort_monotone (yc : Bool) (arr : List Int) :
    stepsMonotone (binaryInsertionSort arr yc).steps := by
  simp only [binaryInsertionSort]
  exact (emitsBetween_append (binOuter_emits yc _ _ _ _ _)
    (emitsBetween_single _ _ _ _ (statsLe_refl _) (statsLe_refl _))).2.1

theorem quickSort_monotone (yc : Bool) (arr : List Int) :
    stepsMonotone (quickSort arr yc).steps :=
  (quickRec_emits yc _ _ _ _ _).2.1

theorem bubbleSort_monotone (yc : Bool) (arr : List Int) :
    stepsMonotone (bubbleSort arr yc).steps := by
  simp only [bubbleSort]
  exact (emitsBetween_append (bubbleOuter_emits yc _ _ _ _ _)
    (emitsBetween_emitIf _ _ _ _ _ (statsLe_refl _) (statsLe_refl _))).2.1

theorem cocktailShakerSort_monotone (yc : Bool) (arr : List Int) :
    stepsMonotone (cocktailShakerSort arr yc).steps := by
  simp only [cocktailShakerSort]
  split
  · exact (emitsBetween_append (cocktailLoop_emits yc _ _ _ _ _)
      (emitsBetween_emitIf _ _ _ _ _ (statsLe_refl _) (statsLe_refl _))).2.1
  · exact (emitsBetween_append (cocktailLoop_emits yc _ _ _ _ _)
      (emitsBetween_nil (statsLe_refl _))).2.1

theorem gnomeSort_monotone (yc : Bool) (arr : List Int) :
    stepsMonotone (gnomeSort arr yc).steps := by
  simp only [gnomeSort]
  split
  · exact (emitsBetween_append (gnomeLoop_emits yc _ _ _ _)
      (emitsBetween_emitIf _ _ _ _ _ (statsLe_refl _) (statsLe_refl _))).2.1
  · exact (emitsBetween_append (gnomeLoop_emits yc _ _ _ _)
      (emitsBetween_nil (statsLe_refl _))).2.1

theorem combSort_monotone (yc : Bool) (arr : List Int) :
    stepsMonotone (combSort arr yc).steps := by
  simp only [combSort]
  split
  · exact (emitsBetween_append (combLoop_emits yc _ _ _ _ _ _)
      (emitsBetween_emitIf _ _ _ _ _ (statsLe_refl _) (statsLe_refl _))).2.1
  · exact (emitsBetween_append (combLoop_emits yc _ _ _ _ _ _)
      (emitsBetween_nil (statsLe_refl _))).2.1

theorem shellSort_monotone (yc : Bool) (arr : List Int) :
    stepsMonotone (shellSort arr yc).steps := by
  simp only [shellSort]
  split
  · exact (emitsBetween_append (shellLoop_emits yc _ _ _ _ _)
      (emitsBetween_emitIf _ _ _ _ _ (statsLe_refl _) (statsLe_refl _))).2.1
  · exact (emitsBetween_append (shellLoop_emits yc _ _ _ _ _)
      (emitsBetween_nil (statsLe_refl _))).2.1

theorem heapSort_monotone (yc : Bool) (arr : List Int) :
    stepsMonotone (heapSort arr yc).steps := by
  simp only [heapSort]
  split
  · split
    · exact (emitsBetween_append
        (emitsBetween_append (heapBuild_emits yc _ _ _ _ _) (heapExtract_emits yc _ _ _ _))
        (emitsBetween_emitIf _ _ _ _ _ (statsLe_refl _) (statsLe_refl _))).2.1
    · exact (emitsBetween_append
        (emitsBetween_append (heapBuild_emits yc _ _ _ _ _) (heapExtract_emits yc _ _ _ _))
        (emitsBetween_nil (statsLe_refl _))).2.1
  · exact (heapBuild_emits yc _ _ _ _ _).2.1

theorem oddEvenSort_monotone (yc : Bool) (arr : List Int) :
    stepsMonotone (oddEvenSort arr yc).steps := by
  simp only [oddEvenSort]
  split
  · exact (emitsBetween_append (oddEvenLoop_emits yc _ _ _ _)
      (emitsBetween_emitIf _ _ _ _ _ (statsLe_refl _) (statsLe_refl _))).2.1
  · exact (emitsBetween_append (oddEvenLoop_emits yc _ _ _ _)
      (emitsBetween_nil (statsLe_refl _))).2.1

theorem bitonicSort_monotone (up yc : Bool) (arr : List Int) :
    stepsMonotone (bitonicSort arr up yc).steps := by
  simp only [bitonicSort]
  split
  · exact (emitsBetween_append (bitonicSortRecF_emits yc _ _ _ _ _ _)
      (emitsBetween_emitIf _ _ _ _ _ (statsLe_refl _) (statsLe_refl _))).2.1
  · exact (emitsBetween_append (bitonicSortRecF_emits yc _ _ _ _ _ _)
      (emitsBetween_nil (statsLe_refl _))).2.1

theorem cycleSort_monotone (yc : Bool) (arr : List Int) :
    stepsMonotone (cycleSort arr yc).steps := by
  simp only [cycleSort]
  split
  · exact (emitsBetween_append (cycleOuter_emits yc _ _ _ _ _)
      (emitsBetween_emitIf _ _ _ _ _ (statsLe_refl _) (statsLe_refl _))).2.1
  · exact (emitsBetween_append (cycleOuter_emits yc _ _ _ _ _)
      (emitsBetween_nil (statsLe_refl _))).2.1

theorem lsdRadixSort_monotone (yc : Bool) (arr : List Int) :
    stepsMonotone (lsdRadixSort arr yc).steps := by
  cases hm : arr.max? with
  | none =>
    simp only [lsdRadixSort, hm]
    exact (emitsBetween_emitIf _ _ _ _ _ (statsLe_refl _) (statsLe_refl _)).2.1
  | some m =>
    simp only [lsdRadixSort, hm]
    split
    · exact (emitsBetween_append (lsdLoop_emits yc _ _ _ _ _)
        (emitsBetween_emitIf _ _ _ _ _ (statsLe_refl _) (statsLe_refl _))).2.1
    · exact (emitsBetween_append (lsdLoop_emits yc _ _ _ _ _)
        (emitsBetween_nil (statsLe_refl _))).2.1

theorem selectionSort_statsFlag (arr : List Int) :
    (selectionSort arr true).stats = (selectionSort arr false).stats := by
  simp only [selectionSort, selOuter_flag]

theorem insertionSort_statsFlag (arr : List Int) :
    (insertionSort arr true).stats = (insertionSort arr false).stats := by
  simp only [insertionSort, insOuter_flag]

theorem binaryInsertionSort_statsFlag (arr : List Int) :
    (binaryInsertionSort arr true).stats = (binaryInsertionSort arr false).stats := by
  simp only [binaryInsertionSort, binOuter_flag]

theorem quickSort_statsFlag (arr : List Int) :
    (quickSort arr true).stats = (quickSort arr false).stats := by
  have h := quickRec_flag (arr.length + 1) arr 0 ((arr.length : ℤ) - 1) ⟨0, 0⟩
  simp only [Prod.mk.injEq] at h
  exact h.2.1

theorem bubbleSort_statsFlag (arr : List Int) :
    (bubbleSort arr true).stats = (bubbleSort arr false).stats := by
  simp only [bubbleSort, bubbleOuter_flag]

theorem cocktailShakerSort_statsFlag (arr : List Int) :
    (cocktailShakerSort arr true).stats = (cocktailShakerSort arr false).stats := by
  have h := cocktailLoop_flag (arr.length + 1) 0 (arr.length - 1) arr ⟨0, 0⟩
  simp only [Prod.mk.injEq] at h
  exact h.2.1

theorem gnomeSort_statsFlag (arr : List Int) :
    (gnomeSort arr true).stats = (gnomeSort arr false).stats := by
  simp only [gnomeSort, gnomeLoop_flag]

theorem combSort_statsFlag (arr : List Int) :
    (combSort arr true).stats = (combSort arr false).stats := by
  simp only [combSort, combLoop_flag]

theorem shellSort_statsFlag (arr : List Int) :
    (shellSort arr true).stats = (shellSort arr false).stats := by
  simp only [shellSort, shellLoop_flag]

theorem heapSort_statsFlag (arr : List Int) :
    (heapSort arr true).stats = (heapSort arr false).stats := by
  simp only [heapSort, heapBuild_flag, heapExtract_flag]
  split <;> rfl

theorem oddEvenSort_statsFlag (arr : List Int) :
    (oddEvenSort arr true).stats = (oddEvenSort arr false).stats := by
  simp only [oddEvenSort, oddEvenLoop_flag]

theorem bitonicSort_statsFlag (up : Bool) (arr : List Int) :
    (bitonicSort arr up true).stats = (bitonicSort arr up false).stats := by
  simp only [bitonicSort, bitonicSortRecF_flag]

theorem cycleSort_statsFlag (arr : List Int) :
    (cycleSort arr true).stats = (cycleSort arr false).stats := by
  simp only [cycleSort, cycleOuter_flag]

theorem lsdRadixSort_statsFlag (arr : List Int) :
    (lsdRadixSort arr true).stats = (lsdRadixSort arr false).stats := by
  cases hm : arr.max? with
  | none => simp only [lsdRadixSort, hm]
  | some m => simp only [lsdRadixSort, hm, lsdLoop_flag]

/-- C8 counterexample: on `[1, 0]`, merge sort's `yieldCompare = true` run
ends with a step carrying counters (1 comparison, 2 swaps), but the
reference run without step emission (`yieldCompare = false`) finishes with
counters (1, 0): the `swaps` bump of the consolidated merge step happens
only under `yieldCompare`. -/
theorem claim_c8_counterexample :
    (mergeSort [1, 0] true).steps.map stepStats = [⟨1, 0⟩, ⟨1, 2⟩] ∧
      (mergeSort [1, 0] false).stats = ⟨1, 0⟩ := by
  decide

/-- C8 (amended): the `comparisons` and `swaps` counters carried by every
sort driver's yielded steps are monotonically non-decreasing along the
sequence, and for every driver EXCEPT `mergeSort` the final counter pair
is the same with and without step emission (`yieldCompare` true/false);
`mergeSort` increments `swaps` only under `yieldCompare`, so its reference
run undercounts swaps. -/
theorem claim_c8 :
    (∀ (yc : Bool) (arr : List Int), stepsMonotone (mergeSort arr yc).steps) ∧
    (∀ (yc : Bool) (arr : List Int), stepsMonotone (selectionSort arr yc).steps) ∧
    (∀ (yc : Bool) (arr : List Int), stepsMonotone (insertionSort arr yc).steps) ∧
    (∀ (yc : Bool) (arr : List Int), stepsMonotone (binaryInsertionSort arr yc).steps) ∧
    (∀ (yc : Bool) (arr : List Int), stepsMonotone (quickSort arr yc).steps) ∧
    (∀ (yc : Bool) (arr : List Int), stepsMonotone (bubbleSort arr yc).steps) ∧
    (∀ (yc : Bool) (arr : List Int), stepsMonotone (cocktailShakerSort arr yc).steps) ∧
    (∀ (yc : Bool) (arr : List Int), stepsMonotone (gnomeSort arr yc).steps) ∧
    (∀ (yc : Bool) (arr : List Int), stepsMonotone (combSort arr yc).steps) ∧
    (∀ (yc : Bool) (arr : List Int), stepsMonotone (shellSort arr yc).steps) ∧
    (∀ (yc : Bool) (arr : List Int), stepsMonotone (heapSort arr yc).steps) ∧
    (∀ (yc : Bool) (arr : List Int), stepsMonotone (oddEvenSort arr yc).steps) ∧
    (∀ (up yc : Bool) (arr : List Int), stepsMonotone (bitonicSort arr up yc).steps) ∧
    (∀ (yc : Bool) (arr : List Int), stepsMonotone (cycleSort arr yc).steps) ∧
    (∀ (yc : Bool) (arr : List Int), stepsMonotone (lsdRadixSort arr yc).steps) ∧
    (∀ arr : List Int, (selectionSort arr true).stats = (selectionSort arr false).stats) ∧
    (∀ arr : List Int, (insertionSort arr true).stats = (insertionSort arr false).stats) ∧
    (∀ arr : List Int,
      (binaryInsertionSort arr true).stats = (binaryInsertionSort arr false).stats) ∧
    (∀ arr : List Int, (quickSort arr true).stats = (quickSort arr false).stats) ∧
    (∀ arr : List Int, (bubbleSort arr true).stats = (bubbleSort arr false).stats) ∧
    (∀ arr : List Int,
      (cocktailShakerSort arr true).stats = (cocktailShakerSort arr false).stats) ∧
    (∀ arr : List Int, (gnomeSort arr true).stats = (gnomeSort arr false).stats) ∧
    (∀ arr : List Int, (combSort arr true).stats = (combSort arr false).stats) ∧
    (∀ arr : List Int, (shellSort arr true).stats = (shellSort arr false).stats) ∧
    (∀ arr : List Int, (heapSort arr true).stats = (heapSort arr false).stats) ∧
    (∀ arr : List Int, (oddEvenSort arr true).stats = (oddEvenSort arr false).stats) ∧
    (∀ (up : Bool) (arr : List Int),
      (bitonicSort arr up true).stats = (bitonicSort arr up false).stats) ∧
    (∀ arr : List Int, (cycleSort arr true).stats = (cycleSort arr false).stats) ∧
    (∀ arr : List Int, (lsdRadixSort arr true).stats = (lsdRadixSort arr false).stats) :=
  ⟨mergeSort_monotone, selectionSort_monotone, insertionSort_monotone,
   binaryInsertionSort_monotone, quickSort_monotone, bubbleSort_monotone,
   cocktailShakerSort_monotone, gnomeSort_monotone, combSort_monotone, shellSort_monotone,
   heapSort_monotone, oddEvenSort_monotone, bitonicSort_monotone, cycleSort_monotone,
   lsdRadixSort_monotone, selectionSort_statsFlag, insertionSort_statsFlag,
   binaryInsertionSort_statsFlag, quickSort_statsFlag, bubbleSort_statsFlag,
   cocktailShakerSort_statsFlag, gnomeSort_statsFlag, combSort_statsFlag, shellSort_statsFlag,
   heapSort_statsFlag, oddEvenSort_statsFlag, bitonicSort_statsFlag, cycleSort_statsFlag,
   lsdRadixSort_statsFlag⟩

/-! ## C1: common sortedness / permutation infrastructure -/

theorem ascSeq_length (n : Nat) : (ascSeq n).length = n := by
  unfold ascSeq; rw [List.length_map, List.length_range]

theorem ascSeq_sorted (n : Nat) : (ascSeq n).Sorted (· ≤ ·) := by
  unfold ascSeq
  rw [List.Sorted, List.pairwise_iff_getElem]
  intro i j hi hj hij
  simp only [List.getElem_map, List.getElem_range]
  exact Int.ofNat_le.mpr (le_of_lt hij)

theorem ascSeq_getD (n k : Nat) (h : k < n) : (ascSeq n).getD k 0 = (k : Int) := by
  unfold ascSeq
  rw [List.getD_eq_getElem _ 0 (by rw [List.length_map, List.length_range]; exact h)]
  simp only [List.getElem_map, List.getElem_range]
  rfl

theorem getD_set_self (l : List Int) (i : Nat) (v : Int) (h : i < l.length) :
    (l.set i v).getD i 0 = v := by
  simp [List.getD_eq_getElem?_getD, List.getElem?_set_self', h]

theorem getD_set_other (l : List Int) (i j : Nat) (v : Int) (h : i ≠ j) :
    (l.set i v).getD j 0 = l.getD j 0 := by
  simp [List.getD_eq_getElem?_getD, List.getElem?_set_ne h]

theorem set_getD_self (l : List Int) (i : Nat) (h : i < l.length) :
    l.set i (l.getD i 0) = l := by
  rw [List.getD_eq_getElem l 0 h]
  apply List.ext_getElem (by simp)
  intro n h1 h2
  simp only [List.getElem_set]
  split
  · simp_all
  · rfl

theorem pairwiseLe_sorted {l : List Int} (h : PairwiseLe l) : l.Sorted (· ≤ ·) := by
  rw [List.Sorted, List.pairwise_iff_getElem]
  intro i j hi hj hij
  have := h i j hij hj
  rwa [List.getD_eq_getElem l 0 hi, List.getD_eq_getElem l 0 hj] at this

theorem perm_pairwiseLe_eq {l : List Int} {N : Nat} (hp : l.Perm (ascSeq N))
    (hs : PairwiseLe l) : l = ascSeq N :=
  List.eq_of_perm_of_sorted hp (pairwiseLe_sorted hs) (ascSeq_sorted N)

theorem adjacentLe_pairwise {l : List Int}
    (h : ∀ k, k + 1 < l.length → l.getD k 0 ≤ l.getD (k + 1) 0) : PairwiseLe l := by
  have key : ∀ (d a : Nat), a + d < l.length → l.getD a 0 ≤ l.getD (a + d) 0 := by
    intro d
    induction d with
    | zero => intro a _; exact le_refl _
    | succ d ih =>
      intro a hd
      have h1 : a + d + 1 < l.length := by omega
      exact le_trans (ih a (by omega)) (h (a + d) h1)
  intro a b hab hb
  have := key (b - a) a (by omega)
  rwa [Nat.add_sub_cancel' (le_of_lt hab)] at this

theorem swapHead_perm (x : Int) :
    ∀ (t : List Int) (b : Nat), b < t.length →
      (t.getD b 0 :: t.set b x).Perm (x :: t) := by
  intro t
  induction t with
  | nil => intro b hb; simp at hb
  | cons y s ih =>
    intro b hb
    cases b with
    | zero => exact List.Perm.swap x y s
    | succ b =>
      simp only [List.getD_cons_succ, List.set_cons_succ]
      have h1 : (s.getD b 0 :: y :: s.set b x).Perm (y :: s.getD b 0 :: s.set b x) :=
        List.Perm.swap y (s.getD b 0) (s.set b x)
      have h2 : (y :: s.getD b 0 :: s.set b x).Perm (y :: x :: s) :=
        (ih b (by simpa using hb)).cons y
      have h3 : (y :: x :: s).Perm (x :: y :: s) := List.Perm.swap x y s
      exact (h1.trans h2).trans h3

theorem set_set_perm :
    ∀ (l : List Int) (a b : Nat), a < l.length → b < l.length →
      ((l.set a (l.getD b 0)).set b (l.getD a 0)).Perm l := by
  intro l
  induction l with
  | nil => intro a b ha _; simp at ha
  | cons x t ih =>
    intro a b ha hb
    cases a with
    | zero =>
      cases b with
      | zero => simp
      | succ b =>
        simp only [List.getD_cons_succ, List.getD_cons_zero, List.set_cons_zero,
          List.set_cons_succ]
        exact swapHead_perm x t b (by simpa using hb)
    | succ a =>
      cases b with
      | zero =>
        simp only [List.getD_cons_succ, List.getD_cons_zero, List.set_cons_zero,
          List.set_cons_succ]
        exact swapHead_perm x t a (by simpa using ha)
      | succ b =>
        simp only [List.getD_cons_succ, List.set_cons_succ]
        exact (ih a b (by simpa using ha) (by simpa using hb)).cons x

theorem listSwap_length (arr : List Int) (a b : Nat) :
    (listSwap arr a b).length = arr.length := by
  simp [listSwap]

theorem listSwap_perm (arr : List Int) (a b : Nat) (ha : a < arr.length)
    (hb : b < arr.length) : (listSwap arr a b).Perm arr :=
  set_set_perm arr a b ha hb

theorem listSwap_getD_fst (arr : List Int) (a b : Nat) (ha : a < arr.length) :
    ∀ _hb : b < arr.length, (listSwap arr a b).getD a 0 = arr.getD b 0 := by
  intro hb
  rcases eq_or_ne a b with h | h
  · subst h
    simp only [listSwap, List.set_set]
    exact getD_set_self arr a _ ha
  · simp only [listSwap]
    rw [getD_set_other _ b a _ (Ne.symm h), getD_set_self arr a _ ha]

theorem listSwap_getD_snd (arr : List Int) (a b : Nat) (hb : b < arr.length) :
    (listSwap arr a b).getD b 0 = arr.getD a 0 := by
  simp only [listSwap]
  exact getD_set_self _ b _ (by simpa using hb)

theorem listSwap_getD_other (arr : List Int) (a b k : Nat) (h1 : k ≠ a) (h2 : k ≠ b) :
    (listSwap arr a b).getD k 0 = arr.getD k 0 := by
  simp only [listSwap]
  rw [getD_set_other _ b k _ (Ne.symm h2), getD_set_other _ a k _ (Ne.symm h1)]

theorem selFind_spec (arr : List Int) (i : Nat) (yc : Bool) (prev : List Nat) :
    ∀ (c j m : Nat) (st : Stats),
      ((selFind arr i yc prev c j m st).2.1 = m ∨
        (j ≤ (selFind arr i yc prev c j m st).2.1 ∧
          (selFind arr i yc prev c j m st).2.1 < j + c)) ∧
      arr.getD (selFind arr i yc prev c j m st).2.1 0 ≤ arr.getD m 0 ∧
      (∀ k, j ≤ k → k < j + c →
        arr.getD (selFind arr i yc prev c j m st).2.1 0 ≤ arr.getD k 0) := by
  intro c
  induction c with
  | zero =>
    intro j m st
    exact ⟨Or.inl rfl, le_refl _, fun k h1 h2 => by omega⟩
  | succ c ih =>
    intro j m st
    simp only [selFind]
    by_cases h : arr.getD j 0 < arr.getD m 0
    · rw [if_pos h]
      obtain ⟨ih1, ih2, ih3⟩ := ih (j + 1) j ⟨st.comparisons + 1, st.swaps⟩
      refine ⟨?_, le_trans ih2 (le_of_lt h), ?_⟩
      · rcases ih1 with h1 | h1
        · exact Or.inr ⟨by omega, by omega⟩
        · exact Or.inr ⟨by omega, by omega⟩
      · intro k hk1 hk2
        rcases eq_or_lt_of_le hk1 with h1 | h1
        · subst h1; exact ih2
        · exact ih3 k h1 (by omega)
    · rw [if_neg h]
      obtain ⟨ih1, ih2, ih3⟩ := ih (j + 1) m ⟨st.comparisons + 1, st.swaps⟩
      refine ⟨?_, ih2, ?_⟩
      · rcases ih1 with h1 | h1
        · exact Or.inl h1
        · exact Or.inr ⟨by omega, by omega⟩
      · intro k hk1 hk2
        rcases eq_or_lt_of_le hk1 with h1 | h1
        · subst h1; exact le_trans ih2 (by omega)
        · exact ih3 k h1 (by omega)

theorem selOuter_sorted (yc : Bool) (n : Nat) :
    ∀ (c i : Nat) (arr : List Int) (prev : List Nat) (st : Stats),
      arr.length = n → i + c + 1 = n →
      (∀ a b : Nat, a < b → b < n → a < i → arr.getD a 0 ≤ arr.getD b 0) →
      (selOuter yc n c i arr prev st).2.1.Perm arr ∧
        (selOuter yc n c i arr prev st).2.1.length = n ∧
        PairwiseLe (selOuter yc n c i arr prev st).2.1 := by
  intro c
  induction c with
  | zero =>
    intro i arr prev st hlen hcnt hpre
    refine ⟨List.Perm.refl _, hlen, ?_⟩
    intro a b hab hb
    simp only [selOuter] at hb ⊢
    rw [hlen] at hb
    exact hpre a b hab hb (by omega)
  | succ c ih =>
    intro i arr prev st hlen hcnt hpre
    simp only [selOuter]
    obtain ⟨hf1, hf2, hf3⟩ := selFind_spec arr i yc prev (n - (i + 1)) (i + 1) i st
    set m := (selFind arr i yc prev (n - (i + 1)) (i + 1) i st).2.1 with hm
    have hmn : m < n := by rcases hf1 with h | h; omega; omega
    have hmin : ∀ k, i ≤ k → k < n → arr.getD m 0 ≤ arr.getD k 0 := by
      intro k hk1 hk2
      rcases eq_or_lt_of_le hk1 with h | h
      · subst h; exact hf2
      · exact hf3 k h (by omega)
    split
    · -- swap branch: m ≠ i
      have hlen1 : (listSwap arr i m).length = n := by rw [listSwap_length, hlen]
      have hget_i : (listSwap arr i m).getD i 0 = arr.getD m 0 :=
        listSwap_getD_fst arr i m (by omega) (by omega)
      have hget_m : (listSwap arr i m).getD m 0 = arr.getD i 0 :=
        listSwap_getD_snd arr i m (by omega)
      have hpre1 : ∀ a b : Nat, a < b → b < n → a < i + 1 →
          (listSwap arr i m).getD a 0 ≤ (listSwap arr i m).getD b 0 := by
        intro a b hab hb ha
        have hbval : (listSwap arr i m).getD b 0 = arr.getD b 0 ∨
            (listSwap arr i m).getD b 0 = arr.getD m 0 ∨
            (listSwap arr i m).getD b 0 = arr.getD i 0 := by
          rcases eq_or_ne b i with h | h
          · subst h; exact Or.inr (Or.inl hget_i)
          · rcases eq_or_ne b m with h2 | h2
            · subst h2; exact Or.inr (Or.inr hget_m)
            · exact Or.inl (listSwap_getD_other arr i m b (h) (h2))
        rcases Nat.lt_or_ge a i with hai | hai
        · -- a strictly below i: old prefix bound applies to every candidate value
          have haval : (listSwap arr i m).getD a 0 = arr.getD a 0 :=
            listSwap_getD_other arr i m a (by omega) (by omega)
          rw [haval]
          rcases hbval with h | h | h <;> rw [h]
          · exact hpre a b hab hb hai
          · exact hpre a m (by omega) (by omega) hai
          · exact hpre a i (by omega) (by omega) hai
        · -- a = i: new value there is the minimum of [i, n)
          have ha_eq : a = i := by omega
          rw [ha_eq, hget_i]
          rcases hbval with h | h | h <;> rw [h]
          · exact hmin b (by omega) hb
          · exact hmin i (le_refl i) (by omega)
      obtain ⟨hp, hl, hs⟩ := ih (i + 1) (listSwap arr i m) [i, m]
        ⟨(selFind arr i yc prev (n - (i + 1)) (i + 1) i st).2.2.comparisons,
          (selFind arr i yc prev (n - (i + 1)) (i + 1) i st).2.2.swaps + 1⟩
        hlen1 (by omega) hpre1
      exact ⟨hp.trans (listSwap_perm arr i m (by omega) (by omega)), hl, hs⟩
    · -- no-swap branch: m = i, arr[i] already minimal
      have hmi : m = i := by
        rename_i hcond
        simpa using hcond
      have hpre1 : ∀ a b : Nat, a < b → b < n → a < i + 1 →
          arr.getD a 0 ≤ arr.getD b 0 := by
        intro a b hab hb ha
        rcases Nat.lt_or_ge a i with hai | hai
        · exact hpre a b hab hb hai
        · have : a = i := by omega
          subst this
          have := hmin b (by omega) hb
          rwa [hmi] at this
      exact ih (i + 1) arr prev _ hlen (by omega) hpre1

theorem selectionSort_c1 (N : Nat) (hN : 1 ≤ N) (arr : List Int) (hp : arr.Perm (ascSeq N)) :
    SortsTo (selectionSort arr true) N := by
  have hlen : arr.length = N := by rw [hp.length_eq, ascSeq_length]
  obtain ⟨hperm, hl, hs⟩ := selOuter_sorted true arr.length (arr.length - 1) 0 arr [] ⟨0, 0⟩
    rfl (by omega) (fun a b _ _ h => absurd h (by omega))
  have harr : (selOuter true arr.length (arr.length - 1) 0 arr [] ⟨0, 0⟩).2.1 = ascSeq N :=
    perm_pairwiseLe_eq (hperm.trans hp) hs
  constructor
  · rfl
  · simp only [selectionSort]
    rw [List.getLast?_concat]
    simp [harr, mkStep]

theorem insInner_spec (key : Int) (yc : Bool) :
    ∀ (jp1 : Nat) (arr : List Int) (prev : List Nat) (st : Stats), jp1 < arr.length →
      (insInner key yc jp1 arr prev st).2.1 ≤ jp1 ∧
      (insInner key yc jp1 arr prev st).2.2.1.length = arr.length ∧
      (∀ k, k ≤ (insInner key yc jp1 arr prev st).2.1 ∨ jp1 < k →
        (insInner key yc jp1 arr prev st).2.2.1.getD k 0 = arr.getD k 0) ∧
      (∀ k, (insInner key yc jp1 arr prev st).2.1 ≤ k → k < jp1 →
        (insInner key yc jp1 arr prev st).2.2.1.getD (k + 1) 0 = arr.getD k 0 ∧
          arr.getD k 0 > key) ∧
      (0 < (insInner key yc jp1 arr prev st).2.1 →
        ¬ arr.getD ((insInner key yc jp1 arr prev st).2.1 - 1) 0 > key) ∧
      ((insInner key yc jp1 arr prev st).2.2.1.set (insInner key yc jp1 arr prev st).2.1
          key).Perm (arr.set jp1 key) := by
  intro jp1
  induction jp1 with
  | zero =>
    intro arr prev st _
    dsimp only [insInner]
    exact ⟨le_refl _, rfl, fun k _ => rfl, fun k h1 h2 => absurd h2 (by omega),
      fun h => absurd h (by omega), List.Perm.refl _⟩
  | succ j ih =>
    intro arr prev st hlen
    simp only [insInner]
    split
    · rename_i hgt
      have hlen1 : (arr.set (j + 1) (arr.getD j 0)).length = arr.length := by simp
      obtain ⟨ih1, ih2, ih3, ih4, ih5, ih6⟩ :=
        ih (arr.set (j + 1) (arr.getD j 0)) [j, j + 1]
          ⟨st.comparisons + 1, st.swaps + 1⟩ (by omega)
      set arr1 := arr.set (j + 1) (arr.getD j 0) with harr1
      set p := (insInner key yc j arr1 [j, j + 1] ⟨st.comparisons + 1, st.swaps + 1⟩).2.1
        with hp
      have hval : ∀ k, k ≠ j + 1 → arr1.getD k 0 = arr.getD k 0 := by
        intro k hk
        exact getD_set_other arr (j + 1) k _ (Ne.symm hk)
      have hvalj : arr1.getD (j + 1) 0 = arr.getD j 0 :=
        getD_set_self arr (j + 1) _ (by omega)
      refine ⟨by omega, by rw [ih2, hlen1], ?_, ?_, ?_, ?_⟩
      · intro k hk
        rcases hk with hk | hk
        · rw [ih3 k (Or.inl hk), hval k (by omega)]
        · rw [ih3 k (Or.inr (by omega)), hval k (by omega)]
      · intro k hk1 hk2
        rcases Nat.lt_or_ge k j with hkj | hkj
        · obtain ⟨s1, s2⟩ := ih4 k hk1 hkj
          exact ⟨by rw [s1, hval k (by omega)], by rw [← hval k (by omega)]; exact s2⟩
        · have hkj' : k = j := by omega
          subst hkj'
          constructor
          · rw [ih3 (k + 1) (Or.inr (by omega)), hvalj]
          · exact hgt
      · intro hpos
        have := ih5 hpos
        rw [hval (p - 1) (by omega)] at this
        exact this
      · -- permutation: the shift-then-insert composite is a swap away from
        -- inserting directly at the scanned position
        have e1 : arr1.set j key = listSwap (arr.set (j + 1) key) j (j + 1) := by
          have hX1 : (arr.set (j + 1) key).getD j 0 = arr.getD j 0 :=
            getD_set_other arr (j + 1) j key (by omega)
          have hX2 : (arr.set (j + 1) key).getD (j + 1) 0 = key :=
            getD_set_self arr (j + 1) key (by omega)
          rw [listSwap, hX1, hX2, harr1]
          rw [List.set_comm _ _ _ (show j + 1 ≠ j by omega)]
          rw [List.set_comm _ _ _ (show j + 1 ≠ j by omega)]
          rw [List.set_set]
        have e2 : (listSwap (arr.set (j + 1) key) j (j + 1)).Perm (arr.set (j + 1) key) :=
          listSwap_perm _ j (j + 1) (by simpa using (by omega : j < arr.length))
            (by simpa using hlen)
        exact ih6.trans (e1 ▸ e2)
    · rename_i hng
      dsimp only
      refine ⟨le_refl _, rfl, fun k _ => rfl, fun k h1 h2 => absurd h1 (by omega), ?_,
        List.Perm.refl _⟩
      intro _
      simpa using hng

theorem insOuter_sorted (yc : Bool) :
    ∀ (c i : Nat) (arr : List Int) (prev : List Nat) (st : Stats),
      i + c = arr.length → 1 ≤ i →
      (∀ a b : Nat, a < b → b < i → arr.getD a 0 ≤ arr.getD b 0) →
      (insOuter yc c i arr prev st).2.1.Perm arr ∧
        (insOuter yc c i arr prev st).2.1.length = arr.length ∧
        PairwiseLe (insOuter yc c i arr prev st).2.1 := by
  intro c
  induction c with
  | zero =>
    intro i arr prev st hcnt _ hpre
    refine ⟨List.Perm.refl _, rfl, ?_⟩
    intro a b hab hb
    dsimp only [insOuter] at hb ⊢
    exact hpre a b hab (by omega)
  | succ c ih =>
    intro i arr prev st hcnt hi hpre
    have hin : i < arr.length := by omega
    simp only [insOuter]
    obtain ⟨s1, s2, s3, s4, s5, s6⟩ :=
      insInner_spec (arr.getD i 0) yc i arr prev st hin
    set key := arr.getD i 0 with hkey
    set p := (insInner key yc i arr prev st).2.1 with hp
    set arrf := (insInner key yc i arr prev st).2.2.1 with harrf
    set arr1 := arrf.set p key with harr1
    have hlen1 : arr1.length = arr.length := by rw [harr1, List.length_set, s2]
    have hperm1 : arr1.Perm arr := by
      have h0 := set_getD_self arr i hin
      rw [← hkey] at h0
      exact h0 ▸ s6
    have hv_lt : ∀ k, k < p → arr1.getD k 0 = arr.getD k 0 := by
      intro k hk
      rw [harr1, getD_set_other _ _ _ _ (by omega), s3 k (Or.inl (by omega))]
    have hv_eq : arr1.getD p 0 = key := by
      rw [harr1]
      exact getD_set_self _ _ _ (by rw [s2]; omega)
    have hv_mid : ∀ k, p < k → k ≤ i → arr1.getD k 0 = arr.getD (k - 1) 0 := by
      intro k h1 h2
      rw [harr1, getD_set_other _ _ _ _ (by omega)]
      have := (s4 (k - 1) (by omega) (by omega)).1
      rwa [Nat.sub_add_cancel (by omega)] at this
    have hv_hi : ∀ k, i < k → arr1.getD k 0 = arr.getD k 0 := by
      intro k hk
      rw [harr1, getD_set_other _ _ _ _ (by omega), s3 k (Or.inr hk)]
    have hkey_lt : ∀ k, p ≤ k → k < i → key < arr.getD k 0 := fun k h1 h2 => (s4 k h1 h2).2
    have hkey_ge : 0 < p → arr.getD (p - 1) 0 ≤ key := by
      intro h
      exact not_lt.mp (s5 h)
    have hpre1 : ∀ a b : Nat, a < b → b < i + 1 → arr1.getD a 0 ≤ arr1.getD b 0 := by
      intro a b hab hb
      rcases lt_trichotomy a p with ha | ha | ha
      · rcases lt_trichotomy b p with hbp | hbp | hbp
        · rw [hv_lt a ha, hv_lt b hbp]
          exact hpre a b hab (by omega)
        · rw [hv_lt a ha, hbp, hv_eq]
          rcases eq_or_lt_of_le (show a ≤ p - 1 by omega) with h | h
          · rw [h]
            exact hkey_ge (by omega)
          · exact le_trans (hpre a (p - 1) h (by omega)) (hkey_ge (by omega))
        · rw [hv_lt a ha, hv_mid b hbp (by omega)]
          exact hpre a (b - 1) (by omega) (by omega)
      · subst ha
        rcases lt_trichotomy b p with hbp | hbp | hbp
        · omega
        · omega
        · rw [hv_eq, hv_mid b hbp (by omega)]
          exact le_of_lt (hkey_lt (b - 1) (by omega) (by omega))
      · rcases lt_trichotomy b p with hbp | hbp | hbp
        · omega
        · omega
        · rw [hv_mid a ha (by omega), hv_mid b hbp (by omega)]
          exact hpre (a - 1) (b - 1) (by omega) (by omega)
    obtain ⟨hp2, hl2, hs2⟩ := ih (i + 1) arr1 (insInner key yc i arr prev st).2.2.2.1
      (insInner key yc i arr prev st).2.2.2.2 (by omega) (by omega) hpre1
    exact ⟨hp2.trans hperm1, by rw [hl2, hlen1], hs2⟩

theorem insertionSort_c1 (N : Nat) (hN : 1 ≤ N) (arr : List Int) (hp : arr.Perm (ascSeq N)) :
    SortsTo (insertionSort arr true) N := by
  have hlen : arr.length = N := by rw [hp.length_eq, ascSeq_length]
  obtain ⟨hperm, hl, hs⟩ := insOuter_sorted true (arr.length - 1) 1 arr [] ⟨0, 0⟩
    (by omega) (le_refl 1) (fun a b hab hb => absurd hab (by omega))
  have harr : (insOuter true (arr.length - 1) 1 arr [] ⟨0, 0⟩).2.1 = ascSeq N :=
    perm_pairwiseLe_eq (hperm.trans hp) hs
  constructor
  · rfl
  · simp only [insertionSort]
    rw [List.getLast?_concat]
    simp [harr, mkStep]

theorem binSearch_spec (arr : List Int) (key : Int) (i : Nat) (yc : Bool) (prev : List Nat)
    (hsort : ∀ a b : Nat, a < b → b < i → arr.getD a 0 ≤ arr.getD b 0) :
    ∀ (fuel : Nat) (left right : ℤ) (ins : Nat) (st : Stats),
      0 ≤ left → right ≤ (i : ℤ) - 1 → (ins : ℤ) = right + 1 → left ≤ (ins : ℤ) →
      right - left + 1 < (fuel : ℤ) →
      (∀ k : Nat, (k : ℤ) < left → arr.getD k 0 ≤ key) →
      (∀ k : Nat, ins ≤ k → k < i → key < arr.getD k 0) →
      (binSearch arr key i yc prev fuel left right ins st).2.1 ≤ i ∧
        (∀ k : Nat, k < (binSearch arr key i yc prev fuel left right ins st).2.1 →
          arr.getD k 0 ≤ key) ∧
        (∀ k : Nat, (binSearch arr key i yc prev fuel left right ins st).2.1 ≤ k → k < i →
          key < arr.getD k 0) := by
  intro fuel
  induction fuel with
  | zero =>
    intro left right ins st h0 hri hins hli hfuel _ _
    exact absurd hfuel (by omega)
  | succ f ih =>
    intro left right ins st h0 hri hins hli hfuel hbelow habove
    simp only [binSearch]
    split
    · rename_i hlr
      have hmid1 : left ≤ (left + right) / 2 := by omega
      have hmid2 : (left + right) / 2 ≤ right := by omega
      have hmid0 : 0 ≤ (left + right) / 2 := by omega
      have hmidn : ((((left + right) / 2).toNat : ℤ)) = (left + right) / 2 :=
        Int.toNat_of_nonneg hmid0
      split
      · rename_i hgt
        dsimp only
        rw [hmidn]
        apply ih left ((left + right) / 2 - 1) ((left + right) / 2).toNat _ h0 (by omega)
          (by omega) (by omega) (by omega) hbelow
        intro k hk1 hk2
        rcases eq_or_lt_of_le hk1 with h | h
        · rw [← h]
          exact hgt
        · exact lt_of_lt_of_le hgt (hsort ((left + right) / 2).toNat k (by omega) hk2)
      · rename_i hng
        have hle : arr.getD ((left + right) / 2).toNat 0 ≤ key := not_lt.mp hng
        dsimp only
        rw [hmidn]
        apply ih ((left + right) / 2 + 1) right ins _ (by omega) hri hins (by omega)
          (by omega) _ habove
        intro k hk
        rcases eq_or_lt_of_le (show (k : ℤ) ≤ (left + right) / 2 by omega) with h | h
        · have : k = ((left + right) / 2).toNat := by omega
          rw [this]
          exact hle
        · rcases Nat.lt_or_ge k ((left + right) / 2).toNat with h2 | h2
          · exact le_trans (hsort k ((left + right) / 2).toNat h2 (by omega)) hle
          · omega
    · rename_i hlr
      dsimp only
      have hei : ins ≤ i := by omega
      refine ⟨hei, ?_, habove⟩
      intro k hk
      exact hbelow k (by omega)

theorem shift_insert_perm (arr : List Int) (j : Nat) (v : Int) (h : j + 1 < arr.length) :
    ((arr.set (j + 1) (arr.getD j 0)).set j v).Perm (arr.set (j + 1) v) := by
  have hX1 : (arr.set (j + 1) v).getD j 0 = arr.getD j 0 :=
    getD_set_other arr (j + 1) j v (by omega)
  have hX2 : (arr.set (j + 1) v).getD (j + 1) 0 = v := getD_set_self arr (j + 1) v h
  have e1 : (arr.set (j + 1) (arr.getD j 0)).set j v = listSwap (arr.set (j + 1) v) j (j + 1) := by
    rw [listSwap, hX1, hX2]
    rw [List.set_comm _ _ _ (show j + 1 ≠ j by omega)]
    rw [List.set_comm _ _ _ (show j + 1 ≠ j by omega)]
    rw [List.set_set]
  rw [e1]
  exact listSwap_perm _ j (j + 1) (by simpa using (by omega : j < arr.length)) (by simpa using h)

theorem binShift_spec :
    ∀ (c k : Nat) (arr : List Int) (prev : List Nat) (st : Stats) (v : Int),
      c ≤ k + 1 → k + 1 < arr.length →
      (binShift c k arr prev st).1.length = arr.length ∧
      (∀ m, m ≤ k + 1 - c ∨ k + 1 < m →
        (binShift c k arr prev st).1.getD m 0 = arr.getD m 0) ∧
      (∀ m, k + 1 - c ≤ m → m ≤ k →
        (binShift c k arr prev st).1.getD (m + 1) 0 = arr.getD m 0) ∧
      ((binShift c k arr prev st).1.set (k + 1 - c) v).Perm (arr.set (k + 1) v) := by
  intro c
  induction c with
  | zero =>
    intro k arr prev st v _ _
    exact ⟨rfl, fun m _ => rfl, fun m h1 h2 => absurd h1 (by omega), List.Perm.refl _⟩
  | succ c ih =>
    intro k arr prev st v hc hk
    by_cases hk1 : 1 ≤ k
    · simp only [binShift]
      set arr1 := arr.set (k + 1) (arr.getD k 0) with harr1
      obtain ⟨s1, s2, s3, s4⟩ := ih (k - 1) arr1 [k, k + 1] ⟨st.comparisons, st.swaps + 1⟩ v
        (by omega) (by rw [harr1, List.length_set]; omega)
      have hke : k - 1 + 1 = k := by omega
      rw [hke] at s2 s3 s4
      have hval : ∀ m, m ≠ k + 1 → arr1.getD m 0 = arr.getD m 0 := by
        intro m hm
        exact getD_set_other arr (k + 1) m _ (Ne.symm hm)
      have hvalk : arr1.getD (k + 1) 0 = arr.getD k 0 := getD_set_self arr (k + 1) _ hk
      refine ⟨by rw [s1, harr1, List.length_set], ?_, ?_, ?_⟩
      · intro m hm
        rcases hm with hm | hm
        · rw [s2 m (Or.inl (by omega)), hval m (by omega)]
        · rw [s2 m (Or.inr (by omega)), hval m (by omega)]
      · intro m h1 h2
        rcases Nat.lt_or_ge m k with hmk | hmk
        · rw [s3 m (by omega) (by omega), hval m (by omega)]
        · have : m = k := by omega
          subst this
          rw [s2 (m + 1) (Or.inr (by omega)), hvalk]
      · have he : k - c = k + 1 - (c + 1) := by omega
        rw [← he]
        exact s4.trans (shift_insert_perm arr k v hk)
    · have hk0 : k = 0 := by omega
      have hc0 : c = 0 := by omega
      subst hk0; subst hc0
      simp only [binShift]
      set arr1 := arr.set 1 (arr.getD 0 0) with harr1
      have hval0 : arr1.getD 0 0 = arr.getD 0 0 := getD_set_other arr 1 0 _ (by omega)
      have hval1 : arr1.getD 1 0 = arr.getD 0 0 := getD_set_self arr 1 _ (by omega)
      refine ⟨by rw [harr1, List.length_set], ?_, ?_, ?_⟩
      · intro m hm
        rcases hm with hm | hm
        · have : m = 0 := by omega
          subst this
          exact hval0
        · exact getD_set_other arr 1 m _ (by omega)
      · intro m h1 h2
        have : m = 0 := by omega
        subst this
        exact hval1
      · exact shift_insert_perm arr 0 v (by omega)

theorem binOuter_sorted (yc : Bool) :
    ∀ (c i : Nat) (arr : List Int) (prev : List Nat) (st : Stats),
      i + c = arr.length → 1 ≤ i →
      (∀ a b : Nat, a < b → b < i → arr.getD a 0 ≤ arr.getD b 0) →
      (binOuter yc c i arr prev st).2.1.Perm arr ∧
        (binOuter yc c i arr prev st).2.1.length = arr.length ∧
        PairwiseLe (binOuter yc c i arr prev st).2.1 := by
  intro c
  induction c with
  | zero =>
    intro i arr prev st hcnt _ hpre
    refine ⟨List.Perm.refl _, rfl, ?_⟩
    intro a b hab hb
    dsimp only [binOuter] at hb ⊢
    exact hpre a b hab (by omega)
  | succ c ih =>
    intro i arr prev st hcnt hi hpre
    have hin : i < arr.length := by omega
    simp only [binOuter]
    set key := arr.getD i 0 with hkey
    obtain ⟨hins_le, hbel, habv⟩ := binSearch_spec arr key i yc prev hpre (i + 1) 0
      ((i : ℤ) - 1) i st (le_refl 0) (by omega) (by omega) (by omega) (by push_cast; omega)
      (fun k hk => absurd hk (by omega)) (fun k h1 h2 => absurd (lt_of_le_of_lt h1 h2) (by omega))
    set ins := (binSearch arr key i yc prev (i + 1) 0 ((i : ℤ) - 1) i st).2.1 with hins
    obtain ⟨t1, t2, t3, t4⟩ := binShift_spec (i - 1 + 1 - ins) (i - 1) arr prev
      (binSearch arr key i yc prev (i + 1) 0 ((i : ℤ) - 1) i st).2.2 key
      (by omega) (by omega)
    set shf := (binShift (i - 1 + 1 - ins) (i - 1) arr prev
      (binSearch arr key i yc prev (i + 1) 0 ((i : ℤ) - 1) i st).2.2).1 with hshf
    have hidx1 : i - 1 + 1 - (i - 1 + 1 - ins) = ins := by omega
    have hidx2 : i - 1 + 1 = i := by omega
    rw [hidx1] at t2 t3 t4
    rw [hidx2] at t2
    rw [hidx2] at t4
    set arr1 := shf.set ins key with harr1
    have hlen1 : arr1.length = arr.length := by rw [harr1, List.length_set, t1]
    have hperm1 : arr1.Perm arr := by
      have h0 := set_getD_self arr i hin
      rw [← hkey] at h0
      exact h0 ▸ t4
    have hv_lt : ∀ k, k < ins → arr1.getD k 0 = arr.getD k 0 := by
      intro k hk
      rw [harr1, getD_set_other _ _ _ _ (by omega), t2 k (Or.inl (by omega))]
    have hv_eq : arr1.getD ins 0 = key := by
      rw [harr1]
      exact getD_set_self _ _ _ (by rw [t1]; omega)
    have hv_mid : ∀ k, ins < k → k ≤ i → arr1.getD k 0 = arr.getD (k - 1) 0 := by
      intro k h1 h2
      rw [harr1, getD_set_other _ _ _ _ (by omega)]
      have := t3 (k - 1) (by omega) (by omega)
      rwa [Nat.sub_add_cancel (by omega)] at this
    have hv_hi : ∀ k, i < k → arr1.getD k 0 = arr.getD k 0 := by
      intro k hk
      rw [harr1, getD_set_other _ _ _ _ (by omega), t2 k (Or.inr hk)]
    have hpre1 : ∀ a b : Nat, a < b → b < i + 1 → arr1.getD a 0 ≤ arr1.getD b 0 := by
      intro a b hab hb
      rcases lt_trichotomy a ins with ha | ha | ha
      · rcases lt_trichotomy b ins with hbp | hbp | hbp
        · rw [hv_lt a ha, hv_lt b hbp]
          exact hpre a b hab (by omega)
        · rw [hv_lt a ha, hbp, hv_eq]
          exact hbel a ha
        · rw [hv_lt a ha, hv_mid b hbp (by omega)]
          rcases eq_or_lt_of_le (show a ≤ b - 1 by omega) with h | h
          · rw [h]
          · exact hpre a (b - 1) h (by omega)
      · rcases lt_trichotomy b ins with hbp | hbp | hbp
        · omega
        · omega
        · rw [ha, hv_eq, hv_mid b hbp (by omega)]
          exact le_of_lt (habv (b - 1) (by omega) (by omega))
      · rcases lt_trichotomy b ins with hbp | hbp | hbp
        · omega
        · omega
        · rw [hv_mid a ha (by omega), hv_mid b hbp (by omega)]
          rcases eq_or_lt_of_le (show a - 1 ≤ b - 1 by omega) with h | h
          · rw [h]
          · exact hpre (a - 1) (b - 1) h (by omega)
    obtain ⟨hp2, hl2, hs2⟩ := ih (i + 1) arr1
      (binShift (i - 1 + 1 - ins) (i - 1) arr prev
        (binSearch arr key i yc prev (i + 1) 0 ((i : ℤ) - 1) i st).2.2).2.1
      (binShift (i - 1 + 1 - ins) (i - 1) arr prev
        (binSearch arr key i yc prev (i + 1) 0 ((i : ℤ) - 1) i st).2.2).2.2
      (by omega) (by omega) hpre1
    exact ⟨hp2.trans hperm1, by rw [hl2, hlen1], hs2⟩

theorem binaryInsertionSort_c1 (N : Nat) (hN : 1 ≤ N) (arr : List Int)
    (hp : arr.Perm (ascSeq N)) : SortsTo (binaryInsertionSort arr true) N := by
  have hlen : arr.length = N := by rw [hp.length_eq, ascSeq_length]
  obtain ⟨hperm, hl, hs⟩ := binOuter_sorted true (arr.length - 1) 1 arr [] ⟨0, 0⟩
    (by omega) (le_refl 1) (fun a b hab hb => absurd hab (by omega))
  have harr : (binOuter true (arr.length - 1) 1 arr [] ⟨0, 0⟩).2.1 = ascSeq N :=
    perm_pairwiseLe_eq (hperm.trans hp) hs
  constructor
  · rfl
  · simp only [binaryInsertionSort]
    rw [List.getLast?_concat]
    simp [harr, mkStep]

theorem bubblePass_flagMono (yc : Bool) :
    ∀ (c j : Nat) (arr : List Int) (st : Stats),
      (bubblePass yc c j arr true st).2.2.1 = true := by
  intro c
  induction c with
  | zero => intro j arr st; rfl
  | succ c ih =>
    intro j arr st
    simp only [bubblePass]
    split
    · exact ih _ _ _
    · exact ih _ _ _

theorem bubblePass_proc (yc : Bool) :
    ∀ (c j : Nat) (arr : List Int) (sw : Bool) (st : Stats), j + c < arr.length →
      (bubblePass yc c j arr sw st).2.1.length = arr.length ∧
      (bubblePass yc c j arr sw st).2.1.Perm arr ∧
      (∀ k, k < j ∨ j + c < k →
        (bubblePass yc c j arr sw st).2.1.getD k 0 = arr.getD k 0) ∧
      (∀ k, j ≤ k → k ≤ j + c →
        arr.getD k 0 ≤ (bubblePass yc c j arr sw st).2.1.getD (j + c) 0) ∧
      (∀ k, j ≤ k → k ≤ j + c →
        (bubblePass yc c j arr sw st).2.1.getD k 0
          ≤ (bubblePass yc c j arr sw st).2.1.getD (j + c) 0) ∧
      (∀ k, j ≤ k → k ≤ j + c → ∃ m, j ≤ m ∧ m ≤ j + c ∧
        (bubblePass yc c j arr sw st).2.1.getD k 0 = arr.getD m 0) ∧
      ((bubblePass yc c j arr sw st).2.2.1 = false → sw = false ∧
        (bubblePass yc c j arr sw st).2.1 = arr ∧
        ∀ k, j ≤ k → k < j + c → arr.getD k 0 ≤ arr.getD (k + 1) 0) := by
  intro c
  induction c with
  | zero =>
    intro j arr sw st _
    dsimp only [bubblePass]
    refine ⟨rfl, List.Perm.refl _, fun k _ => rfl, ?_, ?_, ?_, ?_⟩
    · intro k h1 h2
      have : k = j := by omega
      simp [this]
    · intro k h1 h2
      have : k = j := by omega
      simp [this]
    · intro k h1 h2
      exact ⟨k, h1, h2, rfl⟩
    · intro h
      exact ⟨h, rfl, fun k h1 h2 => absurd h2 (by omega)⟩
  | succ c ih =>
    intro j arr sw st hlen
    simp only [bubblePass]
    split
    · rename_i hgt
      dsimp only
      have hj1 : j + 1 < arr.length := by omega
      set arr1 := listSwap arr j (j + 1) with harr1
      have hlen1 : arr1.length = arr.length := listSwap_length arr j (j + 1)
      have hv_j : arr1.getD j 0 = arr.getD (j + 1) 0 :=
        listSwap_getD_fst arr j (j + 1) (by omega) hj1
      have hv_j1 : arr1.getD (j + 1) 0 = arr.getD j 0 :=
        listSwap_getD_snd arr j (j + 1) hj1
      have hv_o : ∀ k, k ≠ j → k ≠ j + 1 → arr1.getD k 0 = arr.getD k 0 :=
        fun k h1 h2 => listSwap_getD_other arr j (j + 1) k h1 h2
      obtain ⟨i1, i2, i3, i4, i5, i6, _⟩ :=
        ih (j + 1) arr1 true ⟨st.comparisons + 1, st.swaps + 1⟩ (by omega)
      have hlast : j + 1 + c = j + (c + 1) := by omega
      rw [hlast] at i3 i4 i5 i6
      refine ⟨by rw [i1, hlen1], i2.trans (listSwap_perm arr j (j + 1) (by omega) hj1),
        ?_, ?_, ?_, ?_, ?_⟩
      · intro k hk
        rcases hk with hk | hk
        · rw [i3 k (Or.inl (by omega)), hv_o k (by omega) (by omega)]
        · rw [i3 k (Or.inr hk), hv_o k (by omega) (by omega)]
      · intro k h1 h2
        rcases eq_or_lt_of_le h1 with h | h
        · rw [← h]
          calc arr.getD j 0 = arr1.getD (j + 1) 0 := hv_j1.symm
          _ ≤ _ := i4 (j + 1) (le_refl _) (by omega)
        · rcases eq_or_lt_of_le (show j + 1 ≤ k by omega) with h' | h'
          · rw [← h']
            calc arr.getD (j + 1) 0 ≤ arr.getD j 0 := le_of_lt hgt
            _ = arr1.getD (j + 1) 0 := hv_j1.symm
            _ ≤ _ := i4 (j + 1) (le_refl _) (by omega)
          · calc arr.getD k 0 = arr1.getD k 0 := (hv_o k (by omega) (by omega)).symm
            _ ≤ _ := i4 k (by omega) h2
      · intro k h1 h2
        rcases eq_or_lt_of_le h1 with h | h
        · rw [← h, i3 j (Or.inl (by omega)), hv_j]
          calc arr.getD (j + 1) 0 ≤ arr.getD j 0 := le_of_lt hgt
          _ = arr1.getD (j + 1) 0 := hv_j1.symm
          _ ≤ _ := i4 (j + 1) (le_refl _) (by omega)
        · exact i5 k (by omega) h2
      · intro k h1 h2
        rcases eq_or_lt_of_le h1 with h | h
        · refine ⟨j + 1, by omega, by omega, ?_⟩
          rw [← h, i3 j (Or.inl (by omega)), hv_j]
        · obtain ⟨m, hm1, hm2, hm3⟩ := i6 k (by omega) h2
          rcases eq_or_lt_of_le hm1 with hm | hm
          · refine ⟨j, by omega, by omega, ?_⟩
            rw [hm3, ← hm, hv_j1]
          · refine ⟨m, by omega, hm2, ?_⟩
            rw [hm3, hv_o m (by omega) (by omega)]
      · intro h
        rw [bubblePass_flagMono yc c (j + 1) arr1 ⟨st.comparisons + 1, st.swaps + 1⟩] at h
        exact absurd h (by simp)
    · rename_i hng
      dsimp only
      have hle : arr.getD j 0 ≤ arr.getD (j + 1) 0 := not_lt.mp hng
      obtain ⟨i1, i2, i3, i4, i5, i6, i7⟩ :=
        ih (j + 1) arr sw ⟨st.comparisons + 1, st.swaps⟩ (by omega)
      have hlast : j + 1 + c = j + (c + 1) := by omega
      rw [hlast] at i3 i4 i5 i6
      refine ⟨i1, i2, ?_, ?_, ?_, ?_, ?_⟩
      · intro k hk
        rcases hk with hk | hk
        · exact i3 k (Or.inl (by omega))
        · exact i3 k (Or.inr hk)
      · intro k h1 h2
        rcases eq_or_lt_of_le h1 with h | h
        · rw [← h]
          exact le_trans hle (i4 (j + 1) (le_refl _) (by omega))
        · exact i4 k (by omega) h2
      · intro k h1 h2
        rcases eq_or_lt_of_le h1 with h | h
        · rw [← h, i3 j (Or.inl (by omega))]
          exact le_trans hle (i4 (j + 1) (le_refl _) (by omega))
        · exact i5 k (by omega) h2
      · intro k h1 h2
        rcases eq_or_lt_of_le h1 with h | h
        · exact ⟨k, h1, h2, by rw [i3 k (Or.inl (by omega))]⟩
        · obtain ⟨m, hm1, hm2, hm3⟩ := i6 k (by omega) h2
          exact ⟨m, by omega, hm2, hm3⟩
      · intro h
        obtain ⟨f1, f2, f3⟩ := i7 h
        refine ⟨f1, f2, ?_⟩
        intro k h1 h2
        rcases eq_or_lt_of_le h1 with h' | h'
        · rw [← h']
          exact hle
        · exact f3 k (by omega) (by omega)

theorem bubbleOuter_sorted (yc : Bool) (n : Nat) :
    ∀ (c i : Nat) (arr : List Int) (st : Stats),
      arr.length = n → c + i = n - 1 → 1 ≤ n →
      (∀ a b : Nat, a < b → b < n → n - 1 - i < b → arr.getD a 0 ≤ arr.getD b 0) →
      (bubbleOuter yc n c i arr st).2.1.Perm arr ∧
        (bubbleOuter yc n c i arr st).2.1.length = n ∧
        PairwiseLe (bubbleOuter yc n c i arr st).2.1 := by
  intro c
  induction c with
  | zero =>
    intro i arr st hlen hcnt hn hQ
    refine ⟨List.Perm.refl _, hlen, ?_⟩
    intro a b hab hb
    dsimp only [bubbleOuter] at hb ⊢
    rw [hlen] at hb
    exact hQ a b hab hb (by omega)
  | succ c ih =>
    intro i arr st hlen hcnt hn hQ
    simp only [bubbleOuter]
    obtain ⟨p1, p2, p3, p4, p5, p6, p7⟩ :=
      bubblePass_proc yc (n - 1 - i) 0 arr false st (by omega)
    simp only [Nat.zero_add] at p3 p4 p5 p6
    split
    · dsimp only
      have hQ1 : ∀ a b : Nat, a < b → b < n → n - 1 - (i + 1) < b →
          (bubblePass yc (n - 1 - i) 0 arr false st).2.1.getD a 0
            ≤ (bubblePass yc (n - 1 - i) 0 arr false st).2.1.getD b 0 := by
        intro a b hab hb hcond
        rcases Nat.lt_or_ge (n - 1 - i) b with hbw | hbw
        · -- b beyond the scanned window: old suffix facts apply
          rw [p3 b (Or.inr hbw)]
          rcases Nat.lt_or_ge (n - 1 - i) a with haw | haw
          · rw [p3 a (Or.inr haw)]
            exact hQ a b hab hb hbw
          · obtain ⟨m0, hm0a, hm0b, hm0c⟩ := p6 (n - 1 - i) (by omega) (le_refl _)
            calc (bubblePass yc (n - 1 - i) 0 arr false st).2.1.getD a 0
                ≤ (bubblePass yc (n - 1 - i) 0 arr false st).2.1.getD (n - 1 - i) 0 :=
                  p5 a (by omega) haw
            _ = arr.getD m0 0 := hm0c
            _ ≤ arr.getD b 0 := hQ m0 b (by omega) hb hbw
        · have hbe : b = n - 1 - i := by omega
          rw [hbe]
          exact p5 a (by omega) (by omega)
      obtain ⟨q1, q2, q3⟩ := ih (i + 1) (bubblePass yc (n - 1 - i) 0 arr false st).2.1
        (bubblePass yc (n - 1 - i) 0 arr false st).2.2.2 (by rw [p1, hlen]) (by omega) hn hQ1
      exact ⟨q1.trans p2, q2, q3⟩
    · dsimp only
      rename_i hflag
      have hfl : (bubblePass yc (n - 1 - i) 0 arr false st).2.2.1 = false := by
        simpa using hflag
      obtain ⟨_, f2, f3⟩ := p7 hfl
      have key : ∀ (d a : Nat), a + d ≤ n - 1 - i → arr.getD a 0 ≤ arr.getD (a + d) 0 := by
        intro d
        induction d with
        | zero => intro a _; exact le_refl _
        | succ d ihd =>
          intro a hd
          exact le_trans (ihd a (by omega)) (f3 (a + d) (by omega) (by omega))
      refine ⟨by rw [f2], by rw [f2, hlen], ?_⟩
      intro a b hab hb
      rw [f2] at hb ⊢
      rw [hlen] at hb
      rcases Nat.lt_or_ge (n - 1 - i) b with hbw | hbw
      · exact hQ a b hab hb hbw
      · have := key (b - a) a (by omega)
        rwa [Nat.add_sub_cancel' (le_of_lt hab)] at this

theorem bubbleSort_c1 (N : Nat) (hN : 1 ≤ N) (arr : List Int) (hp : arr.Perm (ascSeq N)) :
    SortsTo (bubbleSort arr true) N := by
  have hlen : arr.length = N := by rw [hp.length_eq, ascSeq_length]
  obtain ⟨hperm, hl, hs⟩ := bubbleOuter_sorted true arr.length (arr.length - 1) 0 arr ⟨0, 0⟩
    rfl (by omega) (by omega) (fun a b hab hb hc => absurd hb (by omega))
  have harr : (bubbleOuter true arr.length (arr.length - 1) 0 arr ⟨0, 0⟩).2.1 = ascSeq N :=
    perm_pairwiseLe_eq (hperm.trans hp) hs
  constructor
  · rfl
  · simp only [bubbleSort, emitIf_true]
    rw [List.getLast?_concat]
    simp [harr, mkStep]

theorem cocktailFwd_eq_bubblePass (yc : Bool) :
    ∀ (c i : Nat) (arr : List Int) (sw : Bool) (st : Stats),
      cocktailFwd yc c i arr sw st = bubblePass yc c i arr sw st := by
  intro c
  induction c with
  | zero => intro i arr sw st; rfl
  | succ c ih =>
    intro i arr sw st
    simp only [cocktailFwd, bubblePass]
    split <;> rw [ih]

theorem cocktailBwd_flagMono (yc : Bool) :
    ∀ (c i : Nat) (arr : List Int) (st : Stats),
      (cocktailBwd yc c i arr true st).2.2.1 = true := by
  intro c
  induction c with
  | zero => intro i arr st; rfl
  | succ c ih =>
    intro i arr st
    simp only [cocktailBwd]
    split
    · exact ih _ _ _
    · exact ih _ _ _

theorem cocktailBwd_proc (yc : Bool) :
    ∀ (c i : Nat) (arr : List Int) (sw : Bool) (st : Stats), c ≤ i → i < arr.length →
      (cocktailBwd yc c i arr sw st).2.1.length = arr.length ∧
      (cocktailBwd yc c i arr sw st).2.1.Perm arr ∧
      (∀ k, k < i - c ∨ i < k →
        (cocktailBwd yc c i arr sw st).2.1.getD k 0 = arr.getD k 0) ∧
      (∀ k, i - c ≤ k → k ≤ i →
        (cocktailBwd yc c i arr sw st).2.1.getD (i - c) 0 ≤ arr.getD k 0) ∧
      (∀ k, i - c ≤ k → k ≤ i →
        (cocktailBwd yc c i arr sw st).2.1.getD (i - c) 0
          ≤ (cocktailBwd yc c i arr sw st).2.1.getD k 0) ∧
      (∀ k, i - c ≤ k → k ≤ i → ∃ m, i - c ≤ m ∧ m ≤ i ∧
        (cocktailBwd yc c i arr sw st).2.1.getD k 0 = arr.getD m 0) ∧
      ((cocktailBwd yc c i arr sw st).2.2.1 = false → sw = false ∧
        (cocktailBwd yc c i arr sw st).2.1 = arr ∧
        ∀ k, i - c ≤ k → k < i → arr.getD k 0 ≤ arr.getD (k + 1) 0) := by
  intro c
  induction c with
  | zero =>
    intro i arr sw st _ _
    dsimp only [cocktailBwd]
    refine ⟨rfl, List.Perm.refl _, fun k _ => rfl, ?_, ?_, ?_, ?_⟩
    · intro k h1 h2
      have : k = i := by omega
      simp [this]
    · intro k h1 h2
      have : k = i := by omega
      simp [this]
    · intro k h1 h2
      exact ⟨k, h1, h2, rfl⟩
    · intro h
      exact ⟨h, rfl, fun k h1 h2 => absurd h2 (by omega)⟩
  | succ c ih =>
    intro i arr sw st hc hlen
    have hi1 : 1 ≤ i := by omega
    have hic : i - (c + 1) = i - 1 - c := by omega
    simp only [cocktailBwd]
    split
    · rename_i hgt
      dsimp only
      set arr1 := listSwap arr (i - 1) i with harr1
      have hlen1 : arr1.length = arr.length := listSwap_length arr (i - 1) i
      have hv_i1 : arr1.getD (i - 1) 0 = arr.getD i 0 :=
        listSwap_getD_fst arr (i - 1) i (by omega) hlen
      have hv_i : arr1.getD i 0 = arr.getD (i - 1) 0 :=
        listSwap_getD_snd arr (i - 1) i hlen
      have hv_o : ∀ k, k ≠ i - 1 → k ≠ i → arr1.getD k 0 = arr.getD k 0 :=
        fun k h1 h2 => listSwap_getD_other arr (i - 1) i k h1 h2
      obtain ⟨i1, i2, i3, i4, i5, i6, _⟩ :=
        ih (i - 1) arr1 true ⟨st.comparisons + 1, st.swaps + 1⟩ (by omega) (by omega)
      refine ⟨by rw [i1, hlen1], i2.trans (listSwap_perm arr (i - 1) i (by omega) hlen),
        ?_, ?_, ?_, ?_, ?_⟩
      · intro k hk
        rcases hk with hk | hk
        · rw [i3 k (Or.inl (by omega)), hv_o k (by omega) (by omega)]
        · rw [i3 k (Or.inr (by omega)), hv_o k (by omega) (by omega)]
      · intro k h1 h2
        rw [hic]
        rcases Nat.lt_or_ge k (i - 1) with hk | hk
        · have := i4 k (by omega) (by omega)
          rwa [hv_o k (by omega) (by omega)] at this
        · rcases eq_or_lt_of_le hk with hk' | hk'
          · rw [← hk']
            have := i4 (i - 1) (by omega) (le_refl _)
            calc (cocktailBwd yc c (i - 1) arr1 true
                ⟨st.comparisons + 1, st.swaps + 1⟩).2.1.getD (i - 1 - c) 0
                ≤ arr1.getD (i - 1) 0 := this
            _ = arr.getD i 0 := hv_i1
            _ ≤ arr.getD (i - 1) 0 := le_of_lt hgt
          · have hki : k = i := by omega
            rw [hki]
            calc (cocktailBwd yc c (i - 1) arr1 true
                ⟨st.comparisons + 1, st.swaps + 1⟩).2.1.getD (i - 1 - c) 0
                ≤ arr1.getD (i - 1) 0 := i4 (i - 1) (by omega) (le_refl _)
            _ = arr.getD i 0 := hv_i1
      · intro k h1 h2
        rw [hic]
        rcases Nat.lt_or_ge k i with hk | hk
        · exact i5 k (by omega) (by omega)
        · have hki : k = i := by omega
          rw [hki, i3 i (Or.inr (by omega)), hv_i]
          calc (cocktailBwd yc c (i - 1) arr1 true
              ⟨st.comparisons + 1, st.swaps + 1⟩).2.1.getD (i - 1 - c) 0
              ≤ arr1.getD (i - 1) 0 := i4 (i - 1) (by omega) (le_refl _)
          _ = arr.getD i 0 := hv_i1
          _ ≤ arr.getD (i - 1) 0 := le_of_lt hgt
      · intro k h1 h2
        rcases Nat.lt_or_ge k i with hk | hk
        · obtain ⟨m, hm1, hm2, hm3⟩ := i6 k (by omega) (by omega)
          rcases eq_or_lt_of_le (show m ≤ i - 1 by omega) with hm | hm
          · refine ⟨i, by omega, le_refl _, ?_⟩
            rw [hm3, hm, hv_i1]
          · refine ⟨m, by omega, by omega, ?_⟩
            rw [hm3, hv_o m (by omega) (by omega)]
        · have hki : k = i := by omega
          refine ⟨i - 1, by omega, by omega, ?_⟩
          rw [hki, i3 i (Or.inr (by omega)), hv_i]
      · intro h
        rw [cocktailBwd_flagMono yc c (i - 1) arr1 ⟨st.comparisons + 1, st.swaps + 1⟩] at h
        exact absurd h (by simp)
    · rename_i hng
      dsimp only
      have hle : arr.getD (i - 1) 0 ≤ arr.getD i 0 := not_lt.mp hng
      obtain ⟨i1, i2, i3, i4, i5, i6, i7⟩ :=
        ih (i - 1) arr sw ⟨st.comparisons + 1, st.swaps⟩ (by omega) (by omega)
      refine ⟨i1, i2, ?_, ?_, ?_, ?_, ?_⟩
      · intro k hk
        rcases hk with hk | hk
        · exact i3 k (Or.inl (by omega))
        · exact i3 k (Or.inr (by omega))
      · intro k h1 h2
        rw [hic]
        rcases eq_or_lt_of_le h2 with hk | hk
        · rw [hk]
          exact le_trans (i4 (i - 1) (by omega) (le_refl _)) hle
        · exact i4 k (by omega) (by omega)
      · intro k h1 h2
        rw [hic]
        rcases eq_or_lt_of_le h2 with hk | hk
        · rw [hk, i3 i (Or.inr (by omega))]
          exact le_trans (i4 (i - 1) (by omega) (le_refl _)) hle
        · exact i5 k (by omega) (by omega)
      · intro k h1 h2
        rcases eq_or_lt_of_le h2 with hk | hk
        · exact ⟨i, by omega, le_refl _, by rw [hk, i3 i (Or.inr (by omega))]⟩
        · obtain ⟨m, hm1, hm2, hm3⟩ := i6 k (by omega) (by omega)
          exact ⟨m, by omega, by omega, hm3⟩
      · intro h
        obtain ⟨f1, f2, f3⟩ := i7 h
        refine ⟨f1, f2, ?_⟩
        intro k h1 h2
        rcases eq_or_lt_of_le (show k ≤ i - 1 by omega) with h' | h'
        · rw [h']
          have : i - 1 + 1 = i := by omega
          rw [this]
          exact hle
        · exact f3 k (by omega) (by omega)

theorem cocktailLoop_sorted (yc : Bool) (n : Nat) :
    ∀ (fuel start e : Nat) (arr : List Int) (st : Stats),
      arr.length = n → e ≤ n - 1 → 1 ≤ n → e - start ≤ fuel →
      (∀ a b : Nat, a < b → b < n → (a < start ∨ e < b) → arr.getD a 0 ≤ arr.getD b 0) →
      (cocktailLoop yc fuel start e arr st).done = true ∧
        (cocktailLoop yc fuel start e arr st).arr.Perm arr ∧
        (cocktailLoop yc fuel start e arr st).arr.length = n ∧
        PairwiseLe (cocktailLoop yc fuel start e arr st).arr := by
  intro fuel
  induction fuel with
  | zero =>
    intro start e arr st hlen he hn hf hOut
    have hse : ¬ start < e := by omega
    dsimp only [cocktailLoop]
    refine ⟨by simp [hse], List.Perm.refl _, hlen, ?_⟩
    intro a b hab hb
    rw [hlen] at hb
    exact hOut a b hab hb (by omega)
  | succ f ih =>
    intro start e arr st hlen he hn hf hOut
    simp only [cocktailLoop, cocktailFwd_eq_bubblePass]
    split
    · rename_i hse
      obtain ⟨p1, p2, p3, p4, p5, p6, p7⟩ :=
        bubblePass_proc yc (e - start) start arr false st (by omega)
      have hnorm : start + (e - start) = e := by omega
      rw [hnorm] at p3 p4 p5 p6
      have hOutF : ∀ a b : Nat, a < b → b < n → (a < start ∨ e - 1 < b) →
          (bubblePass yc (e - start) start arr false st).2.1.getD a 0
            ≤ (bubblePass yc (e - start) start arr false st).2.1.getD b 0 := by
        intro a b hab hb hcond
        rcases Nat.lt_or_ge b start with hbs | hbs
        · -- both strictly below the window: untouched
          rw [p3 a (Or.inl (by omega)), p3 b (Or.inl hbs)]
          exact hOut a b hab hb (by omega)
        · rcases Nat.lt_or_ge e b with hbe | hbe
          · -- b beyond the window
            rw [p3 b (Or.inr hbe)]
            rcases Nat.lt_or_ge a start with has | has
            · rw [p3 a (Or.inl has)]
              exact hOut a b hab hb (Or.inr hbe)
            · rcases Nat.lt_or_ge e a with hae | hae
              · rw [p3 a (Or.inr hae)]
                exact hOut a b hab hb (Or.inr hbe)
              · obtain ⟨m, hm1, hm2, hm3⟩ := p6 e (by omega) (le_refl _)
                calc (bubblePass yc (e - start) start arr false st).2.1.getD a 0
                    ≤ (bubblePass yc (e - start) start arr false st).2.1.getD e 0 :=
                      p5 a has hae
                _ = arr.getD m 0 := hm3
                _ ≤ arr.getD b 0 := hOut m b (by omega) hb (Or.inr hbe)
          · -- b inside the window (so b = e by the condition, or a < start)
            rcases hcond with hcond | hcond
            · obtain ⟨m, hm1, hm2, hm3⟩ := p6 b hbs hbe
              rw [p3 a (Or.inl hcond), hm3]
              exact hOut a m (by omega) (by omega) (Or.inl hcond)
            · have hbeq : b = e := by omega
              rw [hbeq]
              rcases Nat.lt_or_ge a start with has | has
              · obtain ⟨m, hm1, hm2, hm3⟩ := p6 e (by omega) (le_refl _)
                rw [p3 a (Or.inl has), hm3]
                exact hOut a m (by omega) (by omega) (Or.inl has)
              · exact p5 a has (by omega)
      split
      · rename_i hfsw
        obtain ⟨q1, q2, q3, q4, q5, q6, q7⟩ := cocktailBwd_proc yc (e - 1 - start) (e - 1)
          (bubblePass yc (e - start) start arr false st).2.1 false
          (bubblePass yc (e - start) start arr false st).2.2.2
          (by omega) (by rw [p1, hlen]; omega)
        have hnorm2 : e - 1 - (e - 1 - start) = start := by omega
        rw [hnorm2] at q3 q4 q5 q6
        have hOutB : ∀ a b : Nat, a < b → b < n → (a < start + 1 ∨ e - 1 < b) →
            (cocktailBwd yc (e - 1 - start) (e - 1)
                (bubblePass yc (e - start) start arr false st).2.1 false
                (bubblePass yc (e - start) start arr false st).2.2.2).2.1.getD a 0
              ≤ (cocktailBwd yc (e - 1 - start) (e - 1)
                (bubblePass yc (e - start) start arr false st).2.1 false
                (bubblePass yc (e - start) start arr false st).2.2.2).2.1.getD b 0 := by
          intro a b hab hb hcond
          rcases Nat.lt_or_ge (e - 1) b with hbe | hbe
          · -- b beyond the backward window: untouched there
            rw [q3 b (Or.inr hbe)]
            rcases Nat.lt_or_ge a start with has | has
            · rw [q3 a (Or.inl has)]
              exact hOutF a b hab hb (Or.inr hbe)
            · rcases Nat.lt_or_ge (e - 1) a with hae | hae
              · rw [q3 a (Or.inr hae)]
                exact hOutF a b hab hb (Or.inr hbe)
              · obtain ⟨m, hm1, hm2, hm3⟩ := q6 a has hae
                rw [hm3]
                exact hOutF m b (by omega) hb (Or.inr hbe)
          · -- b within the backward window; the condition forces a ≤ start
            rcases hcond with hcond | hcond
            · rcases eq_or_lt_of_le (show a ≤ start by omega) with ha | ha
              · rw [ha]
                exact q5 b (by omega) hbe
              · rw [q3 a (Or.inl ha)]
                rcases Nat.lt_or_ge b start with hbs2 | hbs2
                · rw [q3 b (Or.inl hbs2)]
                  exact hOutF a b hab hb (Or.inl ha)
                · obtain ⟨m, hm1, hm2, hm3⟩ := q6 b hbs2 hbe
                  rw [hm3]
                  exact hOutF a m (by omega) (by omega) (Or.inl ha)
            · omega
        split
        · rename_i hbsw
          dsimp only
          obtain ⟨r1, r2, r3, r4⟩ := ih (start + 1) (e - 1)
            (cocktailBwd yc (e - 1 - start) (e - 1)
              (bubblePass yc (e - start) start arr false st).2.1 false
              (bubblePass yc (e - start) start arr false st).2.2.2).2.1
            (cocktailBwd yc (e - 1 - start) (e - 1)
              (bubblePass yc (e - start) start arr false st).2.1 false
              (bubblePass yc (e - start) start arr false st).2.2.2).2.2.2
            (by rw [q1, p1, hlen]) (by omega) hn (by omega) hOutB
          exact ⟨r1, r2.trans (q2.trans p2), r3, r4⟩
        · rename_i hbfl
          dsimp only
          have hq : (cocktailBwd yc (e - 1 - start) (e - 1)
              (bubblePass yc (e - start) start arr false st).2.1 false
              (bubblePass yc (e - start) start arr false st).2.2.2).2.2.1 = false := by
            simpa using hbfl
          obtain ⟨_, g2, g3⟩ := q7 hq
          have key : ∀ (d a : Nat), start ≤ a → a + d ≤ e - 1 →
              (bubblePass yc (e - start) start arr false st).2.1.getD a 0
                ≤ (bubblePass yc (e - start) start arr false st).2.1.getD (a + d) 0 := by
            intro d
            induction d with
            | zero => intro a _ _; exact le_refl _
            | succ d ihd =>
              intro a ha hd
              exact le_trans (ihd a ha (by omega)) (g3 (a + d) (by omega) (by omega))
          rw [g2]
          refine ⟨rfl, p2, by rw [p1, hlen], ?_⟩
          intro a b hab hb
          rw [p1, hlen] at hb
          rcases Nat.lt_or_ge (e - 1) b with hbw | hbw
          · exact hOutF a b hab hb (Or.inr hbw)
          · rcases Nat.lt_or_ge a start with has | has
            · exact hOutF a b hab hb (Or.inl has)
            · have := key (b - a) a has (by omega)
              rwa [Nat.add_sub_cancel' (le_of_lt hab)] at this
      · rename_i hffl
        dsimp only
        have hp : (bubblePass yc (e - start) start arr false st).2.2.1 = false := by
          simpa using hffl
        obtain ⟨_, g2, g3⟩ := p7 hp
        have key : ∀ (d a : Nat), start ≤ a → a + d ≤ e →
            arr.getD a 0 ≤ arr.getD (a + d) 0 := by
          intro d
          induction d with
          | zero => intro a _ _; exact le_refl _
          | succ d ihd =>
            intro a ha hd
            exact le_trans (ihd a ha (by omega)) (g3 (a + d) (by omega) (by omega))
        rw [g2]
        refine ⟨rfl, List.Perm.refl _, hlen, ?_⟩
        intro a b hab hb
        rw [hlen] at hb
        rcases Nat.lt_or_ge e b with hbw | hbw
        · exact hOut a b hab hb (Or.inr hbw)
        · rcases Nat.lt_or_ge a start with has | has
          · exact hOut a b hab hb (Or.inl has)
          · have := key (b - a) a has (by omega)
            rwa [Nat.add_sub_cancel' (le_of_lt hab)] at this
    · rename_i hse
      dsimp only
      refine ⟨rfl, List.Perm.refl _, hlen, ?_⟩
      intro a b hab hb
      rw [hlen] at hb
      exact hOut a b hab hb (by omega)

theorem cocktailShakerSort_c1 (N : Nat) (hN : 1 ≤ N) (arr : List Int)
    (hp : arr.Perm (ascSeq N)) : SortsTo (cocktailShakerSort arr true) N := by
  have hlen : arr.length = N := by rw [hp.length_eq, ascSeq_length]
  obtain ⟨hd, hperm, hl, hs⟩ := cocktailLoop_sorted true arr.length (arr.length + 1) 0
    (arr.length - 1) arr ⟨0, 0⟩ rfl (by omega) (by omega) (by omega)
    (fun a b hab hb hc => by omega)
  have harr : (cocktailLoop true (arr.length + 1) 0 (arr.length - 1) arr ⟨0, 0⟩).arr
      = ascSeq N := perm_pairwiseLe_eq (hperm.trans hp) hs
  constructor
  · simp only [cocktailShakerSort]
    exact hd
  · simp only [cocktailShakerSort, hd, if_true, emitIf_true]
    rw [List.getLast?_concat]
    simp [harr, mkStep]

/-! ### Inversion counting: adjacent out-of-order swaps strictly decrease it -/

theorem inversions_cons (x : Int) (xs : List Int) :
    inversions (x :: xs) = xs.countP (fun y => decide (y < x)) + inversions xs := rfl

theorem inversions_swap_mid : ∀ (T : List Int) (D : List Int) (x y : Int), y < x →
    inversions (T ++ y :: x :: D) < inversions (T ++ x :: y :: D) := by
  intro T
  induction T with
  | nil =>
    intro D x y hyx
    simp only [List.nil_append, inversions_cons, List.countP_cons]
    have h1 : ¬ (x < y) := not_lt.mpr (le_of_lt hyx)
    simp only [decide_eq_true_eq, hyx, h1, if_true, if_false]
    omega
  | cons t T ih =>
    intro D x y hyx
    simp only [List.cons_append, inversions_cons]
    have hcnt : (T ++ y :: x :: D).countP (fun z => decide (z < t))
        = (T ++ x :: y :: D).countP (fun z => decide (z < t)) := by
      simp only [List.countP_append, List.countP_cons]
      omega
    rw [hcnt]
    have := ih D x y hyx
    omega

theorem listSwap_boundary (T D : List Int) (x y : Int) (j : Nat) (hj : T.length = j) :
    listSwap (T ++ x :: y :: D) j (j + 1) = T ++ y :: x :: D := by
  subst hj
  simp only [listSwap]
  rw [List.getD_append_right _ _ _ _ (le_refl _)]
  rw [List.getD_append_right _ _ _ _ (by omega)]
  simp only [Nat.sub_self, show T.length + 1 - T.length = 1 from by omega]
  simp only [List.getD_cons_zero, List.getD_cons_succ]
  rw [List.set_append, if_neg (by omega)]
  rw [List.set_append, if_neg (by omega)]
  simp only [Nat.sub_self, show T.length + 1 - T.length = 1 from by omega]
  rfl

theorem adjacent_take_decomp (arr : List Int) (j : Nat) (h : j + 1 < arr.length) :
    arr = arr.take j ++ arr.getD j 0 :: arr.getD (j + 1) 0 :: arr.drop (j + 2) := by
  conv_lhs => rw [← List.take_append_drop j arr]
  congr 1
  rw [List.drop_eq_getElem_cons (by omega), List.drop_eq_getElem_cons (by omega)]
  rw [List.getD_eq_getElem arr 0 (by omega), List.getD_eq_getElem arr 0 (by omega)]

theorem inversions_swap_adjacent (arr : List Int) (j : Nat) (h : j + 1 < arr.length)
    (hgt : arr.getD (j + 1) 0 < arr.getD j 0) :
    inversions (listSwap arr j (j + 1)) < inversions arr := by
  have hT : (arr.take j).length = j := by rw [List.length_take]; omega
  have h1 := adjacent_take_decomp arr j h
  have h2 : listSwap arr j (j + 1)
      = arr.take j ++ arr.getD (j + 1) 0 :: arr.getD j 0 :: arr.drop (j + 2) := by
    conv_lhs => rw [h1]
    exact listSwap_boundary _ _ _ _ j hT
  rw [h2]
  conv_rhs => rw [h1]
  exact inversions_swap_mid _ _ _ _ hgt

theorem inversions_le_sq : ∀ (l : List Int), inversions l ≤ l.length * l.length := by
  intro l
  induction l with
  | nil => simp [inversions]
  | cons x xs ih =>
    simp only [inversions_cons, List.length_cons]
    have h1 : xs.countP (fun y => decide (y < x)) ≤ xs.length := List.countP_le_length _
    nlinarith

/-! ### oddEvenSort sorts (C1) -/

theorem oddEvenPass_proc (yc : Bool) :
    ∀ (c i : Nat) (arr : List Int) (srt : Bool) (st : Stats),
      (∀ t, t < c → i + 2 * t + 1 < arr.length) →
      (oddEvenPass yc c i arr srt st).2.1.length = arr.length ∧
      (oddEvenPass yc c i arr srt st).2.1.Perm arr ∧
      inversions (oddEvenPass yc c i arr srt st).2.1 ≤ inversions arr ∧
      ((oddEvenPass yc c i arr srt st).2.2.1 = false →
        srt = false ∨ inversions (oddEvenPass yc c i arr srt st).2.1 < inversions arr) ∧
      ((oddEvenPass yc c i arr srt st).2.2.1 = true →
        srt = true ∧ (oddEvenPass yc c i arr srt st).2.1 = arr ∧
        ∀ t, t < c → arr.getD (i + 2 * t) 0 ≤ arr.getD (i + 2 * t + 1) 0) := by
  intro c
  induction c with
  | zero =>
    intro i arr srt st hr
    dsimp only [oddEvenPass]
    exact ⟨rfl, List.Perm.refl _, le_refl _, fun h => Or.inl h,
      fun h => ⟨h, rfl, fun t ht => absurd ht (by omega)⟩⟩
  | succ c ih =>
    intro i arr srt st hr
    have hi1 : i + 1 < arr.length := by have := hr 0 (by omega); omega
    simp only [oddEvenPass]
    split
    · rename_i hgt
      dsimp only
      have hr1 : ∀ t, t < c → (i + 2) + 2 * t + 1 < (listSwap arr i (i + 1)).length := by
        intro t ht
        rw [listSwap_length]
        have := hr (t + 1) (by omega)
        omega
      obtain ⟨q1, q2, q3, q4, q5⟩ := ih (i + 2) (listSwap arr i (i + 1)) false _ hr1
      have hswp : (listSwap arr i (i + 1)).Perm arr :=
        listSwap_perm arr i (i + 1) (by omega) hi1
      have hswl : (listSwap arr i (i + 1)).length = arr.length := listSwap_length arr i (i + 1)
      have hinv : inversions (listSwap arr i (i + 1)) < inversions arr :=
        inversions_swap_adjacent arr i hi1 hgt
      refine ⟨q1.trans hswl, q2.trans hswp, le_trans q3 (le_of_lt hinv),
        fun _ => Or.inr (lt_of_le_of_lt q3 hinv), fun hT => ?_⟩
      exact absurd (q5 hT).1 (by decide)
    · rename_i hng
      dsimp only
      have hr1 : ∀ t, t < c → (i + 2) + 2 * t + 1 < arr.length := by
        intro t ht
        have := hr (t + 1) (by omega)
        omega
      obtain ⟨q1, q2, q3, q4, q5⟩ := ih (i + 2) arr srt _ hr1
      refine ⟨q1, q2, q3, fun hF => q4 hF, fun hT => ?_⟩
      obtain ⟨hsrt, harr, hcond⟩ := q5 hT
      refine ⟨hsrt, harr, fun t ht => ?_⟩
      rcases Nat.eq_zero_or_pos t with ht0 | htp
      · subst ht0
        simpa using le_of_not_lt hng
      · have hc := hcond (t - 1) (by omega)
        have he : i + 2 + 2 * (t - 1) = i + 2 * t := by omega
        rw [he] at hc
        exact hc

theorem oddEvenLoop_sorted (yc : Bool) (n : Nat) :
    ∀ (fuel : Nat) (arr : List Int) (st : Stats),
      arr.length = n →
      inversions arr < fuel →
      (oddEvenLoop yc n fuel arr st).2.2.2 = true ∧
      (oddEvenLoop yc n fuel arr st).2.1.Perm arr ∧
      (oddEvenLoop yc n fuel arr st).2.1.length = n ∧
      PairwiseLe (oddEvenLoop yc n fuel arr st).2.1 := by
  intro fuel
  induction fuel with
  | zero =>
    intro arr st hlen hinv
    omega
  | succ fuel ih =>
    intro arr st hlen hinv
    simp only [oddEvenLoop]
    have hro : ∀ t, t < (n - 1) / 2 → 1 + 2 * t + 1 < arr.length := by
      intro t ht
      omega
    obtain ⟨p1len, p1perm, p1inv, p1f, p1t⟩ :=
      oddEvenPass_proc yc ((n - 1) / 2) 1 arr true st hro
    have hre : ∀ t, t < n / 2 →
        0 + 2 * t + 1 < (oddEvenPass yc ((n - 1) / 2) 1 arr true st).2.1.length := by
      intro t ht
      rw [p1len]
      omega
    obtain ⟨p2len, p2perm, p2inv, p2f, p2t⟩ :=
      oddEvenPass_proc yc (n / 2) 0 (oddEvenPass yc ((n - 1) / 2) 1 arr true st).2.1
        (oddEvenPass yc ((n - 1) / 2) 1 arr true st).2.2.1
        (oddEvenPass yc ((n - 1) / 2) 1 arr true st).2.2.2 hre
    split
    · rename_i hdone
      dsimp only
      obtain ⟨p1flag, p2arr, hevenc⟩ := p2t hdone
      obtain ⟨_, p1arr, hoddc⟩ := p1t p1flag
      rw [p1arr] at hevenc
      refine ⟨rfl, ?_, ?_, ?_⟩
      · exact p2perm.trans p1perm
      · rw [p2len, p1len, hlen]
      · rw [p2arr, p1arr]
        apply adjacentLe_pairwise
        intro k hk
        rw [hlen] at hk
        rcases Nat.even_or_odd k with ⟨m, hm⟩ | ⟨m, hm⟩
        · have hc := hevenc m (by omega)
          have he0 : 0 + 2 * m = k := by omega
          rw [he0] at hc
          exact hc
        · have hc := hoddc m (by omega)
          have he1 : 1 + 2 * m = k := by omega
          rw [he1] at hc
          exact hc
    · rename_i hnd
      simp only [Bool.not_eq_true] at hnd
      dsimp only
      have hdec : inversions (oddEvenPass yc (n / 2) 0
          (oddEvenPass yc ((n - 1) / 2) 1 arr true st).2.1
          (oddEvenPass yc ((n - 1) / 2) 1 arr true st).2.2.1
          (oddEvenPass yc ((n - 1) / 2) 1 arr true st).2.2.2).2.1 < inversions arr := by
        rcases p2f hnd with hp1f | hlt
        · rcases p1f hp1f with h01 | hlt1
          · exact absurd h01 (by decide)
          · exact lt_of_le_of_lt p2inv hlt1
        · exact lt_of_lt_of_le hlt p1inv
      obtain ⟨r1, r2, r3, r4⟩ := ih (oddEvenPass yc (n / 2) 0
          (oddEvenPass yc ((n - 1) / 2) 1 arr true st).2.1
          (oddEvenPass yc ((n - 1) / 2) 1 arr true st).2.2.1
          (oddEvenPass yc ((n - 1) / 2) 1 arr true st).2.2.2).2.1
        (oddEvenPass yc (n / 2) 0
          (oddEvenPass yc ((n - 1) / 2) 1 arr true st).2.1
          (oddEvenPass yc ((n - 1) / 2) 1 arr true st).2.2.1
          (oddEvenPass yc ((n - 1) / 2) 1 arr true st).2.2.2).2.2.2
        (by rw [p2len, p1len, hlen]) (by omega)
      exact ⟨r1, r2.trans (p2perm.trans p1perm), r3, r4⟩

theorem oddEvenSort_c1 (N : Nat) (hN : 1 ≤ N) (arr : List Int)
    (hp : arr.Perm (ascSeq N)) : SortsTo (oddEvenSort arr true) N := by
  have hlen : arr.length = N := by rw [hp.length_eq, ascSeq_length]
  have hinv : inversions arr < arr.length * arr.length + 2 := by
    have := inversions_le_sq arr
    omega
  obtain ⟨hd, hperm, hl, hs⟩ := oddEvenLoop_sorted true arr.length
    (arr.length * arr.length + 2) arr ⟨0, 0⟩ rfl hinv
  have harr : (oddEvenLoop true arr.length (arr.length * arr.length + 2) arr ⟨0, 0⟩).2.1
      = ascSeq N := perm_pairwiseLe_eq (hperm.trans hp) hs
  constructor
  · simp only [oddEvenSort]
    exact hd
  · simp only [oddEvenSort, hd, if_true, emitIf_true]
    rw [List.getLast?_concat]
    simp [harr, mkStep]

/-! ### combSort sorts (C1) -/

theorem combPass_proc (yc : Bool) (gap : Nat) :
    ∀ (c i : Nat) (arr : List Int) (srt : Bool) (st : Stats),
      (∀ t, t < c → i + t + gap < arr.length) →
      (combPass yc gap c i arr srt st).2.1.length = arr.length ∧
      (combPass yc gap c i arr srt st).2.1.Perm arr ∧
      (gap = 1 → inversions (combPass yc gap c i arr srt st).2.1 ≤ inversions arr ∧
        ((combPass yc gap c i arr srt st).2.2.1 = false →
          srt = false ∨ inversions (combPass yc gap c i arr srt st).2.1 < inversions arr)) ∧
      ((combPass yc gap c i arr srt st).2.2.1 = true →
        srt = true ∧ (combPass yc gap c i arr srt st).2.1 = arr ∧
        ∀ t, t < c → arr.getD (i + t) 0 ≤ arr.getD (i + t + gap) 0) := by
  intro c
  induction c with
  | zero =>
    intro i arr srt st hr
    dsimp only [combPass]
    exact ⟨rfl, List.Perm.refl _, fun _ => ⟨le_refl _, fun h => Or.inl h⟩,
      fun h => ⟨h, rfl, fun t ht => absurd ht (by omega)⟩⟩
  | succ c ih =>
    intro i arr srt st hr
    have hi1 : i + gap < arr.length := by have := hr 0 (by omega); omega
    simp only [combPass]
    split
    · rename_i hgt
      dsimp only
      have hr1 : ∀ t, t < c → (i + 1) + t + gap < (listSwap arr i (i + gap)).length := by
        intro t ht
        rw [listSwap_length]
        have := hr (t + 1) (by omega)
        omega
      obtain ⟨q1, q2, q3, q4⟩ := ih (i + 1) (listSwap arr i (i + gap)) false _ hr1
      have hswp : (listSwap arr i (i + gap)).Perm arr :=
        listSwap_perm arr i (i + gap) (by omega) hi1
      have hswl : (listSwap arr i (i + gap)).length = arr.length :=
        listSwap_length arr i (i + gap)
      refine ⟨q1.trans hswl, q2.trans hswp, fun hg1 => ?_, fun hT => ?_⟩
      · obtain ⟨q3a, q3b⟩ := q3 hg1
        have harr1 : listSwap arr i (i + gap) = listSwap arr i (i + 1) := by rw [hg1]
        have hadj : inversions (listSwap arr i (i + gap)) < inversions arr := by
          rw [harr1]
          refine inversions_swap_adjacent arr i (by omega) ?_
          rw [hg1] at hgt
          exact hgt
        exact ⟨le_trans q3a (le_of_lt hadj),
          fun _ => Or.inr (lt_of_le_of_lt q3a hadj)⟩
      · exact absurd (q4 hT).1 (by decide)
    · rename_i hng
      dsimp only
      have hr1 : ∀ t, t < c → (i + 1) + t + gap < arr.length := by
        intro t ht
        have := hr (t + 1) (by omega)
        omega
      obtain ⟨q1, q2, q3, q4⟩ := ih (i + 1) arr srt _ hr1
      refine ⟨q1, q2, q3, fun hT => ?_⟩
      obtain ⟨hsrt, harr, hcond⟩ := q4 hT
      refine ⟨hsrt, harr, fun t ht => ?_⟩
      rcases Nat.eq_zero_or_pos t with ht0 | htp
      · subst ht0
        simpa using le_of_not_lt hng
      · have hc := hcond (t - 1) (by omega)
        have he1 : i + 1 + (t - 1) = i + t := by omega
        rw [he1] at hc
        exact hc

theorem combLoop_srtTrue (yc : Bool) (n fuel gap : Nat) (arr : List Int) (st : Stats) :
    combLoop yc n fuel gap true arr st = ([], arr, st, true) := by
  cases fuel with
  | zero => rfl
  | succ fuel => simp [combLoop]

theorem combLoop_sorted (yc : Bool) (n : Nat) :
    ∀ (fuel gap : Nat) (arr : List Int) (st : Stats),
      arr.length = n → 1 ≤ gap →
      (gap = 1 → inversions arr + 2 ≤ fuel) →
      (2 ≤ gap → gap + n * n + 2 ≤ fuel) →
      (combLoop yc n fuel gap false arr st).2.2.2 = true ∧
      (combLoop yc n fuel gap false arr st).2.1.Perm arr ∧
      (combLoop yc n fuel gap false arr st).2.1.length = n ∧
      PairwiseLe (combLoop yc n fuel gap false arr st).2.1 := by
  intro fuel
  induction fuel with
  | zero =>
    intro gap arr st hlen hgap h1 h2
    rcases Nat.lt_or_ge gap 2 with hg | hg
    · have := h1 (by omega)
      omega
    · have := h2 hg
      omega
  | succ fuel ih =>
    intro gap arr st hlen hgap h1 h2
    simp only [combLoop, Bool.false_eq_true, if_false]
    by_cases hg1 : 10 * gap / 13 ≤ 1
    · simp only [if_pos hg1]
      have hrange : ∀ t, t < n - 1 → 0 + t + 1 < arr.length := by
        intro t ht
        omega
      obtain ⟨q1, q2, q3, q4⟩ := combPass_proc yc 1 (n - 1) 0 arr true st hrange
      obtain ⟨qi, qf⟩ := q3 rfl
      cases hpf : (combPass yc 1 (n - 1) 0 arr true st).2.2.1 with
      | true =>
        obtain ⟨_, hunch, hcond⟩ := q4 hpf
        rw [combLoop_srtTrue]
        dsimp only
        refine ⟨rfl, ?_, ?_, ?_⟩
        · rw [hunch]
        · rw [hunch, hlen]
        · rw [hunch]
          apply adjacentLe_pairwise
          intro k hk
          rw [hlen] at hk
          have hc := hcond k (by omega)
          simpa using hc
      | false =>
        have hstrict : inversions (combPass yc 1 (n - 1) 0 arr true st).2.1
            < inversions arr := by
          rcases qf hpf with h01 | hs
          · exact absurd h01 (by decide)
          · exact hs
        have hbound : inversions arr ≤ n * n := by
          have := inversions_le_sq arr
          rw [hlen] at this
          exact this
        have hfuel : inversions (combPass yc 1 (n - 1) 0 arr true st).2.1 + 2 ≤ fuel := by
          rcases Nat.lt_or_ge gap 2 with hg | hg
          · have := h1 (by omega)
            omega
          · have := h2 hg
            omega
        obtain ⟨r1, r2, r3, r4⟩ := ih 1 (combPass yc 1 (n - 1) 0 arr true st).2.1
          (combPass yc 1 (n - 1) 0 arr true st).2.2.2
          (by rw [q1, hlen]) (le_refl 1) (fun _ => hfuel) (fun h => absurd h (by omega))
        exact ⟨r1, r2.trans q2, r3, r4⟩
    · simp only [if_neg hg1]
      have hgap2 : 2 ≤ 10 * gap / 13 := by omega
      have hgap3 : 3 ≤ gap := by omega
      have hrange : ∀ t, t < n - 10 * gap / 13 → 0 + t + 10 * gap / 13 < arr.length := by
        intro t ht
        omega
      obtain ⟨q1, q2, q3, q4⟩ :=
        combPass_proc yc (10 * gap / 13) (n - 10 * gap / 13) 0 arr false st hrange
      have hpf : (combPass yc (10 * gap / 13) (n - 10 * gap / 13) 0 arr false st).2.2.1
          = false := by
        cases hx : (combPass yc (10 * gap / 13) (n - 10 * gap / 13) 0 arr false st).2.2.1 with
        | false => rfl
        | true => exact absurd (q4 hx).1 (by decide)
      have hshrink : 10 * gap / 13 + 1 ≤ gap := by omega
      obtain ⟨r1, r2, r3, r4⟩ := ih (10 * gap / 13)
        (combPass yc (10 * gap / 13) (n - 10 * gap / 13) 0 arr false st).2.1
        (combPass yc (10 * gap / 13) (n - 10 * gap / 13) 0 arr false st).2.2.2
        (by rw [q1, hlen]) (by omega)
        (fun h => absurd h (by omega))
        (fun _ => by have := h2 (by omega); omega)
      rw [hpf]
      exact ⟨r1, r2.trans q2, r3, r4⟩

theorem combSort_c1 (N : Nat) (hN : 1 ≤ N) (arr : List Int)
    (hp : arr.Perm (ascSeq N)) : SortsTo (combSort arr true) N := by
  have hlen : arr.length = N := by rw [hp.length_eq, ascSeq_length]
  have hinv : inversions arr ≤ arr.length * arr.length := inversions_le_sq arr
  obtain ⟨hd, hperm, hl, hs⟩ := combLoop_sorted true arr.length
    (arr.length * arr.length + arr.length + 2) arr.length arr ⟨0, 0⟩ rfl (by omega)
    (fun _ => by omega) (fun _ => by omega)
  have harr : (combLoop true arr.length (arr.length * arr.length + arr.length + 2)
      arr.length false arr ⟨0, 0⟩).2.1 = ascSeq N :=
    perm_pairwiseLe_eq (hperm.trans hp) hs
  constructor
  · simp only [combSort]
    exact hd
  · simp only [combSort, hd, if_true, emitIf_true]
    rw [List.getLast?_concat]
    simp [harr, mkStep]

/-! ### gnomeSort: divergence on singletons, sorting for length ≥ 2 (C1) -/

theorem jsGet_map_some (l : List Int) (k : Nat) (hk : k < l.length) :
    jsGet (l.map some) k = some (l.getD k 0) := by
  simp [jsGet, List.getD_eq_getElem l 0 hk, List.get?_eq_getElem?, List.getElem?_map,
    List.getElem?_eq_getElem hk]

theorem jsSet_map_some (l : List Int) (k : Nat) (v : Int) (hk : k < l.length) :
    jsSet (l.map some) k (some v) = (l.set k v).map some := by
  simp [jsSet, hk, List.map_set]

theorem jsGe_some (x y : Int) : jsGe (some x) (some y) = decide (y ≤ x) := rfl

theorem jsProj_map_some : ∀ (l : List Int), jsProj (l.map some) = l := by
  intro l
  induction l with
  | nil => rfl
  | cons x xs ih =>
    simp only [List.map_cons, jsProj, Option.getD_some] at ih ⊢
    rw [ih]

theorem listSwap_comm (arr : List Int) (i j : Nat) (hij : i ≠ j) :
    listSwap arr i j = listSwap arr j i := by
  simp only [listSwap]
  exact List.set_comm _ _ _ hij

theorem inversions_two_le : ∀ (l : List Int), 2 * inversions l ≤ l.length * (l.length - 1) := by
  intro l
  induction l with
  | nil => simp [inversions]
  | cons x xs ih =>
    simp only [inversions_cons, List.length_cons, Nat.add_sub_cancel]
    have h1 : xs.countP (fun y => decide (y < x)) ≤ xs.length := List.countP_le_length _
    rcases Nat.eq_zero_or_pos xs.length with h0 | hpos
    · rw [h0] at h1 ih ⊢
      omega
    · obtain ⟨k, hk⟩ : ∃ k, xs.length = k + 1 := ⟨xs.length - 1, by omega⟩
      rw [hk] at h1 ih ⊢
      simp only [Nat.add_sub_cancel] at ih
      nlinarith

theorem gnomeTwoCycle_diverges : ∀ (fuel : Nat) (st : Stats),
    (gnomeLoop true fuel 0 [none, some 0] st).2.2.2 = false ∧
    (gnomeLoop true fuel 0 [some 0, none] st).2.2.2 = false := by
  intro fuel
  induction fuel with
  | zero =>
    intro st
    exact ⟨rfl, rfl⟩
  | succ fuel ih =>
    intro st
    constructor
    · have h : (gnomeLoop true (fuel + 1) 0 [none, some 0] st).2.2.2
          = (gnomeLoop true fuel 0 [some 0, none]
              ⟨st.comparisons + 1, st.swaps + 1⟩).2.2.2 := by
        simp [gnomeLoop, jsGet, jsSet, jsGe, jsProj]
      rw [h]
      exact (ih _).2
    · have h : (gnomeLoop true (fuel + 1) 0 [some 0, none] st).2.2.2
          = (gnomeLoop true fuel 0 [none, some 0]
              ⟨st.comparisons + 1, st.swaps + 1⟩).2.2.2 := by
        simp [gnomeLoop, jsGet, jsSet, jsGe, jsProj]
      rw [h]
      exact (ih _).1
  
theorem gnomeOne_diverges : ∀ (fuel : Nat) (st : Stats),
    (gnomeLoop true fuel 0 [some 0] st).2.2.2 = false := by
  intro fuel st
  cases fuel with
  | zero => rfl
  | succ fuel =>
    have h : (gnomeLoop true (fuel + 1) 0 [some 0] st).2.2.2
        = (gnomeLoop true fuel 0 [none, some 0]
            ⟨st.comparisons + 1, st.swaps + 1⟩).2.2.2 := by
      simp [gnomeLoop, jsGet, jsSet, jsGe, jsProj]
    rw [h]
    exact (gnomeTwoCycle_diverges fuel _).1

theorem gnomeLoop_sorted (yc : Bool) (n : Nat) (hn : 2 ≤ n) :
    ∀ (fuel idx : Nat) (l : List Int) (st : Stats),
      l.length = n → idx ≤ n →
      2 * inversions l + (n - idx) < fuel →
      (∀ k, k + 1 < idx → l.getD k 0 ≤ l.getD (k + 1) 0) →
      (gnomeLoop yc fuel idx (l.map some) st).2.2.2 = true ∧
      ∃ l2, (gnomeLoop yc fuel idx (l.map some) st).2.1 = l2.map some ∧
        l2.Perm l ∧ l2.length = n ∧ PairwiseLe l2 := by
  intro fuel
  induction fuel with
  | zero =>
    intro idx l st hlen hidx hmeas hadj
    omega
  | succ fuel ih =>
    intro idx l st hlen hidx hmeas hadj
    simp only [gnomeLoop]
    split
    · rename_i hlt
      rw [List.length_map, hlen] at hlt
      set i := if idx = 0 then 1 else idx with hi
      have hcase : (idx = 0 ∧ i = 1) ∨ (1 ≤ idx ∧ i = idx) := by
        rw [hi]
        by_cases h0 : idx = 0
        · rw [if_pos h0]
          exact Or.inl ⟨h0, rfl⟩
        · rw [if_neg h0]
          exact Or.inr ⟨by omega, rfl⟩
      have hi1 : 1 ≤ i := by omega
      have hin : i < n := by omega
      have hii1 : idx ≤ i := by omega
      have hii2 : i ≤ idx + 1 := by omega
      rw [jsGet_map_some l i (by omega), jsGet_map_some l (i - 1) (by omega), jsGe_some]
      rw [jsSet_map_some l i _ (by omega)]
      rw [jsSet_map_some (l.set i (l.getD (i - 1) 0)) (i - 1) _ (by simp; omega)]
      rw [show (l.set i (l.getD (i - 1) 0)).set (i - 1) (l.getD i 0)
            = listSwap l i (i - 1) from rfl]
      split
      · rename_i hcmp
        rw [decide_eq_true_eq] at hcmp
        dsimp only
        obtain ⟨rd, l2, he, hp, hl, hs⟩ := ih (i + 1) l _ hlen (by omega)
          (by omega)
          (by
            intro k hk
            rcases Nat.lt_or_ge (k + 1) idx with hkc | hkc
            · exact hadj k hkc
            · rcases Nat.lt_or_ge (k + 1) i with hki | hki
              · exfalso
                omega
              · have hke : k + 1 = i := by omega
                have hke2 : k = i - 1 := by omega
                rw [hke, hke2]
                exact hcmp)
        exact ⟨rd, l2, he, hp, hl, hs⟩
      · rename_i hcmp
        rw [decide_eq_true_eq] at hcmp
        have hgtv : l.getD i 0 < l.getD (i - 1) 0 := lt_of_not_le hcmp
        dsimp only
        have hswinv : inversions (listSwap l i (i - 1)) < inversions l := by
          rw [listSwap_comm l i (i - 1) (by omega)]
          have h := inversions_swap_adjacent l (i - 1) (by omega)
            (by
              have he : i - 1 + 1 = i := by omega
              rw [he]
              exact hgtv)
          have he : i - 1 + 1 = i := by omega
          rw [he] at h
          exact h
        have hswp : (listSwap l i (i - 1)).Perm l :=
          listSwap_perm l i (i - 1) (by omega) (by omega)
        obtain ⟨rd, l2, he, hp, hl, hs⟩ := ih (i - 1) (listSwap l i (i - 1)) _
          (by rw [listSwap_length, hlen]) (by omega)
          (by omega)
          (by
            intro k hk
            rw [listSwap_getD_other l i (i - 1) k (by omega) (by omega),
              listSwap_getD_other l i (i - 1) (k + 1) (by omega) (by omega)]
            exact hadj k (by omega))
        exact ⟨rd, l2, he, hp.trans hswp, hl, hs⟩
    · rename_i hge
      rw [List.length_map, hlen] at hge
      dsimp only
      refine ⟨rfl, l, rfl, List.Perm.refl _, hlen, ?_⟩
      apply adjacentLe_pairwise
      intro k hk
      rw [hlen] at hk
      exact hadj k (by omega)

theorem gnomeSort_c1 (N : Nat) (hN : 2 ≤ N) (arr : List Int)
    (hp : arr.Perm (ascSeq N)) : SortsTo (gnomeSort arr true) N := by
  have hlen : arr.length = N := by rw [hp.length_eq, ascSeq_length]
  have h2 := inversions_two_le arr
  have hq : arr.length * (arr.length - 1) + arr.length = arr.length * arr.length := by
    cases harr : arr.length with
    | zero => rfl
    | succ k =>
      simp only [Nat.succ_sub_one]
      ring
  have hmeas : 2 * inversions arr + (arr.length - 0) < gnomeFuel arr.length := by
    simp only [gnomeFuel]
    omega
  obtain ⟨rd, l2, he, hperm, hl, hs⟩ := gnomeLoop_sorted true arr.length (by omega)
    (gnomeFuel arr.length) 0 arr ⟨0, 0⟩ rfl (by omega) hmeas
    (fun k hk => absurd hk (by omega))
  have harr : l2 = ascSeq N := perm_pairwiseLe_eq (hperm.trans hp) hs
  constructor
  · simp only [gnomeSort]
    exact rd
  · simp only [gnomeSort, rd, if_true, emitIf_true]
    rw [List.getLast?_concat, he, jsProj_map_some, harr]
    simp [mkStep]

/-! ### shellSort sorts (C1) -/

theorem set_insert_perm (arr : List Int) (j k : Nat) (v : Int) (hj : j < arr.length)
    (hk : k < arr.length) (hne : j ≠ k) :
    ((arr.set j (arr.getD k 0)).set k v).Perm (arr.set j v) := by
  have hX1 : (arr.set j v).getD k 0 = arr.getD k 0 := getD_set_other arr j k v hne
  have hX2 : (arr.set j v).getD j 0 = v := getD_set_self arr j v hj
  have e1 : (arr.set j (arr.getD k 0)).set k v = listSwap (arr.set j v) j k := by
    rw [listSwap, hX1, hX2, List.set_set]
  rw [e1]
  exact listSwap_perm _ j k (by simpa using hj) (by simpa using hk)

theorem shellInner_perm (yc : Bool) (gap : Nat) (temp : Int) (hgap : 1 ≤ gap) :
    ∀ (fuel j : Nat) (arr : List Int) (st : Stats), j < arr.length →
      (shellInner yc gap temp fuel j arr st).2.1 ≤ j ∧
      (shellInner yc gap temp fuel j arr st).2.2.1.length = arr.length ∧
      ((shellInner yc gap temp fuel j arr st).2.2.1.set
          (shellInner yc gap temp fuel j arr st).2.1 temp).Perm (arr.set j temp) := by
  intro fuel
  induction fuel with
  | zero =>
    intro j arr st hj
    dsimp only [shellInner]
    exact ⟨le_refl _, rfl, List.Perm.refl _⟩
  | succ fuel ih =>
    intro j arr st hj
    simp only [shellInner]
    split
    · rename_i hcond
      obtain ⟨hc1, hc2⟩ := hcond
      dsimp only
      have hlen1 : (arr.set j (arr.getD (j - gap) 0)).length = arr.length := by simp
      obtain ⟨q1, q2, q3⟩ := ih (j - gap) (arr.set j (arr.getD (j - gap) 0))
        ⟨st.comparisons + 1, st.swaps + 1⟩ (by omega)
      refine ⟨by omega, by rw [q2, hlen1], ?_⟩
      exact q3.trans (set_insert_perm arr j (j - gap) temp hj (by omega) (by omega))
    · dsimp only
      exact ⟨le_refl _, rfl, List.Perm.refl _⟩

theorem shellInner_spec1 (yc : Bool) (temp : Int) :
    ∀ (fuel j : Nat) (arr : List Int) (st : Stats), j < fuel → j < arr.length →
      (shellInner yc 1 temp fuel j arr st).2.1 ≤ j ∧
      (shellInner yc 1 temp fuel j arr st).2.2.1.length = arr.length ∧
      (∀ k, k ≤ (shellInner yc 1 temp fuel j arr st).2.1 ∨ j < k →
        (shellInner yc 1 temp fuel j arr st).2.2.1.getD k 0 = arr.getD k 0) ∧
      (∀ k, (shellInner yc 1 temp fuel j arr st).2.1 ≤ k → k < j →
        (shellInner yc 1 temp fuel j arr st).2.2.1.getD (k + 1) 0 = arr.getD k 0 ∧
          arr.getD k 0 > temp) ∧
      (0 < (shellInner yc 1 temp fuel j arr st).2.1 →
        ¬ arr.getD ((shellInner yc 1 temp fuel j arr st).2.1 - 1) 0 > temp) ∧
      ((shellInner yc 1 temp fuel j arr st).2.2.1.set
          (shellInner yc 1 temp fuel j arr st).2.1 temp).Perm (arr.set j temp) := by
  intro fuel
  induction fuel with
  | zero =>
    intro j arr st hf hj
    exact absurd hf (by omega)
  | succ fuel ih =>
    intro j arr st hf hj
    simp only [shellInner]
    split
    · rename_i hcond
      obtain ⟨hc1, hc2⟩ := hcond
      dsimp only
      have hlen1 : (arr.set j (arr.getD (j - 1) 0)).length = arr.length := by simp
      obtain ⟨q1, q2, q3, q4, q5, q6⟩ := ih (j - 1) (arr.set j (arr.getD (j - 1) 0)) _
        (by omega) (by omega)
      set arr1 := arr.set j (arr.getD (j - 1) 0) with harr1
      set p := (shellInner yc 1 temp fuel (j - 1) arr1
        ⟨st.comparisons + 1, st.swaps + 1⟩).2.1 with hpdef
      have hval : ∀ k, k ≠ j → arr1.getD k 0 = arr.getD k 0 := by
        intro k hk
        exact getD_set_other arr j k _ (Ne.symm hk)
      have hvalj : arr1.getD j 0 = arr.getD (j - 1) 0 :=
        getD_set_self arr j _ hj
      refine ⟨by omega, by rw [q2, hlen1], ?_, ?_, ?_, ?_⟩
      · intro k hk
        rcases hk with hk | hk
        · rw [q3 k (Or.inl hk), hval k (by omega)]
        · rw [q3 k (Or.inr (by omega)), hval k (by omega)]
      · intro k hk1 hk2
        rcases Nat.lt_or_ge k (j - 1) with hkj | hkj
        · obtain ⟨s1, s2⟩ := q4 k hk1 hkj
          exact ⟨by rw [s1, hval k (by omega)], by rw [← hval k (by omega)]; exact s2⟩
        · have hkj' : k = j - 1 := by omega
          have hkj1 : k + 1 = j := by omega
          constructor
          · rw [hkj1, q3 j (Or.inr (by omega)), hvalj, hkj']
          · rw [hkj']
            exact hc2
      · intro hpos
        have := q5 hpos
        rw [hval (p - 1) (by omega)] at this
        exact this
      · refine q6.trans ?_
        have := set_insert_perm arr j (j - 1) temp hj (by omega) (by omega)
        exact this
    · rename_i hng
      dsimp only
      refine ⟨le_refl _, rfl, fun k _ => rfl, fun k h1 h2 => absurd h1 (by omega), ?_,
        List.Perm.refl _⟩
      intro hpos
      rcases not_and_or.mp hng with h | h
      · exact absurd (by omega : 1 ≤ j) h
      · exact h

theorem shellMid_permlen (yc : Bool) (gap : Nat) (hgap : 1 ≤ gap) :
    ∀ (c i : Nat) (arr : List Int) (st : Stats), i + c = arr.length →
      (shellMid yc gap c i arr st).2.1.length = arr.length ∧
      (shellMid yc gap c i arr st).2.1.Perm arr := by
  intro c
  induction c with
  | zero =>
    intro i arr st hcnt
    dsimp only [shellMid]
    exact ⟨rfl, List.Perm.refl _⟩
  | succ c ih =>
    intro i arr st hcnt
    have hin : i < arr.length := by omega
    simp only [shellMid]
    obtain ⟨p1, p2, p3⟩ :=
      shellInner_perm yc gap (arr.getD i 0) hgap (i + 1) i arr st hin
    have hperm1 : ((shellInner yc gap (arr.getD i 0) (i + 1) i arr st).2.2.1.set
        (shellInner yc gap (arr.getD i 0) (i + 1) i arr st).2.1 (arr.getD i 0)).Perm arr := by
      have h0 := set_getD_self arr i hin
      exact p3.trans (by rw [h0])
    have hlen1 : ((shellInner yc gap (arr.getD i 0) (i + 1) i arr st).2.2.1.set
        (shellInner yc gap (arr.getD i 0) (i + 1) i arr st).2.1
        (arr.getD i 0)).length = arr.length := by
      rw [List.length_set, p2]
    obtain ⟨r1, r2⟩ := ih (i + 1) _ (shellInner yc gap (arr.getD i 0) (i + 1) i arr st).2.2.2
      (by rw [hlen1]; omega)
    exact ⟨by rw [r1, hlen1], r2.trans hperm1⟩

theorem shellMid_sorted (yc : Bool) :
    ∀ (c i : Nat) (arr : List Int) (st : Stats),
      i + c = arr.length → 1 ≤ i →
      (∀ a b : Nat, a < b → b < i → arr.getD a 0 ≤ arr.getD b 0) →
      (shellMid yc 1 c i arr st).2.1.Perm arr ∧
        (shellMid yc 1 c i arr st).2.1.length = arr.length ∧
        PairwiseLe (shellMid yc 1 c i arr st).2.1 := by
  intro c
  induction c with
  | zero =>
    intro i arr st hcnt _ hpre
    refine ⟨List.Perm.refl _, rfl, ?_⟩
    intro a b hab hb
    dsimp only [shellMid] at hb ⊢
    exact hpre a b hab (by omega)
  | succ c ih =>
    intro i arr st hcnt hi hpre
    have hin : i < arr.length := by omega
    simp only [shellMid]
    obtain ⟨s1, s2, s3, s4, s5, s6⟩ :=
      shellInner_spec1 yc (arr.getD i 0) (i + 1) i arr st (by omega) hin
    set key := arr.getD i 0 with hkey
    set p := (shellInner yc 1 key (i + 1) i arr st).2.1 with hp
    set arrf := (shellInner yc 1 key (i + 1) i arr st).2.2.1 with harrf
    set arr1 := arrf.set p key with harr1
    have hlen1 : arr1.length = arr.length := by rw [harr1, List.length_set, s2]
    have hperm1 : arr1.Perm arr := by
      have h0 := set_getD_self arr i hin
      rw [← hkey] at h0
      exact h0 ▸ s6
    have hv_lt : ∀ k, k < p → arr1.getD k 0 = arr.getD k 0 := by
      intro k hk
      rw [harr1, getD_set_other _ _ _ _ (by omega), s3 k (Or.inl (by omega))]
    have hv_eq : arr1.getD p 0 = key := by
      rw [harr1]
      exact getD_set_self _ _ _ (by rw [s2]; omega)
    have hv_mid : ∀ k, p < k → k ≤ i → arr1.getD k 0 = arr.getD (k - 1) 0 := by
      intro k h1 h2
      rw [harr1, getD_set_other _ _ _ _ (by omega)]
      have := (s4 (k - 1) (by omega) (by omega)).1
      rwa [Nat.sub_add_cancel (by omega)] at this
    have hv_hi : ∀ k, i < k → arr1.getD k 0 = arr.getD k 0 := by
      intro k hk
      rw [harr1, getD_set_other _ _ _ _ (by omega), s3 k (Or.inr hk)]
    have hkey_lt : ∀ k, p ≤ k → k < i → key < arr.getD k 0 := fun k h1 h2 => (s4 k h1 h2).2
    have hkey_ge : 0 < p → arr.getD (p - 1) 0 ≤ key := by
      intro h
      exact not_lt.mp (s5 h)
    have hpre1 : ∀ a b : Nat, a < b → b < i + 1 → arr1.getD a 0 ≤ arr1.getD b 0 := by
      intro a b hab hb
      rcases lt_trichotomy a p with ha | ha | ha
      · rcases lt_trichotomy b p with hbp | hbp | hbp
        · rw [hv_lt a ha, hv_lt b hbp]
          exact hpre a b hab (by omega)
        · rw [hv_lt a ha, hbp, hv_eq]
          rcases eq_or_lt_of_le (show a ≤ p - 1 by omega) with h | h
          · rw [h]
            exact hkey_ge (by omega)
          · exact le_trans (hpre a (p - 1) h (by omega)) (hkey_ge (by omega))
        · rw [hv_lt a ha, hv_mid b hbp (by omega)]
          exact hpre a (b - 1) (by omega) (by omega)
      · subst ha
        rcases lt_trichotomy b p with hbp | hbp | hbp
        · omega
        · omega
        · rw [hv_eq, hv_mid b hbp (by omega)]
          exact le_of_lt (hkey_lt (b - 1) (by omega) (by omega))
      · rcases lt_trichotomy b p with hbp | hbp | hbp
        · omega
        · omega
        · rw [hv_mid a ha (by omega), hv_mid b hbp (by omega)]
          exact hpre (a - 1) (b - 1) (by omega) (by omega)
    obtain ⟨hp2, hl2, hs2⟩ := ih (i + 1) arr1
      (shellInner yc 1 key (i + 1) i arr st).2.2.2 (by omega) (by omega) hpre1
    exact ⟨hp2.trans hperm1, by rw [hl2, hlen1], hs2⟩

theorem shellLoop_zero (yc : Bool) (n fuel : Nat) (arr : List Int) (st : Stats) :
    shellLoop yc n fuel 0 arr st = ([], arr, st, true) := by
  cases fuel with
  | zero => rfl
  | succ fuel => simp [shellLoop]

theorem shellLoop_sorted (yc : Bool) (n : Nat) :
    ∀ (fuel gap : Nat) (arr : List Int) (st : Stats),
      arr.length = n → 1 ≤ gap → gap ≤ n → gap + 1 < fuel →
      (shellLoop yc n fuel gap arr st).2.2.2 = true ∧
      (shellLoop yc n fuel gap arr st).2.1.Perm arr ∧
      (shellLoop yc n fuel gap arr st).2.1.length = n ∧
      PairwiseLe (shellLoop yc n fuel gap arr st).2.1 := by
  intro fuel
  induction fuel with
  | zero =>
    intro gap arr st _ _ _ hf
    exact absurd hf (by omega)
  | succ fuel ih =>
    intro gap arr st hlen hg1 hgn hf
    simp only [shellLoop]
    rw [if_pos (by omega : 0 < gap)]
    dsimp only
    by_cases hgap1 : gap = 1
    · subst hgap1
      obtain ⟨hs1, hs2, hs3⟩ := shellMid_sorted yc (n - 1) 1 arr st (by omega)
        (le_refl 1) (fun a b hab hb => absurd hab (by omega))
      rw [show (1 : Nat) / 2 = 0 from rfl, shellLoop_zero]
      dsimp only
      exact ⟨rfl, hs1, by rw [hs2, hlen], hs3⟩
    · obtain ⟨hm1, hm2⟩ := shellMid_permlen yc gap (by omega) (n - gap) gap arr st
        (by omega)
      obtain ⟨r1, r2, r3, r4⟩ := ih (gap / 2)
        (shellMid yc gap (n - gap) gap arr st).2.1
        (shellMid yc gap (n - gap) gap arr st).2.2
        (by rw [hm1, hlen]) (by omega) (by omega) (by omega)
      exact ⟨r1, r2.trans hm2, r3, r4⟩

theorem shellSort_c1 (N : Nat) (hN : 1 ≤ N) (arr : List Int)
    (hp : arr.Perm (ascSeq N)) : SortsTo (shellSort arr true) N := by
  have hlen : arr.length = N := by rw [hp.length_eq, ascSeq_length]
  by_cases hone : arr.length = 1
  · have harr : arr = ascSeq N :=
      perm_pairwiseLe_eq hp (fun a b hab hb => absurd (by omega : b < 1) (by omega))
    simp only [shellSort]
    rw [show arr.length / 2 = 0 from by omega, shellLoop_zero]
    dsimp only
    constructor
    · rfl
    · rw [List.nil_append, harr]
      simp [emitIf, mkStep]
  · obtain ⟨rd, hperm, hl, hs⟩ := shellLoop_sorted true arr.length
      (arr.length + 1) (arr.length / 2) arr ⟨0, 0⟩ rfl (by omega) (by omega) (by omega)
    have harr : (shellLoop true arr.length (arr.length + 1) (arr.length / 2)
        arr ⟨0, 0⟩).2.1 = ascSeq N := perm_pairwiseLe_eq (hperm.trans hp) hs
    constructor
    · simp only [shellSort]
      exact rd
    · simp only [shellSort, rd, if_true, emitIf_true]
      rw [List.getLast?_concat]
      simp [harr, mkStep]

/-! ### quickSort sorts (C1) -/

theorem partLoop_spec (pivot : Int) (high : Nat) (yc : Bool) (low : Nat) :
    ∀ (c j : Nat) (i : ℤ) (arr : List Int) (st : Stats),
      j + c = high → high < arr.length → low ≤ j →
      (low : ℤ) - 1 ≤ i → i < (j : ℤ) →
      (∀ k : Nat, low ≤ k → (k : ℤ) ≤ i → arr.getD k 0 ≤ pivot) →
      (∀ k : Nat, i < (k : ℤ) → k < j → pivot < arr.getD k 0) →
      (partLoop pivot high yc c j i arr st).2.2.1.length = arr.length ∧
      (partLoop pivot high yc c j i arr st).2.2.1.Perm arr ∧
      (low : ℤ) - 1 ≤ (partLoop pivot high yc c j i arr st).2.1 ∧
      (partLoop pivot high yc c j i arr st).2.1 < (high : ℤ) ∧
      i ≤ (partLoop pivot high yc c j i arr st).2.1 ∧
      (∀ k : Nat, k < low ∨ high ≤ k →
        (partLoop pivot high yc c j i arr st).2.2.1.getD k 0 = arr.getD k 0) ∧
      (∀ k : Nat, low ≤ k → (k : ℤ) ≤ (partLoop pivot high yc c j i arr st).2.1 →
        (partLoop pivot high yc c j i arr st).2.2.1.getD k 0 ≤ pivot) ∧
      (∀ k : Nat, (partLoop pivot high yc c j i arr st).2.1 < (k : ℤ) → k < high →
        pivot < (partLoop pivot high yc c j i arr st).2.2.1.getD k 0) ∧
      (∀ P : Int → Prop, (∀ k : Nat, low ≤ k → k < high → P (arr.getD k 0)) →
        ∀ k : Nat, low ≤ k → k < high →
          P ((partLoop pivot high yc c j i arr st).2.2.1.getD k 0)) := by
  intro c
  induction c with
  | zero =>
    intro j i arr st hjc hh hlj hli hij hP1 hP2
    dsimp only [partLoop]
    refine ⟨rfl, List.Perm.refl _, hli, by omega, le_refl _, fun k _ => rfl,
      hP1, ?_, fun P hP k h1 h2 => hP k h1 h2⟩
    intro k h1 h2
    exact hP2 k h1 (by omega)
  | succ c ih =>
    intro j i arr st hjc hh hlj hli hij hP1 hP2
    have hjh : j < high := by omega
    simp only [partLoop]
    split
    · rename_i hcmp
      dsimp only
      have h0 : (0 : ℤ) ≤ i + 1 := by omega
      have htn : (((i + 1).toNat : ℤ)) = i + 1 := Int.toNat_of_nonneg h0
      have hi1j : (i + 1).toNat ≤ j := by omega
      have hi1lt : (i + 1).toNat < arr.length := by omega
      have hjlt : j < arr.length := by omega
      have hlen1 : (listSwap arr (i + 1).toNat j).length = arr.length :=
        listSwap_length arr _ j
      have v1 : (listSwap arr (i + 1).toNat j).getD (i + 1).toNat 0 = arr.getD j 0 :=
        listSwap_getD_fst arr _ j hi1lt hjlt
      have v2 : (listSwap arr (i + 1).toNat j).getD j 0 = arr.getD (i + 1).toNat 0 := by
        rcases eq_or_ne ((i + 1).toNat) j with he | hne
        · rw [he] at v1 ⊢
          exact v1
        · exact listSwap_getD_snd arr _ j hjlt
      have v3 : ∀ k, k ≠ (i + 1).toNat → k ≠ j →
          (listSwap arr (i + 1).toNat j).getD k 0 = arr.getD k 0 := by
        intro k hk1 hk2
        exact listSwap_getD_other arr _ j k hk1 hk2
      obtain ⟨q1, q2, q3, q4, q5, q6, q7, q8, q9⟩ := ih (j + 1) (i + 1)
        (listSwap arr (i + 1).toNat j) ⟨st.comparisons + 1, st.swaps + 1⟩
        (by omega) (by rw [hlen1]; omega) (by omega) (by omega) (by omega)
        (by
          intro k h1 h2
          by_cases hk : (k : ℤ) = i + 1
          · have hke : k = (i + 1).toNat := by omega
            rw [hke, v1]
            exact hcmp
          · rw [v3 k (by omega) (by omega)]
            exact hP1 k h1 (by omega))
        (by
          intro k h1 h2
          by_cases hk : k = j
          · subst hk
            rw [v2]
            exact hP2 (i + 1).toNat (by omega) (by omega)
          · rw [v3 k (by omega) (by omega)]
            exact hP2 k (by omega) (by omega))
      refine ⟨q1.trans hlen1, q2.trans (listSwap_perm arr _ j hi1lt hjlt), q3, q4,
        by omega, ?_, q7, q8, ?_⟩
      · intro k hk
        rw [q6 k hk, v3 k (by omega) (by omega)]
      · intro P hP k h1 h2
        refine q9 P ?_ k h1 h2
        intro m hm1 hm2
        by_cases hmi : m = (i + 1).toNat
        · subst hmi
          rw [v1]
          exact hP j (by omega) (by omega)
        · by_cases hmj : m = j
          · subst hmj
            rw [v2]
            exact hP (i + 1).toNat (by omega) (by omega)
          · rw [v3 m hmi hmj]
            exact hP m hm1 hm2
    · rename_i hcmp
      dsimp only
      obtain ⟨q1, q2, q3, q4, q5, q6, q7, q8, q9⟩ := ih (j + 1) i arr
        ⟨st.comparisons + 1, st.swaps⟩
        (by omega) hh (by omega) hli (by omega) hP1
        (by
          intro k h1 h2
          by_cases hk : k = j
          · subst hk
            exact lt_of_not_le hcmp
          · exact hP2 k h1 (by omega))
      exact ⟨q1, q2, q3, q4, q5, q6, q7, q8, q9⟩

theorem partition_spec (arr : List Int) (low high : Nat) (yc : Bool) (st : Stats)
    (hlh : low ≤ high) (hh : high < arr.length) :
    (partition arr low high yc st).2.2.1.length = arr.length ∧
    (partition arr low high yc st).2.2.1.Perm arr ∧
    low ≤ (partition arr low high yc st).2.1 ∧
    (partition arr low high yc st).2.1 ≤ high ∧
    (∀ k, k < low ∨ high < k →
      (partition arr low high yc st).2.2.1.getD k 0 = arr.getD k 0) ∧
    (partition arr low high yc st).2.2.1.getD (partition arr low high yc st).2.1 0
      = arr.getD high 0 ∧
    (∀ k, low ≤ k → k < (partition arr low high yc st).2.1 →
      (partition arr low high yc st).2.2.1.getD k 0 ≤ arr.getD high 0) ∧
    (∀ k, (partition arr low high yc st).2.1 < k → k ≤ high →
      arr.getD high 0 < (partition arr low high yc st).2.2.1.getD k 0) ∧
    (∀ P : Int → Prop, (∀ k, low ≤ k → k ≤ high → P (arr.getD k 0)) →
      ∀ k, low ≤ k → k ≤ high →
        P ((partition arr low high yc st).2.2.1.getD k 0)) := by
  obtain ⟨q1, q2, q3, q4, q5, q6, q7, q8, q9⟩ :=
    partLoop_spec (arr.getD high 0) high yc low (high - low) low ((low : ℤ) - 1) arr st
    (by omega) hh (le_refl _) (le_refl _) (by omega)
    (fun k h1 h2 => absurd h2 (by omega))
    (fun k h1 h2 => absurd h1 (by omega))
  simp only [partition]
  set p := partLoop (arr.getD high 0) high yc (high - low) low ((low : ℤ) - 1) arr st
    with hpdef
  have h0 : (0 : ℤ) ≤ p.2.1 + 1 := by omega
  have htn : (((p.2.1 + 1).toNat : ℤ)) = p.2.1 + 1 := Int.toNat_of_nonneg h0
  have hpil : low ≤ (p.2.1 + 1).toNat := by omega
  have hpih : (p.2.1 + 1).toNat ≤ high := by omega
  have hpilt : (p.2.1 + 1).toNat < p.2.2.1.length := by rw [q1]; omega
  have hhlt : high < p.2.2.1.length := by rw [q1]; omega
  have v1 : (listSwap p.2.2.1 (p.2.1 + 1).toNat high).getD (p.2.1 + 1).toNat 0
      = p.2.2.1.getD high 0 := listSwap_getD_fst _ _ _ hpilt hhlt
  have v2 : (listSwap p.2.2.1 (p.2.1 + 1).toNat high).getD high 0
      = p.2.2.1.getD (p.2.1 + 1).toNat 0 := by
    rcases eq_or_ne ((p.2.1 + 1).toNat) high with he | hne
    · rw [he] at v1 ⊢
      exact v1
    · exact listSwap_getD_snd _ _ _ hhlt
  have v3 : ∀ k, k ≠ (p.2.1 + 1).toNat → k ≠ high →
      (listSwap p.2.2.1 (p.2.1 + 1).toNat high).getD k 0 = p.2.2.1.getD k 0 :=
    fun k hk1 hk2 => listSwap_getD_other _ _ _ k hk1 hk2
  have hvh : p.2.2.1.getD high 0 = arr.getD high 0 := q6 high (Or.inr (le_refl _))
  refine ⟨(listSwap_length _ _ _).trans q1,
    (listSwap_perm _ _ _ hpilt hhlt).trans q2, hpil, hpih, ?_, ?_, ?_, ?_, ?_⟩
  · intro k hk
    rw [v3 k (by omega) (by omega), q6 k (by omega)]
  · rw [v1, hvh]
  · intro k h1 h2
    rw [v3 k (by omega) (by omega)]
    exact q7 k h1 (by omega)
  · intro k h1 h2
    by_cases hk : k = high
    · subst hk
      rw [v2]
      exact q8 (p.2.1 + 1).toNat (by omega) (by omega)
    · rw [v3 k (by omega) hk]
      exact q8 k (by omega) (by omega)
  · intro P hP k h1 h2
    have hPp : ∀ m, low ≤ m → m ≤ high → P (p.2.2.1.getD m 0) := by
      intro m hm1 hm2
      by_cases hmh : m = high
      · subst hmh
        rw [hvh]
        exact hP m hm1 hm2
      · exact q9 P (fun a ha1 ha2 => hP a ha1 (by omega)) m hm1 (by omega)
    by_cases hk1 : k = (p.2.1 + 1).toNat
    · subst hk1
      rw [v1]
      exact hPp high (by omega) (le_refl _)
    · by_cases hk2 : k = high
      · subst hk2
        rw [v2]
        exact hPp (p.2.1 + 1).toNat (by omega) (by omega)
      · rw [v3 k hk1 hk2]
        exact hPp k h1 h2


theorem quickRec_spec (yc : Bool) :
    ∀ (fuel : Nat) (arr : List Int) (low high : ℤ) (st : Stats),
      0 ≤ low → high < (arr.length : ℤ) → (high + 1 - low).toNat < fuel →
      (quickRec yc fuel arr low high st).done = true ∧
      (quickRec yc fuel arr low high st).arr.length = arr.length ∧
      (∀ k : Nat, (k : ℤ) < low ∨ high < (k : ℤ) →
        (quickRec yc fuel arr low high st).arr.getD k 0 = arr.getD k 0) ∧
      (quickRec yc fuel arr low high st).arr.Perm arr ∧
      (∀ a b : Nat, low ≤ (a : ℤ) → a < b → (b : ℤ) ≤ high →
        (quickRec yc fuel arr low high st).arr.getD a 0 ≤
          (quickRec yc fuel arr low high st).arr.getD b 0) ∧
      (∀ P : Int → Prop, (∀ k : Nat, low ≤ (k : ℤ) → (k : ℤ) ≤ high → P (arr.getD k 0)) →
        ∀ k : Nat, low ≤ (k : ℤ) → (k : ℤ) ≤ high →
          P ((quickRec yc fuel arr low high st).arr.getD k 0)) := by
  intro fuel
  induction fuel with
  | zero =>
    intro arr low high st hl hh hf
    exact absurd hf (by omega)
  | succ fuel ih =>
    intro arr low high st hl hh hf
    simp only [quickRec]
    split
    · rename_i hlh
      obtain ⟨P1, P2, P3, P4, P5, P6, P7, P8, P9⟩ :=
        partition_spec arr low.toNat high.toNat yc st (by omega) (by omega)
      set pR := partition arr low.toNat high.toNat yc st with hpR
      have hpiL : low ≤ (pR.2.1 : ℤ) := by omega
      have hpiH : (pR.2.1 : ℤ) ≤ high := by omega
      obtain ⟨A1, A2, A3, A4, A5, A6⟩ := ih pR.2.2.1 low ((pR.2.1 : ℤ) - 1) pR.2.2.2
        hl (by rw [P1]; omega) (by omega)
      rw [A1, if_pos rfl]
      set r1 := quickRec yc fuel pR.2.2.1 low ((pR.2.1 : ℤ) - 1) pR.2.2.2 with hr1
      obtain ⟨B1, B2, B3, B4, B5, B6⟩ := ih r1.arr ((pR.2.1 : ℤ) + 1) high r1.stats
        (by omega) (by rw [A2, P1]; exact hh) (by omega)
      rw [B1, if_pos rfl]
      set r2 := quickRec yc fuel r1.arr ((pR.2.1 : ℤ) + 1) high r1.stats with hr2
      dsimp only
      have fpiv : r2.arr.getD pR.2.1 0 = arr.getD high.toNat 0 := by
        rw [B3 pR.2.1 (by omega), A3 pR.2.1 (by omega), P6]
      have fleft : ∀ m : Nat, low ≤ (m : ℤ) → m < pR.2.1 →
          r2.arr.getD m 0 ≤ arr.getD high.toNat 0 := by
        intro m hm1 hm2
        rw [B3 m (by omega)]
        exact A6 (fun x => x ≤ arr.getD high.toNat 0)
          (fun a ha1 ha2 => P7 a (by omega) (by omega)) m hm1 (by omega)
      have fright : ∀ m : Nat, pR.2.1 < m → (m : ℤ) ≤ high →
          arr.getD high.toNat 0 ≤ r2.arr.getD m 0 := by
        intro m hm1 hm2
        refine B6 (fun x => arr.getD high.toNat 0 ≤ x) ?_ m (by omega) hm2
        intro a ha1 ha2
        rw [A3 a (by omega)]
        exact le_of_lt (P8 a (by omega) (by omega))
      refine ⟨rfl, ?_, ?_, ?_, ?_, ?_⟩
      · rw [B2, A2, P1]
      · intro k hk
        rw [B3 k (by omega), A3 k (by omega), P5 k (by omega)]
      · exact (B4.trans A4).trans P2
      · intro a b ha hab hb
        rcases Nat.lt_trichotomy b pR.2.1 with h1 | h1 | h1
        · rw [B3 a (by omega), B3 b (by omega)]
          exact A5 a b ha hab (by omega)
        · rw [h1, fpiv]
          exact fleft a ha (by omega)
        · rcases Nat.lt_trichotomy a pR.2.1 with h2 | h2 | h2
          · exact le_trans (fleft a ha h2) (fright b h1 hb)
          · rw [h2, fpiv]
            exact fright b h1 hb
          · exact B5 a b (by omega) hab hb
      · intro P hP k h1 h2
        have s1 : ∀ m : Nat, low ≤ (m : ℤ) → (m : ℤ) ≤ high → P (pR.2.2.1.getD m 0) := by
          intro m hm1 hm2
          exact P9 P (fun a ha1 ha2 => hP a (by omega) (by omega)) m (by omega) (by omega)
        have s2 : ∀ m : Nat, low ≤ (m : ℤ) → (m : ℤ) ≤ high → P (r1.arr.getD m 0) := by
          intro m hm1 hm2
          rcases Int.lt_or_le ((m : ℤ)) ((pR.2.1 : ℤ)) with hmp | hmp
          · exact A6 P (fun a ha1 ha2 => s1 a ha1 (by omega)) m hm1 (by omega)
          · rw [A3 m (by omega)]
            exact s1 m hm1 hm2
        rcases Int.lt_or_le ((pR.2.1 : ℤ)) ((k : ℤ)) with hkp | hkp
        · exact B6 P (fun a ha1 ha2 => s2 a (by omega) ha2) k (by omega) h2
        · rw [B3 k (by omega)]
          exact s2 k h1 h2
    · rename_i hlh
      dsimp only
      refine ⟨rfl, rfl, fun k _ => rfl, List.Perm.refl _, ?_,
        fun P hP k h1 h2 => hP k h1 h2⟩
      intro a b ha hab hb
      exact absurd hab (by omega)

theorem quickRec_lastStep : ∀ (fuel : Nat) (arr : List Int) (low high : ℤ) (st : Stats),
    (quickRec true fuel arr low high st).done = true →
    (quickRec true fuel arr low high st).steps.getLast?.map Step.array
      = some ((quickRec true fuel arr low high st).arr) := by
  intro fuel
  induction fuel with
  | zero =>
    intro arr low high st hd
    simp [quickRec] at hd
  | succ fuel ih =>
    intro arr low high st
    simp only [quickRec]
    split
    · rename_i hlh
      cases hr1d : (quickRec true fuel
          (partition arr low.toNat high.toNat true st).2.2.1 low
          ((((partition arr low.toNat high.toNat true st).2.1 : Nat) : ℤ) - 1)
          (partition arr low.toNat high.toNat true st).2.2.2).done with
      | false =>
        rw [if_neg (by decide)]
        intro hd
        simp at hd
      | true =>
        rw [if_pos rfl]
        cases hr2d : (quickRec true fuel
            (quickRec true fuel (partition arr low.toNat high.toNat true st).2.2.1 low
              ((((partition arr low.toNat high.toNat true st).2.1 : Nat) : ℤ) - 1)
              (partition arr low.toNat high.toNat true st).2.2.2).arr
            ((((partition arr low.toNat high.toNat true st).2.1 : Nat) : ℤ) + 1) high
            (quickRec true fuel (partition arr low.toNat high.toNat true st).2.2.1 low
              ((((partition arr low.toNat high.toNat true st).2.1 : Nat) : ℤ) - 1)
              (partition arr low.toNat high.toNat true st).2.2.2).stats).done with
        | false =>
          rw [if_neg (by decide)]
          intro hd
          simp at hd
        | true =>
          rw [if_pos rfl]
          intro _
          dsimp only
          rw [emitIf_true, List.getLast?_concat]
          simp [mkStep]
    · intro _
      dsimp only
      rw [emitIf_true]
      simp [mkStep]

theorem quickSort_c1 (N : Nat) (hN : 1 ≤ N) (arr : List Int)
    (hp : arr.Perm (ascSeq N)) : SortsTo (quickSort arr true) N := by
  have hlen : arr.length = N := by rw [hp.length_eq, ascSeq_length]
  obtain ⟨R1, R2, R3, R4, R5, R6⟩ := quickRec_spec true (arr.length + 1) arr 0
    ((arr.length : ℤ) - 1) ⟨0, 0⟩ (le_refl 0) (by omega) (by omega)
  have hsorted : PairwiseLe (quickRec true (arr.length + 1) arr 0
      ((arr.length : ℤ) - 1) ⟨0, 0⟩).arr := by
    intro a b hab hb
    rw [R2, hlen] at hb
    exact R5 a b (by omega) hab (by omega)
  have harr : (quickRec true (arr.length + 1) arr 0
      ((arr.length : ℤ) - 1) ⟨0, 0⟩).arr = ascSeq N :=
    perm_pairwiseLe_eq (R4.trans hp) hsorted
  constructor
  · simp only [quickSort]
    exact R1
  · simp only [quickSort]
    rw [quickRec_lastStep (arr.length + 1) arr 0 ((arr.length : ℤ) - 1) ⟨0, 0⟩ R1, harr]

/-! ### heapSort sorts (C1) -/

theorem subtree_self (i : Nat) : InSubtree i i :=
  ⟨0, by norm_num, by norm_num⟩

theorem subtree_ge {i k : Nat} (h : InSubtree i k) : i ≤ k := by
  obtain ⟨d, h1, h2⟩ := h
  have hp : 1 ≤ 2 ^ d := Nat.one_le_two_pow
  have hm : i + 1 ≤ (i + 1) * 2 ^ d := Nat.le_mul_of_pos_right _ (by omega)
  omega

theorem subtree_cases {i k : Nat} (h : InSubtree i k) :
    k = i ∨ InSubtree (2 * i + 1) k ∨ InSubtree (2 * i + 2) k := by
  obtain ⟨d, h1, h2⟩ := h
  cases d with
  | zero =>
    left
    simp at h1 h2
    omega
  | succ d =>
    right
    have hp : 1 ≤ 2 ^ d := Nat.one_le_two_pow
    have e1 : (i + 1) * 2 ^ (d + 1) = (2 * i + 2) * 2 ^ d := by ring
    have e2 : (i + 2) * 2 ^ (d + 1) = (2 * i + 4) * 2 ^ d := by ring
    have e3 : (2 * i + 3) * 2 ^ d = (2 * i + 2) * 2 ^ d + 2 ^ d := by ring
    have e4 : (2 * i + 4) * 2 ^ d = (2 * i + 3) * 2 ^ d + 2 ^ d := by ring
    have f1 : (2 * i + 1 + 1) * 2 ^ d = (2 * i + 2) * 2 ^ d := by ring
    have f2 : (2 * i + 1 + 2) * 2 ^ d = (2 * i + 3) * 2 ^ d := by ring
    have f3 : (2 * i + 2 + 1) * 2 ^ d = (2 * i + 3) * 2 ^ d := by ring
    have f4 : (2 * i + 2 + 2) * 2 ^ d = (2 * i + 4) * 2 ^ d := by ring
    rcases Nat.lt_or_ge k ((2 * i + 3) * 2 ^ d - 1) with hk | hk
    · exact Or.inl ⟨d, by omega, by omega⟩
    · exact Or.inr ⟨d, by omega, by omega⟩

theorem subtree_left {i k : Nat} (h : InSubtree (2 * i + 1) k) : InSubtree i k := by
  obtain ⟨d, h1, h2⟩ := h
  have hp : 1 ≤ 2 ^ d := Nat.one_le_two_pow
  have f1 : (2 * i + 1 + 1) * 2 ^ d = (2 * i + 2) * 2 ^ d := by ring
  have f2 : (2 * i + 1 + 2) * 2 ^ d = (2 * i + 3) * 2 ^ d := by ring
  have e1 : (i + 1) * 2 ^ (d + 1) = (2 * i + 2) * 2 ^ d := by ring
  have e2 : (i + 2) * 2 ^ (d + 1) = (2 * i + 4) * 2 ^ d := by ring
  have e4 : (2 * i + 4) * 2 ^ d = (2 * i + 3) * 2 ^ d + 2 ^ d := by ring
  exact ⟨d + 1, by omega, by omega⟩

theorem subtree_right {i k : Nat} (h : InSubtree (2 * i + 2) k) : InSubtree i k := by
  obtain ⟨d, h1, h2⟩ := h
  have hp : 1 ≤ 2 ^ d := Nat.one_le_two_pow
  have f3 : (2 * i + 2 + 1) * 2 ^ d = (2 * i + 3) * 2 ^ d := by ring
  have f4 : (2 * i + 2 + 2) * 2 ^ d = (2 * i + 4) * 2 ^ d := by ring
  have e1 : (i + 1) * 2 ^ (d + 1) = (2 * i + 2) * 2 ^ d := by ring
  have e2 : (i + 2) * 2 ^ (d + 1) = (2 * i + 4) * 2 ^ d := by ring
  have e3 : (2 * i + 3) * 2 ^ d = (2 * i + 2) * 2 ^ d + 2 ^ d := by ring
  exact ⟨d + 1, by omega, by omega⟩

theorem subtree_parent {i k : Nat} (h : InSubtree i k) (hne : k ≠ i) :
    InSubtree i ((k - 1) / 2) ∧ (k = 2 * ((k - 1) / 2) + 1 ∨ k = 2 * ((k - 1) / 2) + 2)
      ∧ (k - 1) / 2 < k := by
  have hik : 2 * i + 1 ≤ k := by
    rcases subtree_cases h with h0 | h0 | h0
    · exact absurd h0 hne
    · have := subtree_ge h0
      omega
    · have := subtree_ge h0
      omega
  obtain ⟨d, h1, h2⟩ := h
  cases d with
  | zero =>
    exfalso
    simp at h1 h2
    omega
  | succ d =>
    have hp : 1 ≤ 2 ^ d := Nat.one_le_two_pow
    have e1 : (i + 1) * 2 ^ (d + 1) = 2 * ((i + 1) * 2 ^ d) := by ring
    have e2 : (i + 2) * 2 ^ (d + 1) = 2 * ((i + 2) * 2 ^ d) := by ring
    have hm : i + 1 ≤ (i + 1) * 2 ^ d := Nat.le_mul_of_pos_right _ (by omega)
    refine ⟨⟨d, by omega, by omega⟩, by omega, by omega⟩

theorem subtree_zero : ∀ k, InSubtree 0 k := by
  intro k
  have hl := Nat.pow_log_le_self 2 (show k + 1 ≠ 0 by omega)
  have hu := Nat.lt_pow_succ_log_self (show 1 < 2 by omega) (k + 1)
  have e := pow_succ 2 (Nat.log 2 (k + 1))
  exact ⟨Nat.log 2 (k + 1), by omega, by omega⟩

theorem subtree_root_ge (arr : List Int) (n s : Nat)
    (hall : ∀ j, InSubtree s j → j < n → localHeap arr n j) :
    ∀ k, InSubtree s k → k < n → arr.getD k 0 ≤ arr.getD s 0 := by
  intro k
  induction k using Nat.strong_induction_on with
  | _ k ih =>
    intro hk hkn
    by_cases hks : k = s
    · subst hks
      exact le_refl _
    · obtain ⟨hp, hcase, hlt⟩ := subtree_parent hk hks
      have hloc := hall ((k - 1) / 2) hp (by omega)
      rcases hcase with hc | hc
      · have hh := hloc.1 (by omega)
        rw [← hc] at hh
        exact le_trans hh (ih _ hlt hp (by omega))
      · have hh := hloc.2 (by omega)
        rw [← hc] at hh
        exact le_trans hh (ih _ hlt hp (by omega))

theorem subtree_trans {s j k : Nat} (h1 : InSubtree s j) (h2 : InSubtree j k) :
    InSubtree s k := by
  obtain ⟨d, hd1, hd2⟩ := h1
  obtain ⟨e, he1, he2⟩ := h2
  refine ⟨d + e, ?_, ?_⟩
  · have e1 : (s + 1) * 2 ^ (d + e) = ((s + 1) * 2 ^ d) * 2 ^ e := by
      rw [pow_add]
      ring
    have hm : ((s + 1) * 2 ^ d) * 2 ^ e ≤ (j + 1) * 2 ^ e :=
      Nat.mul_le_mul_right _ (by omega)
    have hp : 1 ≤ 2 ^ e := Nat.one_le_two_pow
    omega
  · have e2 : (s + 2) * 2 ^ (d + e) = ((s + 2) * 2 ^ d) * 2 ^ e := by
      rw [pow_add]
      ring
    have hq : s + 2 ≤ (s + 2) * 2 ^ d :=
      Nat.le_mul_of_pos_right _ (by positivity)
    have hm : (j + 2) * 2 ^ e ≤ ((s + 2) * 2 ^ d) * 2 ^ e :=
      Nat.mul_le_mul_right _ (by omega)
    have hp : 1 ≤ 2 ^ e := Nat.one_le_two_pow
    omega

theorem subtree_child_left (j : Nat) : InSubtree j (2 * j + 1) :=
  subtree_left (subtree_self (2 * j + 1))

theorem subtree_child_right (j : Nat) : InSubtree j (2 * j + 2) :=
  subtree_right (subtree_self (2 * j + 2))

theorem subtree_disjoint {i j : Nat} (h1 : InSubtree (2 * i + 1) j)
    (h2 : InSubtree (2 * i + 2) j) : False := by
  obtain ⟨d, hd1, hd2⟩ := h1
  obtain ⟨e, he1, he2⟩ := h2
  have f2 : (2 * i + 1 + 1) * 2 ^ d = (2 * i + 2) * 2 ^ d := by ring
  have f3 : (2 * i + 1 + 2) * 2 ^ d = (2 * i + 3) * 2 ^ d := by ring
  have f4 : (2 * i + 2 + 1) * 2 ^ e = (2 * i + 3) * 2 ^ e := by ring
  have f5 : (2 * i + 2 + 2) * 2 ^ e = (2 * i + 4) * 2 ^ e := by ring
  rcases le_or_lt d e with hde | hde
  · have hmono : 2 ^ d ≤ 2 ^ e := Nat.pow_le_pow_right (by omega) hde
    have hm : (2 * i + 3) * 2 ^ d ≤ (2 * i + 3) * 2 ^ e :=
      Nat.mul_le_mul_left _ hmono
    have hp : 1 ≤ 2 ^ d := Nat.one_le_two_pow
    have hc3 : 2 * i + 3 ≤ (2 * i + 3) * 2 ^ d :=
      Nat.le_mul_of_pos_right _ (by positivity)
    omega
  · have hmono : 2 ^ (e + 1) ≤ 2 ^ d := Nat.pow_le_pow_right (by omega) (by omega)
    have hpe : 2 ^ (e + 1) = 2 * 2 ^ e := by ring
    have hm : (2 * i + 2) * 2 ^ (e + 1) ≤ (2 * i + 2) * 2 ^ d :=
      Nat.mul_le_mul_left _ hmono
    have hq : (2 * i + 2) * 2 ^ (e + 1) = (4 * i + 4) * 2 ^ e := by
      rw [hpe]
      ring
    have hr : (4 * i + 4) * 2 ^ e = (2 * i + 4) * 2 ^ e + (2 * i) * 2 ^ e := by ring
    have hp : 1 ≤ 2 ^ e := Nat.one_le_two_pow
    have hc4 : 4 * i + 4 ≤ (4 * i + 4) * 2 ^ e :=
      Nat.le_mul_of_pos_right _ (by positivity)
    omega

theorem subtree_lt_of_ne {i j : Nat} (h : InSubtree i j) (hne : j ≠ i) : i < j := by
  rcases subtree_cases h with h0 | h0 | h0
  · exact absurd h0 hne
  · have := subtree_ge h0
    omega
  · have := subtree_ge h0
    omega

theorem heapify_proc (yc : Bool) (n : Nat) :
    ∀ (fuel i : Nat) (arr : List Int) (st : Stats),
      i < n → n < fuel + i → n ≤ arr.length →
      (∀ j, i < j → InSubtree i j → j < n → localHeap arr n j) →
      (heapify yc n fuel i arr st).2.2.2 = true ∧
      (heapify yc n fuel i arr st).2.1.length = arr.length ∧
      (heapify yc n fuel i arr st).2.1.Perm arr ∧
      (∀ k, ¬ InSubtree i k → (heapify yc n fuel i arr st).2.1.getD k 0 = arr.getD k 0) ∧
      (∀ k, n ≤ k → (heapify yc n fuel i arr st).2.1.getD k 0 = arr.getD k 0) ∧
      (∀ j, InSubtree i j → j < n → localHeap (heapify yc n fuel i arr st).2.1 n j) ∧
      (∀ B : Int, (∀ k, InSubtree i k → k < n → arr.getD k 0 ≤ B) →
        ∀ k, InSubtree i k → k < n → (heapify yc n fuel i arr st).2.1.getD k 0 ≤ B) := by
  intro fuel
  induction fuel with
  | zero =>
    intro i arr st h1 h2 h3 h4
    exact absurd h2 (by omega)
  | succ fuel ih =>
    intro i arr st hin hfuel hlen hpre
    have key : ∀ g : Nat, g = 2 * i + 1 ∨ g = 2 * i + 2 → g < n →
        arr.getD i 0 < arr.getD g 0 →
        (∀ c, (c = 2 * i + 1 ∨ c = 2 * i + 2) → c < n → arr.getD c 0 ≤ arr.getD g 0) →
        (heapify yc n fuel g (listSwap arr i g)
            ⟨st.comparisons + 1, st.swaps + 1⟩).2.2.2 = true ∧
        (heapify yc n fuel g (listSwap arr i g)
            ⟨st.comparisons + 1, st.swaps + 1⟩).2.1.length = arr.length ∧
        (heapify yc n fuel g (listSwap arr i g)
            ⟨st.comparisons + 1, st.swaps + 1⟩).2.1.Perm arr ∧
        (∀ k, ¬ InSubtree i k → (heapify yc n fuel g (listSwap arr i g)
            ⟨st.comparisons + 1, st.swaps + 1⟩).2.1.getD k 0 = arr.getD k 0) ∧
        (∀ k, n ≤ k → (heapify yc n fuel g (listSwap arr i g)
            ⟨st.comparisons + 1, st.swaps + 1⟩).2.1.getD k 0 = arr.getD k 0) ∧
        (∀ j, InSubtree i j → j < n → localHeap (heapify yc n fuel g (listSwap arr i g)
            ⟨st.comparisons + 1, st.swaps + 1⟩).2.1 n j) ∧
        (∀ B : Int, (∀ k, InSubtree i k → k < n → arr.getD k 0 ≤ B) →
          ∀ k, InSubtree i k → k < n → (heapify yc n fuel g (listSwap arr i g)
            ⟨st.comparisons + 1, st.swaps + 1⟩).2.1.getD k 0 ≤ B) := by
      intro g hg hgn hgt hmax
      have hig : i < g := by rcases hg with h | h <;> omega
      have hiLen : i < arr.length := by omega
      have hgLen : g < arr.length := by omega
      have hswl : (listSwap arr i g).length = arr.length := listSwap_length arr i g
      have hgsub : InSubtree i g := by
        rcases hg with h | h
        · rw [h]
          exact subtree_child_left i
        · rw [h]
          exact subtree_child_right i
      have hsubsub : ∀ k, InSubtree g k → InSubtree i k :=
        fun k hk => subtree_trans hgsub hk
      have hsibling : ∀ c, (c = 2 * i + 1 ∨ c = 2 * i + 2) → c ≠ g →
          ¬ InSubtree g c := by
        intro c hc hcg hmem
        rcases hg with hg' | hg'
        · have hc' : c = 2 * i + 2 := by
            rcases hc with h | h
            · exact absurd (h.trans hg'.symm) hcg
            · exact h
          rw [hg'] at hmem
          rw [hc'] at hmem
          exact subtree_disjoint hmem (subtree_self _)
        · have hc' : c = 2 * i + 1 := by
            rcases hc with h | h
            · exact h
            · exact absurd (h.trans hg'.symm) hcg
          rw [hg'] at hmem
          rw [hc'] at hmem
          exact subtree_disjoint (subtree_self _) hmem
      have v1 : (listSwap arr i g).getD i 0 = arr.getD g 0 :=
        listSwap_getD_fst arr i g hiLen hgLen
      have v2 : (listSwap arr i g).getD g 0 = arr.getD i 0 :=
        listSwap_getD_snd arr i g hgLen
      have v3 : ∀ k, k ≠ i → k ≠ g → (listSwap arr i g).getD k 0 = arr.getD k 0 :=
        fun k h1 h2 => listSwap_getD_other arr i g k h1 h2
      have hinotg : ¬ InSubtree g i := fun h => absurd (subtree_ge h) (by omega)
      obtain ⟨R1, R2, R3, R4, R5, R6, R7⟩ := ih g (listSwap arr i g)
        ⟨st.comparisons + 1, st.swaps + 1⟩ hgn (by omega) (by rw [hswl]; omega)
        (by
          intro j hj hjsub hjn
          have hji : i < j := by omega
          have e1 : (listSwap arr i g).getD j 0 = arr.getD j 0 :=
            v3 j (by omega) (by omega)
          have e2 : (listSwap arr i g).getD (2 * j + 1) 0 = arr.getD (2 * j + 1) 0 :=
            v3 _ (by omega) (by omega)
          have e3 : (listSwap arr i g).getD (2 * j + 2) 0 = arr.getD (2 * j + 2) 0 :=
            v3 _ (by omega) (by omega)
          have hp := hpre j hji (hsubsub j hjsub) hjn
          simp only [localHeap] at hp ⊢
          rw [e1, e2, e3]
          exact hp)
      have hallg : ∀ j, InSubtree g j → j < n → localHeap arr n j := by
        intro j hj hjn
        exact hpre j (lt_of_lt_of_le hig (subtree_ge hj)) (hsubsub j hj) hjn
      have hbound : ∀ k, InSubtree g k → k < n →
          (listSwap arr i g).getD k 0 ≤ arr.getD g 0 := by
        intro k hk hkn
        by_cases hkg : k = g
        · rw [hkg, v2]
          exact le_of_lt hgt
        · rw [v3 k (by have := subtree_ge hk; omega) hkg]
          exact subtree_root_ge arr n g hallg k hk hkn
      have hroot : (heapify yc n fuel g (listSwap arr i g)
          ⟨st.comparisons + 1, st.swaps + 1⟩).2.1.getD g 0 ≤ arr.getD g 0 :=
        R7 (arr.getD g 0) hbound g (subtree_self g) hgn
      have hreci : (heapify yc n fuel g (listSwap arr i g)
          ⟨st.comparisons + 1, st.swaps + 1⟩).2.1.getD i 0 = arr.getD g 0 := by
        rw [R4 i hinotg, v1]
      refine ⟨R1, R2.trans hswl, R3.trans (listSwap_perm arr i g hiLen hgLen),
        ?_, ?_, ?_, ?_⟩
      · intro k hk
        have hk1 : ¬ InSubtree g k := fun h => hk (hsubsub k h)
        rw [R4 k hk1, v3 k (fun h => hk (by rw [h]; exact subtree_self i))
          (fun h => hk (by rw [h]; exact hgsub))]
      · intro k hk
        rw [R5 k hk, v3 k (by omega) (by omega)]
      · intro j hjsub hjn
        have hchild : ∀ c, (c = 2 * i + 1 ∨ c = 2 * i + 2) → InSubtree c j →
            localHeap (heapify yc n fuel g (listSwap arr i g)
              ⟨st.comparisons + 1, st.swaps + 1⟩).2.1 n j := by
          intro c hcd hjc
          by_cases hcg : c = g
          · subst hcg
            exact R6 j hjc hjn
          · have hj_not_g : ¬ InSubtree g j := by
              intro hmem
              rcases hg with hg' | hg'
              · have hc' : c = 2 * i + 2 := by
                  rcases hcd with h | h
                  · exact absurd (h.trans hg'.symm) hcg
                  · exact h
                rw [hg'] at hmem
                rw [hc'] at hjc
                exact subtree_disjoint hmem hjc
              · have hc' : c = 2 * i + 1 := by
                  rcases hcd with h | h
                  · exact h
                  · exact absurd (h.trans hg'.symm) hcg
                rw [hg'] at hmem
                rw [hc'] at hjc
                exact subtree_disjoint hjc hmem
            have hjgt : 2 * i + 1 ≤ j := by
              have := subtree_ge hjc
              rcases hcd with h | h <;> omega
            have hjne_g : j ≠ g := fun h => hj_not_g (by rw [h]; exact subtree_self g)
            have hch : ∀ c2, (c2 = 2 * j + 1 ∨ c2 = 2 * j + 2) → ¬ InSubtree g c2 := by
              intro c2 hc2 hmem
              by_cases hc2g : c2 = g
              · rcases hg with h | h <;> rcases hc2 with h2 | h2 <;> omega
              · obtain ⟨hpar, hcase, hplt⟩ := subtree_parent hmem hc2g
                have hpj : (c2 - 1) / 2 = j := by rcases hc2 with h2 | h2 <;> omega
                rw [hpj] at hpar
                exact hj_not_g hpar
            have hne1 : 2 * j + 1 ≠ g :=
              fun h => hch _ (Or.inl rfl) (by rw [h]; exact subtree_self g)
            have hne2 : 2 * j + 2 ≠ g :=
              fun h => hch _ (Or.inr rfl) (by rw [h]; exact subtree_self g)
            have u0 : (heapify yc n fuel g (listSwap arr i g)
                ⟨st.comparisons + 1, st.swaps + 1⟩).2.1.getD j 0 = arr.getD j 0 := by
              rw [R4 j hj_not_g, v3 j (by omega) hjne_g]
            have u1 : (heapify yc n fuel g (listSwap arr i g)
                ⟨st.comparisons + 1, st.swaps + 1⟩).2.1.getD (2 * j + 1) 0
                  = arr.getD (2 * j + 1) 0 := by
              rw [R4 _ (hch _ (Or.inl rfl)), v3 _ (by omega) hne1]
            have u2 : (heapify yc n fuel g (listSwap arr i g)
                ⟨st.comparisons + 1, st.swaps + 1⟩).2.1.getD (2 * j + 2) 0
                  = arr.getD (2 * j + 2) 0 := by
              rw [R4 _ (hch _ (Or.inr rfl)), v3 _ (by omega) hne2]
            have hploc := hpre j (by omega) hjsub hjn
            simp only [localHeap] at hploc ⊢
            rw [u0, u1, u2]
            exact hploc
        rcases subtree_cases hjsub with hji | hjc | hjc
        · subst hji
          simp only [localHeap]
          constructor
          · intro hl
            rw [hreci]
            by_cases hcg : 2 * j + 1 = g
            · rw [hcg]
              exact hroot
            · rw [R4 _ (hsibling _ (Or.inl rfl) hcg), v3 _ (by omega) hcg]
              exact hmax _ (Or.inl rfl) hl
          · intro hr
            rw [hreci]
            by_cases hcg : 2 * j + 2 = g
            · rw [hcg]
              exact hroot
            · rw [R4 _ (hsibling _ (Or.inr rfl) hcg), v3 _ (by omega) hcg]
              exact hmax _ (Or.inr rfl) hr
        · exact hchild (2 * i + 1) (Or.inl rfl) hjc
        · exact hchild (2 * i + 2) (Or.inr rfl) hjc
      · intro B hB k hk hkn
        have hB1 : ∀ m, InSubtree g m → m < n → (listSwap arr i g).getD m 0 ≤ B := by
          intro m hm hmn
          by_cases hmg : m = g
          · rw [hmg, v2]
            exact hB i (subtree_self i) (by omega)
          · rw [v3 m (by have := subtree_ge hm; omega) hmg]
            exact hB m (hsubsub m hm) hmn
        by_cases hkg : InSubtree g k
        · exact R7 B hB1 k hkg hkn
        · rw [R4 k hkg]
          by_cases hki : k = i
          · rw [hki, v1]
            exact hB g hgsub hgn
          · rw [v3 k hki (fun h => hkg (by rw [h]; exact subtree_self g))]
            exact hB k hk hkn
    simp only [heapify]
    by_cases hc1 : 2 * i + 1 < n ∧ arr.getD i 0 < arr.getD (2 * i + 1) 0
    · rw [if_pos hc1]
      by_cases hc2 : 2 * i + 2 < n ∧ arr.getD (2 * i + 1) 0 < arr.getD (2 * i + 2) 0
      · rw [if_pos hc2, if_pos (show (2 * i + 2) ≠ i by omega)]
        dsimp only
        refine key (2 * i + 2) (Or.inr rfl) hc2.1 (lt_trans hc1.2 hc2.2) ?_
        intro c hc hcn
        rcases hc with h | h
        · rw [h]
          exact le_of_lt hc2.2
        · rw [h]
      · rw [if_neg hc2, if_pos (show (2 * i + 1) ≠ i by omega)]
        dsimp only
        refine key (2 * i + 1) (Or.inl rfl) hc1.1 hc1.2 ?_
        intro c hc hcn
        rcases hc with h | h
        · rw [h]
        · rw [h]
          rcases not_and_or.mp hc2 with h2 | h2
          · rw [h] at hcn
            exact absurd hcn h2
          · exact not_lt.mp h2
    · rw [if_neg hc1]
      by_cases hc2 : 2 * i + 2 < n ∧ arr.getD i 0 < arr.getD (2 * i + 2) 0
      · rw [if_pos hc2, if_pos (show (2 * i + 2) ≠ i by omega)]
        dsimp only
        refine key (2 * i + 2) (Or.inr rfl) hc2.1 hc2.2 ?_
        intro c hc hcn
        rcases hc with h | h
        · rw [h]
          rcases not_and_or.mp hc1 with h1 | h1
          · rw [h] at hcn
            exact absurd hcn h1
          · exact le_of_lt (lt_of_le_of_lt (not_lt.mp h1) hc2.2)
        · rw [h]
      · rw [if_neg hc2, if_neg (show ¬ (i ≠ i) by simp)]
        dsimp only
        refine ⟨rfl, rfl, List.Perm.refl _, fun k _ => rfl, fun k _ => rfl, ?_,
          fun B hB k hk1 hk2 => hB k hk1 hk2⟩
        intro j hj hjn
        by_cases hji : j = i
        · subst hji
          simp only [localHeap]
          constructor
          · intro hl
            rcases not_and_or.mp hc1 with h | h
            · exact absurd hl h
            · exact not_lt.mp h
          · intro hr
            rcases not_and_or.mp hc2 with h | h
            · exact absurd hr h
            · exact not_lt.mp h
        · exact hpre j (subtree_lt_of_ne hj hji) hj hjn

theorem heapBuild_spec (yc : Bool) (n : Nat) :
    ∀ (c i : Nat) (arr : List Int) (st : Stats),
      c ≤ i + 1 → i < n → n ≤ arr.length →
      (∀ j, i < j → j < n → localHeap arr n j) →
      (heapBuild yc n c i arr st).2.2.2 = true ∧
      (heapBuild yc n c i arr st).2.1.length = arr.length ∧
      (heapBuild yc n c i arr st).2.1.Perm arr ∧
      (∀ j, i + 1 - c ≤ j → j < n → localHeap (heapBuild yc n c i arr st).2.1 n j) := by
  intro c
  induction c with
  | zero =>
    intro i arr st hc hin hlen hpre
    dsimp only [heapBuild]
    exact ⟨rfl, rfl, List.Perm.refl _, fun j hj hjn => hpre j (by omega) hjn⟩
  | succ c ih =>
    intro i arr st hc hin hlen hpre
    simp only [heapBuild]
    obtain ⟨H1, H2, H3, H4, H5, H6, H7⟩ := heapify_proc yc n (n + 1) i arr st hin
      (by omega) hlen (fun j hj hjs hjn => hpre j hj hjn)
    rw [H1, if_pos rfl]
    have hall : ∀ j, i ≤ j → j < n →
        localHeap (heapify yc n (n + 1) i arr st).2.1 n j := by
      intro j hj hjn
      by_cases hjs : InSubtree i j
      · exact H6 j hjs hjn
      · have hji : i < j := by
          rcases Nat.eq_or_lt_of_le hj with h | h
          · exact absurd (h ▸ subtree_self i) hjs
          · exact h
        have hcn : ∀ c2, c2 = 2 * j + 1 ∨ c2 = 2 * j + 2 → ¬ InSubtree i c2 := by
          intro c2 hc2 hmem
          have hc2i : c2 ≠ i := by omega
          obtain ⟨hpar, _, _⟩ := subtree_parent hmem hc2i
          have hpj : (c2 - 1) / 2 = j := by rcases hc2 with h | h <;> omega
          rw [hpj] at hpar
          exact hjs hpar
        have u0 := H4 j hjs
        have u1 := H4 _ (hcn _ (Or.inl rfl))
        have u2 := H4 _ (hcn _ (Or.inr rfl))
        have hp := hpre j hji hjn
        simp only [localHeap] at hp ⊢
        rw [u0, u1, u2]
        exact hp
    rcases Nat.eq_zero_or_pos c with hc0 | hcpos
    · subst hc0
      dsimp only [heapBuild]
      exact ⟨rfl, H2, H3, fun j hj hjn => hall j (by omega) hjn⟩
    · obtain ⟨B1, B2, B3, B4⟩ := ih (i - 1) (heapify yc n (n + 1) i arr st).2.1
        (heapify yc n (n + 1) i arr st).2.2.1 (by omega) (by omega) (by rw [H2]; omega)
        (fun j hj hjn => hall j (by omega) hjn)
      refine ⟨B1, by rw [B2, H2], B3.trans H3, ?_⟩
      intro j hj hjn
      exact B4 j (by omega) hjn

theorem heapExtract_spec (yc : Bool) (n : Nat) :
    ∀ (c i : Nat) (arr : List Int) (st : Stats),
      c = i → i < n → n ≤ arr.length →
      (∀ j, localHeap arr (i + 1) j) →
      (∀ a b : Nat, i < a → a < b → b < n → arr.getD a 0 ≤ arr.getD b 0) →
      (∀ a b : Nat, a ≤ i → i < b → b < n → arr.getD a 0 ≤ arr.getD b 0) →
      (heapExtract yc c i arr st).2.2.2 = true ∧
      (heapExtract yc c i arr st).2.1.length = arr.length ∧
      (heapExtract yc c i arr st).2.1.Perm arr ∧
      (∀ a b : Nat, i - c < a → a < b → b < n →
        (heapExtract yc c i arr st).2.1.getD a 0 ≤
          (heapExtract yc c i arr st).2.1.getD b 0) ∧
      (∀ a b : Nat, a ≤ i - c → i - c < b → b < n →
        (heapExtract yc c i arr st).2.1.getD a 0 ≤
          (heapExtract yc c i arr st).2.1.getD b 0) := by
  intro c
  induction c with
  | zero =>
    intro i arr st hc hin hlen hheap hsuf hdom
    dsimp only [heapExtract]
    exact ⟨rfl, rfl, List.Perm.refl _,
      fun a b h1 h2 h3 => hsuf a b (by omega) h2 h3,
      fun a b h1 h2 h3 => hdom a b (by omega) (by omega) h3⟩
  | succ c ih =>
    intro i arr st hc hin hlen hheap hsuf hdom
    have hi1 : 1 ≤ i := by omega
    have h0len : 0 < arr.length := by omega
    have hiLen : i < arr.length := by omega
    simp only [heapExtract]
    have hswl : (listSwap arr 0 i).length = arr.length := listSwap_length arr 0 i
    have v1 : (listSwap arr 0 i).getD 0 0 = arr.getD i 0 :=
      listSwap_getD_fst arr 0 i h0len hiLen
    have v2 : (listSwap arr 0 i).getD i 0 = arr.getD 0 0 :=
      listSwap_getD_snd arr 0 i hiLen
    have v3 : ∀ k, k ≠ 0 → k ≠ i → (listSwap arr 0 i).getD k 0 = arr.getD k 0 :=
      fun k h1 h2 => listSwap_getD_other arr 0 i k h1 h2
    have hall0 : ∀ j, InSubtree 0 j → j < i + 1 → localHeap arr (i + 1) j :=
      fun j _ _ => hheap j
    have hroot : ∀ k, k ≤ i → arr.getD k 0 ≤ arr.getD 0 0 :=
      fun k hk => subtree_root_ge arr (i + 1) 0 hall0 k (subtree_zero k) (by omega)
    obtain ⟨X1, X2, X3, X4, X5, X6, X7⟩ := heapify_proc yc i (i + 1) 0
      (listSwap arr 0 i) ⟨st.comparisons, st.swaps + 1⟩ (by omega) (by omega)
      (by rw [hswl]; omega)
      (by
        intro j hj hjs hjn
        have e1 : (listSwap arr 0 i).getD j 0 = arr.getD j 0 := v3 j (by omega) (by omega)
        have hp := hheap j
        simp only [localHeap] at hp ⊢
        rw [e1]
        constructor
        · intro h
          rw [v3 _ (by omega) (by omega)]
          exact hp.1 (by omega)
        · intro h
          rw [v3 _ (by omega) (by omega)]
          exact hp.2 (by omega))
    rw [X1, if_pos rfl]
    have hX5' : ∀ k, i ≤ k →
        (heapify yc i (i + 1) 0 (listSwap arr 0 i)
          ⟨st.comparisons, st.swaps + 1⟩).2.1.getD k 0 = (listSwap arr 0 i).getD k 0 :=
      fun k hk => X5 k hk
    obtain ⟨B1, B2, B3, B4, B5⟩ := ih (i - 1)
      (heapify yc i (i + 1) 0 (listSwap arr 0 i) ⟨st.comparisons, st.swaps + 1⟩).2.1
      (heapify yc i (i + 1) 0 (listSwap arr 0 i) ⟨st.comparisons, st.swaps + 1⟩).2.2.1
      (by omega) (by omega) (by rw [X2, hswl]; omega)
      (by
        intro j
        by_cases hjn : j < i
        · have hloc := X6 j (subtree_zero j) hjn
          have he : i - 1 + 1 = i := by omega
          rw [he]
          exact hloc
        · exact ⟨fun h => absurd h (by omega), fun h => absurd h (by omega)⟩)
      (by
        intro a b h1 h2 h3
        rw [hX5' a (by omega), hX5' b (by omega)]
        rcases Nat.eq_or_lt_of_le (show i ≤ a by omega) with ha | ha
        · rw [← ha, v2]
          rw [v3 b (by omega) (by omega)]
          exact hdom 0 b (by omega) (by omega) h3
        · rw [v3 a (by omega) (by omega), v3 b (by omega) (by omega)]
          exact hsuf a b ha h2 h3)
      (by
        intro a b h1 h2 h3
        have hb : (heapify yc i (i + 1) 0 (listSwap arr 0 i)
            ⟨st.comparisons, st.swaps + 1⟩).2.1.getD b 0 = (listSwap arr 0 i).getD b 0 :=
          hX5' b (by omega)
        have hbound : arr.getD 0 0 ≤ (listSwap arr 0 i).getD b 0 := by
          rcases Nat.eq_or_lt_of_le (show i ≤ b by omega) with hbi | hbi
          · rw [← hbi, v2]
          · rw [v3 b (by omega) (by omega)]
            exact hdom 0 b (by omega) (by omega) h3
        rw [hb]
        refine X7 ((listSwap arr 0 i).getD b 0) ?_ a (subtree_zero a) (by omega)
        intro k hk hki
        by_cases hk0 : k = 0
        · rw [hk0, v1]
          exact le_trans (hroot i (le_refl i)) hbound
        · rw [v3 k hk0 (by omega)]
          exact le_trans (hroot k (by omega)) hbound)
    refine ⟨B1, by rw [B2, X2, hswl], B3.trans (X3.trans (listSwap_perm arr 0 i h0len hiLen)),
      ?_, ?_⟩
    · intro a b h1 h2 h3
      exact B4 a b (by omega) h2 h3
    · intro a b h1 h2 h3
      exact B5 a b (by omega) (by omega) h3

theorem heapSort_c1 (N : Nat) (hN : 1 ≤ N) (arr : List Int)
    (hp : arr.Perm (ascSeq N)) : SortsTo (heapSort arr true) N := by
  have hlen : arr.length = N := by rw [hp.length_eq, ascSeq_length]
  obtain ⟨G1, G2, G3, G4⟩ := heapBuild_spec true arr.length (arr.length / 2)
    (arr.length / 2 - 1) arr ⟨0, 0⟩ (by omega) (by omega) (le_refl _)
    (fun j hj hjn => ⟨fun h => absurd h (by omega), fun h => absurd h (by omega)⟩)
  have hheap : ∀ j, localHeap (heapBuild true arr.length (arr.length / 2)
      (arr.length / 2 - 1) arr ⟨0, 0⟩).2.1 (arr.length - 1 + 1) j := by
    intro j
    have he : arr.length - 1 + 1 = arr.length := by omega
    rw [he]
    by_cases hn1 : arr.length = 1
    · exact ⟨fun h => absurd h (by omega), fun h => absurd h (by omega)⟩
    · by_cases hjn : j < arr.length
      · exact G4 j (by omega) hjn
      · exact ⟨fun h => absurd h (by omega), fun h => absurd h (by omega)⟩
  obtain ⟨E1, E2, E3, E4, E5⟩ := heapExtract_spec true arr.length (arr.length - 1)
    (arr.length - 1)
    (heapBuild true arr.length (arr.length / 2) (arr.length / 2 - 1) arr ⟨0, 0⟩).2.1
    (heapBuild true arr.length (arr.length / 2) (arr.length / 2 - 1) arr ⟨0, 0⟩).2.2.1
    rfl (by omega) (by rw [G2]) hheap
    (fun a b h1 h2 h3 => absurd h1 (by omega))
    (fun a b h1 h2 h3 => absurd h2 (by omega))
  have hsorted : PairwiseLe (heapExtract true (arr.length - 1) (arr.length - 1)
      (heapBuild true arr.length (arr.length / 2) (arr.length / 2 - 1) arr ⟨0, 0⟩).2.1
      (heapBuild true arr.length (arr.length / 2) (arr.length / 2 - 1)
        arr ⟨0, 0⟩).2.2.1).2.1 := by
    intro a b hab hb
    rw [E2, G2, hlen] at hb
    rcases Nat.eq_zero_or_pos a with ha0 | hapos
    · subst ha0
      exact E5 0 b (by omega) (by omega) (by omega)
    · exact E4 a b (by omega) hab (by omega)
  have harr : (heapExtract true (arr.length - 1) (arr.length - 1)
      (heapBuild true arr.length (arr.length / 2) (arr.length / 2 - 1) arr ⟨0, 0⟩).2.1
      (heapBuild true arr.length (arr.length / 2) (arr.length / 2 - 1)
        arr ⟨0, 0⟩).2.2.1).2.1 = ascSeq N :=
    perm_pairwiseLe_eq ((E3.trans G3).trans hp) hsorted
  constructor
  · simp only [heapSort]
    rw [G1, if_pos rfl]
    exact E1
  · simp only [heapSort]
    rw [G1, if_pos rfl]
    dsimp only
    rw [E1, if_pos rfl, emitIf_true, List.getLast?_concat]
    simp [harr, mkStep]

/-! ### cycleSort sorts (C1) -/

theorem ascSeq_succ (n : Nat) : ascSeq (n + 1) = ascSeq n ++ [(n : Int)] := by
  simp [ascSeq, List.range_succ]

theorem ascSeq_nodup (n : Nat) : (ascSeq n).Nodup :=
  (List.nodup_range n).map (fun _ _ h => Int.ofNat.inj h)

theorem ascSeq_mem {n : Nat} {x : Int} : x ∈ ascSeq n ↔ ∃ k, k < n ∧ x = (k : Int) := by
  simp [ascSeq, List.mem_map, List.mem_range]
  constructor
  · rintro ⟨k, hk, rfl⟩
    exact ⟨k, hk, rfl⟩
  · rintro ⟨k, hk, rfl⟩
    exact ⟨k, hk, rfl⟩

theorem nodup_getD_inj {l : List Int} (hnd : l.Nodup) {p q : Nat}
    (hp : p < l.length) (hq : q < l.length) (h : l.getD p 0 = l.getD q 0) : p = q := by
  rw [List.getD_eq_getElem l 0 hp, List.getD_eq_getElem l 0 hq] at h
  exact (List.Nodup.getElem_inj_iff hnd).mp h

theorem perm_val_bounds {A : List Int} {n : Nat} (h : A.Perm (ascSeq n)) {p : Nat}
    (hp : p < A.length) : 0 ≤ A.getD p 0 ∧ A.getD p 0 < (n : Int) := by
  have hmem : A.getD p 0 ∈ A := by
    rw [List.getD_eq_getElem A 0 hp]
    exact List.getElem_mem hp
  have := ascSeq_mem.mp (h.subset hmem)
  obtain ⟨k, hk, he⟩ := this
  rw [he]
  constructor
  · omega
  · exact_mod_cast hk

theorem ascSeq_countP_lt : ∀ (n : Nat) (v : Int), 0 ≤ v → v ≤ (n : Int) →
    (ascSeq n).countP (fun y => decide (y < v)) = v.toNat := by
  intro n
  induction n with
  | zero =>
    intro v h0 hn
    have : v = 0 := by omega
    simp [this, ascSeq]
  | succ n ih =>
    intro v h0 hn
    rw [ascSeq_succ, List.countP_append]
    rcases le_or_lt v (n : Int) with hv | hv
    · rw [ih v h0 hv]
      have : ¬ ((n : Int) < v) := by omega
      simp [this]
    · have hveq : v = ((n : Int) + 1) := by omega
      have hall : (ascSeq n).countP (fun y => decide (y < v)) = n := by
        have h1 : ∀ y ∈ ascSeq n, decide (y < v) = true := by
          intro y hy
          obtain ⟨k, hk, he⟩ := ascSeq_mem.mp hy
          simp [he, hveq]
          omega
        rw [List.countP_eq_length.mpr h1, ascSeq_length]
      rw [hall]
      have : ((n : Int) < v) := by omega
      simp [this]
      omega

theorem seg_cons (arr : List Int) (i c : Nat) (h : i < arr.length) :
    seg arr i (i + (c + 1)) = arr.getD i 0 :: seg arr (i + 1) (i + 1 + c) := by
  simp only [seg]
  rw [show i + (c + 1) - i = c + 1 from by omega, show i + 1 + c - (i + 1) = c from by omega]
  rw [List.drop_eq_getElem_cons h, List.take_succ_cons, List.getD_eq_getElem arr 0 h]

theorem cycleCount_spec (arr : List Int) (item : Int) (yc : Bool) :
    ∀ (c i pos : Nat) (st : Stats), i + c ≤ arr.length →
      (cycleCount arr item yc c i pos st).2.1
        = pos + (seg arr i (i + c)).countP (fun y => decide (y < item)) := by
  intro c
  induction c with
  | zero =>
    intro i pos st h
    dsimp only [cycleCount]
    simp [seg]
  | succ c ih =>
    intro i pos st h
    simp only [cycleCount]
    rw [seg_cons arr i c (by omega), List.countP_cons]
    split
    · rename_i hlt
      rw [ih (i + 1) (pos + 1) _ (by omega)]
      simp only [decide_eq_true_eq]
      rw [if_pos hlt]
      omega
    · rename_i hlt
      rw [ih (i + 1) pos _ (by omega)]
      simp only [decide_eq_true_eq]
      rw [if_neg hlt]
      omega
  
theorem cycleSkip_noop (arr : List Int) (item : Int) :
    ∀ (fuel pos : Nat), arr.get? pos ≠ some item → cycleSkip arr item fuel pos = pos := by
  intro fuel pos h
  cases fuel with
  | zero => rfl
  | succ fuel =>
    simp only [cycleSkip]
    rw [if_neg h]

theorem countP_range_lt (n pos : Nat) (f g : Nat → Bool) (hpos : pos < n)
    (hsame : ∀ p, p < n → p ≠ pos → f p = g p) (hf : f pos = false)
    (hg : g pos = true) :
    (List.range n).countP f < (List.range n).countP g := by
  have hsplit : List.range n = List.range pos ++ (List.range (n - pos)).map (pos + ·) := by
    rw [← List.range_add]
    congr 1
    omega
  have hrest : n - pos = (n - pos - 1) + 1 := by omega
  have hsplit2 : List.range (n - pos) = 0 :: (List.range (n - pos - 1)).map Nat.succ := by
    rw [hrest]
    exact List.range_succ_eq_map _
  rw [hsplit, hsplit2]
  simp only [List.countP_append, List.map_cons, List.countP_cons, List.countP_map]
  have h1 : (List.range pos).countP f = (List.range pos).countP g := by
    apply List.countP_congr
    intro a ha
    rw [List.mem_range] at ha
    rw [hsame a (by omega) (by omega)]
  have h2 : (List.range (n - pos - 1)).countP ((f ∘ (pos + ·)) ∘ Nat.succ)
      = (List.range (n - pos - 1)).countP ((g ∘ (pos + ·)) ∘ Nat.succ) := by
    apply List.countP_congr
    intro a ha
    rw [List.mem_range] at ha
    simp only [Function.comp]
    rw [hsame (pos + (a + 1)) (by omega) (by omega)]
  simp only [Function.comp] at h1 h2 ⊢
  rw [h1, h2]
  simp only [Nat.add_zero, hf, hg]
  simp

theorem cycleCount_home (arr : List Int) (item : Int) (yc : Bool) (n cs0 : Nat)
    (st : Stats) (hlen : arr.length = n) (hcs : cs0 < n)
    (hpre : ∀ k, k < cs0 → arr.getD k 0 = (k : Int))
    (hperm : (arr.set cs0 item).Perm (ascSeq n))
    (hlo : (cs0 : Int) ≤ item) (hhi : item < (n : Int)) :
    (cycleCount arr item yc (n - (cs0 + 1)) (cs0 + 1) cs0 st).2.1 = item.toNat := by
  have hAlen : (arr.set cs0 item).length = n := by rw [List.length_set, hlen]
  have hAcs : (arr.set cs0 item).getD cs0 0 = item :=
    getD_set_self arr cs0 item (by omega)
  rw [cycleCount_spec arr item yc (n - (cs0 + 1)) (cs0 + 1) cs0 st (by omega)]
  have he : cs0 + 1 + (n - (cs0 + 1)) = n := by omega
  rw [he]
  have hseg : seg arr (cs0 + 1) n = (arr.set cs0 item).drop (cs0 + 1) := by
    simp only [seg]
    rw [List.drop_set_of_lt _ _ (by omega)]
    apply List.take_of_length_le
    rw [List.length_drop]
    omega
  rw [hseg]
  have hcount : (arr.set cs0 item).countP (fun y => decide (y < item)) = item.toNat := by
    rw [hperm.countP_eq]
    exact ascSeq_countP_lt n item (by omega) (by omega)
  have htake : ((arr.set cs0 item).take (cs0 + 1)).countP (fun y => decide (y < item))
      = cs0 := by
    rw [List.take_succ]
    rw [List.getElem?_eq_getElem (by omega : cs0 < (arr.set cs0 item).length)]
    simp only [Option.toList_some]
    rw [List.countP_append]
    have h1 : ((arr.set cs0 item).take cs0).countP (fun y => decide (y < item)) = cs0 := by
      have hall : ∀ a ∈ (arr.set cs0 item).take cs0, decide (a < item) = true := by
        intro a ha
        rw [List.mem_iff_getElem] at ha
        obtain ⟨i, hi, hval⟩ := ha
        have hilen : i < cs0 := by
          rw [List.length_take] at hi
          omega
        have hval2 : (arr.set cs0 item).getD i 0 = a := by
          rw [List.getD_eq_getElem _ 0 (by omega)]
          rw [← hval, List.getElem_take]
        rw [getD_set_other arr cs0 i item (by omega), hpre i hilen] at hval2
        rw [← hval2]
        simp only [decide_eq_true_eq]
        omega
      rw [List.countP_eq_length.mpr hall, List.length_take]
      omega
    have h2 : ([(arr.set cs0 item)[cs0]] : List Int).countP
        (fun y => decide (y < item)) = 0 := by
      have hv : (arr.set cs0 item)[cs0] = item := by
        rw [← List.getD_eq_getElem _ 0 (by omega)]
        exact hAcs
      simp [hv]
    rw [h1, h2]
    omega
  have hsplit : (arr.set cs0 item).countP (fun y => decide (y < item))
      = ((arr.set cs0 item).take (cs0 + 1)).countP (fun y => decide (y < item))
        + ((arr.set cs0 item).drop (cs0 + 1)).countP (fun y => decide (y < item)) := by
    conv_lhs => rw [← List.take_append_drop (cs0 + 1) (arr.set cs0 item)]
    rw [List.countP_append]
  omega

theorem cycleWalk_stop (yc : Bool) (n cs0 : Nat) :
    ∀ (fuel : Nat) (item : Int) (arr : List Int) (st : Stats),
      cycleWalk yc n cs0 fuel cs0 item arr st = ([], arr, item, st, true) := by
  intro fuel item arr st
  cases fuel with
  | zero => simp [cycleWalk]
  | succ fuel => simp [cycleWalk]

theorem cycleWalk_spec (yc : Bool) (n cs0 : Nat) (hcs : cs0 < n) :
    ∀ (fuel pos : Nat) (item : Int) (arr : List Int) (st : Stats),
      arr.length = n →
      pos ≠ cs0 →
      (∀ k, k < cs0 → arr.getD k 0 = (k : Int)) →
      (arr.set cs0 item).Perm (ascSeq n) →
      (cs0 : Int) ≤ item → item < (n : Int) →
      (∀ p, p < n → p ≠ cs0 → arr.getD p 0 ≠ item) →
      arr.getD cs0 0 ≠ (cs0 : Int) →
      (List.range n).countP (fun p => decide (arr.getD p 0 ≠ (p : Int))) < fuel →
      (cycleWalk yc n cs0 fuel pos item arr st).2.2.2.2 = true ∧
      (cycleWalk yc n cs0 fuel pos item arr st).2.1.length = n ∧
      (cycleWalk yc n cs0 fuel pos item arr st).2.1.Perm (ascSeq n) ∧
      (∀ k, k ≤ cs0 → (cycleWalk yc n cs0 fuel pos item arr st).2.1.getD k 0 = (k : Int)) := by
  intro fuel
  induction fuel with
  | zero =>
    intro pos item arr st hlen hpos hpre hperm hlo hhi hI5 hI6 hmeas
    exact absurd hmeas (by omega)
  | succ fuel ih =>
    intro pos item arr st hlen hpos hpre hperm hlo hhi hI5 hI6 hmeas
    have hAnodup : (arr.set cs0 item).Nodup := hperm.nodup_iff.mpr (ascSeq_nodup n)
    have hAlen : (arr.set cs0 item).length = n := by rw [List.length_set, hlen]
    have hq : item.toNat < n := by omega
    have hqv : ((item.toNat : Nat) : Int) = item := by omega
    have hcnt := cycleCount_home arr item yc n cs0 st hlen hcs hpre hperm hlo hhi
    have hskipne : arr.getD item.toNat 0 ≠ item := by
      by_cases hhome : item.toNat = cs0
      · intro hcon
        rw [hhome] at hcon
        apply hI6
        rw [hcon]
        omega
      · exact hI5 item.toNat hq hhome
    have hget : arr.get? item.toNat = some (arr.getD item.toNat 0) := by
      rw [List.get?_eq_getElem?, List.getElem?_eq_getElem (by omega),
        List.getD_eq_getElem arr 0 (by omega)]
    have hskip : cycleSkip arr item (arr.length + 1) item.toNat = item.toNat := by
      apply cycleSkip_noop
      rw [hget]
      intro hc
      exact hskipne (Option.some.inj hc)
    simp only [cycleWalk]
    rw [if_neg hpos, hcnt, hskip]
    rw [if_pos (show item ≠ arr.getD item.toNat 0 from fun h => hskipne h.symm)]
    dsimp only
    by_cases hp1cs : item.toNat = cs0
    · rw [hp1cs, cycleWalk_stop]
      dsimp only
      refine ⟨rfl, by rw [List.length_set, hlen], hperm, ?_⟩
      intro k hk
      rcases Nat.eq_or_lt_of_le hk with hke | hkl
      · rw [hke, getD_set_self arr cs0 item (by omega)]
        omega
      · rw [getD_set_other arr cs0 k item (by omega), hpre k hkl]
    · have hqcs : cs0 < item.toNat := by omega
      have hAq : (arr.set cs0 item).getD item.toNat 0 = arr.getD item.toNat 0 :=
        getD_set_other arr cs0 item.toNat item (by omega)
      have hAcs : (arr.set cs0 item).getD cs0 0 = item :=
        getD_set_self arr cs0 item (by omega)
      have hbounds := perm_val_bounds hperm (show item.toNat < (arr.set cs0 item).length
        from by omega)
      rw [hAq] at hbounds
      have hlo1 : (cs0 : Int) ≤ arr.getD item.toNat 0 := by
        by_contra hcon
        push_neg at hcon
        have h0 : 0 ≤ arr.getD item.toNat 0 := hbounds.1
        set k := (arr.getD item.toNat 0).toNat with hkdef
        have hkcs : k < cs0 := by omega
        have hAk : (arr.set cs0 item).getD k 0 = arr.getD item.toNat 0 := by
          rw [getD_set_other arr cs0 k item (by omega), hpre k hkcs]
          omega
        have := nodup_getD_inj hAnodup (show k < (arr.set cs0 item).length by omega)
          (show item.toNat < (arr.set cs0 item).length by omega) (by rw [hAk, hAq])
        omega
      have hperm1 : ((arr.set item.toNat item).set cs0 (arr.getD item.toNat 0)).Perm
          (ascSeq n) := by
        have he : (arr.set item.toNat item).set cs0 (arr.getD item.toNat 0)
            = listSwap (arr.set cs0 item) cs0 item.toNat := by
          rw [listSwap, hAq, hAcs, List.set_set]
          rw [List.set_comm _ _ _ (show cs0 ≠ item.toNat by omega)]
        rw [he]
        exact (listSwap_perm _ cs0 item.toNat (by omega) (by omega)).trans hperm
      obtain ⟨W1, W2, W3, W4⟩ := ih item.toNat (arr.getD item.toNat 0)
        (arr.set item.toNat item)
        ⟨(cycleCount arr item yc (n - (cs0 + 1)) (cs0 + 1) cs0 st).2.2.comparisons,
          (cycleCount arr item yc (n - (cs0 + 1)) (cs0 + 1) cs0 st).2.2.swaps + 1⟩
        (by rw [List.length_set, hlen]) hp1cs
        (by
          intro k hk
          rw [getD_set_other arr item.toNat k item (by omega)]
          exact hpre k hk)
        hperm1 hlo1 hbounds.2
        (by
          intro p hp hpcs
          by_cases hpq : p = item.toNat
          · rw [hpq, getD_set_self arr item.toNat item (by omega)]
            intro h
            exact hskipne h.symm
          · rw [getD_set_other arr item.toNat p item (by omega)]
            intro h
            have hAp : (arr.set cs0 item).getD p 0 = arr.getD p 0 :=
              getD_set_other arr cs0 p item (by omega)
            have := nodup_getD_inj hAnodup (show p < (arr.set cs0 item).length by omega)
              (show item.toNat < (arr.set cs0 item).length by omega)
              (by rw [hAp, hAq, h])
            exact hpq this)
        (by
          rw [getD_set_other arr item.toNat cs0 item (by omega)]
          exact hI6)
        (by
          have hdec := countP_range_lt n item.toNat
            (fun p => decide ((arr.set item.toNat item).getD p 0 ≠ (p : Int)))
            (fun p => decide (arr.getD p 0 ≠ (p : Int))) hq
            (by
              intro p hp hpq
              dsimp only
              rw [getD_set_other arr item.toNat p item (by omega)])
            (by
              dsimp only
              rw [getD_set_self arr item.toNat item (by omega)]
              simp [hqv])
            (by
              dsimp only
              simp only [decide_eq_true_eq]
              rw [← hqv] at hskipne
              exact hskipne)
          omega)
      exact ⟨W1, W2, W3, W4⟩

theorem cycleOuter_spec (yc : Bool) (n : Nat) :
    ∀ (c cs0 : Nat) (arr : List Int) (st : Stats),
      cs0 + c = n - 1 → 1 ≤ n → arr.length = n →
      (∀ k, k < cs0 → arr.getD k 0 = (k : Int)) →
      arr.Perm (ascSeq n) →
      (cycleOuter yc n c cs0 arr st).2.2.2 = true ∧
      (cycleOuter yc n c cs0 arr st).2.1.length = n ∧
      (cycleOuter yc n c cs0 arr st).2.1.Perm (ascSeq n) ∧
      (∀ k, k < n - 1 → (cycleOuter yc n c cs0 arr st).2.1.getD k 0 = (k : Int)) := by
  intro c
  induction c with
  | zero =>
    intro cs0 arr st hcnt hn hlen hpre hperm
    dsimp only [cycleOuter]
    exact ⟨rfl, hlen, hperm, fun k hk => hpre k (by omega)⟩
  | succ c ih =>
    intro cs0 arr st hcnt hn hlen hpre hperm
    have hcs : cs0 < n := by omega
    have hnodup : arr.Nodup := hperm.nodup_iff.mpr (ascSeq_nodup n)
    have hbounds := perm_val_bounds hperm (show cs0 < arr.length by omega)
    have hsetself : arr.set cs0 (arr.getD cs0 0) = arr := set_getD_self arr cs0 (by omega)
    have hpermA : (arr.set cs0 (arr.getD cs0 0)).Perm (ascSeq n) := by
      rw [hsetself]
      exact hperm
    have hlo : (cs0 : Int) ≤ arr.getD cs0 0 := by
      by_contra hcon
      push_neg at hcon
      set k := (arr.getD cs0 0).toNat with hkdef
      have hkcs : k < cs0 := by omega
      have hk : arr.getD k 0 = arr.getD cs0 0 := by
        rw [hpre k hkcs]
        omega
      have := nodup_getD_inj hnodup (show k < arr.length by omega)
        (show cs0 < arr.length by omega) hk
      omega
    have hcnt2 := cycleCount_home arr (arr.getD cs0 0) yc n cs0 st hlen hcs hpre
      hpermA hlo hbounds.2
    simp only [cycleOuter]
    rw [hcnt2]
    by_cases hitem : (arr.getD cs0 0).toNat = cs0
    · rw [if_pos hitem]
      dsimp only
      obtain ⟨R1, R2, R3, R4⟩ := ih (cs0 + 1) arr
        (cycleCount arr (arr.getD cs0 0) yc (n - (cs0 + 1)) (cs0 + 1) cs0 st).2.2
        (by omega) hn hlen
        (by
          intro k hk
          rcases Nat.eq_or_lt_of_le (show k ≤ cs0 by omega) with hke | hkl
          · rw [hke]
            omega
          · exact hpre k hkl)
        hperm
      exact ⟨R1, R2, R3, R4⟩
    · rw [if_neg hitem]
      have hq : (arr.getD cs0 0).toNat < n := by omega
      have hqv : (((arr.getD cs0 0).toNat : Nat) : Int) = arr.getD cs0 0 := by omega
      have hqcs : cs0 < (arr.getD cs0 0).toNat := by omega
      have hskipne : arr.getD (arr.getD cs0 0).toNat 0 ≠ arr.getD cs0 0 := by
        intro hcon
        have := nodup_getD_inj hnodup (show (arr.getD cs0 0).toNat < arr.length by omega)
          (show cs0 < arr.length by omega) hcon
        omega
      have hget : arr.get? (arr.getD cs0 0).toNat
          = some (arr.getD (arr.getD cs0 0).toNat 0) := by
        rw [List.get?_eq_getElem?, List.getElem?_eq_getElem (by omega)]
        exact congrArg some (List.getD_eq_getElem arr 0 (by omega)).symm
      have hskip : cycleSkip arr (arr.getD cs0 0) (arr.length + 1)
          (arr.getD cs0 0).toNat = (arr.getD cs0 0).toNat := by
        apply cycleSkip_noop
        rw [hget]
        intro hc
        exact hskipne (Option.some.inj hc)
      rw [hskip]
      rw [if_pos (show (arr.getD cs0 0).toNat ≠ cs0 from hitem)]
      dsimp only
      have hlo1 : (cs0 : Int) ≤ arr.getD (arr.getD cs0 0).toNat 0 := by
        by_contra hcon
        push_neg at hcon
        have h0 := (perm_val_bounds hperm
          (show (arr.getD cs0 0).toNat < arr.length by omega)).1
        set k := (arr.getD (arr.getD cs0 0).toNat 0).toNat with hkdef
        have hkcs : k < cs0 := by omega
        have hk : arr.getD k 0 = arr.getD (arr.getD cs0 0).toNat 0 := by
          rw [hpre k hkcs]
          omega
        have := nodup_getD_inj hnodup (show k < arr.length by omega)
          (show (arr.getD cs0 0).toNat < arr.length by omega) hk
        omega
      have hperm1 : ((arr.set (arr.getD cs0 0).toNat (arr.getD cs0 0)).set cs0
          (arr.getD (arr.getD cs0 0).toNat 0)).Perm (ascSeq n) := by
        have he : (arr.set (arr.getD cs0 0).toNat (arr.getD cs0 0)).set cs0
            (arr.getD (arr.getD cs0 0).toNat 0)
            = listSwap arr cs0 (arr.getD cs0 0).toNat := by
          rw [listSwap]
          rw [List.set_comm _ _ _ (show cs0 ≠ (arr.getD cs0 0).toNat by omega)]
        rw [he]
        exact (listSwap_perm arr cs0 (arr.getD cs0 0).toNat (by omega) (by omega)).trans
          hperm
      obtain ⟨W1, W2, W3, W4⟩ := cycleWalk_spec yc n cs0 hcs (n + 1)
        (arr.getD cs0 0).toNat (arr.getD (arr.getD cs0 0).toNat 0)
        (arr.set (arr.getD cs0 0).toNat (arr.getD cs0 0))
        ⟨(cycleCount arr (arr.getD cs0 0) yc (n - (cs0 + 1)) (cs0 + 1) cs0 st).2.2.comparisons,
          (cycleCount arr (arr.getD cs0 0) yc (n - (cs0 + 1)) (cs0 + 1) cs0 st).2.2.swaps + 1⟩
        (by rw [List.length_set, hlen]) hitem
        (by
          intro k hk
          rw [getD_set_other arr _ k _ (by omega)]
          exact hpre k hk)
        hperm1 hlo1
        (perm_val_bounds hperm (show (arr.getD cs0 0).toNat < arr.length by omega)).2
        (by
          intro p hp hpcs
          by_cases hpq : p = (arr.getD cs0 0).toNat
          · rw [hpq, getD_set_self arr _ _ (by omega)]
            intro h
            exact hskipne h.symm
          · rw [getD_set_other arr _ p _ (by omega)]
            intro h
            have := nodup_getD_inj hnodup (show p < arr.length by omega)
              (show (arr.getD cs0 0).toNat < arr.length by omega) h
            exact hpq this)
        (by
          rw [getD_set_other arr _ cs0 _ (by omega)]
          intro h
          apply hitem
          rw [h]
          omega)
        (by
          have := List.countP_le_length
            (fun p => decide ((arr.set (arr.getD cs0 0).toNat
              (arr.getD cs0 0)).getD p 0 ≠ (p : Int))) (l := List.range n)
          rw [List.length_range] at this
          omega)
      rw [W1, if_pos rfl]
      dsimp only
      obtain ⟨R1, R2, R3, R4⟩ := ih (cs0 + 1)
        (cycleWalk yc n cs0 (n + 1) (arr.getD cs0 0).toNat
          (arr.getD (arr.getD cs0 0).toNat 0)
          (arr.set (arr.getD cs0 0).toNat (arr.getD cs0 0))
          ⟨(cycleCount arr (arr.getD cs0 0) yc (n - (cs0 + 1)) (cs0 + 1) cs0
              st).2.2.comparisons,
            (cycleCount arr (arr.getD cs0 0) yc (n - (cs0 + 1)) (cs0 + 1) cs0
              st).2.2.swaps + 1⟩).2.1
        (cycleWalk yc n cs0 (n + 1) (arr.getD cs0 0).toNat
          (arr.getD (arr.getD cs0 0).toNat 0)
          (arr.set (arr.getD cs0 0).toNat (arr.getD cs0 0))
          ⟨(cycleCount arr (arr.getD cs0 0) yc (n - (cs0 + 1)) (cs0 + 1) cs0
              st).2.2.comparisons,
            (cycleCount arr (arr.getD cs0 0) yc (n - (cs0 + 1)) (cs0 + 1) cs0
              st).2.2.swaps + 1⟩).2.2.2.1
        (by omega) hn W2 (fun k hk => W4 k (by omega)) W3
      exact ⟨R1, R2, R3, R4⟩

theorem cycleSort_c1 (N : Nat) (hN : 1 ≤ N) (arr : List Int)
    (hp : arr.Perm (ascSeq N)) : SortsTo (cycleSort arr true) N := by
  have hlen : arr.length = N := by rw [hp.length_eq, ascSeq_length]
  obtain ⟨R1, R2, R3, R4⟩ := cycleOuter_spec true arr.length (arr.length - 1) 0 arr
    ⟨0, 0⟩ (by omega) (by omega) rfl (fun k hk => absurd hk (by omega))
    (by rw [hlen]; exact hp)
  have hRnodup : (cycleOuter true arr.length (arr.length - 1) 0 arr ⟨0, 0⟩).2.1.Nodup :=
    R3.nodup_iff.mpr (ascSeq_nodup arr.length)
  have hlast : ∀ k, k < arr.length →
      (cycleOuter true arr.length (arr.length - 1) 0 arr ⟨0, 0⟩).2.1.getD k 0 = (k : Int) := by
    intro k hk
    rcases Nat.lt_or_ge k (arr.length - 1) with hk1 | hk1
    · exact R4 k hk1
    · have hke : k = arr.length - 1 := by omega
      have hb := perm_val_bounds R3 (show k < (cycleOuter true arr.length
        (arr.length - 1) 0 arr ⟨0, 0⟩).2.1.length by omega)
      set v := (cycleOuter true arr.length (arr.length - 1) 0 arr ⟨0, 0⟩).2.1.getD k 0
        with hv
      by_contra hcon
      have hvlt : v.toNat < arr.length - 1 := by omega
      have := nodup_getD_inj hRnodup
        (show v.toNat < (cycleOuter true arr.length (arr.length - 1) 0 arr
          ⟨0, 0⟩).2.1.length by omega)
        (show k < (cycleOuter true arr.length (arr.length - 1) 0 arr
          ⟨0, 0⟩).2.1.length by omega)
        (by rw [R4 v.toNat hvlt, ← hv]; omega)
      omega
  have hsorted : PairwiseLe (cycleOuter true arr.length (arr.length - 1) 0 arr ⟨0, 0⟩).2.1 := by
    intro a b hab hb
    rw [R2] at hb
    rw [hlast a (by omega), hlast b (by omega)]
    omega
  have harr : (cycleOuter true arr.length (arr.length - 1) 0 arr ⟨0, 0⟩).2.1 = ascSeq N := by
    apply perm_pairwiseLe_eq _ hsorted
    rw [← hlen] at hp ⊢
    exact R3.trans (by rw [hlen])
  constructor
  · simp only [cycleSort]
    exact R1
  · simp only [cycleSort, R1, if_true, emitIf_true]
    rw [List.getLast?_concat]
    simp [harr, mkStep]

theorem mergeLists_nil_right : ∀ xs : List Int, mergeLists xs [] = xs := by
  intro xs
  cases xs with
  | nil => simp [mergeLists]
  | cons a l => simp [mergeLists]

theorem mergeLists_perm_fuel :
    ∀ (n : Nat) (xs ys : List Int), xs.length + ys.length ≤ n →
      (mergeLists xs ys).Perm (xs ++ ys) := by
  intro n
  induction n with
  | zero =>
    intro xs ys h
    have hx : xs = [] := by
      cases xs with
      | nil => rfl
      | cons a l => simp at h
    subst hx
    simp [mergeLists]
  | succ n ih =>
    intro xs ys h
    cases xs with
    | nil => simp [mergeLists]
    | cons x xs =>
      cases ys with
      | nil => rw [mergeLists_nil_right]; simp
      | cons y ys =>
        simp only [mergeLists]
        split
        · exact List.Perm.cons x (ih xs (y :: ys) (by simp at h ⊢; omega))
        · exact ((ih (x :: xs) ys (by simp at h ⊢; omega)).cons y).trans
            List.perm_middle.symm

theorem mergeLists_perm (xs ys : List Int) : (mergeLists xs ys).Perm (xs ++ ys) :=
  mergeLists_perm_fuel (xs.length + ys.length) xs ys le_rfl

theorem mergeLists_sorted_fuel :
    ∀ (n : Nat) (xs ys : List Int), xs.length + ys.length ≤ n →
      xs.Sorted (· ≤ ·) → ys.Sorted (· ≤ ·) → (mergeLists xs ys).Sorted (· ≤ ·) := by
  intro n
  induction n with
  | zero =>
    intro xs ys h hx hy
    have hx0 : xs = [] := by
      cases xs with
      | nil => rfl
      | cons a l => simp at h
    subst hx0
    simpa [mergeLists] using hy
  | succ n ih =>
    intro xs ys h hx hy
    cases xs with
    | nil => simpa [mergeLists] using hy
    | cons x xs =>
      cases ys with
      | nil => rw [mergeLists_nil_right]; exact hx
      | cons y ys =>
        rw [List.sorted_cons] at hx hy
        simp only [mergeLists]
        split
        · rename_i hxy
          rw [List.sorted_cons]
          refine ⟨?_, ih xs (y :: ys) (by simp at h ⊢; omega) hx.2
            (List.sorted_cons.mpr hy)⟩
          intro b hb
          have hb2 := (mergeLists_perm xs (y :: ys)).mem_iff.mp hb
          rw [List.mem_append] at hb2
          rcases hb2 with h1 | h1
          · exact hx.1 b h1
          · rcases List.mem_cons.mp h1 with h2 | h2
            · rw [h2]; exact hxy
            · exact hxy.trans (hy.1 b h2)
        · rename_i hxy
          push_neg at hxy
          rw [List.sorted_cons]
          refine ⟨?_, ih (x :: xs) ys (by simp at h ⊢; omega)
            (List.sorted_cons.mpr hx) hy.2⟩
          intro b hb
          have hb2 := (mergeLists_perm (x :: xs) ys).mem_iff.mp hb
          rw [List.mem_append] at hb2
          rcases hb2 with h1 | h1
          · rcases List.mem_cons.mp h1 with h2 | h2
            · rw [h2]; exact le_of_lt hxy
            · exact (le_of_lt hxy).trans (hx.1 b h2)
          · exact hy.1 b h1

theorem mergeLists_sorted (xs ys : List Int) (hx : xs.Sorted (· ≤ ·))
    (hy : ys.Sorted (· ≤ ·)) : (mergeLists xs ys).Sorted (· ≤ ·) :=
  mergeLists_sorted_fuel (xs.length + ys.length) xs ys le_rfl hx hy

theorem sorted_getD_mono {l : List Int} (h : l.Sorted (· ≤ ·)) {a b : Nat}
    (hab : a < b) (hb : b < l.length) : l.getD a 0 ≤ l.getD b 0 := by
  rw [List.Sorted, List.pairwise_iff_getElem] at h
  have := h a b (by omega) hb hab
  rwa [List.getD_eq_getElem l 0 (by omega), List.getD_eq_getElem l 0 hb]

theorem seg_length (arr : List Int) (a b : Nat) (h : b ≤ arr.length) :
    (seg arr a b).length = b - a := by
  simp [seg]
  omega

theorem seg_sorted_of_pairwise (arr : List Int) (lo hi : Nat) (hhi : hi < arr.length)
    (h : ∀ a b : Nat, lo ≤ a → a < b → b ≤ hi → arr.getD a 0 ≤ arr.getD b 0) :
    (seg arr lo (hi + 1)).Sorted (· ≤ ·) := by
  have hlen : (seg arr lo (hi + 1)).length = hi + 1 - lo :=
    seg_length arr lo (hi + 1) (by omega)
  rw [List.Sorted, List.pairwise_iff_getElem]
  intro i j h1 h2 hij
  rw [hlen] at h1 h2
  simp only [seg, List.getElem_take, List.getElem_drop]
  rw [← List.getD_eq_getElem arr 0 (by omega), ← List.getD_eq_getElem arr 0 (by omega)]
  exact h (lo + i) (lo + j) (by omega) (by omega) (by omega)

theorem list_ext_getD {l l' : List Int} (hlen : l.length = l'.length)
    (h : ∀ k, k < l.length → l.getD k 0 = l'.getD k 0) : l = l' := by
  apply List.ext_getElem hlen
  intro n h1 h2
  rw [← List.getD_eq_getElem l 0 h1, ← List.getD_eq_getElem l' 0 h2]
  exact h n h1

theorem getD_take (arr : List Int) (n k : Nat) (h : k < n) (h2 : k < arr.length) :
    (arr.take n).getD k 0 = arr.getD k 0 := by
  rw [List.getD_eq_getElem _ 0 (by simp; omega), List.getD_eq_getElem arr 0 h2]
  exact List.getElem_take ..

theorem getD_drop (arr : List Int) (n k : Nat) (h : n + k < arr.length) :
    (arr.drop n).getD k 0 = arr.getD (n + k) 0 := by
  rw [List.getD_eq_getElem _ 0 (by simp; omega), List.getD_eq_getElem arr 0 h]
  exact List.getElem_drop ..

theorem mergeCmp_merged (arr : List Int) (mid right : Nat) (yc : Bool)
    (hm : mid < arr.length) (hr : right < arr.length) :
    ∀ (fuel i j : Nat) (st : Stats) (merged : List Int),
      (mid + 1 - i) + (right + 1 - j) < fuel →
      (mergeCmp arr mid right yc fuel i j st merged).2.2.2.2
        ++ seg arr (mergeCmp arr mid right yc fuel i j st merged).2.1 (mid + 1)
        ++ seg arr (mergeCmp arr mid right yc fuel i j st merged).2.2.1 (right + 1)
      = merged ++ mergeLists (seg arr i (mid + 1)) (seg arr j (right + 1)) := by
  intro fuel
  induction fuel with
  | zero => intro i j st merged h; exact absurd h (by omega)
  | succ fuel ih =>
    intro i j st merged h
    by_cases hij : i ≤ mid ∧ j ≤ right
    · have hseg1 : seg arr i (mid + 1) = arr.getD i 0 :: seg arr (i + 1) (mid + 1) := by
        have hc := seg_cons arr i (mid - i) (by omega)
        rw [show i + (mid - i + 1) = mid + 1 from by omega,
          show i + 1 + (mid - i) = mid + 1 from by omega] at hc
        exact hc
      have hseg2 : seg arr j (right + 1) = arr.getD j 0 :: seg arr (j + 1) (right + 1) := by
        have hc := seg_cons arr j (right - j) (by omega)
        rw [show j + (right - j + 1) = right + 1 from by omega,
          show j + 1 + (right - j) = right + 1 from by omega] at hc
        exact hc
      by_cases hle : arr.getD i 0 ≤ arr.getD j 0
      · rw [hseg1, hseg2]
        simp only [mergeLists]
        rw [if_pos hle, ← hseg2]
        simp only [mergeCmp]
        rw [if_pos hij, if_pos hle]
        dsimp only
        rw [ih (i + 1) j ⟨st.comparisons + 1, st.swaps⟩ (merged ++ [arr.getD i 0])
          (by omega)]
        simp
      · rw [hseg1, hseg2]
        simp only [mergeLists]
        rw [if_neg hle, ← hseg1]
        simp only [mergeCmp]
        rw [if_pos hij, if_neg hle]
        dsimp only
        rw [ih i (j + 1) ⟨st.comparisons + 1, st.swaps⟩ (merged ++ [arr.getD j 0])
          (by omega)]
        simp
    · simp only [mergeCmp]
      rw [if_neg hij]
      dsimp only
      rcases Nat.lt_or_ge mid i with h1 | h1
      · have hnil : seg arr i (mid + 1) = [] := by
          simp [seg, show mid + 1 - i = 0 from by omega]
        rw [hnil]
        simp [mergeLists]
      · have h2 : right < j := by omega
        have hnil : seg arr j (right + 1) = [] := by
          simp [seg, show right + 1 - j = 0 from by omega]
        rw [hnil, mergeLists_nil_right]
        simp

theorem mergeCmp_steps_array (arr : List Int) (mid right : Nat) (yc : Bool) :
    ∀ (fuel i j : Nat) (st : Stats) (merged : List Int) (s : Step),
      s ∈ (mergeCmp arr mid right yc fuel i j st merged).1 → s.array = arr := by
  intro fuel
  induction fuel with
  | zero => intro i j st merged s hs; simp [mergeCmp] at hs
  | succ fuel ih =>
    intro i j st merged s hs
    simp only [mergeCmp] at hs
    by_cases hij : i ≤ mid ∧ j ≤ right
    · rw [if_pos hij] at hs
      by_cases hle : arr.getD i 0 ≤ arr.getD j 0
      · rw [if_pos hle] at hs
        dsimp only at hs
        rcases List.mem_append.mp hs with h1 | h1
        · rw [mem_emitIf h1]; rfl
        · exact ih (i + 1) j _ _ s h1
      · rw [if_neg hle] at hs
        dsimp only at hs
        rcases List.mem_append.mp hs with h1 | h1
        · rw [mem_emitIf h1]; rfl
        · exact ih i (j + 1) _ _ s h1
    · rw [if_neg hij] at hs
      simp at hs

theorem mergeCmp_ne_nil (arr : List Int) (mid right : Nat) (fuel i j : Nat)
    (st : Stats) (merged : List Int) (hf : 0 < fuel) (hi : i ≤ mid) (hj : j ≤ right) :
    (mergeCmp arr mid right true fuel i j st merged).1 ≠ [] := by
  cases fuel with
  | zero => omega
  | succ fuel =>
    simp only [mergeCmp]
    rw [if_pos ⟨hi, hj⟩]
    by_cases hle : arr.getD i 0 ≤ arr.getD j 0
    · rw [if_pos hle]
      dsimp only
      simp [emitIf]
    · rw [if_neg hle]
      dsimp only
      simp [emitIf]

theorem setFold_spec (left : Nat) (merged : List Int) :
    ∀ (cnt a : Nat) (arr : List Int),
      ((List.range' a cnt).foldl (fun ac k => ac.set k (merged.getD (k - left) 0)) arr).length
        = arr.length ∧
      (∀ k, k < a ∨ a + cnt ≤ k →
        ((List.range' a cnt).foldl
            (fun ac k => ac.set k (merged.getD (k - left) 0)) arr).getD k 0
          = arr.getD k 0) ∧
      (∀ k, a ≤ k → k < a + cnt → k < arr.length →
        ((List.range' a cnt).foldl
            (fun ac k => ac.set k (merged.getD (k - left) 0)) arr).getD k 0
          = merged.getD (k - left) 0) := by
  intro cnt
  induction cnt with
  | zero =>
    intro a arr
    exact ⟨rfl, fun k hk => rfl, fun k h1 h2 h3 => absurd h2 (by omega)⟩
  | succ cnt ih =>
    intro a arr
    rw [List.range'_succ a cnt 1, List.foldl_cons]
    obtain ⟨I1, I2, I3⟩ := ih (a + 1) (arr.set a (merged.getD (a - left) 0))
    refine ⟨?_, ?_, ?_⟩
    · rw [I1, List.length_set]
    · intro k hk
      rw [I2 k (by omega), getD_set_other arr a k _ (by omega)]
    · intro k h1 h2 h3
      rcases Nat.eq_or_lt_of_le h1 with he | hlt
      · rw [← he]
        rw [I2 a (by omega), getD_set_self arr a _ (by omega)]
      · rw [I3 k (by omega) (by omega) (by rw [List.length_set]; exact h3)]

theorem writeBack_spec (arr merged : List Int) (left right : Nat) :
    (writeBack arr merged left right).length = arr.length ∧
    (∀ k, k < left ∨ right + 1 ≤ k →
      (writeBack arr merged left right).getD k 0 = arr.getD k 0) ∧
    (∀ k, left ≤ k → k ≤ right → k < arr.length →
      (writeBack arr merged left right).getD k 0 = merged.getD (k - left) 0) := by
  obtain ⟨I1, I2, I3⟩ := setFold_spec left merged (right + 1 - left) left arr
  refine ⟨?_, ?_, ?_⟩ <;> simp only [writeBack]
  · exact I1
  · intro k hk
    exact I2 k (by omega)
  · intro k h1 h2 h3
    exact I3 k h1 (by omega) h3

theorem changed_nil_eq (arr M : List Int) (left right : Nat) (hlr : left ≤ right)
    (hr : right < arr.length)
    (hch : changedIndexes arr (writeBack arr M left right) left right = []) :
    writeBack arr M left right = arr := by
  obtain ⟨W1, W2, W3⟩ := writeBack_spec arr M left right
  have hpt : ∀ k, left ≤ k → k ≤ right →
      (writeBack arr M left right).getD k 0 = arr.getD k 0 := by
    intro k h1 h2
    have hmem : k ∈ List.range' left (right + 1 - left) :=
      List.mem_range'_1.mpr ⟨h1, by omega⟩
    have := List.filter_eq_nil_iff.mp hch k hmem
    simpa using this
  apply list_ext_getD W1
  intro k hk
  rw [W1] at hk
  rcases Nat.lt_or_ge k left with h1 | h1
  · exact W2 k (Or.inl h1)
  · rcases le_or_lt k right with h2 | h2
    · exact hpt k h1 h2
    · exact W2 k (Or.inr (by omega))

theorem merge_arr (arr : List Int) (left mid right : Nat) (yc : Bool) (st : Stats) :
    (merge arr left mid right yc st).2.1 = writeBack arr
      ((mergeCmp arr mid right yc (mid + right + 2) left (mid + 1) st []).2.2.2.2
        ++ seg arr (mergeCmp arr mid right yc (mid + right + 2) left (mid + 1) st []).2.1
            (mid + 1)
        ++ seg arr
            (mergeCmp arr mid right yc (mid + right + 2) left (mid + 1) st []).2.2.1
            (right + 1))
      left right := by
  simp only [merge, seg]
  split
  · rfl
  · rfl

theorem merge_spec (arr : List Int) (left mid right : Nat) (yc : Bool) (st : Stats)
    (hlm : left ≤ mid) (hmr : mid < right) (hr : right < arr.length)
    (hs1 : (seg arr left (mid + 1)).Sorted (· ≤ ·))
    (hs2 : (seg arr (mid + 1) (right + 1)).Sorted (· ≤ ·)) :
    (merge arr left mid right yc st).2.1.length = arr.length ∧
    (∀ k, k < left ∨ right < k →
      (merge arr left mid right yc st).2.1.getD k 0 = arr.getD k 0) ∧
    (merge arr left mid right yc st).2.1.Perm arr ∧
    (∀ a b : Nat, left ≤ a → a < b → b ≤ right →
      (merge arr left mid right yc st).2.1.getD a 0 ≤
        (merge arr left mid right yc st).2.1.getD b 0) := by
  rw [merge_arr]
  have hM := mergeCmp_merged arr mid right yc (by omega) hr (mid + right + 2) left
    (mid + 1) st [] (by omega)
  rw [List.nil_append] at hM
  rw [hM]
  set M := mergeLists (seg arr left (mid + 1)) (seg arr (mid + 1) (right + 1)) with hMdef
  have e1 : mid + 1 - left + (right + 1 - (mid + 1)) = right + 1 - left := by omega
  have e2 : left + (mid + 1 - left) = mid + 1 := by omega
  have hsegsum : seg arr left (mid + 1) ++ seg arr (mid + 1) (right + 1)
      = seg arr left (right + 1) := by
    simp only [seg]
    rw [← e1, List.take_add, List.drop_drop, e2]
  have hMperm : M.Perm (seg arr left (right + 1)) :=
    (mergeLists_perm _ _).trans (by rw [hsegsum])
  have hMsorted : M.Sorted (· ≤ ·) := mergeLists_sorted _ _ hs1 hs2
  have hMlen : M.length = right + 1 - left := by
    rw [hMperm.length_eq, seg_length arr left (right + 1) (by omega)]
  obtain ⟨W1, W2, W3⟩ := writeBack_spec arr M left right
  have htklen : (arr.take left).length = left := by
    simp
    omega
  refine ⟨W1, ?_, ?_, ?_⟩
  · intro k hk
    exact W2 k (by omega)
  · have hdecomp : writeBack arr M left right
        = arr.take left ++ M ++ arr.drop (right + 1) := by
      apply list_ext_getD
      · rw [W1]
        simp [hMlen]
        omega
      · intro k hk
        rw [W1] at hk
        rcases Nat.lt_or_ge k left with h1 | h1
        · rw [W2 k (Or.inl h1), List.getD_append _ _ 0 k (by simp [hMlen]; omega),
            List.getD_append _ _ 0 k (by simp; omega), getD_take arr left k h1 (by omega)]
        · rcases le_or_lt k right with h2 | h2
          · rw [W3 k h1 h2 (by omega),
              List.getD_append _ _ 0 k (by simp [hMlen]; omega),
              List.getD_append_right _ _ 0 k (by rw [htklen]; omega), htklen]
          · rw [W2 k (Or.inr (by omega)),
              List.getD_append_right _ _ 0 k (by simp [hMlen]; omega)]
            rw [show ((arr.take left ++ M).length) = right + 1 from by
              simp [hMlen]; omega]
            rw [getD_drop arr (right + 1) (k - (right + 1)) (by omega),
              show right + 1 + (k - (right + 1)) = k from by omega]
    rw [hdecomp]
    have harr : arr.take left ++ seg arr left (right + 1) ++ arr.drop (right + 1)
        = arr := by
      simp only [seg]
      rw [show arr.drop (right + 1) = (arr.drop left).drop (right + 1 - left) from by
        rw [List.drop_drop]; congr 1; omega]
      rw [List.append_assoc, List.take_append_drop, List.take_append_drop]
    have hfin : (arr.take left ++ seg arr left (right + 1)
        ++ arr.drop (right + 1)).Perm arr := by
      rw [harr]
    exact ((hMperm.append_left (arr.take left)).append_right (arr.drop (right + 1))).trans
      hfin
  · intro a b ha hab hb
    rw [W3 a ha (by omega) (by omega), W3 b (by omega) hb (by omega)]
    exact sorted_getD_mono hMsorted (by omega) (by rw [hMlen]; omega)

theorem merge_lastStep (arr : List Int) (left mid right : Nat) (st : Stats)
    (hlm : left ≤ mid) (hmr : mid < right) (hr : right < arr.length) :
    (merge arr left mid right true st).1 ≠ [] ∧
    (merge arr left mid right true st).1.getLast?.map Step.array
      = some ((merge arr left mid right true st).2.1) := by
  have hcs := mergeCmp_steps_array arr mid right true (mid + right + 2) left (mid + 1)
    st []
  have hne := mergeCmp_ne_nil arr mid right (mid + right + 2) left (mid + 1) st []
    (by omega) hlm (by omega)
  simp only [merge]
  split
  · rename_i hcond
    constructor
    · simp
    · dsimp only
      rw [List.getLast?_concat]
      rfl
  · rename_i hcond
    push_neg at hcond
    have hch := hcond trivial
    dsimp only
    rw [changed_nil_eq arr _ left right (by omega) hr hch]
    refine ⟨hne, ?_⟩
    rw [List.getLast?_eq_getLast _ hne]
    simp only [Option.map_some']
    rw [hcs _ (List.getLast_mem hne)]

theorem mergeSortRec_spec (yc : Bool) :
    ∀ (fuel : Nat) (arr : List Int) (left right : Nat) (st : Stats),
      right < arr.length → right - left < fuel →
      (mergeSortRec yc fuel arr left right st).done = true ∧
      (mergeSortRec yc fuel arr left right st).arr.length = arr.length ∧
      (∀ k, k < left ∨ right < k →
        (mergeSortRec yc fuel arr left right st).arr.getD k 0 = arr.getD k 0) ∧
      (mergeSortRec yc fuel arr left right st).arr.Perm arr ∧
      (∀ a b : Nat, left ≤ a → a < b → b ≤ right →
        (mergeSortRec yc fuel arr left right st).arr.getD a 0 ≤
          (mergeSortRec yc fuel arr left right st).arr.getD b 0) := by
  intro fuel
  induction fuel with
  | zero => intro arr left right st h1 h2; exact absurd h2 (by omega)
  | succ fuel ih =>
    intro arr left right st h1 h2
    simp only [mergeSortRec]
    by_cases hlr : left < right
    · rw [if_pos hlr]
      obtain ⟨A1, A2, A3, A4, A5⟩ := ih arr left ((left + right) / 2) st (by omega)
        (by omega)
      rw [A1, if_pos rfl]
      set r1 := mergeSortRec yc fuel arr left ((left + right) / 2) st with hr1
      obtain ⟨B1, B2, B3, B4, B5⟩ := ih r1.arr ((left + right) / 2 + 1) right r1.stats
        (by rw [A2]; omega) (by omega)
      rw [B1, if_pos rfl]
      set r2 := mergeSortRec yc fuel r1.arr ((left + right) / 2 + 1) right r1.stats
        with hr2
      dsimp only
      have hml : left ≤ (left + right) / 2 := by omega
      have hmr2 : (left + right) / 2 < right := by omega
      have hlen2 : r2.arr.length = arr.length := by rw [B2, A2]
      have hs1 : (seg r2.arr left ((left + right) / 2 + 1)).Sorted (· ≤ ·) := by
        apply seg_sorted_of_pairwise _ _ _ (by omega)
        intro a b ha hab hb
        rw [B3 a (by omega), B3 b (by omega)]
        exact A5 a b ha hab hb
      have hs2 : (seg r2.arr ((left + right) / 2 + 1) (right + 1)).Sorted (· ≤ ·) := by
        apply seg_sorted_of_pairwise _ _ _ (by omega)
        intro a b ha hab hb
        exact B5 a b ha hab hb
      obtain ⟨M1, M2, M3, M4⟩ := merge_spec r2.arr left ((left + right) / 2) right yc
        r2.stats hml hmr2 (by omega) hs1 hs2
      refine ⟨rfl, ?_, ?_, ?_, ?_⟩
      · rw [M1, hlen2]
      · intro k hk
        rw [M2 k (by omega), B3 k (by omega), A3 k (by omega)]
      · exact (M3.trans B4).trans A4
      · exact M4
    · rw [if_neg hlr]
      refine ⟨rfl, rfl, fun k hk => rfl, List.Perm.refl arr, ?_⟩
      intro a b ha hab hb
      omega

theorem mergeSort_one (arr : List Int) (h : arr.length = 1) :
    (mergeSort arr true).steps = [] ∧ (mergeSort arr true).done = true := by
  simp only [mergeSort, h]
  simp only [mergeSortRec]
  rw [if_neg (by decide)]
  exact ⟨rfl, rfl⟩

theorem mergeSort_c1 (N : Nat) (hN : 2 ≤ N) (arr : List Int)
    (hp : arr.Perm (ascSeq N)) : SortsTo (mergeSort arr true) N := by
  have hlen : arr.length = N := by rw [hp.length_eq, ascSeq_length]
  simp only [mergeSort]
  simp only [mergeSortRec]
  rw [if_pos (show 0 < arr.length - 1 from by omega)]
  set md := (0 + (arr.length - 1)) / 2 with hmd
  obtain ⟨A1, A2, A3, A4, A5⟩ := mergeSortRec_spec true arr.length arr 0 md ⟨0, 0⟩
    (by omega) (by omega)
  rw [A1, if_pos rfl]
  set r1 := mergeSortRec true arr.length arr 0 md ⟨0, 0⟩ with hr1
  obtain ⟨B1, B2, B3, B4, B5⟩ := mergeSortRec_spec true arr.length r1.arr (md + 1)
    (arr.length - 1) r1.stats (by rw [A2]; omega) (by omega)
  rw [B1, if_pos rfl]
  set r2 := mergeSortRec true arr.length r1.arr (md + 1) (arr.length - 1) r1.stats
    with hr2
  have hlen2 : r2.arr.length = arr.length := by rw [B2, A2]
  have hs1 : (seg r2.arr 0 (md + 1)).Sorted (· ≤ ·) := by
    apply seg_sorted_of_pairwise _ _ _ (by omega)
    intro a b ha hab hb
    rw [B3 a (by omega), B3 b (by omega)]
    exact A5 a b ha hab hb
  have hs2 : (seg r2.arr (md + 1) (arr.length - 1 + 1)).Sorted (· ≤ ·) := by
    apply seg_sorted_of_pairwise _ _ _ (by omega)
    intro a b ha hab hb
    exact B5 a b ha hab hb
  obtain ⟨M1, M2, M3, M4⟩ := merge_spec r2.arr 0 md (arr.length - 1) true r2.stats
    (by omega) (by omega) (by omega) hs1 hs2
  obtain ⟨Lne, Llast⟩ := merge_lastStep r2.arr 0 md (arr.length - 1) r2.stats
    (by omega) (by omega) (by omega)
  have hfinal : (merge r2.arr 0 md (arr.length - 1) true r2.stats).2.1 = ascSeq N := by
    apply perm_pairwiseLe_eq
    · exact ((M3.trans B4).trans A4).trans (hlen ▸ hp)
    · intro a b hab hb
      have hb2 : b < arr.length := by
        rw [← hlen2, ← M1]
        exact hb
      exact M4 a b (Nat.zero_le a) hab (by omega)
  constructor
  · rfl
  · dsimp only
    cases hgl : (merge r2.arr 0 md (arr.length - 1) true r2.stats).1.getLast? with
    | none =>
      rw [hgl] at Llast
      simp at Llast
    | some s =>
      rw [hgl] at Llast
      simp only [Option.map_some'] at Llast
      rw [List.getLast?_append, hgl]
      simp only [Option.or_some, Option.map_some']
      rw [Option.some.inj Llast, hfinal]

theorem lsdDigit_lt10 (x exp : Int) : lsdDigit x exp < 10 := by
  unfold lsdDigit
  have h1 : (0:Int) ≤ (Int.fdiv x exp).emod 10 := Int.emod_nonneg _ (by norm_num)
  have h2 : (Int.fdiv x exp).emod 10 < 10 := Int.emod_lt_of_pos _ (by norm_num)
  omega

theorem countP_take_succ (l : List Int) (p : Int → Bool) (i : Nat) (h : i < l.length) :
    (l.take (i + 1)).countP p
      = (l.take i).countP p + (if p (l.getD i 0) then 1 else 0) := by
  rw [List.take_succ, List.getElem?_eq_getElem h, List.countP_append]
  simp [List.countP_cons, List.getD_eq_getElem?_getD, List.getElem?_eq_getElem h]

theorem countP_take_le (l : List Int) (p : Int → Bool) {a b : Nat} (h : a ≤ b) :
    (l.take a).countP p ≤ (l.take b).countP p := by
  have he : l.take a = (l.take b).take a := by
    rw [List.take_take]
    congr 1
    omega
  rw [he]
  exact (List.take_sublist a (l.take b)).countP_le p

theorem countP_take_all_le (l : List Int) (p : Int → Bool) (i : Nat) :
    (l.take i).countP p ≤ l.countP p :=
  (List.take_sublist i l).countP_le p

theorem countP_take_lt (l : List Int) (p : Int → Bool) (i : Nat) (h : i < l.length)
    (hp : p (l.getD i 0) = true) : (l.take i).countP p < l.countP p := by
  have h1 := countP_take_succ l p i h
  rw [hp, if_pos rfl] at h1
  have h2 := countP_take_all_le l p (i + 1)
  omega

theorem countP_split_le (l : List Int) (f : Int → Nat) (d : Nat) :
    l.countP (fun x => decide (f x ≤ d))
      = l.countP (fun x => decide (f x < d)) + l.countP (fun x => decide (f x = d)) := by
  induction l with
  | nil => simp
  | cons a t ih =>
    simp only [List.countP_cons, decide_eq_true_eq]
    rw [ih]
    split_ifs <;> omega

theorem lsdPos_lt_of_dig_lt (arr : List Int) (exp : Int) {i j : Nat}
    (hi : i < arr.length) (hj : j < arr.length)
    (h : lsdDigit (arr.getD i 0) exp < lsdDigit (arr.getD j 0) exp) :
    lsdPos arr exp i < lsdPos arr exp j := by
  unfold lsdPos
  have h1 : (arr.take i).countP
        (fun x => decide (lsdDigit x exp = lsdDigit (arr.getD i 0) exp))
      < arr.countP (fun x => decide (lsdDigit x exp = lsdDigit (arr.getD i 0) exp)) :=
    countP_take_lt arr _ i hi (by simp)
  have h2 := countP_split_le arr (fun x => lsdDigit x exp) (lsdDigit (arr.getD i 0) exp)
  have h3 : arr.countP (fun x => decide (lsdDigit x exp ≤ lsdDigit (arr.getD i 0) exp))
      ≤ arr.countP (fun x => decide (lsdDigit x exp < lsdDigit (arr.getD j 0) exp)) :=
    List.countP_mono_left (fun x hx hpx => by
      simp only [decide_eq_true_eq] at hpx ⊢
      omega)
  omega

theorem lsdPos_lt_of_dig_eq (arr : List Int) (exp : Int) {i j : Nat}
    (hij : i < j) (hj : j < arr.length)
    (h : lsdDigit (arr.getD i 0) exp = lsdDigit (arr.getD j 0) exp) :
    lsdPos arr exp i < lsdPos arr exp j := by
  unfold lsdPos
  rw [h]
  have h1 := countP_take_succ arr
    (fun x => decide (lsdDigit x exp = lsdDigit (arr.getD j 0) exp)) i (by omega)
  rw [if_pos (by simp only [decide_eq_true_eq]; exact h)] at h1
  have h2 := countP_take_le arr
    (fun x => decide (lsdDigit x exp = lsdDigit (arr.getD j 0) exp))
    (show i + 1 ≤ j from hij)
  omega

theorem lsdPos_lt (arr : List Int) (exp : Int) {i : Nat} (hi : i < arr.length) :
    lsdPos arr exp i < arr.length := by
  unfold lsdPos
  have h1 : (arr.take i).countP
        (fun x => decide (lsdDigit x exp = lsdDigit (arr.getD i 0) exp))
      < arr.countP (fun x => decide (lsdDigit x exp = lsdDigit (arr.getD i 0) exp)) :=
    countP_take_lt arr _ i hi (by simp)
  have h2 := countP_split_le arr (fun x => lsdDigit x exp) (lsdDigit (arr.getD i 0) exp)
  have h3 := List.countP_le_length
    (fun x => decide (lsdDigit x exp ≤ lsdDigit (arr.getD i 0) exp)) (l := arr)
  omega

theorem lsdPos_ne (arr : List Int) (exp : Int) {i j : Nat}
    (hi : i < arr.length) (hj : j < arr.length) (hij : i ≠ j) :
    lsdPos arr exp i ≠ lsdPos arr exp j := by
  rcases Nat.lt_trichotomy (lsdDigit (arr.getD i 0) exp)
      (lsdDigit (arr.getD j 0) exp) with h | h | h
  · exact Nat.ne_of_lt (lsdPos_lt_of_dig_lt arr exp hi hj h)
  · rcases Nat.lt_or_ge i j with h2 | h2
    · exact Nat.ne_of_lt (lsdPos_lt_of_dig_eq arr exp h2 hj h)
    · have h3 : j < i := by omega
      exact (Nat.ne_of_lt (lsdPos_lt_of_dig_eq arr exp h3 hi h.symm)).symm
  · exact (Nat.ne_of_lt (lsdPos_lt_of_dig_lt arr exp hj hi h)).symm

theorem list_eq_map_getD_range (l : List Int) :
    l = (List.range l.length).map (fun k => l.getD k 0) := by
  apply List.ext_getElem (by simp)
  intro n h1 h2
  simp only [List.getElem_map, List.getElem_range]
  rw [List.getD_eq_getElem l 0 h1]

theorem map_range_perm (f : Nat → Nat) (n : Nat)
    (hf : ∀ i, i < n → f i < n)
    (hinj : ∀ i j, i < n → j < n → f i = f j → i = j) :
    ((List.range n).map f).Perm (List.range n) := by
  have hnd : ((List.range n).map f).Nodup :=
    (List.nodup_range n).map_on (fun x hx y hy hxy =>
      hinj x y (List.mem_range.mp hx) (List.mem_range.mp hy) hxy)
  have hsub : (List.range n).map f ⊆ List.range n := by
    intro x hx
    rcases List.mem_map.mp hx with ⟨i, hi, rfl⟩
    exact List.mem_range.mpr (hf i (List.mem_range.mp hi))
  exact (hnd.subperm hsub).perm_of_length_le (by simp)

theorem exists_preimage_of_inj (f : Nat → Nat) (n : Nat)
    (hf : ∀ i, i < n → f i < n)
    (hinj : ∀ i j, i < n → j < n → f i = f j → i = j) :
    ∀ q, q < n → ∃ i, i < n ∧ f i = q := by
  intro q hq
  have hmem : q ∈ (List.range n).map f :=
    (map_range_perm f n hf hinj).mem_iff.mpr (List.mem_range.mpr hq)
  rcases List.mem_map.mp hmem with ⟨i, hi, hfi⟩
  exact ⟨i, List.mem_range.mp hi, hfi⟩

theorem perm_of_getD_bijection (A B : List Int) (f : Nat → Nat)
    (hlen : B.length = A.length)
    (hf : ∀ i, i < A.length → f i < A.length)
    (hinj : ∀ i j, i < A.length → j < A.length → f i = f j → i = j)
    (hval : ∀ i, i < A.length → B.getD (f i) 0 = A.getD i 0) :
    B.Perm A := by
  have hB : B = (List.range A.length).map (fun k => B.getD k 0) := by
    have hx := list_eq_map_getD_range B
    rw [hlen] at hx
    exact hx
  have hA : A = (List.range A.length).map (fun k => A.getD k 0) :=
    list_eq_map_getD_range A
  have hperm := (map_range_perm f A.length hf hinj).symm.map (fun k => B.getD k 0)
  rw [List.map_map] at hperm
  have heq : (List.range A.length).map ((fun k => B.getD k 0) ∘ f)
      = (List.range A.length).map (fun k => A.getD k 0) := by
    apply List.map_congr_left
    intro i hi
    simp only [Function.comp]
    exact hval i (List.mem_range.mp hi)
  rw [heq] at hperm
  exact ((List.Perm.of_eq hB).trans hperm).trans (List.Perm.of_eq hA.symm)

theorem getD_set_self_nat (l : List Nat) (i : Nat) (v : Nat) (h : i < l.length) :
    (l.set i v).getD i 0 = v := by
  simp [List.getD_eq_getElem?_getD, List.getElem?_set_self', h]

theorem getD_set_other_nat (l : List Nat) (i j : Nat) (v : Nat) (h : i ≠ j) :
    (l.set i v).getD j 0 = l.getD j 0 := by
  simp [List.getD_eq_getElem?_getD, List.getElem?_set_ne h]

theorem getD_replicate_zero (n d : Nat) : (List.replicate n (0 : Nat)).getD d 0 = 0 := by
  rcases Nat.lt_or_ge d n with h | h
  · simp [List.getD_eq_getElem?_getD, List.getElem?_replicate, h]
  · simp [List.getD_eq_getElem?_getD, List.getElem?_replicate, Nat.not_lt.mpr h]

theorem lsdClassify_count (arr : List Int) (exp : Int) (st : Stats) :
    ∀ (c i : Nat) (count : List Nat), i + c ≤ arr.length → count.length = 10 →
      (lsdClassify arr exp st c i count).2.length = 10 ∧
      ∀ d : Nat, (lsdClassify arr exp st c i count).2.getD d 0
        = count.getD d 0 + (seg arr i (i + c)).countP
            (fun x => decide (lsdDigit x exp = d)) := by
  intro c
  induction c with
  | zero =>
    intro i count h1 h2
    refine ⟨h2, ?_⟩
    intro d
    simp [lsdClassify, seg]
  | succ c ih =>
    intro i count h1 h2
    simp only [lsdClassify]
    have hseg : seg arr i (i + (c + 1))
        = arr.getD i 0 :: seg arr (i + 1) (i + 1 + c) := seg_cons arr i c (by omega)
    obtain ⟨I1, I2⟩ := ih (i + 1)
      (count.set (lsdDigit (arr.getD i 0) exp)
        (count.getD (lsdDigit (arr.getD i 0) exp) 0 + 1))
      (by omega) (by rw [List.length_set]; exact h2)
    refine ⟨I1, ?_⟩
    intro d
    rw [I2 d, hseg, List.countP_cons]
    by_cases hd : lsdDigit (arr.getD i 0) exp = d
    · subst hd
      rw [getD_set_self_nat count _ _ (by rw [h2]; exact lsdDigit_lt10 _ _),
        if_pos (by simp)]
      omega
    · rw [getD_set_other_nat count _ d _ hd,
        if_neg (by simp only [decide_eq_true_eq]; exact hd)]
      omega

theorem lsdCumulate_spec (arr : List Int) (exp : Int) (st : Stats) :
    ∀ (c i : Nat) (count : List Nat), 1 ≤ i → i + c ≤ 10 → count.length = 10 →
      (∀ d, d < i → count.getD d 0
        = arr.countP (fun x => decide (lsdDigit x exp ≤ d))) →
      (∀ d, i ≤ d → d < 10 → count.getD d 0
        = arr.countP (fun x => decide (lsdDigit x exp = d))) →
      (lsdCumulate arr st c i count).2.length = 10 ∧
      (∀ d, d < i + c → (lsdCumulate arr st c i count).2.getD d 0
        = arr.countP (fun x => decide (lsdDigit x exp ≤ d))) ∧
      (∀ d, i + c ≤ d → d < 10 → (lsdCumulate arr st c i count).2.getD d 0
        = arr.countP (fun x => decide (lsdDigit x exp = d))) := by
  intro c
  induction c with
  | zero =>
    intro i count h1 h2 h3 hcum hex
    exact ⟨h3, fun d hd => hcum d (by omega), fun d hd1 hd2 => hex d (by omega) hd2⟩
  | succ c ih =>
    intro i count h1 h2 h3 hcum hex
    simp only [lsdCumulate]
    have hkey : count.getD i 0 + count.getD (i - 1) 0
        = arr.countP (fun x => decide (lsdDigit x exp ≤ i)) := by
      rw [hex i le_rfl (by omega), hcum (i - 1) (by omega)]
      rw [countP_split_le arr (fun x => lsdDigit x exp) i]
      have hcongr : arr.countP (fun x => decide (lsdDigit x exp ≤ i - 1))
          = arr.countP (fun x => decide (lsdDigit x exp < i)) := by
        apply List.countP_congr
        intro x hx
        simp only [decide_eq_true_eq]
        omega
      rw [hcongr]
      omega
    obtain ⟨I1, I2, I3⟩ := ih (i + 1)
      (count.set i (count.getD i 0 + count.getD (i - 1) 0))
      (by omega) (by omega) (by rw [List.length_set]; exact h3)
      (by
        intro d hd
        rcases Nat.lt_or_ge d i with hdi | hdi
        · rw [getD_set_other_nat count i d _ (by omega)]
          exact hcum d hdi
        · have hde : d = i := by omega
          subst hde
          rw [getD_set_self_nat count _ _ (by omega)]
          exact hkey)
      (by
        intro d hd1 hd2
        rw [getD_set_other_nat count i d _ (by omega)]
        exact hex d (by omega) hd2)
    exact ⟨I1, fun d hd => I2 d (by omega), fun d hd1 hd2 => I3 d (by omega) hd2⟩

theorem lsdPlace_idx (arr : List Int) (exp : Int) (i : Nat) (count : List Nat)
    (hi : i < arr.length)
    (hcount : ∀ d, d < 10 → count.getD d 0
      = arr.countP (fun x => decide (lsdDigit x exp < d))
        + (arr.take (i + 1)).countP (fun x => decide (lsdDigit x exp = d))) :
    count.getD (lsdDigit (arr.getD i 0) exp) 0 - 1 = lsdPos arr exp i := by
  rw [hcount _ (lsdDigit_lt10 _ _)]
  rw [countP_take_succ arr _ i hi, if_pos (by simp)]
  unfold lsdPos
  omega

theorem lsdPlace_zero (arr : List Int) (exp : Int) (st : Stats) (i : Nat)
    (count : List Nat) (output : List Int) :
    lsdPlace arr exp st 0 i count output = ([], count, output) := rfl

theorem lsdPlace_succ (arr : List Int) (exp : Int) (st : Stats) (c i : Nat)
    (count : List Nat) (output : List Int) :
    lsdPlace arr exp st (c + 1) i count output
      = (mkStep arr [] [i] st ::
          (lsdPlace arr exp st c (i - 1)
            (count.set (lsdDigit (arr.getD i 0) exp)
              (count.getD (lsdDigit (arr.getD i 0) exp) 0 - 1))
            (output.set (count.getD (lsdDigit (arr.getD i 0) exp) 0 - 1)
              (arr.getD i 0))).1,
        (lsdPlace arr exp st c (i - 1)
          (count.set (lsdDigit (arr.getD i 0) exp)
            (count.getD (lsdDigit (arr.getD i 0) exp) 0 - 1))
          (output.set (count.getD (lsdDigit (arr.getD i 0) exp) 0 - 1)
            (arr.getD i 0))).2) := rfl

theorem lsdPlace_spec (arr : List Int) (exp : Int) (st : Stats) :
    ∀ (i : Nat) (count : List Nat) (output : List Int), i < arr.length →
      count.length = 10 →
      (∀ d, d < 10 → count.getD d 0
        = arr.countP (fun x => decide (lsdDigit x exp < d))
          + (arr.take (i + 1)).countP (fun x => decide (lsdDigit x exp = d))) →
      output.length = arr.length →
      (lsdPlace arr exp st (i + 1) i count output).2.2.length = arr.length ∧
      (∀ k, k ≤ i → (lsdPlace arr exp st (i + 1) i count output).2.2.getD
          (lsdPos arr exp k) 0 = arr.getD k 0) ∧
      (∀ q, (∀ k, k ≤ i → q ≠ lsdPos arr exp k) →
        (lsdPlace arr exp st (i + 1) i count output).2.2.getD q 0
          = output.getD q 0) := by
  intro i
  induction i with
  | zero =>
    intro count output hi hclen hcount holen
    simp only [lsdPlace]
    rw [lsdPlace_idx arr exp 0 count hi hcount]
    refine ⟨?_, ?_, ?_⟩
    · rw [List.length_set]
      exact holen
    · intro k hk
      have hk0 : k = 0 := by omega
      subst hk0
      exact getD_set_self output _ _ (by rw [holen]; exact lsdPos_lt arr exp hi)
    · intro q hq
      exact getD_set_other output _ q _ (hq 0 (le_refl 0)).symm
  | succ i ih =>
    intro count output hi hclen hcount holen
    rw [lsdPlace_succ, Nat.add_sub_cancel]
    dsimp only
    rw [lsdPlace_idx arr exp (i + 1) count hi hcount]
    have hdig : ∀ d, d < 10 →
        (count.set (lsdDigit (arr.getD (i + 1) 0) exp) (lsdPos arr exp (i + 1))).getD d 0
          = arr.countP (fun x => decide (lsdDigit x exp < d))
            + (arr.take (i + 1)).countP (fun x => decide (lsdDigit x exp = d)) := by
      intro d hd
      by_cases hde : lsdDigit (arr.getD (i + 1) 0) exp = d
      · rw [← hde, getD_set_self_nat count _ _ (by rw [hclen]; exact lsdDigit_lt10 _ _)]
        unfold lsdPos
        rfl
      · rw [getD_set_other_nat count _ d _ hde, hcount d hd,
          countP_take_succ arr _ (i + 1) hi,
          if_neg (by simp only [decide_eq_true_eq]; exact hde)]
        omega
    obtain ⟨J1, J2, J3⟩ := ih
      (count.set (lsdDigit (arr.getD (i + 1) 0) exp) (lsdPos arr exp (i + 1)))
      (output.set (lsdPos arr exp (i + 1)) (arr.getD (i + 1) 0))
      (by omega) (by rw [List.length_set]; exact hclen) hdig
      (by rw [List.length_set]; exact holen)
    refine ⟨J1, ?_, ?_⟩
    · intro k hk
      rcases Nat.lt_or_ge k (i + 1) with hk1 | hk1
      · exact J2 k (by omega)
      · have hke : k = i + 1 := by omega
        rw [hke]
        rw [J3 (lsdPos arr exp (i + 1)) (fun k2 hk2 =>
          lsdPos_ne arr exp hi (by omega) (by omega))]
        exact getD_set_self output _ _ (by rw [holen]; exact lsdPos_lt arr exp hi)
    · intro q hq
      rw [J3 q (fun k hk => hq k (by omega))]
      exact getD_set_other output _ q _ (hq (i + 1) (le_refl _)).symm

theorem lsdCopy_spec (output : List Int) (yc : Bool) :
    ∀ (c i : Nat) (arrA : List Int) (st : Stats),
      (lsdCopy output yc c i arrA st).2.1.length = arrA.length ∧
      (∀ k, k < i ∨ i + c ≤ k →
        (lsdCopy output yc c i arrA st).2.1.getD k 0 = arrA.getD k 0) ∧
      (∀ k, i ≤ k → k < i + c → k < arrA.length →
        (lsdCopy output yc c i arrA st).2.1.getD k 0 = output.getD k 0) := by
  intro c
  induction c with
  | zero =>
    intro i arrA st
    exact ⟨rfl, fun k hk => rfl, fun k h1 h2 h3 => absurd h2 (by omega)⟩
  | succ c ih =>
    intro i arrA st
    simp only [lsdCopy]
    obtain ⟨I1, I2, I3⟩ := ih (i + 1) (arrA.set i (output.getD i 0))
      ⟨st.comparisons, st.swaps + 1⟩
    refine ⟨?_, ?_, ?_⟩
    · rw [I1, List.length_set]
    · intro k hk
      rw [I2 k (by omega), getD_set_other arrA i k _ (by omega)]
    · intro k h1 h2 h3
      rcases Nat.eq_or_lt_of_le h1 with he | hlt
      · rw [← he, I2 i (by omega), getD_set_self arrA i _ (by omega)]
      · rw [I3 k (by omega) (by omega) (by rw [List.length_set]; exact h3)]

theorem lsdPass_spec (yc : Bool) (exp : Int) (arr : List Int) (st : Stats)
    (hn : 1 ≤ arr.length) :
    (lsdPass yc exp arr st).2.1.length = arr.length ∧
    (∀ i, i < arr.length →
      (lsdPass yc exp arr st).2.1.getD (lsdPos arr exp i) 0 = arr.getD i 0) := by
  obtain ⟨C1, C2⟩ := lsdClassify_count arr exp st arr.length 0 (List.replicate 10 0)
    (by omega) (by simp)
  have hcl : ∀ d : Nat,
      (lsdClassify arr exp st arr.length 0 (List.replicate 10 0)).2.getD d 0
        = arr.countP (fun x => decide (lsdDigit x exp = d)) := by
    intro d
    rw [C2 d]
    have hseg : seg arr 0 (0 + arr.length) = arr := by
      simp [seg]
    rw [hseg, getD_replicate_zero]
    omega
  obtain ⟨U1, U2, U3⟩ := lsdCumulate_spec arr exp st 9 1
    (lsdClassify arr exp st arr.length 0 (List.replicate 10 0)).2
    (by omega) (by omega) C1
    (by
      intro d hd
      have hd0 : d = 0 := by omega
      subst hd0
      rw [hcl 0]
      apply List.countP_congr
      intro x hx
      simp only [decide_eq_true_eq]
      omega)
    (fun d hd1 hd2 => hcl d)
  have hplace : ∀ d, d < 10 →
      (lsdCumulate arr st 9 1
          (lsdClassify arr exp st arr.length 0 (List.replicate 10 0)).2).2.getD d 0
        = arr.countP (fun x => decide (lsdDigit x exp < d))
          + (arr.take (arr.length - 1 + 1)).countP
              (fun x => decide (lsdDigit x exp = d)) := by
    intro d hd
    rw [U2 d (by omega)]
    rw [countP_split_le arr (fun x => lsdDigit x exp) d]
    rw [show arr.length - 1 + 1 = arr.length from by omega, List.take_length]
  obtain ⟨P1, P2, P3⟩ := lsdPlace_spec arr exp st (arr.length - 1)
    (lsdCumulate arr st 9 1
      (lsdClassify arr exp st arr.length 0 (List.replicate 10 0)).2).2
    (List.replicate arr.length 0) (by omega) U1 hplace (by simp)
  rw [show arr.length - 1 + 1 = arr.length from by omega] at P1 P2 P3
  obtain ⟨K1, K2, K3⟩ := lsdCopy_spec
    (lsdPlace arr exp st arr.length (arr.length - 1)
      (lsdCumulate arr st 9 1
        (lsdClassify arr exp st arr.length 0 (List.replicate 10 0)).2).2
      (List.replicate arr.length 0)).2.2
    yc arr.length 0 arr st
  constructor
  · exact K1
  · intro i hi
    have hpos : lsdPos arr exp i < arr.length := lsdPos_lt arr exp hi
    rw [show (lsdPass yc exp arr st).2.1
        = (lsdCopy
            (lsdPlace arr exp st arr.length (arr.length - 1)
              (lsdCumulate arr st 9 1
                (lsdClassify arr exp st arr.length 0 (List.replicate 10 0)).2).2
              (List.replicate arr.length 0)).2.2
            yc arr.length 0 arr st).2.1 from rfl]
    rw [K3 (lsdPos arr exp i) (by omega) (by omega) (by omega)]
    exact P2 i (by omega)

theorem emod_mul_ten (x exp : Int) (hx : 0 ≤ x) (he : 0 < exp) :
    x % (exp * 10) = (lsdDigit x exp : Int) * exp + x % exp := by
  have hdig : (lsdDigit x exp : Int) = (x / exp) % 10 := by
    unfold lsdDigit
    rw [Int.fdiv_eq_ediv x he.le]
    exact Int.toNat_of_nonneg (Int.emod_nonneg _ (by norm_num))
  have h1 : x % exp + exp * (x / exp) = x := Int.emod_add_ediv x exp
  have h2 : (x / exp) % 10 + 10 * (x / exp / 10) = x / exp := Int.emod_add_ediv (x / exp) 10
  have hsplit : x = (x % exp + ((x / exp) % 10) * exp) + (exp * 10) * (x / exp / 10) := by
    calc x = x % exp + exp * (x / exp) := h1.symm
      _ = x % exp + exp * ((x / exp) % 10 + 10 * (x / exp / 10)) := by rw [h2]
      _ = (x % exp + ((x / exp) % 10) * exp) + (exp * 10) * (x / exp / 10) := by ring
  have hm0 : (0:Int) ≤ x % exp := Int.emod_nonneg x (by omega)
  have hm1 : x % exp < exp := Int.emod_lt_of_pos x he
  have hd0 : (0:Int) ≤ (x / exp) % 10 := Int.emod_nonneg _ (by norm_num)
  have hd1 : (x / exp) % 10 < 10 := Int.emod_lt_of_pos _ (by norm_num)
  have hA1 : ((x / exp) % 10) * exp ≤ 9 * exp :=
    mul_le_mul_of_nonneg_right (by omega) he.le
  have hA0 : (0:Int) ≤ ((x / exp) % 10) * exp := mul_nonneg hd0 he.le
  have hfin : x % (exp * 10) = x % exp + ((x / exp) % 10) * exp := by
    conv_lhs => rw [hsplit]
    rw [Int.add_mul_emod_self_left]
    exact Int.emod_eq_of_lt (add_nonneg hm0 hA0) (by linarith)
  rw [hfin, hdig]
  ring

theorem lsd_mod_lt_of_dig_lt (x y exp : Int) (hx : 0 ≤ x) (hy : 0 ≤ y) (he : 0 < exp)
    (h : lsdDigit x exp < lsdDigit y exp) : x % (exp * 10) < y % (exp * 10) := by
  rw [emod_mul_ten x exp hx he, emod_mul_ten y exp hy he]
  have hc : ((lsdDigit x exp : Int) + 1) * exp ≤ (lsdDigit y exp : Int) * exp :=
    mul_le_mul_of_nonneg_right (by exact_mod_cast h) he.le
  have hm1 : x % exp < exp := Int.emod_lt_of_pos x he
  have hm0 : (0:Int) ≤ y % exp := Int.emod_nonneg y (by omega)
  nlinarith

theorem lsd_mod_le_of_dig_eq (x y exp : Int) (hx : 0 ≤ x) (hy : 0 ≤ y) (he : 0 < exp)
    (h : lsdDigit x exp = lsdDigit y exp) (hle : x % exp ≤ y % exp) :
    x % (exp * 10) ≤ y % (exp * 10) := by
  rw [emod_mul_ten x exp hx he, emod_mul_ten y exp hy he, h]
  linarith

theorem lsd_exit_sorted (N : Nat) (exp : Int) (arr : List Int)
    (hperm : arr.Perm (ascSeq N)) (hexp : (N : Int) ≤ exp)
    (hsorted : ∀ a b : Nat, a < b → b < arr.length →
      arr.getD a 0 % exp ≤ arr.getD b 0 % exp) : PairwiseLe arr := by
  intro a b hab hb
  have hva := perm_val_bounds hperm (show a < arr.length by omega)
  have hvb := perm_val_bounds hperm hb
  have hea : arr.getD a 0 % exp = arr.getD a 0 :=
    Int.emod_eq_of_lt hva.1 (by omega)
  have heb : arr.getD b 0 % exp = arr.getD b 0 :=
    Int.emod_eq_of_lt hvb.1 (by omega)
  have hres := hsorted a b hab hb
  rw [hea, heb] at hres
  exact hres

theorem lsd_cond_exit (m exp : Int) (hm : 0 ≤ m) (he : 0 < exp)
    (h : ¬ 0 < Int.fdiv m exp) : m < exp := by
  rw [Int.fdiv_eq_ediv m he.le] at h
  by_contra hcon
  push_neg at hcon
  have h1 : exp / exp ≤ m / exp := Int.ediv_le_ediv he hcon
  rw [Int.ediv_self (by omega)] at h1
  omega

theorem lsdPass_invariants (yc : Bool) (exp : Int) (arr : List Int) (st : Stats)
    (N : Nat) (hn : arr.length = N) (hN : 1 ≤ N) (he : 0 < exp)
    (hperm : arr.Perm (ascSeq N))
    (hsorted : ∀ a b : Nat, a < b → b < arr.length →
      arr.getD a 0 % exp ≤ arr.getD b 0 % exp) :
    (lsdPass yc exp arr st).2.1.length = N ∧
    (lsdPass yc exp arr st).2.1.Perm (ascSeq N) ∧
    (∀ a b : Nat, a < b → b < (lsdPass yc exp arr st).2.1.length →
      (lsdPass yc exp arr st).2.1.getD a 0 % (exp * 10)
        ≤ (lsdPass yc exp arr st).2.1.getD b 0 % (exp * 10)) := by
  obtain ⟨W1, W2⟩ := lsdPass_spec yc exp arr st (by omega)
  have hinj : ∀ i j, i < arr.length → j < arr.length →
      lsdPos arr exp i = lsdPos arr exp j → i = j := by
    intro i j hi hj hij
    by_contra hcon
    exact lsdPos_ne arr exp hi hj hcon hij
  have hposlt : ∀ i, i < arr.length → lsdPos arr exp i < arr.length :=
    fun i hi => lsdPos_lt arr exp hi
  have hpermP : (lsdPass yc exp arr st).2.1.Perm arr :=
    perm_of_getD_bijection arr (lsdPass yc exp arr st).2.1 (lsdPos arr exp)
      (by rw [W1]) hposlt hinj W2
  refine ⟨by rw [W1, hn], hpermP.trans hperm, ?_⟩
  intro a b hab hb
  rw [W1] at hb
  obtain ⟨i, hi, hia⟩ := exists_preimage_of_inj (lsdPos arr exp) arr.length
    hposlt hinj a (by omega)
  obtain ⟨j, hj, hjb⟩ := exists_preimage_of_inj (lsdPos arr exp) arr.length
    hposlt hinj b hb
  rw [← hia, ← hjb, W2 i hi, W2 j hj]
  have hvi := perm_val_bounds hperm hi
  have hvj := perm_val_bounds hperm hj
  rcases Nat.lt_trichotomy (lsdDigit (arr.getD i 0) exp)
      (lsdDigit (arr.getD j 0) exp) with hd | hd | hd
  · exact le_of_lt (lsd_mod_lt_of_dig_lt _ _ exp hvi.1 hvj.1 he hd)
  · rcases Nat.lt_trichotomy i j with hij | hij | hij
    · exact lsd_mod_le_of_dig_eq _ _ exp hvi.1 hvj.1 he hd
        (hsorted i j hij hj)
    · rw [hij]
    · exfalso
      have := lsdPos_lt_of_dig_eq arr exp hij hi hd.symm
      omega
  · exfalso
    have := lsdPos_lt_of_dig_lt arr exp hj hi hd
    omega

theorem lsdLoop_spec (yc : Bool) (N : Nat) (hN : 1 ≤ N) :
    ∀ (fuel : Nat) (exp : Int) (arr : List Int) (st : Stats),
      0 < exp → ((N : Int) - 1) < exp * 10 ^ fuel →
      arr.length = N → arr.Perm (ascSeq N) →
      (∀ a b : Nat, a < b → b < arr.length →
        arr.getD a 0 % exp ≤ arr.getD b 0 % exp) →
      (lsdLoop yc ((N : Int) - 1) fuel exp arr st).2.2.2 = true ∧
      (lsdLoop yc ((N : Int) - 1) fuel exp arr st).2.1.length = N ∧
      (lsdLoop yc ((N : Int) - 1) fuel exp arr st).2.1.Perm (ascSeq N) ∧
      PairwiseLe (lsdLoop yc ((N : Int) - 1) fuel exp arr st).2.1 := by
  intro fuel
  induction fuel with
  | zero =>
    intro exp arr st he hb hlen hperm hsorted
    have hfd : Int.fdiv ((N : Int) - 1) exp = 0 := by
      rw [Int.fdiv_eq_ediv _ he.le]
      exact Int.ediv_eq_zero_of_lt (by omega) (by simpa using hb)
    simp only [lsdLoop, hfd]
    refine ⟨by decide, hlen, hperm, ?_⟩
    exact lsd_exit_sorted N exp arr hperm (by simp at hb; omega) hsorted
  | succ fuel ih =>
    intro exp arr st he hb hlen hperm hsorted
    simp only [lsdLoop]
    by_cases hc : 0 < Int.fdiv ((N : Int) - 1) exp
    · rw [if_pos hc]
      obtain ⟨W1, W2, W3⟩ := lsdPass_invariants yc exp arr st N hlen hN he hperm hsorted
      obtain ⟨L1, L2, L3, L4⟩ := ih (exp * 10) (lsdPass yc exp arr st).2.1
        (lsdPass yc exp arr st).2.2 (by positivity)
        (by
          have hpow : exp * 10 ^ (fuel + 1) = (exp * 10) * 10 ^ fuel := by
            rw [pow_succ]
            ring
          rw [← hpow]
          exact hb)
        W1 W2 (by
          intro a b hab hbb
          exact W3 a b hab hbb)
      exact ⟨L1, L2, L3, L4⟩
    · rw [if_neg hc]
      have hexp : (N : Int) - 1 < exp := lsd_cond_exit _ exp (by omega) he hc
      exact ⟨rfl, hlen, hperm,
        lsd_exit_sorted N exp arr hperm (by omega) hsorted⟩

theorem lsdMax (N : Nat) (hN : 1 ≤ N) (arr : List Int) (hp : arr.Perm (ascSeq N)) :
    arr.max? = some ((N : Int) - 1) := by
  have hanti : Std.Antisymm (fun (x1 x2 : Int) => x1 ≤ x2) :=
    ⟨fun h1 h2 => le_antisymm h1 h2⟩
  rw [List.max?_eq_some_iff (fun a => le_refl a) (fun a b => max_choice a b)
    (fun a b c => max_le_iff)]
  constructor
  · rw [hp.mem_iff, ascSeq_mem]
    exact ⟨N - 1, by omega, by omega⟩
  · intro x hx
    rw [hp.mem_iff, ascSeq_mem] at hx
    obtain ⟨k, hk, rfl⟩ := hx
    omega

theorem lsdRadixSort_c1 (N : Nat) (hN : 1 ≤ N) (arr : List Int)
    (hp : arr.Perm (ascSeq N)) : SortsTo (lsdRadixSort arr true) N := by
  have hlen : arr.length = N := by rw [hp.length_eq, ascSeq_length]
  have hmax := lsdMax N hN arr hp
  have hbound : (N : Int) - 1 < 1 * 10 ^ (((N : Int) - 1).toNat + 1) := by
    have hk : ((N : Int) - 1).toNat < 10 ^ (((N : Int) - 1).toNat + 1) :=
      lt_of_lt_of_le (Nat.lt_pow_self (by norm_num) _)
        (Nat.pow_le_pow_right (by norm_num) (by omega))
    have h2 : (N : Int) - 1 = (((N : Int) - 1).toNat : Int) :=
      (Int.toNat_of_nonneg (by omega)).symm
    rw [one_mul, h2]
    exact_mod_cast hk
  obtain ⟨L1, L2, L3, L4⟩ := lsdLoop_spec true N hN (((N : Int) - 1).toNat + 1) 1 arr
    ⟨0, 0⟩ (by norm_num) hbound hlen hp
    (by
      intro a b hab hb
      simp [Int.emod_one])
  have harr : (lsdLoop true ((N : Int) - 1) (((N : Int) - 1).toNat + 1) 1 arr
      ⟨0, 0⟩).2.1 = ascSeq N := perm_pairwiseLe_eq L3 L4
  simp only [lsdRadixSort, hmax]
  constructor
  · exact L1
  · rw [L1, if_pos rfl, emitIf_true, List.getLast?_concat]
    simp only [Option.map_some', mkStep]
    rw [harr]

/-- C1 counterexample: on the permutation `[1, 2, 0]` of `0..2`,
`bitonicSort` (which only sorts power-of-two lengths) terminates with the
array unchanged and its final yielded step shows `[1, 2, 0]`, not
`[0, 1, 2]`; on the one-element permutation `[0]`, `mergeSort` yields no
steps at all and `gnomeSort` never completes (its run comes back not
done). -/
theorem claim_c1_counterexample :
    ([1, 2, 0] : List Int).Perm (ascSeq 3) ∧
    (bitonicSort [1, 2, 0] true true).done = true ∧
    (bitonicSort [1, 2, 0] true true).steps.getLast?.map Step.array = some [1, 2, 0] ∧
    ¬ SortsTo (bitonicSort [1, 2, 0] true true) 3 ∧
    (mergeSort [0] true).steps = [] ∧
    (gnomeSort [0] true).done = false ∧
    ([0] : List Int).Perm (ascSeq 1) :=
  ⟨by decide, by decide, by decide, fun h => absurd h.2 (by decide), by decide,
    by decide, by decide⟩

/-- C1 (amended): for every `N ≥ 1` and every input permutation of
`0..N-1`, run with `yieldCompare = true`: the twelve drivers
`selectionSort`, `insertionSort`, `binaryInsertionSort`, `quickSort`,
`bubbleSort`, `cocktailShakerSort`, `combSort`, `shellSort`, `heapSort`,
`oddEvenSort`, `cycleSort` and `lsdRadixSort` terminate with the `array`
of their final yielded step equal to `0..N-1`; `mergeSort` does so for
`N ≥ 2` but on a one-element array terminates yielding no step at all;
`gnomeSort` does so for `N ≥ 2` but on a one-element array never
terminates (its loop reads `arr[-1]`, `undefined >= x` is false, and the
index falls back to `0` forever); `bitonicSort` is excluded: it does not
sort non-power-of-two lengths (see the counterexample). -/
theorem claim_c1 :
    ∀ (N : Nat), 1 ≤ N → ∀ arr : List Int, arr.Perm (ascSeq N) →
      SortsTo (selectionSort arr true) N ∧
      SortsTo (insertionSort arr true) N ∧
      SortsTo (binaryInsertionSort arr true) N ∧
      SortsTo (quickSort arr true) N ∧
      SortsTo (bubbleSort arr true) N ∧
      SortsTo (cocktailShakerSort arr true) N ∧
      SortsTo (combSort arr true) N ∧
      SortsTo (shellSort arr true) N ∧
      SortsTo (heapSort arr true) N ∧
      SortsTo (oddEvenSort arr true) N ∧
      SortsTo (cycleSort arr true) N ∧
      SortsTo (lsdRadixSort arr true) N ∧
      (2 ≤ N → SortsTo (mergeSort arr true) N) ∧
      (N = 1 → (mergeSort arr true).steps = [] ∧ (mergeSort arr true).done = true) ∧
      (2 ≤ N → SortsTo (gnomeSort arr true) N) ∧
      (N = 1 → ∀ (fuel : Nat) (st : Stats),
        (gnomeLoop true fuel 0 (arr.map some) st).2.2.2 = false) := by
  intro N hN arr hp
  refine ⟨selectionSort_c1 N hN arr hp, insertionSort_c1 N hN arr hp,
    binaryInsertionSort_c1 N hN arr hp, quickSort_c1 N hN arr hp,
    bubbleSort_c1 N hN arr hp, cocktailShakerSort_c1 N hN arr hp,
    combSort_c1 N hN arr hp, shellSort_c1 N hN arr hp, heapSort_c1 N hN arr hp,
    oddEvenSort_c1 N hN arr hp, cycleSort_c1 N hN arr hp,
    lsdRadixSort_c1 N hN arr hp, ?_, ?_, ?_, ?_⟩
  · intro h2
    exact mergeSort_c1 N h2 arr hp
  · intro h1
    subst h1
    exact mergeSort_one arr (by rw [hp.length_eq, ascSeq_length])
  · intro h2
    exact gnomeSort_c1 N h2 arr hp
  · intro h1
    subst h1
    have harr : arr = [0] := by
      have h0 : ascSeq 1 = [(0 : Int)] := by decide
      rw [h0] at hp
      exact List.perm_singleton.mp hp
    rw [harr]
    intro fuel st
    exact gnomeOne_diverges fuel st

/-- Witness for C1 at `N = 2` on the permutation `[1, 0]`, exercising a
flag-guarded driver, an unconditional-step driver, and the two
conditional (`N ≥ 2`) clauses. -/
theorem claim_c1_witness :
    SortsTo (selectionSort [1, 0] true) 2 ∧
    SortsTo (bubbleSort [1, 0] true) 2 ∧
    SortsTo (mergeSort [1, 0] true) 2 ∧
    SortsTo (gnomeSort [1, 0] true) 2 := by
  obtain ⟨h1, h2, h3, h4, h5, h6, h7, h8, h9, h10, h11, h12, h13, h14, h15, h16⟩ :=
    claim_c1 2 (by norm_num) [1, 0] (by decide)
  exact ⟨h1, h5, h13 (by norm_num), h15 (by norm_num)⟩
